import Mathlib

/-!
# vigra `acc1` accumulator chains over scalar samples

Shallow embedding of `include/vigra/accumulator.hxx` (namespace `vigra::acc1`).

* A chain is the list of its layers' tags, outermost layer first, innermost
  (the one deriving from `TypedAccumulatorBase`) last: the list computed by
  `PushDependencies`.
* The storage of all layers is one record `State`; a layer that is not part of
  the chain keeps the value its constructor would have given it.
* `double` and the scalar sample type are one ordered field `K` (exact
  arithmetic). `sqrt`, the real-exponent `pow` and the two `NumericTraits`
  limits live in headers outside this file and are parameters (`Env`).
* The part "`double` with its rounding" gives the same calls once more over
  IEEE 754 binary64 values (`Double`, namespace `ieee`), every operation
  rounded to nearest. It serves to evaluate the code on inputs where a sum or
  a quotient is rounded.
* `vigra_precondition(false, ...)` throws: operations that can reach one
  return an `Outcome`, which keeps the state at the moment of the throw.
* Division is the total division of the field. The statements below that speak
  of a quotient carry the hypotheses (non-empty samples, positive Count) under
  which no divisor is zero, or compare one expression on equal arguments.
* `WellFormed` is what the type-level construction guarantees of a chain: no tag
  twice and, with every tag, its dependencies. The order of the layers is that
  of the list; the proofs below do not depend on it, because `Count` and `Sum`
  change their member after the base-class call and the layers that read them
  (`SumSquaredDifferences`, `ScatterMatrix`, the merges) read before it.
-/

namespace acc1

/-- The statistic descriptors (tag structs) of `accumulator.hxx`. -/
inductive Tag where
  | Count
  | Minimum
  | Maximum
  | Sum
  | Mean
  | CentralMoment (N : Nat)
  | Skewness
  | Kurtosis
  | SumSquaredDifferences
  | Variance
  | StdDev
  | UnbiasedVariance
  | UnbiasedStdDev
  | ScatterMatrix
  | Covariance
  | UnbiasedCovariance
  deriving DecidableEq, Repr

open Tag

/-- The `Dependencies` typedef of every descriptor, as a list in declaration order. -/
def Dependencies : Tag → List Tag
  | Count => []
  | Minimum => []
  | Maximum => []
  | Tag.Sum => []
  | Mean => [Tag.Sum, Count]
  | CentralMoment N => if N > 2 then [Mean, Count, CentralMoment (N - 1)] else [Mean, Count]
  | Skewness => [CentralMoment 3]
  | Kurtosis => [CentralMoment 4]
  | SumSquaredDifferences => [Mean, Count]
  | Variance => [SumSquaredDifferences, Count]
  | StdDev => [Variance]
  | UnbiasedVariance => [SumSquaredDifferences, Count]
  | UnbiasedStdDev => [UnbiasedVariance]
  | ScatterMatrix => [Mean, Count]
  | Covariance => [ScatterMatrix, Count]
  | UnbiasedCovariance => [ScatterMatrix, Count]

/-- A chain as the type system of the source admits it: every tag occurs once
(`MergeUnique`), and with a tag all of its `Dependencies` are layers too
(`PushDependencies`). -/
def WellFormed (chain : List Tag) : Prop :=
  chain.Nodup ∧ ∀ t ∈ chain, ∀ d ∈ Dependencies t, d ∈ chain

instance (chain : List Tag) : Decidable (WellFormed chain) := by
  unfold WellFormed; infer_instance

/-- Functions and constants the header takes from `mathutil.hxx`, `<cmath>` and
`NumericTraits`, none of which is part of this file. -/
structure Env (K : Type) where
  /-- `sqrt` on `double` -/
  sqrt : K → K
  /-- `pow(x, y)` with a real exponent `y` -/
  pow : K → K → K
  /-- `NumericTraits<element_type>::max()` -/
  traitsMax : K
  /-- `NumericTraits<element_type>::min()` -/
  traitsMin : K

/-- The data members of all layers, for scalar samples. -/
@[ext]
structure State (K : Type) where
  /-- `Count::Impl::count_` -/
  count_ : K
  /-- `Minimum::Impl::min_` -/
  min_ : K
  /-- `Maximum::Impl::max_` -/
  max_ : K
  /-- `Sum::Impl::sum_` -/
  sum_ : K
  /-- `CentralMoment<N>::Impl::moment_`, one member per `N` -/
  moment_ : Nat → K
  /-- `SumSquaredDifferences::Impl::sumOfSquaredDifferences_` -/
  sumOfSquaredDifferences_ : K
  /-- `ScatterMatrix::Impl::scatter_matrix_` (a `double` for scalar samples) -/
  scatter_matrix_ : K
  /-- `ScatterMatrix::Impl::diff_` -/
  diff_ : K

/-- Result of an operation that may hit `vigra_precondition(false, ...)`. -/
inductive Outcome (K : Type) where
  /-- the call returned; the state after it -/
  | ok (s : State K)
  /-- the call threw; the state at the throw -/
  | fault (s : State K)

/-- Run `f` on the state of a call that returned; a throw propagates. -/
def Outcome.andThen {K : Type} (o : Outcome K) (f : State K → Outcome K) : Outcome K :=
  match o with
  | Outcome.ok s => f s
  | Outcome.fault s => Outcome.fault s

/-- Statements that follow a base-class call: skipped when the call threw. -/
def Outcome.map {K : Type} (o : Outcome K) (f : State K → State K) : Outcome K :=
  match o with
  | Outcome.ok s => Outcome.ok (f s)
  | Outcome.fault s => Outcome.fault s

/-- The state carried by an outcome. -/
def Outcome.state {K : Type} : Outcome K → State K
  | Outcome.ok s => s
  | Outcome.fault s => s

section ops

variable {K : Type} [LinearOrderedField K]

/-- `sq` of `mathutil.hxx`. -/
def sq (x : K) : K := x * x

/-- The constructors of all layers. `diff_` has no initialiser: `diff0` is
whatever value the member happens to hold. -/
def init (e : Env K) (diff0 : K) : State K where
  count_ := 0
  min_ := e.traitsMax
  max_ := e.traitsMin
  sum_ := 0
  moment_ := fun _ => 0
  sumOfSquaredDifferences_ := 0
  scatter_matrix_ := 0
  diff_ := diff0

/-- The call `operator()(t)` on the outermost layer of a static chain. Layers
that only say `using BaseType::operator()` pass the call on. -/
def update : List Tag → State K → K → State K
  | [], s, _ => s
  | Count :: rest, s, t =>
      let s1 := update rest s t
      { s1 with count_ := s1.count_ + 1 }
  | Minimum :: rest, s, t =>
      let s1 := update rest s t
      { s1 with min_ := min s1.min_ t }
  | Maximum :: rest, s, t =>
      let s1 := update rest s t
      { s1 with max_ := max s1.max_ t }
  | Tag.Sum :: rest, s, t =>
      let s1 := update rest s t
      { s1 with sum_ := s1.sum_ + t }
  | SumSquaredDifferences :: rest, s, t =>
      let old_count := s.count_
      let s1 :=
        if old_count ≠ 0 then
          { s with sumOfSquaredDifferences_ :=
              s.sumOfSquaredDifferences_ + old_count / (old_count + 1) * sq (s.sum_ / old_count - t) }
        else s
      update rest s1 t
  | ScatterMatrix :: rest, s, t =>
      let old_count := s.count_
      let s1 :=
        if old_count ≠ 0 then
          let diff := s.sum_ / old_count - t
          let weight := old_count / (old_count + 1) * 1
          { s with diff_ := diff, scatter_matrix_ := s.scatter_matrix_ + weight * diff * diff }
        else s
      update rest s1 t
  | _ :: rest, s, t => update rest s t

/-- The call `operator()(t, weight)` on the outermost layer of a static chain. -/
def updateWeighted : List Tag → State K → K → K → Outcome K
  | [], s, _, _ => Outcome.ok s
  | Count :: rest, s, t, weight =>
      (updateWeighted rest s t weight).map fun s1 => { s1 with count_ := s1.count_ + weight }
  | Minimum :: _, s, _, _ => Outcome.fault s
  | Maximum :: _, s, _, _ => Outcome.fault s
  | Tag.Sum :: rest, s, t, weight =>
      (updateWeighted rest s t weight).map fun s1 => { s1 with sum_ := s1.sum_ + weight * t }
  | SumSquaredDifferences :: rest, s, t, weight =>
      let old_count := s.count_
      let s1 :=
        if old_count ≠ 0 then
          { s with sumOfSquaredDifferences_ :=
              s.sumOfSquaredDifferences_
                + old_count / (old_count + weight) * weight * sq (s.sum_ / old_count - t) }
        else s
      updateWeighted rest s1 t weight
  | ScatterMatrix :: rest, s, t, weight =>
      let old_count := s.count_
      let s1 :=
        if old_count ≠ 0 then
          let diff := s.sum_ / old_count - t
          let weight1 := old_count / (old_count + weight) * weight
          { s with diff_ := diff, scatter_matrix_ := s.scatter_matrix_ + weight1 * diff * diff }
        else s
      updateWeighted rest s1 t weight
  | _ :: rest, s, t, weight => updateWeighted rest s t weight

/-- The call `updatePass2(t)`: only `CentralMoment<N>` layers declare it. -/
def updatePass2 : List Tag → State K → K → State K
  | [], s, _ => s
  | CentralMoment N :: rest, s, t =>
      let s1 := updatePass2 rest s t
      { s1 with moment_ :=
          Function.update s1.moment_ N (s1.moment_ N + (t - s1.sum_ / s1.count_) ^ N) }
  | _ :: rest, s, t => updatePass2 rest s t

/-- The call `updatePass2(t, weight)`. -/
def updatePass2Weighted : List Tag → State K → K → K → State K
  | [], s, _, _ => s
  | CentralMoment N :: rest, s, t, weight =>
      let s1 := updatePass2Weighted rest s t weight
      { s1 with moment_ :=
          Function.update s1.moment_ N (s1.moment_ N + weight * (t - s1.sum_ / s1.count_) ^ N) }
  | _ :: rest, s, t, weight => updatePass2Weighted rest s t weight

/-- The value `operator()()` of a layer returns, read from the members. -/
def result (e : Env K) : Tag → State K → K
  | Count, s => s.count_
  | Minimum, s => s.min_
  | Maximum, s => s.max_
  | Tag.Sum, s => s.sum_
  | Mean, s => s.sum_ / s.count_
  | CentralMoment N, s => s.moment_ N / s.count_
  | Skewness, s => e.sqrt s.count_ * s.moment_ 3 / e.pow (s.moment_ 2) (3 / 2)
  | Kurtosis, s => s.count_ * s.moment_ 4 / sq (s.moment_ 2)
  | SumSquaredDifferences, s => s.sumOfSquaredDifferences_
  | Variance, s => s.sumOfSquaredDifferences_ / s.count_
  | StdDev, s => e.sqrt (s.sumOfSquaredDifferences_ / s.count_)
  | UnbiasedVariance, s => s.sumOfSquaredDifferences_ / (s.count_ - 1)
  | UnbiasedStdDev, s => e.sqrt (s.sumOfSquaredDifferences_ / (s.count_ - 1))
  | ScatterMatrix, s => s.scatter_matrix_
  | Covariance, s => s.scatter_matrix_ / s.count_
  | UnbiasedCovariance, s => s.scatter_matrix_ / (s.count_ - 1)

/-- The free function `get<Tag>(a)` on a static chain: `cast` finds the layer
by its tag; when there is none it ends at `AccumulatorBase` and `getImpl`
raises the precondition failure (`none`). -/
def get (e : Env K) (chain : List Tag) (s : State K) (tag : Tag) : Option K :=
  if tag ∈ chain then some (result e tag s) else none

/-- The functions `detail::MergeCentralMoments<N>::exec(l, r)`; `none` is the
precondition failure of the primary template. `SumType` is the scalar type. -/
def MergeCentralMoments (N : Nat) (l r : State K) : Option (State K) :=
  if N = 2 then
    let count_l := l.count_
    let count_r := r.count_
    let weight := count_l * count_r / (count_l + count_r)
    let moment := l.moment_ 2 +
      (r.moment_ 2 + weight * sq (l.sum_ / count_l - r.sum_ / count_r))
    some { l with moment_ := Function.update l.moment_ 2 moment }
  else if N = 3 then
    let count_l := l.count_
    let count_r := r.count_
    let count := count_l + count_r
    let weight := count_l * count_r * (count_l - count_r) / sq count
    let delta := l.sum_ / count_l - r.sum_ / count_r
    let moment := l.moment_ 3 +
      (r.moment_ 3 + weight * delta ^ 3 +
        3 / count * delta * (count_l * (r.moment_ 2 / r.count_)
                              - count_r * (l.moment_ 2 / l.count_)))
    some { l with moment_ := Function.update l.moment_ 3 moment }
  else if N = 4 then
    let count_l := l.count_
    let count_r := r.count_
    let count_l_2 := sq count_l
    let count_r_2 := sq count_r
    let count := count_l + count_r
    let weight := count_l * count_r * (count_l_2 - count_l * count_r + count_r_2) / count ^ 3
    let delta := l.sum_ / count_l - r.sum_ / count_r
    let moment := l.moment_ 4 +
      (r.moment_ 4 + weight * delta ^ 4 +
        6 / sq count * sq delta * (count_l_2 * (r.moment_ 2 / r.count_)
                                    + count_r_2 * (l.moment_ 2 / l.count_)) +
        4 / count * delta * (count_l * (r.moment_ 3 / r.count_)
                              - count_r * (l.moment_ 3 / l.count_)))
    some { l with moment_ := Function.update l.moment_ 4 moment }
  else none

/-- The call `l += r` on the outermost layer of a static chain (`r` is const). -/
def merge : List Tag → State K → State K → Outcome K
  | [], l, _ => Outcome.ok l
  | Count :: rest, l, r =>
      (merge rest l r).map fun l1 => { l1 with count_ := l1.count_ + r.count_ }
  | Minimum :: rest, l, r =>
      (merge rest l r).map fun l1 => { l1 with min_ := min l1.min_ r.min_ }
  | Maximum :: rest, l, r =>
      (merge rest l r).map fun l1 => { l1 with max_ := max l1.max_ r.max_ }
  | Tag.Sum :: rest, l, r =>
      (merge rest l r).map fun l1 => { l1 with sum_ := l1.sum_ + r.sum_ }
  | CentralMoment N :: rest, l, r =>
      match MergeCentralMoments N l r with
      | some l1 => merge rest l1 r
      | none => Outcome.fault l
  | SumSquaredDifferences :: rest, l, r =>
      let weight := l.count_ * r.count_ / (l.count_ + r.count_)
      let ssd := l.sumOfSquaredDifferences_ +
        (r.sumOfSquaredDifferences_ + weight * sq (l.sum_ / l.count_ - r.sum_ / r.count_))
      merge rest { l with sumOfSquaredDifferences_ := ssd } r
  | ScatterMatrix :: rest, l, r =>
      let diff := l.sum_ / l.count_ - r.sum_ / r.count_
      let weight := l.count_ * r.count_ / (l.count_ + r.count_)
      let scatter := l.scatter_matrix_ + weight * diff * diff + r.scatter_matrix_
      merge rest { l with diff_ := diff, scatter_matrix_ := scatter } r
  | _ :: rest, l, r => merge rest l r

/-- One call of the feeding interface: `update(value)` or `update(value, weight)`. -/
inductive Call (K : Type) where
  | plain (value : K)
  | weighted (value weight : K)

/-- The weight a call contributes: 1 for `update(value)`. -/
def Call.weight : Call K → K
  | Call.plain _ => 1
  | Call.weighted _ w => w

/-- The sample of a call. -/
def Call.value : Call K → K
  | Call.plain t => t
  | Call.weighted t _ => t

/-- Dispatch of one first-pass call. -/
def step (chain : List Tag) (s : State K) : Call K → Outcome K
  | Call.plain t => Outcome.ok (update chain s t)
  | Call.weighted t w => updateWeighted chain s t w

/-- A caller's first pass: the calls in order, stopping at the first throw. -/
def feed (chain : List Tag) (s : State K) : List (Call K) → Outcome K
  | [] => Outcome.ok s
  | c :: cs => (step chain s c).andThen fun s1 => feed chain s1 cs

/-- A caller's first pass over unweighted samples. -/
def feedAll (chain : List Tag) (s : State K) (xs : List K) : State K :=
  xs.foldl (update chain) s

/-- A caller's second pass over unweighted samples. -/
def feedAllPass2 (chain : List Tag) (s : State K) (xs : List K) : State K :=
  xs.foldl (updatePass2 chain) s

/-- Both passes over the same unweighted samples, on a fresh chain. -/
def twoPass (e : Env K) (diff0 : K) (chain : List Tag) (xs : List K) : State K :=
  feedAllPass2 chain (feedAll chain (init e diff0) xs) xs

/-- The arithmetic mean of a sample list, as the spec words it. -/
def specMean (xs : List K) : K := xs.sum / (xs.length : K)

/-- The sum of the `N`-th powers of the deviations from the arithmetic mean,
as the spec words it. -/
def specCentralSum (N : Nat) (xs : List K) : K :=
  (xs.map fun x => (x - specMean xs) ^ N).sum

/-- The total weight of a call sequence: the number of unweighted calls plus
the weights of the weighted ones. -/
def totalWeight (calls : List (Call K)) : K := (calls.map Call.weight).sum

/-- The weighted sum of the samples of a call sequence. -/
def weightedSum (calls : List (Call K)) : K :=
  (calls.map fun c => c.weight * c.value).sum


/-- The number of unweighted `update(value)` calls in a call sequence. -/
def numberUnweighted : List (Call K) → Nat
  | [] => 0
  | Call.plain _ :: cs => numberUnweighted cs + 1
  | Call.weighted _ _ :: cs => numberUnweighted cs

/-- The sum of the weights of the `update(value, weight)` calls in a call sequence. -/
def sumOfWeights : List (Call K) → K
  | [] => 0
  | Call.plain _ :: cs => sumOfWeights cs
  | Call.weighted _ w :: cs => w + sumOfWeights cs


/-- Modelled from the spec: `MergeUnique` of `metaprogramming.hxx`, a header that
is not among the sources at hand. Every element of the first list that is not
already present is put in front, the relative order of the elements kept. -/
def MergeUnique : List Tag → List Tag → List Tag
  | [], list => list
  | head :: tail, list =>
      let rest := MergeUnique tail list
      if head ∈ rest then rest else head :: rest

/-- A size of the dependency tree below a descriptor; it only serves as the
measure by which the recursion of `PushDependencies` ends. -/
def dependencyWeight : Tag → Nat
  | Count => 1
  | Minimum => 1
  | Maximum => 1
  | Tag.Sum => 1
  | Mean => 3
  | CentralMoment N => 5 * N + 5
  | Skewness => 21
  | Kurtosis => 26
  | SumSquaredDifferences => 5
  | Variance => 7
  | StdDev => 8
  | UnbiasedVariance => 7
  | UnbiasedStdDev => 8
  | ScatterMatrix => 5
  | Covariance => 7
  | UnbiasedCovariance => 7

/-- The metafunction `PushDependencies<List>::type`; `[]` is the `void` list. -/
def PushDependencies : List Tag → List Tag
  | [] => []
  | HEAD :: TAIL =>
      let TailWithDependencies := PushDependencies TAIL
      let HeadDependencies := PushDependencies (Dependencies HEAD)
      let HeadWithDependencies := HEAD :: HeadDependencies
      MergeUnique HeadWithDependencies TailWithDependencies
termination_by l => (l.map dependencyWeight).sum
decreasing_by
  · simp only [List.map_cons, List.sum_cons]
    cases HEAD <;> simp [dependencyWeight]
  · simp only [List.map_cons, List.sum_cons]
    cases HEAD <;> simp only [Dependencies, dependencyWeight] <;> (try split_ifs) <;>
      simp only [List.map_cons, List.map_nil, List.sum_cons, List.sum_nil, dependencyWeight] <;>
      omega

/-- `Requires t x`: `x` is `t` or one of the statistics `t` transitively depends on. -/
inductive Requires : Tag → Tag → Prop where
  | refl (t : Tag) : Requires t t
  | step {t d x : Tag} (hd : d ∈ Dependencies t) (hx : Requires d x) : Requires t x

/-- Every layer's `Dependencies` are layers further down the list. -/
def DepsBelow : List Tag → Prop
  | [] => True
  | t :: post => (∀ d ∈ Dependencies t, d ∈ post) ∧ DepsBelow post

/-- The statistics whose layers the member functions of a layer access through
`get<...>(*this)`, `get<...>(o)` or `cast<...>(*this)`. -/
def Reads : Tag → List Tag
  | Count => []
  | Minimum => []
  | Maximum => []
  | Tag.Sum => []
  | Mean => [Tag.Sum, Count]
  | CentralMoment N =>
      if N = 3 then [Tag.Sum, Count, CentralMoment 2]
      else if N = 4 then [Tag.Sum, Count, CentralMoment 2, CentralMoment 3]
      else [Tag.Sum, Count]
  | Skewness => [Count, CentralMoment 3, CentralMoment 2]
  | Kurtosis => [Count, CentralMoment 4, CentralMoment 2]
  | SumSquaredDifferences => [Count, Tag.Sum]
  | Variance => [SumSquaredDifferences, Count]
  | StdDev => [SumSquaredDifferences, Count]
  | UnbiasedVariance => [SumSquaredDifferences, Count]
  | UnbiasedStdDev => [SumSquaredDifferences, Count]
  | ScatterMatrix => [Tag.Sum, Count]
  | Covariance => [ScatterMatrix, Count]
  | UnbiasedCovariance => [ScatterMatrix, Count]


/-- The metafunction `LookupTag<Tag, Accumulator>::type`: the search runs from a
layer through its `BaseType`s; the result is the layer found with everything
below it, `none` stands for `AccumulatorBase`. -/
def LookupTag (tag : Tag) : List Tag → Option (List Tag)
  | [] => none
  | t :: rest => if tag = t then some (t :: rest) else LookupTag tag rest

/-- The member function `passesRequired()` on a static chain: `AccumulatorBase`
answers 1, a `CentralMoment<N>` layer `std::max(2u, BaseType::passesRequired())`. -/
def passesRequired : List Tag → Nat
  | [] => 1
  | CentralMoment _ :: rest => max 2 (passesRequired rest)
  | _ :: rest => passesRequired rest

/-- The member function `reset()` on a static chain. `ScatterMatrix::Impl::reset`
leaves `diff_` as it is. -/
def reset (e : Env K) : List Tag → State K → State K
  | [], s => s
  | Count :: rest, s => reset e rest { s with count_ := 0 }
  | Minimum :: rest, s => reset e rest { s with min_ := e.traitsMax }
  | Maximum :: rest, s => reset e rest { s with max_ := e.traitsMin }
  | Tag.Sum :: rest, s => reset e rest { s with sum_ := 0 }
  | CentralMoment N :: rest, s => reset e rest { s with moment_ := Function.update s.moment_ N 0 }
  | SumSquaredDifferences :: rest, s => reset e rest { s with sumOfSquaredDifferences_ := 0 }
  | ScatterMatrix :: rest, s => reset e rest { s with scatter_matrix_ := 0 }
  | _ :: rest, s => reset e rest s

/-! ### Dynamic chains

Every layer of a dynamic chain is wrapped in a `DynamicAccumulatorWrapper`,
whose flag `is_active_` is the value of the function `is_active_ : Tag → Bool`
at the layer's tag. The layers and their members are those of `State`. -/

/-- The free function `activate<Tag>(a)`: `cast` finds the wrapper, whose
`activate()` sets the flag and runs `ActivateDependencies` on itself. The search
for a dependency starts at that wrapper; as no descriptor names itself among
its `Dependencies`, it goes on in the layers below. Without a layer of that
tag the call ends in `AccumulatorBase::activate()`, which does nothing. -/
def activate : List Tag → Tag → (Tag → Bool) → (Tag → Bool)
  | [], _, is_active_ => is_active_
  | t :: rest, tag, is_active_ =>
      if tag = t then
        (Dependencies t).foldl (fun flags d => activate rest d flags)
          (Function.update is_active_ t true)
      else activate rest tag is_active_

/-- The value `Impl::operator()()` of a layer returns; `lookup` answers the calls
`get<...>(*this)` it makes, which search the layers below. The members
`moment_` read through `cast<...>(*this)` are read directly. -/
def layerResult (e : Env K) (lookup : Tag → Option K) (s : State K) : Tag → Option K
  | Count => some s.count_
  | Minimum => some s.min_
  | Maximum => some s.max_
  | Tag.Sum => some s.sum_
  | Mean =>
      match lookup Tag.Sum, lookup Count with
      | some sum, some count => some (sum / count)
      | _, _ => none
  | CentralMoment N =>
      match lookup Count with
      | some count => some (s.moment_ N / count)
      | none => none
  | Skewness =>
      match lookup Count with
      | some count => some (e.sqrt count * s.moment_ 3 / e.pow (s.moment_ 2) (3 / 2))
      | none => none
  | Kurtosis =>
      match lookup Count with
      | some count => some (count * s.moment_ 4 / sq (s.moment_ 2))
      | none => none
  | SumSquaredDifferences => some s.sumOfSquaredDifferences_
  | Variance =>
      match lookup SumSquaredDifferences, lookup Count with
      | some ssd, some count => some (ssd / count)
      | _, _ => none
  | StdDev =>
      match lookup SumSquaredDifferences, lookup Count with
      | some ssd, some count => some (e.sqrt (ssd / count))
      | _, _ => none
  | UnbiasedVariance =>
      match lookup SumSquaredDifferences, lookup Count with
      | some ssd, some count => some (ssd / (count - 1))
      | _, _ => none
  | UnbiasedStdDev =>
      match lookup SumSquaredDifferences, lookup Count with
      | some ssd, some count => some (e.sqrt (ssd / (count - 1)))
      | _, _ => none
  | ScatterMatrix => some s.scatter_matrix_
  | Covariance =>
      match lookup ScatterMatrix, lookup Count with
      | some scatter, some count => some (scatter / count)
      | _, _ => none
  | UnbiasedCovariance =>
      match lookup ScatterMatrix, lookup Count with
      | some scatter, some count => some (scatter / (count - 1))
      | _, _ => none

/-- The free function `get<Tag>(a)` on a dynamic chain:
`DynamicAccumulatorWrapper::operator()()` checks the flag of the layer found
(`none` is the precondition failure) and then evaluates the layer, whose own
`get` calls are checked in the same way. -/
def dynamicGet (e : Env K) : List Tag → (Tag → Bool) → State K → Tag → Option K
  | [], _, _, _ => none
  | t :: rest, is_active_, s, tag =>
      if tag = t then
        if is_active_ t then layerResult e (fun r => dynamicGet e rest is_active_ s r) s t
        else none
      else dynamicGet e rest is_active_ s tag

/-- The member function `passesRequired()` on a dynamic chain. -/
def dynamicPassesRequired : List Tag → (Tag → Bool) → Nat
  | [], _ => 1
  | CentralMoment N :: rest, is_active_ =>
      if is_active_ (CentralMoment N) then max 2 (dynamicPassesRequired rest is_active_)
      else dynamicPassesRequired rest is_active_
  | _ :: rest, is_active_ => dynamicPassesRequired rest is_active_

/-- The members after `reset()` on a dynamic chain: a wrapper resets its layer
only when the layer is active. -/
def dynamicReset (e : Env K) : List Tag → (Tag → Bool) → State K → State K
  | [], _, s => s
  | t :: rest, is_active_, s =>
      if is_active_ t then dynamicReset e rest is_active_ (reset e [t] s)
      else dynamicReset e rest is_active_ s

/-- The flags after `reset()` on a dynamic chain: every wrapper clears its own. -/
def dynamicResetFlags (chain : List Tag) (is_active_ : Tag → Bool) : Tag → Bool :=
  fun t => if t ∈ chain then false else is_active_ t

/-- The call `operator()(t)` on a dynamic chain: a wrapper whose flag is set runs
its layer, any other passes the call to the next wrapper. The values a layer
takes from `get<...>(*this)` are checked reads of the layers below. -/
def dynamicUpdate (e : Env K) : List Tag → (Tag → Bool) → State K → K → Outcome K
  | [], _, s, _ => Outcome.ok s
  | Count :: rest, is_active_, s, t =>
      if is_active_ Count then
        (dynamicUpdate e rest is_active_ s t).map fun s1 => { s1 with count_ := s1.count_ + 1 }
      else dynamicUpdate e rest is_active_ s t
  | Minimum :: rest, is_active_, s, t =>
      if is_active_ Minimum then
        (dynamicUpdate e rest is_active_ s t).map fun s1 => { s1 with min_ := min s1.min_ t }
      else dynamicUpdate e rest is_active_ s t
  | Maximum :: rest, is_active_, s, t =>
      if is_active_ Maximum then
        (dynamicUpdate e rest is_active_ s t).map fun s1 => { s1 with max_ := max s1.max_ t }
      else dynamicUpdate e rest is_active_ s t
  | Tag.Sum :: rest, is_active_, s, t =>
      if is_active_ Tag.Sum then
        (dynamicUpdate e rest is_active_ s t).map fun s1 => { s1 with sum_ := s1.sum_ + t }
      else dynamicUpdate e rest is_active_ s t
  | SumSquaredDifferences :: rest, is_active_, s, t =>
      if is_active_ SumSquaredDifferences then
        match dynamicGet e rest is_active_ s Count with
        | none => Outcome.fault s
        | some old_count =>
            if old_count ≠ 0 then
              match dynamicGet e rest is_active_ s Tag.Sum with
              | none => Outcome.fault s
              | some sum =>
                  dynamicUpdate e rest is_active_
                    { s with sumOfSquaredDifferences_ :=
                        s.sumOfSquaredDifferences_
                          + old_count / (old_count + 1) * sq (sum / old_count - t) } t
            else dynamicUpdate e rest is_active_ s t
      else dynamicUpdate e rest is_active_ s t
  | ScatterMatrix :: rest, is_active_, s, t =>
      if is_active_ ScatterMatrix then
        match dynamicGet e rest is_active_ s Count with
        | none => Outcome.fault s
        | some old_count =>
            if old_count ≠ 0 then
              match dynamicGet e rest is_active_ s Tag.Sum with
              | none => Outcome.fault s
              | some sum =>
                  let diff := sum / old_count - t
                  let weight := old_count / (old_count + 1) * 1
                  dynamicUpdate e rest is_active_
                    { s with diff_ := diff,
                             scatter_matrix_ := s.scatter_matrix_ + weight * diff * diff } t
            else dynamicUpdate e rest is_active_ s t
      else dynamicUpdate e rest is_active_ s t
  | _ :: rest, is_active_, s, t => dynamicUpdate e rest is_active_ s t

/-- The call `operator()(t, weight)` on a dynamic chain. -/
def dynamicUpdateWeighted (e : Env K) :
    List Tag → (Tag → Bool) → State K → K → K → Outcome K
  | [], _, s, _, _ => Outcome.ok s
  | Count :: rest, is_active_, s, t, weight =>
      if is_active_ Count then
        (dynamicUpdateWeighted e rest is_active_ s t weight).map
          fun s1 => { s1 with count_ := s1.count_ + weight }
      else dynamicUpdateWeighted e rest is_active_ s t weight
  | Minimum :: rest, is_active_, s, t, weight =>
      if is_active_ Minimum then Outcome.fault s
      else dynamicUpdateWeighted e rest is_active_ s t weight
  | Maximum :: rest, is_active_, s, t, weight =>
      if is_active_ Maximum then Outcome.fault s
      else dynamicUpdateWeighted e rest is_active_ s t weight
  | Tag.Sum :: rest, is_active_, s, t, weight =>
      if is_active_ Tag.Sum then
        (dynamicUpdateWeighted e rest is_active_ s t weight).map
          fun s1 => { s1 with sum_ := s1.sum_ + weight * t }
      else dynamicUpdateWeighted e rest is_active_ s t weight
  | SumSquaredDifferences :: rest, is_active_, s, t, weight =>
      if is_active_ SumSquaredDifferences then
        match dynamicGet e rest is_active_ s Count with
        | none => Outcome.fault s
        | some old_count =>
            if old_count ≠ 0 then
              match dynamicGet e rest is_active_ s Tag.Sum with
              | none => Outcome.fault s
              | some sum =>
                  dynamicUpdateWeighted e rest is_active_
                    { s with sumOfSquaredDifferences_ :=
                        s.sumOfSquaredDifferences_
                          + old_count / (old_count + weight) * weight * sq (sum / old_count - t) }
                    t weight
            else dynamicUpdateWeighted e rest is_active_ s t weight
      else dynamicUpdateWeighted e rest is_active_ s t weight
  | ScatterMatrix :: rest, is_active_, s, t, weight =>
      if is_active_ ScatterMatrix then
        match dynamicGet e rest is_active_ s Count with
        | none => Outcome.fault s
        | some old_count =>
            if old_count ≠ 0 then
              match dynamicGet e rest is_active_ s Tag.Sum with
              | none => Outcome.fault s
              | some sum =>
                  let diff := sum / old_count - t
                  let weight1 := old_count / (old_count + weight) * weight
                  dynamicUpdateWeighted e rest is_active_
                    { s with diff_ := diff,
                             scatter_matrix_ := s.scatter_matrix_ + weight1 * diff * diff }
                    t weight
            else dynamicUpdateWeighted e rest is_active_ s t weight
      else dynamicUpdateWeighted e rest is_active_ s t weight
  | _ :: rest, is_active_, s, t, weight => dynamicUpdateWeighted e rest is_active_ s t weight

/-- The call `updatePass2(t)` on a dynamic chain. -/
def dynamicUpdatePass2 (e : Env K) : List Tag → (Tag → Bool) → State K → K → Outcome K
  | [], _, s, _ => Outcome.ok s
  | CentralMoment N :: rest, is_active_, s, t =>
      if is_active_ (CentralMoment N) then
        (dynamicUpdatePass2 e rest is_active_ s t).andThen fun s1 =>
          match dynamicGet e rest is_active_ s1 Tag.Sum, dynamicGet e rest is_active_ s1 Count with
          | some sum, some count =>
              let moment := s1.moment_ N + (t - sum / count) ^ N
              Outcome.ok { s1 with moment_ := Function.update s1.moment_ N moment }
          | _, _ => Outcome.fault s1
      else dynamicUpdatePass2 e rest is_active_ s t
  | _ :: rest, is_active_, s, t => dynamicUpdatePass2 e rest is_active_ s t

/-- The call `updatePass2(t, weight)` on a dynamic chain. -/
def dynamicUpdatePass2Weighted (e : Env K) :
    List Tag → (Tag → Bool) → State K → K → K → Outcome K
  | [], _, s, _, _ => Outcome.ok s
  | CentralMoment N :: rest, is_active_, s, t, weight =>
      if is_active_ (CentralMoment N) then
        (dynamicUpdatePass2Weighted e rest is_active_ s t weight).andThen fun s1 =>
          match dynamicGet e rest is_active_ s1 Tag.Sum, dynamicGet e rest is_active_ s1 Count with
          | some sum, some count =>
              let moment := s1.moment_ N + weight * (t - sum / count) ^ N
              Outcome.ok { s1 with moment_ := Function.update s1.moment_ N moment }
          | _, _ => Outcome.fault s1
      else dynamicUpdatePass2Weighted e rest is_active_ s t weight
  | _ :: rest, is_active_, s, t, weight => dynamicUpdatePass2Weighted e rest is_active_ s t weight

/-- The functions `detail::MergeCentralMoments<N>::exec(l, r)` inside a dynamic
chain: `getL` and `getR` answer the `get` calls on the two operands. -/
def dynamicMergeCentralMoments (getL getR : Tag → Option K) (N : Nat) (l r : State K) :
    Option (State K) :=
  if N = 2 then
    match getL Count, getR Count, getL Tag.Sum, getR Tag.Sum with
    | some count_l, some count_r, some sum_l, some sum_r =>
        let weight := count_l * count_r / (count_l + count_r)
        let moment := l.moment_ 2 + (r.moment_ 2 + weight * sq (sum_l / count_l - sum_r / count_r))
        some { l with moment_ := Function.update l.moment_ 2 moment }
    | _, _, _, _ => none
  else if N = 3 then
    match getL Count, getR Count, getL Tag.Sum, getR Tag.Sum,
      getL (CentralMoment 2), getR (CentralMoment 2) with
    | some count_l, some count_r, some sum_l, some sum_r, some m2_l, some m2_r =>
        let count := count_l + count_r
        let weight := count_l * count_r * (count_l - count_r) / sq count
        let delta := sum_l / count_l - sum_r / count_r
        let moment := l.moment_ 3 +
          (r.moment_ 3 + weight * delta ^ 3 +
            3 / count * delta * (count_l * m2_r - count_r * m2_l))
        some { l with moment_ := Function.update l.moment_ 3 moment }
    | _, _, _, _, _, _ => none
  else if N = 4 then
    match getL Count, getR Count, getL Tag.Sum, getR Tag.Sum,
      getL (CentralMoment 2), getR (CentralMoment 2),
      getL (CentralMoment 3), getR (CentralMoment 3) with
    | some count_l, some count_r, some sum_l, some sum_r, some m2_l, some m2_r,
      some m3_l, some m3_r =>
        let count_l_2 := sq count_l
        let count_r_2 := sq count_r
        let count := count_l + count_r
        let weight := count_l * count_r * (count_l_2 - count_l * count_r + count_r_2) / count ^ 3
        let delta := sum_l / count_l - sum_r / count_r
        let moment := l.moment_ 4 +
          (r.moment_ 4 + weight * delta ^ 4 +
            6 / sq count * sq delta * (count_l_2 * m2_r + count_r_2 * m2_l) +
            4 / count * delta * (count_l * m3_r - count_r * m3_l))
        some { l with moment_ := Function.update l.moment_ 4 moment }
    | _, _, _, _, _, _, _, _ => none
  else none

/-- The call `l += r` on a dynamic chain; `activeL` are the flags of `l`, which
decide what runs, `activeR` those of `r`, which its `get` calls check. -/
def dynamicMerge (e : Env K) :
    List Tag → (Tag → Bool) → State K → (Tag → Bool) → State K → Outcome K
  | [], _, l, _, _ => Outcome.ok l
  | Count :: rest, activeL, l, activeR, r =>
      if activeL Count then
        (dynamicMerge e rest activeL l activeR r).map
          fun l1 => { l1 with count_ := l1.count_ + r.count_ }
      else dynamicMerge e rest activeL l activeR r
  | Minimum :: rest, activeL, l, activeR, r =>
      if activeL Minimum then
        (dynamicMerge e rest activeL l activeR r).map
          fun l1 => { l1 with min_ := min l1.min_ r.min_ }
      else dynamicMerge e rest activeL l activeR r
  | Maximum :: rest, activeL, l, activeR, r =>
      if activeL Maximum then
        (dynamicMerge e rest activeL l activeR r).map
          fun l1 => { l1 with max_ := max l1.max_ r.max_ }
      else dynamicMerge e rest activeL l activeR r
  | Tag.Sum :: rest, activeL, l, activeR, r =>
      if activeL Tag.Sum then
        (dynamicMerge e rest activeL l activeR r).map
          fun l1 => { l1 with sum_ := l1.sum_ + r.sum_ }
      else dynamicMerge e rest activeL l activeR r
  | CentralMoment N :: rest, activeL, l, activeR, r =>
      if activeL (CentralMoment N) then
        match dynamicMergeCentralMoments (fun g => dynamicGet e rest activeL l g)
            (fun g => dynamicGet e rest activeR r g) N l r with
        | some l1 => dynamicMerge e rest activeL l1 activeR r
        | none => Outcome.fault l
      else dynamicMerge e rest activeL l activeR r
  | SumSquaredDifferences :: rest, activeL, l, activeR, r =>
      if activeL SumSquaredDifferences then
        match dynamicGet e rest activeL l Count, dynamicGet e rest activeR r Count,
          dynamicGet e rest activeL l Tag.Sum, dynamicGet e rest activeR r Tag.Sum with
        | some count_l, some count_r, some sum_l, some sum_r =>
            let weight := count_l * count_r / (count_l + count_r)
            let ssd := l.sumOfSquaredDifferences_ +
              (r.sumOfSquaredDifferences_ + weight * sq (sum_l / count_l - sum_r / count_r))
            dynamicMerge e rest activeL { l with sumOfSquaredDifferences_ := ssd } activeR r
        | _, _, _, _ => Outcome.fault l
      else dynamicMerge e rest activeL l activeR r
  | ScatterMatrix :: rest, activeL, l, activeR, r =>
      if activeL ScatterMatrix then
        match dynamicGet e rest activeL l Count, dynamicGet e rest activeR r Count,
          dynamicGet e rest activeL l Tag.Sum, dynamicGet e rest activeR r Tag.Sum with
        | some count_l, some count_r, some sum_l, some sum_r =>
            let diff := sum_l / count_l - sum_r / count_r
            let weight := count_l * count_r / (count_l + count_r)
            let scatter := l.scatter_matrix_ + weight * diff * diff + r.scatter_matrix_
            dynamicMerge e rest activeL { l with diff_ := diff, scatter_matrix_ := scatter }
              activeR r
        | _, _, _, _ => Outcome.fault l
      else dynamicMerge e rest activeL l activeR r
  | _ :: rest, activeL, l, activeR, r => dynamicMerge e rest activeL l activeR r

/-- Flags are closed when every set flag belongs to a layer and all that layer
transitively requires is flagged too. -/
def ActiveClosed (chain : List Tag) (f : Tag → Bool) : Prop :=
  ∀ t, f t = true → t ∈ chain ∧ ∀ x, Requires t x → f x = true

/-- The layers of a dynamic chain whose flag is set, in the order of the chain. -/
def activeChain (chain : List Tag) (is_active_ : Tag → Bool) : List Tag :=
  chain.filter fun t => is_active_ t

/-- The flags and members a dynamic chain can have: those of a freshly built chain
(no flag set, `diff_` indeterminate) and those any call of the interface leaves
behind, whether the call returned or threw. The second operand of a merge is
any such chain of the same composition. -/
inductive DynamicReachable (e : Env K) (chain : List Tag) : (Tag → Bool) → State K → Prop where
  | fresh (diff0 : K) : DynamicReachable e chain (fun _ => false) (init e diff0)
  | activate {f : Tag → Bool} {s : State K} (tag : Tag) (h : DynamicReachable e chain f s) :
      DynamicReachable e chain (activate chain tag f) s
  | reset {f : Tag → Bool} {s : State K} (h : DynamicReachable e chain f s) :
      DynamicReachable e chain (dynamicResetFlags chain f) (dynamicReset e chain f s)
  | update {f : Tag → Bool} {s : State K} (t : K) (h : DynamicReachable e chain f s) :
      DynamicReachable e chain f (dynamicUpdate e chain f s t).state
  | updateWeighted {f : Tag → Bool} {s : State K} (t w : K)
      (h : DynamicReachable e chain f s) :
      DynamicReachable e chain f (dynamicUpdateWeighted e chain f s t w).state
  | updatePass2 {f : Tag → Bool} {s : State K} (t : K) (h : DynamicReachable e chain f s) :
      DynamicReachable e chain f (dynamicUpdatePass2 e chain f s t).state
  | updatePass2Weighted {f : Tag → Bool} {s : State K} (t w : K)
      (h : DynamicReachable e chain f s) :
      DynamicReachable e chain f (dynamicUpdatePass2Weighted e chain f s t w).state
  | merge {f g : Tag → Bool} {s r : State K} (h : DynamicReachable e chain f s)
      (hr : DynamicReachable e chain g r) :
      DynamicReachable e chain f (dynamicMerge e chain f s g r).state


/-- One call of the feeding interface, first or second pass. -/
inductive Feed (K : Type) where
  | update (t : K)
  | updateWeighted (t weight : K)
  | updatePass2 (t : K)
  | updatePass2Weighted (t weight : K)

/-- One call on a static chain. -/
def stepStatic (chain : List Tag) (s : State K) : Feed K → Outcome K
  | Feed.update t => Outcome.ok (update chain s t)
  | Feed.updateWeighted t w => updateWeighted chain s t w
  | Feed.updatePass2 t => Outcome.ok (updatePass2 chain s t)
  | Feed.updatePass2Weighted t w => Outcome.ok (updatePass2Weighted chain s t w)

/-- A caller's sequence of calls on a static chain, ending at the first throw. -/
def runStatic (chain : List Tag) (s : State K) : List (Feed K) → Outcome K
  | [] => Outcome.ok s
  | c :: cs => (stepStatic chain s c).andThen fun s1 => runStatic chain s1 cs

/-- One call on a dynamic chain. -/
def stepDynamic (e : Env K) (chain : List Tag) (is_active_ : Tag → Bool) (s : State K) :
    Feed K → Outcome K
  | Feed.update t => dynamicUpdate e chain is_active_ s t
  | Feed.updateWeighted t w => dynamicUpdateWeighted e chain is_active_ s t w
  | Feed.updatePass2 t => dynamicUpdatePass2 e chain is_active_ s t
  | Feed.updatePass2Weighted t w => dynamicUpdatePass2Weighted e chain is_active_ s t w

/-- A caller's sequence of calls on a dynamic chain, ending at the first throw. -/
def runDynamic (e : Env K) (chain : List Tag) (is_active_ : Tag → Bool) (s : State K) :
    List (Feed K) → Outcome K
  | [] => Outcome.ok s
  | c :: cs =>
      (stepDynamic e chain is_active_ s c).andThen fun s1 => runDynamic e chain is_active_ s1 cs

/-- A caller's sequence of `activate<Tag>` calls. -/
def activateAll (chain : List Tag) (is_active_ : Tag → Bool) (tags : List Tag) : Tag → Bool :=
  tags.foldl (fun flags tag => activate chain tag flags) is_active_

/-- The two states hold the same values in the members of the given layers,
the scratch member `diff_` of `ScatterMatrix` left aside. -/
def SameMembers (layers : List Tag) (s s1 : State K) : Prop :=
  (Count ∈ layers → s.count_ = s1.count_) ∧
  (Minimum ∈ layers → s.min_ = s1.min_) ∧
  (Maximum ∈ layers → s.max_ = s1.max_) ∧
  (Tag.Sum ∈ layers → s.sum_ = s1.sum_) ∧
  (∀ N, CentralMoment N ∈ layers → s.moment_ N = s1.moment_ N) ∧
  (SumSquaredDifferences ∈ layers → s.sumOfSquaredDifferences_ = s1.sumOfSquaredDifferences_) ∧
  (ScatterMatrix ∈ layers → s.scatter_matrix_ = s1.scatter_matrix_)

/-- Both calls returned or both threw, and the states they leave are related. -/
def Outcome.Rel (R : State K → State K → Prop) : Outcome K → Outcome K → Prop
  | Outcome.ok s, Outcome.ok s1 => R s s1
  | Outcome.fault s, Outcome.fault s1 => R s s1
  | _, _ => False

/-- The second state holds, in the members of all layers other than the given
ones, the values of the first (the scratch member `diff_` left aside). -/
def Untouched (layers : List Tag) (s s1 : State K) : Prop :=
  (Count ∉ layers → s1.count_ = s.count_) ∧
  (Minimum ∉ layers → s1.min_ = s.min_) ∧
  (Maximum ∉ layers → s1.max_ = s.max_) ∧
  (Tag.Sum ∉ layers → s1.sum_ = s.sum_) ∧
  (∀ N, CentralMoment N ∉ layers → s1.moment_ N = s.moment_ N) ∧
  (SumSquaredDifferences ∉ layers → s1.sumOfSquaredDifferences_ = s.sumOfSquaredDifferences_) ∧
  (ScatterMatrix ∉ layers → s1.scatter_matrix_ = s.scatter_matrix_)


/-! ### Chains over fixed-size vector samples (`TinyVector<double, d>`)

For `T = TinyVector<double, d>` the traits give `MinmaxType` and `SumType` as
vectors of `d` components and `CovarianceType` as a matrix, which is the one
type in `NeedReshape`. The arithmetic of `multi_math` and of `TinyVector` acts
on each component. -/

/-- The data members of all layers of a chain over vector samples, and the
member of `ReshapeAccumulator`. The matrix `scatter_matrix_` is held with its
`d × d` shape throughout: the empty matrix a chain holds before its first
sample is the zero matrix here. -/
structure VState (d : Nat) (K : Type) where
  /-- `Count::Impl::count_` -/
  count_ : K
  /-- `Minimum::Impl::min_` -/
  min_ : Fin d → K
  /-- `Maximum::Impl::max_` -/
  max_ : Fin d → K
  /-- `Sum::Impl::sum_` -/
  sum_ : Fin d → K
  /-- `CentralMoment<N>::Impl::moment_`, one member per `N` -/
  moment_ : Nat → Fin d → K
  /-- `SumSquaredDifferences::Impl::sumOfSquaredDifferences_` -/
  sumOfSquaredDifferences_ : Fin d → K
  /-- `ScatterMatrix::Impl::scatter_matrix_` -/
  scatter_matrix_ : Fin d → Fin d → K
  /-- `ScatterMatrix::Impl::diff_` -/
  diff_ : Fin d → K
  /-- `ReshapeAccumulator::needs_reshape_` -/
  needs_reshape_ : Bool

/-- The constructors of all layers and of `ReshapeAccumulator`, for vector
samples; `diff0` is what the member `diff_` holds after its own constructor. -/
def vinit {d : Nat} (e : Env K) (diff0 : Fin d → K) : VState d K where
  count_ := 0
  min_ := fun _ => e.traitsMax
  max_ := fun _ => e.traitsMin
  sum_ := fun _ => 0
  moment_ := fun _ _ => 0
  sumOfSquaredDifferences_ := fun _ => 0
  scatter_matrix_ := fun _ _ => 0
  diff_ := diff0
  needs_reshape_ := true

/-- The trait `NeedsReshape<T, A>` for vector samples: some layer of the chain
has the matrix type as its `result_type`. -/
def NeedsReshape (chain : List Tag) : Bool :=
  chain.any fun t => decide (t = ScatterMatrix ∨ t = Covariance ∨ t = UnbiasedCovariance)

/-- The member function `reshape(s)` of the layers, for vector samples: only the
matrix of `ScatterMatrix` is in `NeedReshape`; it becomes `d × d` zeros. -/
def vreshape {d : Nat} : List Tag → VState d K → VState d K
  | [], s => s
  | ScatterMatrix :: rest, s => vreshape rest { s with scatter_matrix_ := fun _ _ => 0 }
  | _ :: rest, s => vreshape rest s

/-- The call `operator()(t)` on the outermost layer, for vector samples. -/
def vupdate {d : Nat} : List Tag → VState d K → (Fin d → K) → VState d K
  | [], s, _ => s
  | Count :: rest, s, t =>
      let s1 := vupdate rest s t
      { s1 with count_ := s1.count_ + 1 }
  | Minimum :: rest, s, t =>
      let s1 := vupdate rest s t
      { s1 with min_ := fun i => min (s1.min_ i) (t i) }
  | Maximum :: rest, s, t =>
      let s1 := vupdate rest s t
      { s1 with max_ := fun i => max (s1.max_ i) (t i) }
  | Tag.Sum :: rest, s, t =>
      let s1 := vupdate rest s t
      { s1 with sum_ := fun i => s1.sum_ i + t i }
  | SumSquaredDifferences :: rest, s, t =>
      let old_count := s.count_
      let s1 :=
        if old_count ≠ 0 then
          { s with sumOfSquaredDifferences_ := fun i =>
              s.sumOfSquaredDifferences_ i
                + old_count / (old_count + 1) * sq (s.sum_ i / old_count - t i) }
        else s
      vupdate rest s1 t
  | ScatterMatrix :: rest, s, t =>
      let old_count := s.count_
      let s1 :=
        if old_count ≠ 0 then
          let diff := fun i => s.sum_ i / old_count - t i
          let weight := old_count / (old_count + 1) * 1
          { s with diff_ := diff,
                   scatter_matrix_ := fun i j => s.scatter_matrix_ i j + weight * diff i * diff j }
        else s
      vupdate rest s1 t
  | _ :: rest, s, t => vupdate rest s t

/-- The call `operator()(t)` on a static chain over vector samples:
`ReshapeAccumulator::operator()` reshapes before the first sample, when some
layer needs it, and then calls the outermost layer. -/
def vupdateTop {d : Nat} (chain : List Tag) (s : VState d K) (t : Fin d → K) : VState d K :=
  if NeedsReshape chain then
    let s1 := if s.needs_reshape_ then { vreshape chain s with needs_reshape_ := false } else s
    vupdate chain s1 t
  else vupdate chain s t

/-- The functions `detail::MergeCentralMoments<N>::exec(l, r)`, for vector samples. -/
def vMergeCentralMoments {d : Nat} (N : Nat) (l r : VState d K) : Option (VState d K) :=
  if N = 2 then
    let count_l := l.count_
    let count_r := r.count_
    let weight := count_l * count_r / (count_l + count_r)
    let moment := fun i => l.moment_ 2 i +
      (r.moment_ 2 i + weight * sq (l.sum_ i / count_l - r.sum_ i / count_r))
    some { l with moment_ := Function.update l.moment_ 2 moment }
  else if N = 3 then
    let count_l := l.count_
    let count_r := r.count_
    let count := count_l + count_r
    let weight := count_l * count_r * (count_l - count_r) / sq count
    let delta := fun i => l.sum_ i / count_l - r.sum_ i / count_r
    let moment := fun i => l.moment_ 3 i +
      (r.moment_ 3 i + weight * delta i ^ 3 +
        3 / count * delta i * (count_l * (r.moment_ 2 i / r.count_)
                                - count_r * (l.moment_ 2 i / l.count_)))
    some { l with moment_ := Function.update l.moment_ 3 moment }
  else if N = 4 then
    let count_l := l.count_
    let count_r := r.count_
    let count_l_2 := sq count_l
    let count_r_2 := sq count_r
    let count := count_l + count_r
    let weight := count_l * count_r * (count_l_2 - count_l * count_r + count_r_2) / count ^ 3
    let delta := fun i => l.sum_ i / count_l - r.sum_ i / count_r
    let moment := fun i => l.moment_ 4 i +
      (r.moment_ 4 i + weight * delta i ^ 4 +
        6 / sq count * sq (delta i) * (count_l_2 * (r.moment_ 2 i / r.count_)
                                        + count_r_2 * (l.moment_ 2 i / l.count_)) +
        4 / count * delta i * (count_l * (r.moment_ 3 i / r.count_)
                                - count_r * (l.moment_ 3 i / l.count_)))
    some { l with moment_ := Function.update l.moment_ 4 moment }
  else none

/-- The call `l += r` on a static chain over vector samples (`r` is const);
`none` is the precondition failure of the merge of a `CentralMoment<N>` layer
with `N` other than 2, 3, 4. `ReshapeAccumulator` declares no `operator+=`. -/
def vmerge {d : Nat} : List Tag → VState d K → VState d K → Option (VState d K)
  | [], l, _ => some l
  | Count :: rest, l, r =>
      (vmerge rest l r).map fun l1 => { l1 with count_ := l1.count_ + r.count_ }
  | Minimum :: rest, l, r =>
      (vmerge rest l r).map fun l1 => { l1 with min_ := fun i => min (l1.min_ i) (r.min_ i) }
  | Maximum :: rest, l, r =>
      (vmerge rest l r).map fun l1 => { l1 with max_ := fun i => max (l1.max_ i) (r.max_ i) }
  | Tag.Sum :: rest, l, r =>
      (vmerge rest l r).map fun l1 => { l1 with sum_ := fun i => l1.sum_ i + r.sum_ i }
  | CentralMoment N :: rest, l, r =>
      match vMergeCentralMoments N l r with
      | some l1 => vmerge rest l1 r
      | none => none
  | SumSquaredDifferences :: rest, l, r =>
      let weight := l.count_ * r.count_ / (l.count_ + r.count_)
      let ssd := fun i => l.sumOfSquaredDifferences_ i +
        (r.sumOfSquaredDifferences_ i
          + weight * sq (l.sum_ i / l.count_ - r.sum_ i / r.count_))
      vmerge rest { l with sumOfSquaredDifferences_ := ssd } r
  | ScatterMatrix :: rest, l, r =>
      let diff := fun i => l.sum_ i / l.count_ - r.sum_ i / r.count_
      let weight := l.count_ * r.count_ / (l.count_ + r.count_)
      let scatter := fun i j => l.scatter_matrix_ i j + weight * diff i * diff j
        + r.scatter_matrix_ i j
      vmerge rest { l with diff_ := diff, scatter_matrix_ := scatter } r
  | _ :: rest, l, r => vmerge rest l r

/-- A caller's pass over vector samples. -/
def vfeedAll {d : Nat} (chain : List Tag) (s : VState d K) (xs : List (Fin d → K)) :
    VState d K :=
  xs.foldl (vupdateTop chain) s

/-- The call `get<ScatterMatrix>(a)` on a static chain over vector samples. -/
def vgetScatterMatrix {d : Nat} (chain : List Tag) (s : VState d K) :
    Option (Fin d → Fin d → K) :=
  if ScatterMatrix ∈ chain then some s.scatter_matrix_ else none

/-- The mean of component `i` of a list of vector samples, as the claims state it. -/
def specVecMean {d : Nat} (xs : List (Fin d → K)) (i : Fin d) : K :=
  (xs.map fun x => x i).sum / (xs.length : K)

/-- The entry `(i, j)` of the sum of `(x - m)(x - m)^T` over a list of vector
samples with mean `m`, as the claims state it. -/
def specScatter {d : Nat} (xs : List (Fin d → K)) (i j : Fin d) : K :=
  (xs.map fun x => (x i - specVecMean xs i) * (x j - specVecMean xs j)).sum


/-- The sum of `w_i * (x_i - m)^2` over a call sequence, with `m` the weighted
mean `(sum w_i x_i) / (sum w_i)`, as the claims state it. -/
def specWeightedSquares (calls : List (Call K)) : K :=
  (calls.map fun c =>
    c.weight * (c.value - weightedSum calls / totalWeight calls) ^ 2).sum


/-- The call `get<Covariance>(a)` on a static chain over vector samples:
`get<ScatterMatrix>(*this) / get<Count>(*this)`. -/
def vgetCovariance {d : Nat} (chain : List Tag) (s : VState d K) :
    Option (Fin d → Fin d → K) :=
  if Covariance ∈ chain then some fun i j => s.scatter_matrix_ i j / s.count_ else none

/-- The flags of a dynamic chain after construction: the constructor of every
`DynamicAccumulatorWrapper` sets `is_active_(false)`. -/
def dynamicInit : Tag → Bool :=
  fun _ => false


/-- A caller's passes over unweighted samples: the first pass, and the second
when `passesRequired()` said 2. -/
def passCalls (passes : Nat) (xs : List K) : List (Feed K) :=
  xs.map Feed.update ++ (if 2 ≤ passes then xs.map Feed.updatePass2 else [])


/-! ### Storage with a run-time shape (`ReshapeAccumulator`)

The three specialisations of `AccumulatorTraits` differ in the types of the
members and in the list `NeedReshape` of the types that get their shape from
the first sample. -/

/-- The sample types `AccumulatorTraits` is specialised for. -/
inductive SampleKind where
  /-- a scalar `T` -/
  | scalar
  /-- `TinyVector<T, N>` -/
  | tinyVector (N : Nat)
  /-- `MultiArrayView<N, T, Stride>` -/
  | multiArray (N : Nat)
  deriving DecidableEq, Repr

/-- The types a layer can have as its `result_type`. -/
inductive ResultType where
  /-- `void`: what `LookupTag` gives for a tag that is not in the chain -/
  | void
  /-- `double`, the result of `Count` -/
  | double
  /-- `AccumulatorTraits<T>::MinmaxType` -/
  | MinmaxType
  /-- `AccumulatorTraits<T>::SumType` -/
  | SumType
  /-- `AccumulatorTraits<T>::CovarianceType` -/
  | CovarianceType
  deriving DecidableEq, Repr

/-- The test `Contains<AccumulatorTraits<T>::NeedReshape, result_type>`: the list
is empty for scalars, `Select<CovarianceType>` for `TinyVector` and
`Select<MinmaxType, SumType, CovarianceType>` for `MultiArrayView`. -/
def NeedReshape : SampleKind → ResultType → Bool
  | SampleKind.tinyVector _, ResultType.CovarianceType => true
  | SampleKind.multiArray _, ResultType.MinmaxType => true
  | SampleKind.multiArray _, ResultType.SumType => true
  | SampleKind.multiArray _, ResultType.CovarianceType => true
  | _, _ => false

/-- The typedef `LookupTag<tag, chain>::result_type`: the `result_type` of the
layer `tag` of the chain, itself a `LookupTag` for the derived statistics. -/
def resultTypeIn : List Tag → Tag → ResultType
  | [], _ => ResultType.void
  | t :: below, tag =>
      if tag = t then
        match t with
        | Count => ResultType.double
        | Minimum => ResultType.MinmaxType
        | Maximum => ResultType.MinmaxType
        | Tag.Sum => ResultType.SumType
        | Mean => resultTypeIn below Tag.Sum
        | CentralMoment _ => ResultType.SumType
        | Skewness => resultTypeIn below (CentralMoment 3)
        | Kurtosis => resultTypeIn below (CentralMoment 4)
        | SumSquaredDifferences => ResultType.SumType
        | Variance => resultTypeIn below SumSquaredDifferences
        | StdDev => resultTypeIn below Variance
        | UnbiasedVariance => resultTypeIn below SumSquaredDifferences
        | UnbiasedStdDev => resultTypeIn below Variance
        | ScatterMatrix => ResultType.CovarianceType
        | Covariance => resultTypeIn below ScatterMatrix
        | UnbiasedCovariance => resultTypeIn below ScatterMatrix
      else resultTypeIn below tag

/-- The trait `NeedsReshape<T, A>`: some layer of the chain has a `result_type`
that is in `NeedReshape`. -/
def NeedsReshapeFor (kind : SampleKind) : List Tag → Bool
  | [] => false
  | t :: below => NeedsReshapeFor kind below || NeedReshape kind (resultTypeIn (t :: below) t)

/-- An array with a shape known at run time: `MultiArray`, `Matrix`; a
`TinyVector` and a scalar are held the same way, with a shape that never
changes. -/
structure Storage (K : Type) where
  /-- the extent along every axis -/
  shape : List Nat
  /-- the elements, in memory order -/
  elements : List K

/-- The constructor `Array(shape, initial)` that `ReshapeTraits::reshape` calls:
an array of the given shape with every element equal to `initial`. -/
def Storage.filled (shape : List Nat) (initial : K) : Storage K :=
  ⟨shape, List.replicate shape.prod initial⟩

/-- The shape of a sample-shaped member after its default constructor: one
element for a scalar, `N` for `TinyVector<T, N>`, and the empty shape of `N`
zeros for `MultiArray<N, T>`. -/
def SampleKind.initialShape : SampleKind → List Nat
  | SampleKind.scalar => []
  | SampleKind.tinyVector N => [N]
  | SampleKind.multiArray N => List.replicate N 0

/-- The shape of the covariance-typed member after its default constructor: a
scalar, or an empty `Matrix`. -/
def SampleKind.initialMatrixShape : SampleKind → List Nat
  | SampleKind.scalar => []
  | _ => [0, 0]

/-- The function `ReshapeAccumulator::shape(t)`: the sample's own shape, which
is `Shape1(N)` for a `TinyVector<U, N>`. -/
def SampleKind.shapeOf (kind : SampleKind) (t : Storage K) : List Nat :=
  match kind with
  | SampleKind.tinyVector N => [N]
  | _ => t.shape

/-- The data members of all layers of a chain, each with its run-time shape. -/
structure AState (K : Type) where
  /-- `Count::Impl::count_` -/
  count_ : K
  /-- `Minimum::Impl::min_` -/
  min_ : Storage K
  /-- `Maximum::Impl::max_` -/
  max_ : Storage K
  /-- `Sum::Impl::sum_` -/
  sum_ : Storage K
  /-- `CentralMoment<N>::Impl::moment_`, one member per `N` -/
  moment_ : Nat → Storage K
  /-- `SumSquaredDifferences::Impl::sumOfSquaredDifferences_` -/
  sumOfSquaredDifferences_ : Storage K
  /-- `ScatterMatrix::Impl::scatter_matrix_` -/
  scatter_matrix_ : Storage K
  /-- `ScatterMatrix::Impl::diff_` -/
  diff_ : Storage K

/-- The constructors of all layers: each assigns its initial value to every
element its default-constructed member has. `diff_` has no initialiser; for an
array it is empty all the same. -/
def ainit (e : Env K) (kind : SampleKind) (diff0 : K) : AState K where
  count_ := 0
  min_ := Storage.filled kind.initialShape e.traitsMax
  max_ := Storage.filled kind.initialShape e.traitsMin
  sum_ := Storage.filled kind.initialShape 0
  moment_ := fun _ => Storage.filled kind.initialShape 0
  sumOfSquaredDifferences_ := Storage.filled kind.initialShape 0
  scatter_matrix_ := Storage.filled kind.initialMatrixShape 0
  diff_ := Storage.filled kind.initialShape diff0

/-- The member function `reshape(s)` of the outermost layer of a static chain:
every layer that declares it reshapes its member when the member's type is
in `NeedReshape`, with the layer's own initial value, and calls the next. -/
def areshape (e : Env K) (kind : SampleKind) : List Tag → List Nat → AState K → AState K
  | [], _, st => st
  | Minimum :: rest, s, st =>
      areshape e kind rest s
        (if NeedReshape kind ResultType.MinmaxType then
          { st with min_ := Storage.filled s e.traitsMax }
        else st)
  | Maximum :: rest, s, st =>
      areshape e kind rest s
        (if NeedReshape kind ResultType.MinmaxType then
          { st with max_ := Storage.filled s e.traitsMin }
        else st)
  | Tag.Sum :: rest, s, st =>
      areshape e kind rest s
        (if NeedReshape kind ResultType.SumType then { st with sum_ := Storage.filled s 0 }
        else st)
  | CentralMoment N :: rest, s, st =>
      areshape e kind rest s
        (if NeedReshape kind ResultType.SumType then
          { st with moment_ := Function.update st.moment_ N (Storage.filled s 0) }
        else st)
  | SumSquaredDifferences :: rest, s, st =>
      areshape e kind rest s
        (if NeedReshape kind ResultType.SumType then
          { st with sumOfSquaredDifferences_ := Storage.filled s 0 }
        else st)
  | ScatterMatrix :: rest, s, st =>
      let st1 :=
        if NeedReshape kind ResultType.CovarianceType then
          { st with scatter_matrix_ := Storage.filled [s.prod, s.prod] 0 }
        else st
      let st2 :=
        if NeedReshape kind ResultType.SumType then { st1 with diff_ := Storage.filled s 0 }
        else st1
      areshape e kind rest s st2
  | _ :: rest, s, st => areshape e kind rest s st

/-- The member function `reshape(s)` on a dynamic chain: a wrapper whose flag is
clear passes the call to the next wrapper. -/
def dynamicAreshape (e : Env K) (kind : SampleKind) :
    List Tag → (Tag → Bool) → List Nat → AState K → AState K
  | [], _, _, st => st
  | t :: rest, is_active_, s, st =>
      if is_active_ t then
        dynamicAreshape e kind rest is_active_ s (areshape e kind [t] s st)
      else dynamicAreshape e kind rest is_active_ s st

/-- The members of `ReshapeAccumulator<T, Base, VigraTrueType>`: the flag and
the chain it wraps. -/
structure ReshapeAccumulator (B : Type) where
  /-- `ReshapeAccumulator::needs_reshape_` -/
  needs_reshape_ : Bool
  /-- the base class sub-object -/
  base : B

/-- The constructor `ReshapeAccumulator()`, after the constructors of the chain. -/
def ReshapeAccumulator.construct {B : Type} (base : B) : ReshapeAccumulator B :=
  ⟨true, base⟩

/-- The call `ReshapeAccumulator::operator()(t)`; `reshape` and `baseUpdate`
are `Base::reshape` and `Base::operator()`, the latter giving the members the
call leaves. -/
def ReshapeAccumulator.update {B T : Type} (reshape : List Nat → B → B)
    (shape : T → List Nat) (baseUpdate : B → T → B) (a : ReshapeAccumulator B) (t : T) :
    ReshapeAccumulator B :=
  let a1 : ReshapeAccumulator B :=
    if a.needs_reshape_ then ⟨false, reshape (shape t) a.base⟩ else a
  ⟨a1.needs_reshape_, baseUpdate a1.base t⟩

/-- The call `ReshapeAccumulator::operator()(t, weight)`; the members are those
the base call leaves, whether it returned or threw. -/
def ReshapeAccumulator.updateWeighted {B T : Type} (reshape : List Nat → B → B)
    (shape : T → List Nat) (baseUpdateWeighted : B → T → K → B) (a : ReshapeAccumulator B)
    (t : T) (weight : K) : ReshapeAccumulator B :=
  let a1 : ReshapeAccumulator B :=
    if a.needs_reshape_ then ⟨false, reshape (shape t) a.base⟩ else a
  ⟨a1.needs_reshape_, baseUpdateWeighted a1.base t weight⟩

/-- One call of the feeding interface with a sample of type `T`. -/
inductive SampleCall (T K : Type) where
  | plain (t : T)
  | weighted (t : T) (weight : K)

/-- The sample of a call. -/
def SampleCall.sample {T K : Type} : SampleCall T K → T
  | SampleCall.plain t => t
  | SampleCall.weighted t _ => t

/-- Dispatch of one call on a `ReshapeAccumulator`. -/
def ReshapeAccumulator.step {B T : Type} (reshape : List Nat → B → B) (shape : T → List Nat)
    (baseUpdate : B → T → B) (baseUpdateWeighted : B → T → K → B)
    (a : ReshapeAccumulator B) : SampleCall T K → ReshapeAccumulator B
  | SampleCall.plain t => ReshapeAccumulator.update reshape shape baseUpdate a t
  | SampleCall.weighted t w =>
      ReshapeAccumulator.updateWeighted reshape shape baseUpdateWeighted a t w

/-- Dispatch of one call on the chain inside the `ReshapeAccumulator`. -/
def baseStep {B T : Type} (baseUpdate : B → T → B) (baseUpdateWeighted : B → T → K → B)
    (b : B) : SampleCall T K → B
  | SampleCall.plain t => baseUpdate b t
  | SampleCall.weighted t w => baseUpdateWeighted b t w

/-- The call operators of `Accumulator<T, Selected>`, inherited from
`ReshapeAccumulator`: its specialisation for a chain in which no layer needs a
reshape declares nothing, so the call goes to the chain (the flag is then no
member; it is carried along unchanged here). -/
def accumulatorStep {B T : Type} (kind : SampleKind) (chain : List Tag)
    (reshape : List Nat → B → B) (shape : T → List Nat)
    (baseUpdate : B → T → B) (baseUpdateWeighted : B → T → K → B)
    (a : ReshapeAccumulator B) (c : SampleCall T K) : ReshapeAccumulator B :=
  if NeedsReshapeFor kind chain then
    ReshapeAccumulator.step reshape shape baseUpdate baseUpdateWeighted a c
  else ⟨a.needs_reshape_, baseStep baseUpdate baseUpdateWeighted a.base c⟩


/-! ### Shortest paths: `ShortestPathDijkstra` of `graph_algorithms.hxx`

The class is a template over a graph with the LEMON interface and uses
`ChangeablePriorityQueue`; neither header is among the sources. A graph is
given here by what the search asks of it: the nodes `NodeIt` enumerates and,
for a node, the arcs `OutArcIt` enumerates, each with the id of its edge and
the id of its target node. Nodes are their ids, `lemon::INVALID` is `none`.
The queue is the list of the `(id, priority)` pairs it holds, and `top`, the
id the queue's `top()` returns, is a parameter: it is an entry of least
priority, and which one among several is up to the queue. -/

/-- What the search reads of the graph. -/
structure Graph where
  /-- the nodes in the order `NodeIt` enumerates them -/
  nodes : List Nat
  /-- for a node, the arcs `OutArcIt` enumerates: the edge id and the target -/
  outArcs : Nat → List (Nat × Nat)

/-- The data members of `ShortestPathDijkstra`. -/
structure ShortestPathDijkstra (K : Type) where
  /-- `pq_`: the entries of the queue -/
  pq_ : List (Nat × K)
  /-- `predMap_` -/
  predMap_ : Nat → Option Nat
  /-- `distMap_` -/
  distMap_ : Nat → K
  /-- `discoveryOrder_` -/
  discoveryOrder_ : List Nat
  /-- `source_` -/
  source_ : Option Nat
  /-- `target_` -/
  target_ : Option Nat

/-- What a call leaves: the object after the call returned; `undefinedBack` when
the call evaluates `discoveryOrder_.back()` on an empty array; `fuelOut` when
the loops were cut off by the bound on their iterations. -/
inductive Search (α : Type) where
  | returned (a : α)
  | undefinedBack
  | fuelOut

/-- The ids of the entries of a queue. -/
def pqIds (q : List (Nat × K)) : List Nat :=
  q.map Prod.fst

/-- The call `pq_.contains(id)`. -/
def pqContains (q : List (Nat × K)) (id : Nat) : Bool :=
  decide (id ∈ pqIds q)

/-- The call `pq_.push(id, priority)`: a new entry, or a new priority for the
entry the queue already holds. -/
def pqPush (q : List (Nat × K)) (id : Nat) (priority : K) : List (Nat × K) :=
  if pqContains q id then q.map fun x => if x.1 = id then (id, priority) else x
  else q ++ [(id, priority)]

/-- The call `pq_.pop()`: the entry `top()` returns leaves the queue. -/
def pqPop (top : List (Nat × K) → Nat) (q : List (Nat × K)) : List (Nat × K) :=
  q.filter fun x => decide (x.1 ≠ top q)

/-- The body of the loop over the arcs leaving `topNode`. -/
def relaxArc (weights : Nat → K) (maxDistance : K) (topNode : Nat)
    (st : ShortestPathDijkstra K) (arc : Nat × Nat) : ShortestPathDijkstra K :=
  let otherNode := arc.2
  let edge := arc.1
  if pqContains st.pq_ otherNode then
    let currentDist := st.distMap_ otherNode
    let alternativeDist := st.distMap_ topNode + weights edge
    if alternativeDist < currentDist then
      { st with pq_ := pqPush st.pq_ otherNode alternativeDist,
                distMap_ := Function.update st.distMap_ otherNode alternativeDist,
                predMap_ := Function.update st.predMap_ otherNode (some topNode) }
    else st
  else if st.predMap_ otherNode = none then
    let initialDist := st.distMap_ topNode + weights edge
    if initialDist ≤ maxDistance then
      { st with pq_ := pqPush st.pq_ otherNode initialDist,
                distMap_ := Function.update st.distMap_ otherNode initialDist,
                predMap_ := Function.update st.predMap_ otherNode (some topNode) }
    else st
  else st

/-- The first loop of `runImpl`, cut off after `fuel` iterations. -/
def mainLoop (g : Graph) (top : List (Nat × K) → Nat) (weights : Nat → K)
    (target : Option Nat) (maxDistance : K) :
    Nat → ShortestPathDijkstra K → Option (ShortestPathDijkstra K)
  | 0, _ => none
  | fuel + 1, st =>
      if st.pq_.isEmpty then some st
      else
        let topNode := top st.pq_
        if st.distMap_ topNode > maxDistance then some st
        else
          let st1 := { st with pq_ := pqPop top st.pq_,
                               discoveryOrder_ := st.discoveryOrder_ ++ [topNode] }
          if some topNode = target then some st1
          else
            mainLoop g top weights target maxDistance fuel
              ((g.outArcs topNode).foldl (relaxArc weights maxDistance topNode) st1)

/-- The second loop of `runImpl`, which empties the queue, cut off after `fuel`
iterations. -/
def drain (top : List (Nat × K) → Nat) :
    Nat → ShortestPathDijkstra K → Option (ShortestPathDijkstra K)
  | 0, _ => none
  | fuel + 1, st =>
      if st.pq_.isEmpty then some st
      else
        drain top fuel
          { st with predMap_ := Function.update st.predMap_ (top st.pq_) none,
                    pq_ := pqPop top st.pq_ }

/-- The member function `runImpl(weights, target, maxDistance)`. -/
def runImpl (g : Graph) (top : List (Nat × K) → Nat) (fuel : Nat) (weights : Nat → K)
    (target : Option Nat) (maxDistance : K) (st : ShortestPathDijkstra K) :
    Search (ShortestPathDijkstra K) :=
  match mainLoop g top weights target maxDistance fuel { st with target_ := none } with
  | none => Search.fuelOut
  | some st1 =>
      match drain top fuel st1 with
      | none => Search.fuelOut
      | some st2 =>
          match st2.discoveryOrder_.getLast? with
          | none => Search.undefinedBack
          | some back =>
              if target = none ∨ some back = target then
                Search.returned { st2 with target_ := some back }
              else Search.returned st2

/-- The member function `initializeMaps(source)`. -/
def initializeMaps (g : Graph) (st : ShortestPathDijkstra K) (source : Nat) :
    ShortestPathDijkstra K :=
  let predMap := g.nodes.foldl (fun m node => Function.update m node none) st.predMap_
  { st with predMap_ := Function.update predMap source (some source),
            distMap_ := Function.update st.distMap_ source 0,
            discoveryOrder_ := [],
            pq_ := pqPush st.pq_ source 0,
            source_ := some source }

/-- The member function `reInitializeMaps(source)`. -/
def reInitializeMaps (st : ShortestPathDijkstra K) (source : Nat) : ShortestPathDijkstra K :=
  let predMap :=
    st.discoveryOrder_.foldl (fun m node => Function.update m node none) st.predMap_
  { st with predMap_ := Function.update predMap source (some source),
            distMap_ := Function.update st.distMap_ source 0,
            discoveryOrder_ := [],
            pq_ := pqPush st.pq_ source 0,
            source_ := some source }

/-- The member function `run(weights, source, target, maxDistance)`. -/
def run (g : Graph) (top : List (Nat × K) → Nat) (fuel : Nat) (weights : Nat → K)
    (st : ShortestPathDijkstra K) (source : Nat) (target : Option Nat) (maxDistance : K) :
    Search (ShortestPathDijkstra K) :=
  runImpl g top fuel weights target maxDistance (initializeMaps g st source)

/-- The member function `reRun(weights, source, target, maxDistance)`. -/
def reRun (g : Graph) (top : List (Nat × K) → Nat) (fuel : Nat) (weights : Nat → K)
    (st : ShortestPathDijkstra K) (source : Nat) (target : Option Nat) (maxDistance : K) :
    Search (ShortestPathDijkstra K) :=
  runImpl g top fuel weights target maxDistance (reInitializeMaps st source)

/-- The contract of `ChangeablePriorityQueue::top()`, a header that is not
among the sources: on a queue that is not empty it returns the id of an entry
whose priority no other entry undercuts. -/
def TopSpec (top : List (Nat × K) → Nat) : Prop :=
  ∀ q : List (Nat × K), q ≠ [] → ∃ p, (top q, p) ∈ q ∧ ∀ x ∈ q, p ≤ x.2

/-- A `top()` for evaluation: the first entry of least priority. -/
def topFirst (q : List (Nat × K)) : Nat :=
  match q with
  | [] => 0
  | x :: rest => (rest.foldl (fun best y => if y.2 < best.2 then y else best) x).1

/-- What the search assumes of the graph: `NodeIt` gives every node once and
arcs lead to nodes. -/
def Graph.WellFormed (g : Graph) : Prop :=
  g.nodes.Nodup ∧ ∀ u ∈ g.nodes, ∀ a ∈ g.outArcs u, a.2 ∈ g.nodes

/-- A path from `source` along arcs of the graph, with its end node and the
total weight of its arcs. -/
inductive Walk (g : Graph) (weights : Nat → K) (source : Nat) : Nat → K → Prop where
  | nil : Walk g weights source source 0
  | snoc {x y : Nat} {l : K} (a : Nat × Nat) (h : Walk g weights source x l)
      (ha : a ∈ g.outArcs x) (hy : a.2 = y) : Walk g weights source y (l + weights a.1)

/-- A path from `source` that the predecessors lead back along: every node on
it but `source` is entered by an arc from its predecessor, and every node is in
`S`. -/
inductive PredWalk (g : Graph) (weights : Nat → K) (S : List Nat) (pred : Nat → Option Nat)
    (source : Nat) : Nat → K → Prop where
  | source (hs : source ∈ S) (hp : pred source = some source) :
      PredWalk g weights S pred source source 0
  | step {u v : Nat} {l : K} (a : Nat × Nat) (h : PredWalk g weights S pred source u l)
      (hv : v ∈ S) (hne : v ≠ source) (hp : pred v = some u) (ha : a ∈ g.outArcs u)
      (hy : a.2 = v) : PredWalk g weights S pred source v (l + weights a.1)


/-- All arcs leaving `x` have been looked at: an arc that stays within
`maxDistance` leads to a node that was visited or is queued, at no more than
the distance of `x` plus the weight of the arc. -/
def Relaxed (g : Graph) (weights : Nat → K) (maxDistance : K) (st : ShortestPathDijkstra K)
    (x : Nat) : Prop :=
  ∀ a ∈ g.outArcs x, st.distMap_ x + weights a.1 ≤ maxDistance →
    (a.2 ∈ st.discoveryOrder_ ∨ a.2 ∈ pqIds st.pq_) ∧
      st.distMap_ a.2 ≤ st.distMap_ x + weights a.1

/-- What holds of the members of a search whenever the first loop of `runImpl`
tests its condition, and after it. -/
structure SearchInv (g : Graph) (weights : Nat → K) (maxDistance : K) (source : Nat)
    (st : ShortestPathDijkstra K) : Prop where
  nodupS : st.discoveryOrder_.Nodup
  nodupQ : (pqIds st.pq_).Nodup
  disj : ∀ v ∈ st.discoveryOrder_, v ∉ pqIds st.pq_
  subS : ∀ v ∈ st.discoveryOrder_, v ∈ g.nodes
  subQ : ∀ v ∈ pqIds st.pq_, v ∈ g.nodes
  prio : ∀ x ∈ st.pq_, x.2 = st.distMap_ x.1 ∧ st.distMap_ x.1 ≤ maxDistance
  predNone : ∀ v ∈ g.nodes, v ∉ st.discoveryOrder_ → v ∉ pqIds st.pq_ → st.predMap_ v = none
  predSome : ∀ v, v ∈ st.discoveryOrder_ ∨ v ∈ pqIds st.pq_ → st.predMap_ v ≠ none
  leSQ : ∀ x ∈ st.discoveryOrder_, ∀ y ∈ pqIds st.pq_, st.distMap_ x ≤ st.distMap_ y
  sorted : st.discoveryOrder_.Pairwise fun x y => st.distMap_ x ≤ st.distMap_ y
  boundS : ∀ x ∈ st.discoveryOrder_, st.distMap_ x ≤ maxDistance
  realS : ∀ v ∈ st.discoveryOrder_,
    PredWalk g weights st.discoveryOrder_ st.predMap_ source v (st.distMap_ v)
  treeQ : ∀ v ∈ pqIds st.pq_,
    (st.discoveryOrder_ = [] ∧ v = source ∧ st.distMap_ v = 0 ∧ st.predMap_ v = some source) ∨
    (v ≠ source ∧ ∃ u ∈ st.discoveryOrder_, st.predMap_ v = some u ∧
      ∃ a ∈ g.outArcs u, a.2 = v ∧ st.distMap_ v = st.distMap_ u + weights a.1)
  src : (st.discoveryOrder_ = [] ∧ pqIds st.pq_ = [source]) ∨
    st.discoveryOrder_.head? = some source

/-- During the loop over the arcs of the node just visited: nothing is visited,
the distances of the visited nodes stay, and what is queued stays queued at no
greater distance. -/
def Progress (st st1 : ShortestPathDijkstra K) : Prop :=
  st1.discoveryOrder_ = st.discoveryOrder_ ∧
  (∀ x ∈ st.discoveryOrder_, st1.distMap_ x = st.distMap_ x) ∧
  (∀ v ∈ pqIds st.pq_, v ∈ pqIds st1.pq_ ∧ st1.distMap_ v ≤ st.distMap_ v) ∧
  st1.source_ = st.source_ ∧ st1.target_ = st.target_

/-- How the first loop of `runImpl` ends: with an empty queue, the arcs of all
visited nodes looked at and the target not visited, or by visiting the target. -/
def LoopExit (g : Graph) (weights : Nat → K) (maxDistance : K) (target : Option Nat)
    (st : ShortestPathDijkstra K) : Prop :=
  (st.pq_ = [] ∧ (∀ x ∈ st.discoveryOrder_, Relaxed g weights maxDistance st x) ∧
    ∀ t, target = some t → t ∉ st.discoveryOrder_) ∨
  (∃ t, target = some t ∧ st.discoveryOrder_.getLast? = some t)

/-- The member function `initializeMapsMultiSource(source, source_end)`, the
sources given as a list. -/
def initializeMapsMultiSource (g : Graph) (st : ShortestPathDijkstra K) (sources : List Nat) :
    ShortestPathDijkstra K :=
  let predMap := g.nodes.foldl (fun m node => Function.update m node none) st.predMap_
  let st1 : ShortestPathDijkstra K := { st with predMap_ := predMap, discoveryOrder_ := [] }
  let st2 := sources.foldl
    (fun (s : ShortestPathDijkstra K) source =>
      { s with distMap_ := Function.update s.distMap_ source 0,
               predMap_ := Function.update s.predMap_ source (some source),
               pq_ := pqPush s.pq_ source 0 }) st1
  { st2 with source_ := none }

/-- The member function `runMultiSource(weights, source_begin, source_end,
target, maxDistance)`. -/
def runMultiSource (g : Graph) (top : List (Nat × K) → Nat) (fuel : Nat) (weights : Nat → K)
    (st : ShortestPathDijkstra K) (sources : List Nat) (target : Option Nat)
    (maxDistance : K) : Search (ShortestPathDijkstra K) :=
  runImpl g top fuel weights target maxDistance (initializeMapsMultiSource g st sources)

/-- Modelled from the spec: `allLessEqual(l, r)` of `tinyvector.hxx`, a header
that is not among the sources at hand: every component of `l` is at most the
component of `r`. -/
def allLessEqual (l r : List Int) : Bool :=
  (List.zipWith (fun a b => decide (a ≤ b)) l r).all id

/-- Modelled from the spec: `allLess(l, r)` of `tinyvector.hxx`: every component
of `l` is less than the component of `r`. -/
def allLess (l r : List Int) : Bool :=
  (List.zipWith (fun a b => decide (a < b)) l r).all id

/-- Modelled from the spec: the view `array.subarray(p, q)` of `multi_array.hxx`,
a header that is not among the sources at hand, by the positions it covers:
those from `p` up to, not including, `q` in every dimension. -/
def inSubarray (p q x : List Int) : Bool :=
  allLessEqual p x && allLess x q

/-- Modelled from the spec: `initMultiArrayBorder(array, lower_border,
upper_border, value)` of `multi_pointoperators.hxx`, a header that is not among
the sources at hand, on the view `subarray(p, q)`, by the positions it writes
`value` to: those of the view that in some dimension lie within `lower_border`
of the lower end or within `upper_border` of the upper end. -/
def inBorder (p q lower_border upper_border x : List Int) : Bool :=
  inSubarray p q x &&
    !inSubarray (List.zipWith (fun a b => a + b) p lower_border)
      (List.zipWith (fun a b => a - b) q upper_border) x

/-- The member function `initializeMaps(source, start, stop)` of the
region-of-interest overload of `run`, which is for a `GridGraph`: there a node
is its coordinate vector and `predMap_` is an array over the grid.
`multi_gridgraph.hxx` is not among the sources at hand; the grid is given by
`coord`, the coordinates of the node with a given id, and by `shape`, which is
`predMap_.shape()`. The vector `DONT_TOUCH = Node(lemon::INVALID) - Node(1)` is
no node of the grid; as a predecessor it is kept as the id `DONT_TOUCH`, which
the caller chooses outside the ids of the nodes. -/
def initializeMapsROI (g : Graph) (coord : Nat → List Int) (shape : List Int) (DONT_TOUCH : Nat)
    (st : ShortestPathDijkstra K) (source : Nat) (start stop : List Int) :
    ShortestPathDijkstra K :=
  let left_border := start.map fun a => min a 1
  let right_border := (List.zipWith (fun a b => a - b) shape stop).map fun a => min a 1
  let lower := List.zipWith (fun a b => a - b) start left_border
  let upper := List.zipWith (fun a b => a + b) stop right_border
  let predMap1 :=
    (g.nodes.filter fun node => inBorder lower upper left_border right_border (coord node)).foldl
      (fun m node => Function.update m node (some DONT_TOUCH)) st.predMap_
  let predMap2 :=
    (g.nodes.filter fun node => inSubarray start stop (coord node)).foldl
      (fun m node => Function.update m node none) predMap1
  { st with predMap_ := Function.update predMap2 source (some source),
            distMap_ := Function.update st.distMap_ source 0,
            discoveryOrder_ := [],
            pq_ := pqPush st.pq_ source 0,
            source_ := some source }

/-- The member function `run(start, stop, weights, source, target,
maxDistance)`; `none` is the failure of one of its two preconditions. -/
def runROI (g : Graph) (coord : Nat → List Int) (shape : List Int) (DONT_TOUCH : Nat)
    (top : List (Nat × K) → Nat) (fuel : Nat) (weights : Nat → K)
    (st : ShortestPathDijkstra K) (start stop : List Int) (source : Nat) (target : Option Nat)
    (maxDistance : K) : Option (Search (ShortestPathDijkstra K)) :=
  if allLessEqual start (coord source) && allLess (coord source) stop then
    if (match target with
        | none => true
        | some t => allLessEqual start (coord t) && allLess (coord t) stop) then
      some (runImpl g top fuel weights target maxDistance
        (initializeMapsROI g coord shape DONT_TOUCH st source start stop))
    else none
  else none

/-- What a search keeps of the members, whatever the weights and `maxDistance`:
a node of the graph that is neither visited nor queued has no predecessor, and
what is visited or queued is a node of the graph. -/
def Tidy (g : Graph) (st : ShortestPathDijkstra K) : Prop :=
  (∀ v ∈ g.nodes, v ∉ st.discoveryOrder_ → v ∉ pqIds st.pq_ → st.predMap_ v = none) ∧
  (∀ v ∈ st.discoveryOrder_, v ∈ g.nodes) ∧ ∀ v ∈ pqIds st.pq_, v ∈ g.nodes

/-- An object on which a search has returned that reset the predecessors of all
nodes, and since then only searches that `reRun` started: `run(weights, source,
target, maxDistance)` or `runMultiSource` on an object whose queue is empty, as
it is after construction and after every search that returned, or `reRun` on
an object of this kind; each from nodes of the graph and with a queue that
keeps the contract of `top()`. The region-of-interest overload of `run` is not
among them. -/
inductive Completed (g : Graph) (top : List (Nat × K) → Nat) :
    ShortestPathDijkstra K → Prop where
  | first (st0 st : ShortestPathDijkstra K) (h0 : st0.pq_ = []) (fuel : Nat)
      (weights : Nat → K) (source : Nat) (hs : source ∈ g.nodes) (target : Option Nat)
      (maxDistance : K)
      (h : run g top fuel weights st0 source target maxDistance = Search.returned st) :
      Completed g top st
  | multi (st0 st : ShortestPathDijkstra K) (h0 : st0.pq_ = []) (fuel : Nat)
      (weights : Nat → K) (sources : List Nat) (hs : ∀ s ∈ sources, s ∈ g.nodes)
      (target : Option Nat) (maxDistance : K)
      (h : runMultiSource g top fuel weights st0 sources target maxDistance
        = Search.returned st) :
      Completed g top st
  | reRun (st0 st : ShortestPathDijkstra K) (h0 : Completed g top st0) (fuel : Nat)
      (weights : Nat → K) (source : Nat) (hs : source ∈ g.nodes) (target : Option Nat)
      (maxDistance : K)
      (h : reRun g top fuel weights st0 source target maxDistance = Search.returned st) :
      Completed g top st


instance (g : Graph) : Decidable g.WellFormed := by
  unfold Graph.WellFormed
  infer_instance


/-- The list with every repeated element removed except its first occurrence,
the relative order of the kept elements preserved: the merge as the spec words
it. -/
def keepFirstOccurrence : List Tag → List Tag
  | [] => []
  | x :: xs => x :: (keepFirstOccurrence xs).filter fun y => decide (y ≠ x)

/-- The list with every repeated element removed except its last occurrence,
the relative order of the kept elements preserved. -/
def keepLastOccurrence : List Tag → List Tag
  | [] => []
  | x :: xs => if x ∈ xs then keepLastOccurrence xs else x :: keepLastOccurrence xs

/-- The concatenation, in request order, of the resolved branch of each
requested descriptor: what `PushDependencies` computes for it alone. -/
def resolvedBranches : List Tag → List Tag
  | [] => []
  | t :: rest => PushDependencies [t] ++ resolvedBranches rest

/-- The members a weighted update leaves when a `Minimum` or `Maximum` layer
rejects it, `above` being the layers above the rejecting one: the
`SumSquaredDifferences` and `ScatterMatrix` layers among them have added their
term, which they do before they pass the call on; no other member differs. -/
def rejectedState (above : List Tag) (s : State K) (t weight : K) : State K :=
  { s with
    sumOfSquaredDifferences_ :=
      if SumSquaredDifferences ∈ above ∧ s.count_ ≠ 0 then
        s.sumOfSquaredDifferences_
          + s.count_ / (s.count_ + weight) * weight * sq (s.sum_ / s.count_ - t)
      else s.sumOfSquaredDifferences_
    scatter_matrix_ :=
      if ScatterMatrix ∈ above ∧ s.count_ ≠ 0 then
        s.scatter_matrix_
          + s.count_ / (s.count_ + weight) * weight * (s.sum_ / s.count_ - t)
            * (s.sum_ / s.count_ - t)
      else s.scatter_matrix_
    diff_ :=
      if ScatterMatrix ∈ above ∧ s.count_ ≠ 0 then s.sum_ / s.count_ - t else s.diff_ }


/-! ### Divisions with the divisor checked

The field division used above is total. To speak of a division by zero, the
calls that divide are translated once more, with every quotient of the source
evaluated by `checkedDiv`: the result is `none` as soon as a divisor is zero. -/

/-- The quotient `a / b` of two `double`, `none` when the divisor is zero. -/
def checkedDiv (a b : K) : Option K :=
  if b = 0 then none else some (a / b)

/-- The call `operator()(t)` on the outermost layer of a static chain, as
`update`, with the divisors checked. -/
def updateChecked : List Tag → State K → K → Option (State K)
  | [], s, _ => some s
  | Count :: rest, s, t => do
      let s1 ← updateChecked rest s t
      pure { s1 with count_ := s1.count_ + 1 }
  | Minimum :: rest, s, t => do
      let s1 ← updateChecked rest s t
      pure { s1 with min_ := min s1.min_ t }
  | Maximum :: rest, s, t => do
      let s1 ← updateChecked rest s t
      pure { s1 with max_ := max s1.max_ t }
  | Tag.Sum :: rest, s, t => do
      let s1 ← updateChecked rest s t
      pure { s1 with sum_ := s1.sum_ + t }
  | SumSquaredDifferences :: rest, s, t =>
      let old_count := s.count_
      if old_count ≠ 0 then do
        let q ← checkedDiv old_count (old_count + 1)
        let mean ← checkedDiv s.sum_ old_count
        updateChecked rest
          { s with sumOfSquaredDifferences_ := s.sumOfSquaredDifferences_ + q * sq (mean - t) } t
      else updateChecked rest s t
  | ScatterMatrix :: rest, s, t =>
      let old_count := s.count_
      if old_count ≠ 0 then do
        let mean ← checkedDiv s.sum_ old_count
        let diff := mean - t
        let q ← checkedDiv old_count (old_count + 1)
        let weight := q * 1
        updateChecked rest
          { s with diff_ := diff, scatter_matrix_ := s.scatter_matrix_ + weight * diff * diff } t
      else updateChecked rest s t
  | _ :: rest, s, t => updateChecked rest s t

/-- The call `operator()(t, weight)` on the outermost layer of a static chain,
as `updateWeighted`, with the divisors checked. -/
def updateWeightedChecked : List Tag → State K → K → K → Option (Outcome K)
  | [], s, _, _ => some (Outcome.ok s)
  | Count :: rest, s, t, weight => do
      let o ← updateWeightedChecked rest s t weight
      pure (o.map fun s1 => { s1 with count_ := s1.count_ + weight })
  | Minimum :: _, s, _, _ => some (Outcome.fault s)
  | Maximum :: _, s, _, _ => some (Outcome.fault s)
  | Tag.Sum :: rest, s, t, weight => do
      let o ← updateWeightedChecked rest s t weight
      pure (o.map fun s1 => { s1 with sum_ := s1.sum_ + weight * t })
  | SumSquaredDifferences :: rest, s, t, weight =>
      let old_count := s.count_
      if old_count ≠ 0 then do
        let q ← checkedDiv old_count (old_count + weight)
        let mean ← checkedDiv s.sum_ old_count
        updateWeightedChecked rest
          { s with sumOfSquaredDifferences_ :=
              s.sumOfSquaredDifferences_ + q * weight * sq (mean - t) } t weight
      else updateWeightedChecked rest s t weight
  | ScatterMatrix :: rest, s, t, weight =>
      let old_count := s.count_
      if old_count ≠ 0 then do
        let mean ← checkedDiv s.sum_ old_count
        let diff := mean - t
        let q ← checkedDiv old_count (old_count + weight)
        let weight1 := q * weight
        updateWeightedChecked rest
          { s with diff_ := diff, scatter_matrix_ := s.scatter_matrix_ + weight1 * diff * diff }
          t weight
      else updateWeightedChecked rest s t weight
  | _ :: rest, s, t, weight => updateWeightedChecked rest s t weight

/-- The functions `detail::MergeCentralMoments<N>::exec(l, r)`, as
`MergeCentralMoments`, with the divisors checked, those inside
`get<CentralMoment<2> >` and `get<CentralMoment<3> >` included. The outer
`none` is a division by zero, the inner one the precondition failure. -/
def MergeCentralMomentsChecked (N : Nat) (l r : State K) : Option (Option (State K)) :=
  if N = 2 then do
    let count_l := l.count_
    let count_r := r.count_
    let weight ← checkedDiv (count_l * count_r) (count_l + count_r)
    let mean_l ← checkedDiv l.sum_ count_l
    let mean_r ← checkedDiv r.sum_ count_r
    let moment := l.moment_ 2 + (r.moment_ 2 + weight * sq (mean_l - mean_r))
    pure (some { l with moment_ := Function.update l.moment_ 2 moment })
  else if N = 3 then do
    let count_l := l.count_
    let count_r := r.count_
    let count := count_l + count_r
    let weight ← checkedDiv (count_l * count_r * (count_l - count_r)) (sq count)
    let mean_l ← checkedDiv l.sum_ count_l
    let mean_r ← checkedDiv r.sum_ count_r
    let delta := mean_l - mean_r
    let q ← checkedDiv 3 count
    let moment2_r ← checkedDiv (r.moment_ 2) r.count_
    let moment2_l ← checkedDiv (l.moment_ 2) l.count_
    let moment := l.moment_ 3 +
      (r.moment_ 3 + weight * delta ^ 3 +
        q * delta * (count_l * moment2_r - count_r * moment2_l))
    pure (some { l with moment_ := Function.update l.moment_ 3 moment })
  else if N = 4 then do
    let count_l := l.count_
    let count_r := r.count_
    let count_l_2 := sq count_l
    let count_r_2 := sq count_r
    let count := count_l + count_r
    let weight ←
      checkedDiv (count_l * count_r * (count_l_2 - count_l * count_r + count_r_2)) (count ^ 3)
    let mean_l ← checkedDiv l.sum_ count_l
    let mean_r ← checkedDiv r.sum_ count_r
    let delta := mean_l - mean_r
    let q6 ← checkedDiv 6 (sq count)
    let moment2_r ← checkedDiv (r.moment_ 2) r.count_
    let moment2_l ← checkedDiv (l.moment_ 2) l.count_
    let q4 ← checkedDiv 4 count
    let moment3_r ← checkedDiv (r.moment_ 3) r.count_
    let moment3_l ← checkedDiv (l.moment_ 3) l.count_
    let moment := l.moment_ 4 +
      (r.moment_ 4 + weight * delta ^ 4 +
        q6 * sq delta * (count_l_2 * moment2_r + count_r_2 * moment2_l) +
        q4 * delta * (count_l * moment3_r - count_r * moment3_l))
    pure (some { l with moment_ := Function.update l.moment_ 4 moment })
  else some none

/-- The call `l += r` on the outermost layer of a static chain, as `merge`,
with the divisors checked. -/
def mergeChecked : List Tag → State K → State K → Option (Outcome K)
  | [], l, _ => some (Outcome.ok l)
  | Count :: rest, l, r => do
      let o ← mergeChecked rest l r
      pure (o.map fun l1 => { l1 with count_ := l1.count_ + r.count_ })
  | Minimum :: rest, l, r => do
      let o ← mergeChecked rest l r
      pure (o.map fun l1 => { l1 with min_ := min l1.min_ r.min_ })
  | Maximum :: rest, l, r => do
      let o ← mergeChecked rest l r
      pure (o.map fun l1 => { l1 with max_ := max l1.max_ r.max_ })
  | Tag.Sum :: rest, l, r => do
      let o ← mergeChecked rest l r
      pure (o.map fun l1 => { l1 with sum_ := l1.sum_ + r.sum_ })
  | CentralMoment N :: rest, l, r =>
      match MergeCentralMomentsChecked N l r with
      | none => none
      | some (some l1) => mergeChecked rest l1 r
      | some none => some (Outcome.fault l)
  | SumSquaredDifferences :: rest, l, r => do
      let weight ← checkedDiv (l.count_ * r.count_) (l.count_ + r.count_)
      let mean_l ← checkedDiv l.sum_ l.count_
      let mean_r ← checkedDiv r.sum_ r.count_
      let ssd := l.sumOfSquaredDifferences_ +
        (r.sumOfSquaredDifferences_ + weight * sq (mean_l - mean_r))
      mergeChecked rest { l with sumOfSquaredDifferences_ := ssd } r
  | ScatterMatrix :: rest, l, r => do
      let mean_l ← checkedDiv l.sum_ l.count_
      let mean_r ← checkedDiv r.sum_ r.count_
      let diff := mean_l - mean_r
      let weight ← checkedDiv (l.count_ * r.count_) (l.count_ + r.count_)
      let scatter := l.scatter_matrix_ + weight * diff * diff + r.scatter_matrix_
      mergeChecked rest { l with diff_ := diff, scatter_matrix_ := scatter } r
  | _ :: rest, l, r => mergeChecked rest l r

/-- Result of a call on a chain over vector samples that may hit
`vigra_precondition(false, ...)`: the state after the call, or the state at the
throw. -/
inductive VOutcome (d : Nat) (K : Type) where
  | ok (s : VState d K)
  | fault (s : VState d K)

/-- The state carried by an outcome. -/
def VOutcome.state {d : Nat} {K : Type} : VOutcome d K → VState d K
  | VOutcome.ok s => s
  | VOutcome.fault s => s

/-- Statements that follow a base-class call: skipped when the call threw. -/
def VOutcome.map {d : Nat} {K : Type} (o : VOutcome d K) (f : VState d K → VState d K) :
    VOutcome d K :=
  match o with
  | VOutcome.ok s => VOutcome.ok (f s)
  | VOutcome.fault s => VOutcome.fault s

/-- The call `operator()(t, weight)` on the outermost layer, for vector samples. -/
def vupdateWeighted {d : Nat} : List Tag → VState d K → (Fin d → K) → K → VOutcome d K
  | [], s, _, _ => VOutcome.ok s
  | Count :: rest, s, t, weight =>
      (vupdateWeighted rest s t weight).map fun s1 => { s1 with count_ := s1.count_ + weight }
  | Minimum :: _, s, _, _ => VOutcome.fault s
  | Maximum :: _, s, _, _ => VOutcome.fault s
  | Tag.Sum :: rest, s, t, weight =>
      (vupdateWeighted rest s t weight).map fun s1 =>
        { s1 with sum_ := fun i => s1.sum_ i + weight * t i }
  | SumSquaredDifferences :: rest, s, t, weight =>
      let old_count := s.count_
      let s1 :=
        if old_count ≠ 0 then
          { s with sumOfSquaredDifferences_ := fun i =>
              s.sumOfSquaredDifferences_ i
                + old_count / (old_count + weight) * weight * sq (s.sum_ i / old_count - t i) }
        else s
      vupdateWeighted rest s1 t weight
  | ScatterMatrix :: rest, s, t, weight =>
      let old_count := s.count_
      let s1 :=
        if old_count ≠ 0 then
          let diff := fun i => s.sum_ i / old_count - t i
          let weight1 := old_count / (old_count + weight) * weight
          { s with diff_ := diff,
                   scatter_matrix_ := fun i j => s.scatter_matrix_ i j + weight1 * diff i * diff j }
        else s
      vupdateWeighted rest s1 t weight
  | _ :: rest, s, t, weight => vupdateWeighted rest s t weight

/-- The call `operator()(t, weight)` on a static chain over vector samples, with
the reshape of `ReshapeAccumulator::operator()` before the first sample. -/
def vupdateWeightedTop {d : Nat} (chain : List Tag) (s : VState d K) (t : Fin d → K)
    (weight : K) : VOutcome d K :=
  if NeedsReshape chain then
    let s1 := if s.needs_reshape_ then { vreshape chain s with needs_reshape_ := false } else s
    vupdateWeighted chain s1 t weight
  else vupdateWeighted chain s t weight

/-- The member function `reset()` on a static chain over vector samples: every
layer assigns the initial value to its member, which keeps its shape;
`ScatterMatrix::Impl::reset` leaves `diff_`, and `ReshapeAccumulator` declares
no `reset`, so `needs_reshape_` stays. -/
def vreset {d : Nat} (e : Env K) : List Tag → VState d K → VState d K
  | [], s => s
  | Count :: rest, s => vreset e rest { s with count_ := 0 }
  | Minimum :: rest, s => vreset e rest { s with min_ := fun _ => e.traitsMax }
  | Maximum :: rest, s => vreset e rest { s with max_ := fun _ => e.traitsMin }
  | Tag.Sum :: rest, s => vreset e rest { s with sum_ := fun _ => 0 }
  | CentralMoment N :: rest, s =>
      vreset e rest { s with moment_ := Function.update s.moment_ N fun _ => 0 }
  | SumSquaredDifferences :: rest, s =>
      vreset e rest { s with sumOfSquaredDifferences_ := fun _ => 0 }
  | ScatterMatrix :: rest, s => vreset e rest { s with scatter_matrix_ := fun _ _ => 0 }
  | _ :: rest, s => vreset e rest s

/-- The states of a static chain over vector samples that the interface
produces: the chain as constructed and as reshaped for the first sample, and
what unweighted and weighted updates (returned or thrown), merges that return,
with any such chain of the same composition as second operand, and resets leave. -/
inductive VReachable {d : Nat} (e : Env K) (chain : List Tag) : VState d K → Prop where
  | fresh (diff0 : Fin d → K) : VReachable e chain (vinit e diff0)
  | reshaped (diff0 : Fin d → K) :
      VReachable e chain { vreshape chain (vinit e diff0) with needs_reshape_ := false }
  | update {s : VState d K} (t : Fin d → K) (h : VReachable e chain s) :
      VReachable e chain (vupdateTop chain s t)
  | updateWeighted {s : VState d K} (t : Fin d → K) (weight : K) (h : VReachable e chain s) :
      VReachable e chain (vupdateWeightedTop chain s t weight).state
  | merge {l r m : VState d K} (hl : VReachable e chain l) (hr : VReachable e chain r)
      (hm : vmerge chain l r = some m) : VReachable e chain m
  | reset {s : VState d K} (h : VReachable e chain s) : VReachable e chain (vreset e chain s)


/-! ### Smoothing of node features: `graphSmoothing` of `graph_algorithms.hxx`

Node and edge maps are functions on the ids; a map passed by reference to be
written is an argument and a result. `float` and the feature type are the
ordered field `K`, `std::exp` is a parameter. The caller passes distinct maps,
so a map that is read is not changed by the writes to another. -/

/-- The functor `detail_graph_smoothing::ExpSmoothFactor<T>::operator()`. -/
def ExpSmoothFactor (exp : K → K) (lambda edgeThreshold scale : K) (weight : K) : K :=
  if weight > edgeThreshold then 0 else exp (-1 * lambda * weight) * scale

/-- The body of the loop over the nodes in `graphSmoothingImpl`: the value that
`nodeFeaturesOut[node]` holds at the end of the iteration. The loop over the
arcs carries `featOut`, `weightSum` and `degree`. -/
def smoothNode (g : Graph) (nodeFeaturesIn : Nat → K) (edgeWeights : Nat → K)
    (weightsToSmoothFactor : K → K) (node : Nat) : K :=
  let featIn := nodeFeaturesIn node
  let acc := (g.outArcs node).foldl
    (fun (acc : K × K × Nat) a =>
      let smoothFactor := weightsToSmoothFactor (edgeWeights a.1)
      let neighbourFeat := nodeFeaturesIn a.2 * smoothFactor
      (if acc.2.2 = 0 then neighbourFeat else acc.1 + neighbourFeat,
        acc.2.1 + smoothFactor, acc.2.2 + 1))
    (0, 0, 0)
  let featOut := acc.1
  let weightSum := acc.2.1
  let degree := acc.2.2
  let featIn1 := featIn * (degree : K)
  let weightSum1 := weightSum + (degree : K)
  (featOut + featIn1) / weightSum1

/-- The function `detail_graph_smoothing::graphSmoothingImpl`; the result is
`nodeFeaturesOut` after the call. -/
def graphSmoothingImpl (g : Graph) (nodeFeaturesIn : Nat → K) (edgeWeights : Nat → K)
    (weightsToSmoothFactor : K → K) (nodeFeaturesOut : Nat → K) : Nat → K :=
  g.nodes.foldl
    (fun out node =>
      Function.update out node (smoothNode g nodeFeaturesIn edgeWeights weightsToSmoothFactor node))
    nodeFeaturesOut

/-- The function `graphSmoothing`; the result is `nodeFeaturesOut` after the call. -/
def graphSmoothing (exp : K → K) (g : Graph) (nodeFeaturesIn : Nat → K)
    (edgeIndicator : Nat → K) (lambda edgeThreshold scale : K) (nodeFeaturesOut : Nat → K) :
    Nat → K :=
  graphSmoothingImpl g nodeFeaturesIn edgeIndicator
    (ExpSmoothFactor exp lambda edgeThreshold scale) nodeFeaturesOut

/-- The function `copyNodeMap(g, a, b)`; the result is `b` after the call. -/
def copyNodeMap (g : Graph) (a b : Nat → K) : Nat → K :=
  g.nodes.foldl (fun b node => Function.update b node (a node)) b

/-- The `for` loop of `recursiveGraphSmoothing` with `iterations` rounds to go:
the flag `outAsIn`, `nodeFeaturesBuffer` and `nodeFeaturesOut` after it. -/
def smoothingLoop (exp : K → K) (g : Graph) (edgeIndicator : Nat → K)
    (lambda edgeThreshold scale : K) :
    Nat → Bool → (Nat → K) → (Nat → K) → Bool × (Nat → K) × (Nat → K)
  | 0, outAsIn, nodeFeaturesBuffer, nodeFeaturesOut =>
      (outAsIn, nodeFeaturesBuffer, nodeFeaturesOut)
  | iterations + 1, outAsIn, nodeFeaturesBuffer, nodeFeaturesOut =>
      if outAsIn then
        smoothingLoop exp g edgeIndicator lambda edgeThreshold scale iterations false
          (graphSmoothing exp g nodeFeaturesOut edgeIndicator lambda edgeThreshold scale
            nodeFeaturesBuffer)
          nodeFeaturesOut
      else
        smoothingLoop exp g edgeIndicator lambda edgeThreshold scale iterations true
          nodeFeaturesBuffer
          (graphSmoothing exp g nodeFeaturesBuffer edgeIndicator lambda edgeThreshold scale
            nodeFeaturesOut)

/-- The function `recursiveGraphSmoothing`; the result is `nodeFeaturesBuffer`
and `nodeFeaturesOut` after the call. -/
def recursiveGraphSmoothing (exp : K → K) (g : Graph) (nodeFeaturesIn : Nat → K)
    (edgeIndicator : Nat → K) (lambda edgeThreshold scale : K) (iterations : Nat)
    (nodeFeaturesBuffer nodeFeaturesOut : Nat → K) : (Nat → K) × (Nat → K) :=
  let iterations1 := max 1 iterations
  let out1 := graphSmoothing exp g nodeFeaturesIn edgeIndicator lambda edgeThreshold scale
    nodeFeaturesOut
  let iterations2 := iterations1 - 1
  let r := smoothingLoop exp g edgeIndicator lambda edgeThreshold scale iterations2 true
    nodeFeaturesBuffer out1
  if !r.1 then (r.2.1, copyNodeMap g r.2.1 r.2.2) else (r.2.1, r.2.2)

/-- The result of applying `graphSmoothing` `n` times in succession, starting
from `features`, each application writing into a map that holds `scratch`
before. -/
def smoothedTimes (exp : K → K) (g : Graph) (edgeIndicator : Nat → K)
    (lambda edgeThreshold scale : K) (scratch : Nat → K) : Nat → (Nat → K) → (Nat → K)
  | 0, features => features
  | n + 1, features =>
      graphSmoothing exp g
        (smoothedTimes exp g edgeIndicator lambda edgeThreshold scale scratch n features)
        edgeIndicator lambda edgeThreshold scale scratch

/-! ### Contours: `findAnchorPoint` and `extractContour2` of `convexhull.hxx`

An image is its shape and its pixels; `data x y` is what `image(x, y)` and
`image[Shape2(x, y)]` read, the first index running along the width. An access
outside the shape is undefined behaviour in the source and a result of its own
here. -/

/-- A two-dimensional array of integer pixels. -/
structure Image where
  /-- `width()`: the extent of the first index -/
  width : Nat
  /-- `height()`: the extent of the second index -/
  height : Nat
  /-- the pixels -/
  data : Nat → Nat → Int

/-- The access `image(i, j)`: `none` when it lies outside the image. -/
def Image.at (img : Image) (i j : Nat) : Option Int :=
  if i < img.width ∧ j < img.height then some (img.data i j) else none

/-- What a call of `findAnchorPoint` does: it returns `true` with `anchor_point`
set to `(x, y)`, it returns `false`, or it reads `input_image(i, j)` outside the
image. -/
inductive AnchorResult where
  | found (x y : Nat)
  | notFound
  | outside (i j : Nat)
  deriving DecidableEq

/-- The array `neighbor_coords` of `findAnchorPoint`. -/
def neighbor_coords : List (Int × Int) :=
  [(0, -1), (1, 0), (0, 1), (-1, 0)]

/-- The loop over `i` in `findAnchorPoint` at the pixel `(x, y)`, from the
entries of `neighbor_coords` still to visit; `none` when the loop ends without
a `return`. The sums are taken in `unsigned`. -/
def anchorNeighbors (img : Image) (x y : Nat) : List (Int × Int) → Option AnchorResult
  | [] => none
  | c :: cs =>
      let neighbor_y := (((y : Int) + c.2) % 2 ^ 32).toNat
      let neighbor_x := (((x : Int) + c.1) % 2 ^ 32).toNat
      match img.at neighbor_x neighbor_y with
      | none => some (AnchorResult.outside neighbor_x neighbor_y)
      | some v =>
          if v = 0 then some (AnchorResult.found x y) else anchorNeighbors img x y cs

/-- The loop over `x` in `findAnchorPoint` in the row `y`, from the values of
`x` still to visit; `none` when the loop ends without a `return`. The pixel
tested is `input_image(y, x)`. -/
def anchorRow (img : Image) (y : Nat) : List Nat → Option AnchorResult
  | [] => none
  | x :: xs =>
      match img.at y x with
      | none => some (AnchorResult.outside y x)
      | some v =>
          if v ≠ 0 then
            match anchorNeighbors img x y neighbor_coords with
            | some r => some r
            | none => anchorRow img y xs
          else anchorRow img y xs

/-- The loop over `y` in `findAnchorPoint`, from the values of `y` still to
visit. -/
def anchorRows (img : Image) : List Nat → AnchorResult
  | [] => AnchorResult.notFound
  | y :: ys =>
      match anchorRow img y (List.range' 1 (img.width - 2)) with
      | some r => r
      | none => anchorRows img ys

/-- The function `detail::findAnchorPoint`: `y` runs from 1 while
`y < height() - 1`, `x` from 1 while `x < width() - 1`. -/
def findAnchorPoint (img : Image) : AnchorResult :=
  anchorRows img (List.range' 1 (img.height - 2))

/-- The pixel the claim describes as anchor: `(x, y)` is an interior pixel that
is not zero and has a 4-neighbour that is zero. -/
def IsBorderPixel (img : Image) (x y : Nat) : Prop :=
  1 ≤ x ∧ x + 1 < img.width ∧ 1 ≤ y ∧ y + 1 < img.height ∧ img.data x y ≠ 0 ∧
    (img.data x (y - 1) = 0 ∨ img.data (x + 1) y = 0 ∨ img.data x (y + 1) = 0 ∨
      img.data (x - 1) y = 0)

instance (img : Image) (x y : Nat) : Decidable (IsBorderPixel img x y) := by
  unfold IsBorderPixel
  infer_instance

/-- The call `label_image.isInside(p)`. -/
def Image.isInside (img : Image) (p : Int × Int) : Bool :=
  decide (0 ≤ p.1 ∧ p.1 < (img.width : Int) ∧ 0 ≤ p.2 ∧ p.2 < (img.height : Int))

/-- The access `label_image[p]` at a position inside the image. -/
def Image.label (img : Image) (p : Int × Int) : Int :=
  img.data p.1.toNat p.2.toNat

/-- The array `step` of `extractContour2`. -/
def contourStep : Nat → Int × Int
  | 0 => (-1, 0)
  | 1 => (0, -1)
  | 2 => (1, 0)
  | _ => (0, 1)

/-- The array `contour_offsets` of `extractContour2`. -/
def contour_offsets : Nat → K × K
  | 0 => (0, 1 / 2)
  | 1 => (-1 / 2, 0)
  | 2 => (0, -1 / 2)
  | _ => (1 / 2, 0)

/-- The variables of the loop of `extractContour2`. -/
structure ContourState (K : Type) where
  /-- `position` -/
  position : Int × Int
  /-- `direction` -/
  direction : Nat
  /-- `contour_points` -/
  contour_points : List (K × K)

/-- The body of the `do` loop of `extractContour2`. -/
def contourBody (img : Image) (foreground : Int) (st : ContourState K) : ContourState K :=
  let contour_points := st.contour_points ++
    [((st.position.1 : K) + (contour_offsets st.direction).1,
      (st.position.2 : K) + (contour_offsets st.direction).2)]
  let next_position := st.position + contourStep st.direction
  if img.isInside next_position ∧ img.label next_position = foreground then
    { position := st.position, direction := (st.direction + 1) % 4,
      contour_points := contour_points }
  else
    let position := next_position
    let next_direction := (st.direction + 3) % 4
    let next_position1 := next_position + contourStep next_direction
    if ¬ img.isInside next_position1 ∨ img.label next_position1 ≠ foreground then
      { position := next_position1, direction := next_direction,
        contour_points := contour_points }
    else
      { position := position, direction := st.direction, contour_points := contour_points }

/-- The `do` loop of `extractContour2`, cut off after `fuel` iterations:
`none` when the bound is reached. -/
def contourLoop (img : Image) (foreground : Int) (initial_position : Int × Int)
    (initial_direction : Nat) : Nat → ContourState K → Option (ContourState K)
  | 0, _ => none
  | fuel + 1, st =>
      let st1 := contourBody img foreground st
      if st1.position ≠ initial_position ∨ st1.direction ≠ initial_direction then
        contourLoop img foreground initial_position initial_direction fuel st1
      else some st1

/-- What a call of `extractContour2` leaves: `contour_points` after it returned;
`outsideAccess` when `anchor_point` lies outside the image, where
`label_image[anchor_point]` is undefined; `fuelOut` when the loop was cut off. -/
inductive Contour (α : Type) where
  | returned (a : α)
  | outsideAccess
  | fuelOut

/-- The state in which `extractContour2` enters its loop. -/
def contourStart (anchor_point : Int × Int) (contour_points : List (K × K)) :
    ContourState K :=
  { position := anchor_point + contourStep 0, direction := 3, contour_points := contour_points }

/-- The function `detail::extractContour2`. -/
def extractContour2 (img : Image) (anchor_point : Int × Int) (contour_points : List (K × K))
    (fuel : Nat) : Contour (List (K × K)) :=
  if img.isInside anchor_point then
    let foreground := img.label anchor_point
    let direction := 3
    let initial_direction := direction
    let position := anchor_point + contourStep 0
    let initial_position := position
    match contourLoop img foreground initial_position initial_direction fuel
        { position := position, direction := direction, contour_points := contour_points } with
    | some st => Contour.returned st.contour_points
    | none => Contour.fuelOut
  else Contour.outsideAccess

/-- The state of the loop of `extractContour2` after `n` iterations of its body. -/
def contourAfter (img : Image) (anchor_point : Int × Int) (contour_points : List (K × K)) :
    Nat → ContourState K
  | 0 => contourStart anchor_point contour_points
  | n + 1 => contourBody img (img.label anchor_point)
      (contourAfter img anchor_point contour_points n)

/-- The position is a foreground pixel: inside the image, with the label of the
anchor point. -/
def Image.isForeground (img : Image) (foreground : Int) (p : Int × Int) : Prop :=
  img.isInside p = true ∧ img.label p = foreground

/-- The pixel on the wall side of a position: the one the offset
`contour_offsets[direction]` points to. -/
def wallSide (position : Int × Int) (direction : Nat) : Int × Int :=
  position + contourStep ((direction + 3) % 4)

/-- A point is the midpoint between a foreground pixel and a 4-adjacent position
that is not a foreground pixel (background, or outside the image). -/
def IsWallSection (img : Image) (foreground : Int) (point : K × K) : Prop :=
  ∃ pixel other : Int × Int, img.isForeground foreground pixel ∧
    ¬ img.isForeground foreground other ∧
    (∃ k, k < 4 ∧ other = pixel + contourStep k) ∧
    point = (((pixel.1 : K) + (other.1 : K)) / 2, ((pixel.2 : K) + (other.2 : K)) / 2)

instance (img : Image) (foreground : Int) (p : Int × Int) :
    Decidable (img.isForeground foreground p) := by
  unfold Image.isForeground
  infer_instance

/-- The eight positions around a pixel, as offsets. -/
def aroundOffsets : List (Int × Int) :=
  [(-1, -1), (0, -1), (1, -1), (-1, 0), (1, 0), (-1, 1), (0, 1), (1, 1)]

/-- What holds of the variables of the loop of `extractContour2` whenever its
body starts, and when it ends. -/
def ContourInv (img : Image) (foreground : Int) (st : ContourState K) : Prop :=
  st.direction < 4 ∧ ¬ img.isForeground foreground st.position ∧
    img.isForeground foreground (wallSide st.position st.direction)

/-- Both calls returned or both threw, and the states they leave are related. -/
def VOutcome.Rel {d : Nat} (R : VState d K → VState d K → Prop) :
    VOutcome d K → VOutcome d K → Prop
  | VOutcome.ok s, VOutcome.ok s1 => R s s1
  | VOutcome.fault s, VOutcome.fault s1 => R s s1
  | _, _ => False

/-- The call `reset()` on an `Accumulator`: `ReshapeAccumulator` declares no
`reset`, so the call is `Base::reset()`, the one of the outermost layer, and
`needs_reshape_` keeps its value. -/
def ReshapeAccumulator.reset {B : Type} (baseReset : B → B) (a : ReshapeAccumulator B) :
    ReshapeAccumulator B :=
  ⟨a.needs_reshape_, baseReset a.base⟩

/-! ### `double` with its rounding

The definitions above take `double` as an ordered field. Those of this part
take it as the IEEE 754 binary64 format with the default rounding, to nearest
with ties to even, every arithmetic operation of the source rounded once. A
`Double` is a finite number `m * 2 ^ e`. What is left out: infinities, NaN, the
sign of zero, and the limits of the exponent (a result beyond the largest
`double` is not replaced by an infinity, a result in the subnormal range keeps
53 digits); the quotient by zero is zero as in a field. The evaluations below
stay clear of all of these. The layers of a chain, their members and their
calls are those above, with the same names in the namespace `ieee`. -/

/-- The number of binary digits of `n`, for `n` below `2 ^ fuel`. -/
def bitLength : Nat → Nat → Nat
  | 0, _ => 0
  | fuel + 1, n => if n = 0 then 0 else bitLength fuel (n / 2) + 1

/-- A finite `double`, the number `m * 2 ^ e`: zero is `⟨0, 0⟩`, and any other
value has a significand of 53 binary digits, `2 ^ 52 ≤ |m| < 2 ^ 53`. -/
structure Double where
  /-- the significand, with the sign -/
  m : Int
  /-- the exponent of the last digit of the significand -/
  e : Int
  deriving DecidableEq, Repr

/-- The number a `double` stands for. -/
def Double.toRat (x : Double) : ℚ :=
  (x.m : ℚ) * (2 : ℚ) ^ x.e

/-- The `double` nearest to the fraction `n / d` (`d` positive), the one with
the even significand when two are equally near. -/
def Double.round (n : Int) (d : Nat) : Double :=
  let a := n.natAbs
  if a = 0 then ⟨0, 0⟩
  else
    let s0 : Int := 53 - ((bitLength 4096 a : Int) - (bitLength 4096 d : Int))
    let num := a * 2 ^ s0.toNat
    let den0 := d * 2 ^ (-s0).toNat
    let big : Bool := decide (den0 * 2 ^ 53 ≤ num)
    let den := if big then den0 * 2 else den0
    let s : Int := if big then s0 - 1 else s0
    let q := num / den
    let r := num % den
    let up : Bool := decide (den < 2 * r) || (decide (2 * r = den) && decide (q % 2 = 1))
    let m := if up then q + 1 else q
    let sign : Int := if n < 0 then -1 else 1
    if m = 2 ^ 53 then ⟨sign * 2 ^ 52, 1 - s⟩ else ⟨sign * m, -s⟩

/-- The `double` nearest to `n * 2 ^ e`. -/
def Double.ofDyadic (n : Int) (e : Int) : Double :=
  Double.round (n * 2 ^ e.toNat) (2 ^ (-e).toNat)

/-- The sum `x + y` of two `double`. -/
def Double.add (x y : Double) : Double :=
  let e0 := min x.e y.e
  Double.ofDyadic (x.m * 2 ^ (x.e - e0).toNat + y.m * 2 ^ (y.e - e0).toNat) e0

/-- The negative `-x`. -/
def Double.neg (x : Double) : Double :=
  ⟨-x.m, x.e⟩

/-- The difference `x - y` of two `double`. -/
def Double.sub (x y : Double) : Double :=
  Double.add x (Double.neg y)

/-- The product `x * y` of two `double`. -/
def Double.mul (x y : Double) : Double :=
  Double.ofDyadic (x.m * y.m) (x.e + y.e)

/-- The quotient `x / y` of two `double`; zero when `y` is zero. -/
def Double.div (x y : Double) : Double :=
  if y.m = 0 then ⟨0, 0⟩
  else
    let k := x.e - y.e
    Double.round ((if y.m < 0 then -x.m else x.m) * 2 ^ k.toNat) (y.m.natAbs * 2 ^ (-k).toNat)

/-- The power `pow(x, n)` with an `int` exponent that is not negative, taken as
the `double` nearest to the power. -/
def Double.pow (x : Double) (n : Nat) : Double :=
  Double.ofDyadic (x.m ^ n) (x.e * n)

/-- The comparison `x < y` of two `double`. -/
def Double.lt (x y : Double) : Prop :=
  x.m * 2 ^ (x.e - min x.e y.e).toNat < y.m * 2 ^ (y.e - min x.e y.e).toNat

instance : Add Double := ⟨Double.add⟩

instance : Neg Double := ⟨Double.neg⟩

instance : Sub Double := ⟨Double.sub⟩

instance : Mul Double := ⟨Double.mul⟩

instance : Div Double := ⟨Double.div⟩

instance : HPow Double Nat Double := ⟨Double.pow⟩

instance (n : Nat) : OfNat Double n := ⟨Double.round n 1⟩

instance : LT Double := ⟨Double.lt⟩

instance (x y : Double) : Decidable (x < y) := by
  show Decidable (Double.lt x y)
  unfold Double.lt
  infer_instance

/-- The function `min` on two `double`, as `std::min`. -/
instance : Min Double := ⟨fun x y => if y < x then y else x⟩

/-- The function `max` on two `double`, as `std::max`. -/
instance : Max Double := ⟨fun x y => if x < y then y else x⟩

namespace ieee

/-- `sq` of `mathutil.hxx`. -/
def sq (x : Double) : Double := x * x

/-- The constructors of all layers. `diff_` has no initialiser: `diff0` is
whatever value the member happens to hold. -/
def init (e : Env Double) (diff0 : Double) : State Double where
  count_ := 0
  min_ := e.traitsMax
  max_ := e.traitsMin
  sum_ := 0
  moment_ := fun _ => 0
  sumOfSquaredDifferences_ := 0
  scatter_matrix_ := 0
  diff_ := diff0

/-- The call `operator()(t)` on the outermost layer of a static chain. -/
def update : List Tag → State Double → Double → State Double
  | [], s, _ => s
  | Count :: rest, s, t =>
      let s1 := update rest s t
      { s1 with count_ := s1.count_ + 1 }
  | Minimum :: rest, s, t =>
      let s1 := update rest s t
      { s1 with min_ := min s1.min_ t }
  | Maximum :: rest, s, t =>
      let s1 := update rest s t
      { s1 with max_ := max s1.max_ t }
  | Tag.Sum :: rest, s, t =>
      let s1 := update rest s t
      { s1 with sum_ := s1.sum_ + t }
  | SumSquaredDifferences :: rest, s, t =>
      let old_count := s.count_
      let s1 :=
        if old_count ≠ 0 then
          { s with sumOfSquaredDifferences_ :=
              s.sumOfSquaredDifferences_ + old_count / (old_count + 1) * sq (s.sum_ / old_count - t) }
        else s
      update rest s1 t
  | ScatterMatrix :: rest, s, t =>
      let old_count := s.count_
      let s1 :=
        if old_count ≠ 0 then
          let diff := s.sum_ / old_count - t
          let weight := old_count / (old_count + 1) * 1
          { s with diff_ := diff, scatter_matrix_ := s.scatter_matrix_ + weight * diff * diff }
        else s
      update rest s1 t
  | _ :: rest, s, t => update rest s t

/-- The call `operator()(t, weight)` on the outermost layer of a static chain. -/
def updateWeighted : List Tag → State Double → Double → Double → Outcome Double
  | [], s, _, _ => Outcome.ok s
  | Count :: rest, s, t, weight =>
      (updateWeighted rest s t weight).map fun s1 => { s1 with count_ := s1.count_ + weight }
  | Minimum :: _, s, _, _ => Outcome.fault s
  | Maximum :: _, s, _, _ => Outcome.fault s
  | Tag.Sum :: rest, s, t, weight =>
      (updateWeighted rest s t weight).map fun s1 => { s1 with sum_ := s1.sum_ + weight * t }
  | SumSquaredDifferences :: rest, s, t, weight =>
      let old_count := s.count_
      let s1 :=
        if old_count ≠ 0 then
          { s with sumOfSquaredDifferences_ :=
              s.sumOfSquaredDifferences_
                + old_count / (old_count + weight) * weight * sq (s.sum_ / old_count - t) }
        else s
      updateWeighted rest s1 t weight
  | ScatterMatrix :: rest, s, t, weight =>
      let old_count := s.count_
      let s1 :=
        if old_count ≠ 0 then
          let diff := s.sum_ / old_count - t
          let weight1 := old_count / (old_count + weight) * weight
          { s with diff_ := diff, scatter_matrix_ := s.scatter_matrix_ + weight1 * diff * diff }
        else s
      updateWeighted rest s1 t weight
  | _ :: rest, s, t, weight => updateWeighted rest s t weight

/-- The call `updatePass2(t)`: only `CentralMoment<N>` layers declare it. -/
def updatePass2 : List Tag → State Double → Double → State Double
  | [], s, _ => s
  | CentralMoment N :: rest, s, t =>
      let s1 := updatePass2 rest s t
      { s1 with moment_ :=
          Function.update s1.moment_ N (s1.moment_ N + (t - s1.sum_ / s1.count_) ^ N) }
  | _ :: rest, s, t => updatePass2 rest s t

/-- The value `operator()()` of a layer returns, read from the members. -/
def result (e : Env Double) : Tag → State Double → Double
  | Count, s => s.count_
  | Minimum, s => s.min_
  | Maximum, s => s.max_
  | Tag.Sum, s => s.sum_
  | Mean, s => s.sum_ / s.count_
  | CentralMoment N, s => s.moment_ N / s.count_
  | Skewness, s => e.sqrt s.count_ * s.moment_ 3 / e.pow (s.moment_ 2) (3 / 2)
  | Kurtosis, s => s.count_ * s.moment_ 4 / sq (s.moment_ 2)
  | SumSquaredDifferences, s => s.sumOfSquaredDifferences_
  | Variance, s => s.sumOfSquaredDifferences_ / s.count_
  | StdDev, s => e.sqrt (s.sumOfSquaredDifferences_ / s.count_)
  | UnbiasedVariance, s => s.sumOfSquaredDifferences_ / (s.count_ - 1)
  | UnbiasedStdDev, s => e.sqrt (s.sumOfSquaredDifferences_ / (s.count_ - 1))
  | ScatterMatrix, s => s.scatter_matrix_
  | Covariance, s => s.scatter_matrix_ / s.count_
  | UnbiasedCovariance, s => s.scatter_matrix_ / (s.count_ - 1)

/-- The free function `get<Tag>(a)` on a static chain; `none` is the
precondition failure for a tag without a layer. -/
def get (e : Env Double) (chain : List Tag) (s : State Double) (tag : Tag) : Option Double :=
  if tag ∈ chain then some (result e tag s) else none

/-- The functions `detail::MergeCentralMoments<N>::exec(l, r)`; `none` is the
precondition failure of the primary template. -/
def MergeCentralMoments (N : Nat) (l r : State Double) : Option (State Double) :=
  if N = 2 then
    let count_l := l.count_
    let count_r := r.count_
    let weight := count_l * count_r / (count_l + count_r)
    let moment := l.moment_ 2 +
      (r.moment_ 2 + weight * sq (l.sum_ / count_l - r.sum_ / count_r))
    some { l with moment_ := Function.update l.moment_ 2 moment }
  else if N = 3 then
    let count_l := l.count_
    let count_r := r.count_
    let count := count_l + count_r
    let weight := count_l * count_r * (count_l - count_r) / sq count
    let delta := l.sum_ / count_l - r.sum_ / count_r
    let moment := l.moment_ 3 +
      (r.moment_ 3 + weight * delta ^ 3 +
        3 / count * delta * (count_l * (r.moment_ 2 / r.count_)
                              - count_r * (l.moment_ 2 / l.count_)))
    some { l with moment_ := Function.update l.moment_ 3 moment }
  else if N = 4 then
    let count_l := l.count_
    let count_r := r.count_
    let count_l_2 := sq count_l
    let count_r_2 := sq count_r
    let count := count_l + count_r
    let weight := count_l * count_r * (count_l_2 - count_l * count_r + count_r_2) / count ^ 3
    let delta := l.sum_ / count_l - r.sum_ / count_r
    let moment := l.moment_ 4 +
      (r.moment_ 4 + weight * delta ^ 4 +
        6 / sq count * sq delta * (count_l_2 * (r.moment_ 2 / r.count_)
                                    + count_r_2 * (l.moment_ 2 / l.count_)) +
        4 / count * delta * (count_l * (r.moment_ 3 / r.count_)
                              - count_r * (l.moment_ 3 / l.count_)))
    some { l with moment_ := Function.update l.moment_ 4 moment }
  else none

/-- The call `l += r` on the outermost layer of a static chain (`r` is const). -/
def merge : List Tag → State Double → State Double → Outcome Double
  | [], l, _ => Outcome.ok l
  | Count :: rest, l, r =>
      (merge rest l r).map fun l1 => { l1 with count_ := l1.count_ + r.count_ }
  | Minimum :: rest, l, r =>
      (merge rest l r).map fun l1 => { l1 with min_ := min l1.min_ r.min_ }
  | Maximum :: rest, l, r =>
      (merge rest l r).map fun l1 => { l1 with max_ := max l1.max_ r.max_ }
  | Tag.Sum :: rest, l, r =>
      (merge rest l r).map fun l1 => { l1 with sum_ := l1.sum_ + r.sum_ }
  | CentralMoment N :: rest, l, r =>
      match MergeCentralMoments N l r with
      | some l1 => merge rest l1 r
      | none => Outcome.fault l
  | SumSquaredDifferences :: rest, l, r =>
      let weight := l.count_ * r.count_ / (l.count_ + r.count_)
      let ssd := l.sumOfSquaredDifferences_ +
        (r.sumOfSquaredDifferences_ + weight * sq (l.sum_ / l.count_ - r.sum_ / r.count_))
      merge rest { l with sumOfSquaredDifferences_ := ssd } r
  | ScatterMatrix :: rest, l, r =>
      let diff := l.sum_ / l.count_ - r.sum_ / r.count_
      let weight := l.count_ * r.count_ / (l.count_ + r.count_)
      let scatter := l.scatter_matrix_ + weight * diff * diff + r.scatter_matrix_
      merge rest { l with diff_ := diff, scatter_matrix_ := scatter } r
  | _ :: rest, l, r => merge rest l r

/-- Dispatch of one first-pass call. -/
def step (chain : List Tag) (s : State Double) : Call Double → Outcome Double
  | Call.plain t => Outcome.ok (update chain s t)
  | Call.weighted t w => updateWeighted chain s t w

/-- A caller's first pass: the calls in order, stopping at the first throw. -/
def feed (chain : List Tag) (s : State Double) : List (Call Double) → Outcome Double
  | [] => Outcome.ok s
  | c :: cs => (step chain s c).andThen fun s1 => feed chain s1 cs

/-- A caller's first pass over unweighted samples. -/
def feedAll (chain : List Tag) (s : State Double) (xs : List Double) : State Double :=
  xs.foldl (update chain) s

/-- A caller's second pass over unweighted samples. -/
def feedAllPass2 (chain : List Tag) (s : State Double) (xs : List Double) : State Double :=
  xs.foldl (updatePass2 chain) s

/-- Both passes over the same unweighted samples, on a fresh chain. -/
def twoPass (e : Env Double) (diff0 : Double) (chain : List Tag) (xs : List Double) :
    State Double :=
  feedAllPass2 chain (feedAll chain (init e diff0) xs) xs

/-- The constructors of all layers and of `ReshapeAccumulator`, for vector
samples. -/
def vinit {d : Nat} (e : Env Double) (diff0 : Fin d → Double) : VState d Double where
  count_ := 0
  min_ := fun _ => e.traitsMax
  max_ := fun _ => e.traitsMin
  sum_ := fun _ => 0
  moment_ := fun _ _ => 0
  sumOfSquaredDifferences_ := fun _ => 0
  scatter_matrix_ := fun _ _ => 0
  diff_ := diff0
  needs_reshape_ := true

/-- The member function `reshape(s)` of the layers, for vector samples. -/
def vreshape {d : Nat} : List Tag → VState d Double → VState d Double
  | [], s => s
  | ScatterMatrix :: rest, s => vreshape rest { s with scatter_matrix_ := fun _ _ => 0 }
  | _ :: rest, s => vreshape rest s

/-- The call `operator()(t)` on the outermost layer, for vector samples;
`addWeightedOuterProduct` adds `w*m[i]*m[j]` to the entry `(i, j)`. -/
def vupdate {d : Nat} : List Tag → VState d Double → (Fin d → Double) → VState d Double
  | [], s, _ => s
  | Count :: rest, s, t =>
      let s1 := vupdate rest s t
      { s1 with count_ := s1.count_ + 1 }
  | Minimum :: rest, s, t =>
      let s1 := vupdate rest s t
      { s1 with min_ := fun i => min (s1.min_ i) (t i) }
  | Maximum :: rest, s, t =>
      let s1 := vupdate rest s t
      { s1 with max_ := fun i => max (s1.max_ i) (t i) }
  | Tag.Sum :: rest, s, t =>
      let s1 := vupdate rest s t
      { s1 with sum_ := fun i => s1.sum_ i + t i }
  | SumSquaredDifferences :: rest, s, t =>
      let old_count := s.count_
      let s1 :=
        if old_count ≠ 0 then
          { s with sumOfSquaredDifferences_ := fun i =>
              s.sumOfSquaredDifferences_ i
                + old_count / (old_count + 1) * sq (s.sum_ i / old_count - t i) }
        else s
      vupdate rest s1 t
  | ScatterMatrix :: rest, s, t =>
      let old_count := s.count_
      let s1 :=
        if old_count ≠ 0 then
          let diff := fun i => s.sum_ i / old_count - t i
          let weight := old_count / (old_count + 1) * 1
          { s with diff_ := diff,
                   scatter_matrix_ := fun i j => s.scatter_matrix_ i j + weight * diff i * diff j }
        else s
      vupdate rest s1 t
  | _ :: rest, s, t => vupdate rest s t

/-- The call `operator()(t)` on a static chain over vector samples, with the
reshape of `ReshapeAccumulator::operator()` before the first sample. -/
def vupdateTop {d : Nat} (chain : List Tag) (s : VState d Double) (t : Fin d → Double) :
    VState d Double :=
  if NeedsReshape chain then
    let s1 := if s.needs_reshape_ then { vreshape chain s with needs_reshape_ := false } else s
    vupdate chain s1 t
  else vupdate chain s t

/-- A caller's pass over vector samples. -/
def vfeedAll {d : Nat} (chain : List Tag) (s : VState d Double) (xs : List (Fin d → Double)) :
    VState d Double :=
  xs.foldl (vupdateTop chain) s

end ieee

end ops

/-! ## Lemmas: what one call does to each member -/

theorem Outcome.map_eq_ok {K : Type} {o : Outcome K} {f : State K → State K} {s : State K} :
    o.map f = Outcome.ok s ↔ ∃ s1, o = Outcome.ok s1 ∧ f s1 = s := by
  cases o <;> simp [Outcome.map]

theorem Outcome.andThen_eq_ok {K : Type} {o : Outcome K} {f : State K → Outcome K} {s : State K} :
    o.andThen f = Outcome.ok s ↔ ∃ s1, o = Outcome.ok s1 ∧ f s1 = Outcome.ok s := by
  cases o <;> simp [Outcome.andThen]

theorem mem_of_dep {chain : List Tag} (hw : WellFormed chain) {t d : Tag} (ht : t ∈ chain)
    (hd : d ∈ Dependencies t) : d ∈ chain :=
  hw.2 t ht d hd

section lemmas

set_option linter.unusedSectionVars false

variable {K : Type} [LinearOrderedField K]

theorem update_count (chain : List Tag) (h : chain.Nodup) (s : State K) (t : K) :
    (update chain s t).count_ = if Count ∈ chain then s.count_ + 1 else s.count_ := by
  induction chain generalizing s with
  | nil => simp [update]
  | cons tag rest ih =>
    have hr := (List.nodup_cons.mp h).2
    have hn := (List.nodup_cons.mp h).1
    cases tag <;> simp_all [update] <;> split_ifs <;> simp_all

theorem update_sum (chain : List Tag) (h : chain.Nodup) (s : State K) (t : K) :
    (update chain s t).sum_ = if Tag.Sum ∈ chain then s.sum_ + t else s.sum_ := by
  induction chain generalizing s with
  | nil => simp [update]
  | cons tag rest ih =>
    have hr := (List.nodup_cons.mp h).2
    have hn := (List.nodup_cons.mp h).1
    cases tag <;> simp_all [update] <;> split_ifs <;> simp_all

theorem update_moment (chain : List Tag) (s : State K) (t : K) :
    (update chain s t).moment_ = s.moment_ := by
  induction chain generalizing s with
  | nil => simp [update]
  | cons tag rest ih =>
    cases tag <;> simp_all [update] <;> split_ifs <;> simp_all

theorem update_ssd (chain : List Tag) (h : chain.Nodup) (s : State K) (t : K) :
    (update chain s t).sumOfSquaredDifferences_ =
      if SumSquaredDifferences ∈ chain ∧ s.count_ ≠ 0 then
        s.sumOfSquaredDifferences_ + s.count_ / (s.count_ + 1) * sq (s.sum_ / s.count_ - t)
      else s.sumOfSquaredDifferences_ := by
  induction chain generalizing s with
  | nil => simp [update]
  | cons tag rest ih =>
    have hr := (List.nodup_cons.mp h).2
    have hn := (List.nodup_cons.mp h).1
    cases tag <;> simp_all [update] <;> split_ifs <;> simp_all

theorem updateWeighted_ok (chain : List Tag) (hmin : Minimum ∉ chain) (hmax : Maximum ∉ chain)
    (s : State K) (t w : K) : ∃ s1, updateWeighted chain s t w = Outcome.ok s1 := by
  induction chain generalizing s with
  | nil => exact ⟨s, rfl⟩
  | cons tag rest ih =>
    have hmin1 : Minimum ∉ rest := fun hc => hmin (List.mem_cons_of_mem _ hc)
    have hmax1 : Maximum ∉ rest := fun hc => hmax (List.mem_cons_of_mem _ hc)
    cases tag
    case Minimum => exact absurd (List.mem_cons_self _ _) hmin
    case Maximum => exact absurd (List.mem_cons_self _ _) hmax
    case Count =>
      obtain ⟨s1, h1⟩ := ih hmin1 hmax1 s
      simp only [updateWeighted, h1, Outcome.map]
      exact ⟨_, rfl⟩
    case Sum =>
      obtain ⟨s1, h1⟩ := ih hmin1 hmax1 s
      simp only [updateWeighted, h1, Outcome.map]
      exact ⟨_, rfl⟩
    all_goals
      simp only [updateWeighted]
      exact ih hmin1 hmax1 _

theorem updateWeighted_fields (chain : List Tag) (h : chain.Nodup) (s s1 : State K) (t w : K)
    (hok : updateWeighted chain s t w = Outcome.ok s1) :
    s1.count_ = (if Count ∈ chain then s.count_ + w else s.count_) ∧
    s1.sum_ = (if Tag.Sum ∈ chain then s.sum_ + w * t else s.sum_) ∧
    s1.moment_ = s.moment_ ∧
    s1.sumOfSquaredDifferences_ =
      (if SumSquaredDifferences ∈ chain ∧ s.count_ ≠ 0 then
        s.sumOfSquaredDifferences_ + s.count_ / (s.count_ + w) * w * sq (s.sum_ / s.count_ - t)
      else s.sumOfSquaredDifferences_) := by
  induction chain generalizing s s1 with
  | nil => simp_all [updateWeighted]
  | cons tag rest ih =>
    have hr := (List.nodup_cons.mp h).2
    have hn := (List.nodup_cons.mp h).1
    cases tag
    case Minimum => simp [updateWeighted] at hok
    case Maximum => simp [updateWeighted] at hok
    case Count =>
      simp only [updateWeighted, Outcome.map_eq_ok] at hok
      obtain ⟨s2, h2, rfl⟩ := hok
      have := ih hr s s2 h2
      simp_all
    case Sum =>
      simp only [updateWeighted, Outcome.map_eq_ok] at hok
      obtain ⟨s2, h2, rfl⟩ := hok
      have := ih hr s s2 h2
      simp_all
    case SumSquaredDifferences =>
      simp only [updateWeighted] at hok
      have := ih hr _ s1 hok
      by_cases hc : s.count_ = 0
      · simp_all
      · simp_all
    case ScatterMatrix =>
      simp only [updateWeighted] at hok
      have := ih hr _ s1 hok
      by_cases hc : s.count_ = 0
      · simp_all
      · simp_all
    all_goals
      simp only [updateWeighted] at hok
      have := ih hr _ s1 hok
      simpa only [List.mem_cons, reduceCtorEq, false_or] using this

theorem updatePass2_count (chain : List Tag) (s : State K) (t : K) :
    (updatePass2 chain s t).count_ = s.count_ := by
  induction chain generalizing s with
  | nil => rfl
  | cons tag rest ih => cases tag <;> simp_all [updatePass2]

theorem updatePass2_sum (chain : List Tag) (s : State K) (t : K) :
    (updatePass2 chain s t).sum_ = s.sum_ := by
  induction chain generalizing s with
  | nil => rfl
  | cons tag rest ih => cases tag <;> simp_all [updatePass2]

theorem updatePass2_ssd (chain : List Tag) (s : State K) (t : K) :
    (updatePass2 chain s t).sumOfSquaredDifferences_ = s.sumOfSquaredDifferences_ := by
  induction chain generalizing s with
  | nil => rfl
  | cons tag rest ih => cases tag <;> simp_all [updatePass2]

theorem updatePass2_moment (chain : List Tag) (h : chain.Nodup) (s : State K) (t : K) (N : Nat) :
    (updatePass2 chain s t).moment_ N =
      if CentralMoment N ∈ chain then s.moment_ N + (t - s.sum_ / s.count_) ^ N
      else s.moment_ N := by
  induction chain generalizing s with
  | nil => simp [updatePass2]
  | cons tag rest ih =>
    have hr := (List.nodup_cons.mp h).2
    have hn := (List.nodup_cons.mp h).1
    cases tag
    case CentralMoment M =>
      simp only [updatePass2, updatePass2_count, updatePass2_sum, List.mem_cons,
        CentralMoment.injEq]
      by_cases hNM : N = M
      · subst hNM
        simp [ih hr, hn]
      · have hMN : M ≠ N := fun hc => hNM hc.symm
        simp [Function.update_noteq hNM, ih hr, hNM]
    all_goals
      simp only [updatePass2, List.mem_cons, reduceCtorEq, false_or]
      exact ih hr s

theorem MergeCentralMoments_fields (N : Nat) (l r l1 : State K)
    (h : MergeCentralMoments N l r = some l1) :
    l1.count_ = l.count_ ∧ l1.sum_ = l.sum_ ∧
      l1.sumOfSquaredDifferences_ = l.sumOfSquaredDifferences_ := by
  unfold MergeCentralMoments at h
  split_ifs at h <;> simp at h <;> subst h <;> simp

theorem MergeCentralMoments_isSome (N : Nat) (hN : N = 2 ∨ N = 3 ∨ N = 4) (l r : State K) :
    ∃ l1, MergeCentralMoments N l r = some l1 := by
  rcases hN with rfl | rfl | rfl <;> simp [MergeCentralMoments]

theorem merge_ok (chain : List Tag)
    (h : ∀ N, CentralMoment N ∈ chain → N = 2 ∨ N = 3 ∨ N = 4) (l r : State K) :
    ∃ m, merge chain l r = Outcome.ok m := by
  induction chain generalizing l with
  | nil => exact ⟨l, rfl⟩
  | cons tag rest ih =>
    have h1 : ∀ N, CentralMoment N ∈ rest → N = 2 ∨ N = 3 ∨ N = 4 :=
      fun N hN => h N (List.mem_cons_of_mem _ hN)
    cases tag
    case CentralMoment M =>
      obtain ⟨l1, hl1⟩ := MergeCentralMoments_isSome M (h M (List.mem_cons_self _ _)) l r
      simp only [merge, hl1]
      exact ih h1 l1
    case Count =>
      obtain ⟨m, hm⟩ := ih h1 l
      simp only [merge, hm, Outcome.map]
      exact ⟨_, rfl⟩
    case Minimum =>
      obtain ⟨m, hm⟩ := ih h1 l
      simp only [merge, hm, Outcome.map]
      exact ⟨_, rfl⟩
    case Maximum =>
      obtain ⟨m, hm⟩ := ih h1 l
      simp only [merge, hm, Outcome.map]
      exact ⟨_, rfl⟩
    case Sum =>
      obtain ⟨m, hm⟩ := ih h1 l
      simp only [merge, hm, Outcome.map]
      exact ⟨_, rfl⟩
    all_goals
      simp only [merge]
      exact ih h1 _

theorem merge_fields (chain : List Tag) (h : chain.Nodup) (l r m : State K)
    (hok : merge chain l r = Outcome.ok m) :
    m.count_ = (if Count ∈ chain then l.count_ + r.count_ else l.count_) ∧
    m.sum_ = (if Tag.Sum ∈ chain then l.sum_ + r.sum_ else l.sum_) ∧
    m.sumOfSquaredDifferences_ =
      (if SumSquaredDifferences ∈ chain then
        l.sumOfSquaredDifferences_ + (r.sumOfSquaredDifferences_ +
          l.count_ * r.count_ / (l.count_ + r.count_) *
            sq (l.sum_ / l.count_ - r.sum_ / r.count_))
      else l.sumOfSquaredDifferences_) := by
  induction chain generalizing l m with
  | nil =>
    simp only [merge, Outcome.ok.injEq] at hok
    subst hok
    simp
  | cons tag rest ih =>
    have hr := (List.nodup_cons.mp h).2
    have hn := (List.nodup_cons.mp h).1
    cases tag
    case CentralMoment M =>
      simp only [merge] at hok
      cases hM : MergeCentralMoments M l r with
      | none => simp [hM] at hok
      | some l1 =>
        simp only [hM] at hok
        obtain ⟨h1, h2, h3⟩ := MergeCentralMoments_fields M l r l1 hM
        have := ih hr l1 m hok
        simpa only [List.mem_cons, reduceCtorEq, false_or, h1, h2, h3] using this
    case Count =>
      simp only [merge, Outcome.map_eq_ok] at hok
      obtain ⟨m1, h1, rfl⟩ := hok
      have := ih hr l m1 h1
      simp_all
    case Minimum =>
      simp only [merge, Outcome.map_eq_ok] at hok
      obtain ⟨m1, h1, rfl⟩ := hok
      have := ih hr l m1 h1
      simpa only [List.mem_cons, reduceCtorEq, false_or] using this
    case Maximum =>
      simp only [merge, Outcome.map_eq_ok] at hok
      obtain ⟨m1, h1, rfl⟩ := hok
      have := ih hr l m1 h1
      simpa only [List.mem_cons, reduceCtorEq, false_or] using this
    case Sum =>
      simp only [merge, Outcome.map_eq_ok] at hok
      obtain ⟨m1, h1, rfl⟩ := hok
      have := ih hr l m1 h1
      simp_all
    case SumSquaredDifferences =>
      simp only [merge] at hok
      have := ih hr _ m hok
      simp_all
    case ScatterMatrix =>
      simp only [merge] at hok
      have := ih hr _ m hok
      simpa only [List.mem_cons, reduceCtorEq, false_or] using this
    all_goals
      simp only [merge] at hok
      have := ih hr _ m hok
      simpa only [List.mem_cons, reduceCtorEq, false_or] using this

/-! ## Lemmas: whole passes -/

theorem feed_plain (chain : List Tag) (s : State K) (xs : List K) :
    feed chain s (xs.map Call.plain) = Outcome.ok (feedAll chain s xs) := by
  induction xs generalizing s with
  | nil => rfl
  | cons x xs ih => simp [feed, step, Outcome.andThen, feedAll, ih]

theorem feed_ok (chain : List Tag) (hmin : Minimum ∉ chain) (hmax : Maximum ∉ chain)
    (s : State K) (calls : List (Call K)) : ∃ s1, feed chain s calls = Outcome.ok s1 := by
  induction calls generalizing s with
  | nil => exact ⟨s, rfl⟩
  | cons c cs ih =>
    cases c with
    | plain t => simpa [feed, step, Outcome.andThen] using ih _
    | weighted t w =>
      obtain ⟨s1, h1⟩ := updateWeighted_ok chain hmin hmax s t w
      simpa [feed, step, Outcome.andThen, h1] using ih _

theorem feed_fields (chain : List Tag) (h : chain.Nodup) (s s1 : State K)
    (calls : List (Call K)) (hok : feed chain s calls = Outcome.ok s1) :
    s1.count_ = (if Count ∈ chain then s.count_ + totalWeight calls else s.count_) ∧
    s1.sum_ = (if Tag.Sum ∈ chain then s.sum_ + weightedSum calls else s.sum_) := by
  induction calls generalizing s with
  | nil =>
    simp only [feed, Outcome.ok.injEq] at hok
    subst hok
    simp [totalWeight, weightedSum]
  | cons c cs ih =>
    simp only [feed, Outcome.andThen_eq_ok] at hok
    obtain ⟨s2, h2, h3⟩ := hok
    obtain ⟨ih1, ih2⟩ := ih s2 h3
    cases c with
    | plain t =>
      simp only [step, Outcome.ok.injEq] at h2
      subst h2
      rw [ih1, ih2, update_count chain h, update_sum chain h]
      constructor <;> split_ifs <;>
        simp [totalWeight, weightedSum, Call.weight, Call.value, add_assoc]
    | weighted t w =>
      simp only [step] at h2
      obtain ⟨f1, f2, -, -⟩ := updateWeighted_fields chain h s s2 t w h2
      rw [ih1, ih2, f1, f2]
      constructor <;> split_ifs <;>
        simp [totalWeight, weightedSum, Call.weight, Call.value, add_assoc]

theorem feedAll_append (chain : List Tag) (s : State K) (xs ys : List K) :
    feedAll chain s (xs ++ ys) = feedAll chain (feedAll chain s xs) ys := by
  simp [feedAll, List.foldl_append]

theorem feedAll_concat (chain : List Tag) (s : State K) (xs : List K) (x : K) :
    feedAll chain s (xs ++ [x]) = update chain (feedAll chain s xs) x := by
  simp [feedAll, List.foldl_append]

theorem feedAll_count (chain : List Tag) (h : chain.Nodup) (s : State K) (xs : List K) :
    (feedAll chain s xs).count_ =
      if Count ∈ chain then s.count_ + (xs.length : K) else s.count_ := by
  induction xs generalizing s with
  | nil => simp [feedAll]
  | cons x xs ih =>
    have := ih (update chain s x)
    simp only [feedAll, List.foldl_cons] at this ⊢
    rw [this, update_count chain h]
    split_ifs
    · simp only [List.length_cons, Nat.cast_add, Nat.cast_one]
      ring
    · rfl

theorem feedAll_sum (chain : List Tag) (h : chain.Nodup) (s : State K) (xs : List K) :
    (feedAll chain s xs).sum_ = if Tag.Sum ∈ chain then s.sum_ + xs.sum else s.sum_ := by
  induction xs generalizing s with
  | nil => simp [feedAll]
  | cons x xs ih =>
    have := ih (update chain s x)
    simp only [feedAll, List.foldl_cons] at this ⊢
    rw [this, update_sum chain h]
    split_ifs <;> simp [add_assoc]

theorem feedAll_moment (chain : List Tag) (s : State K) (xs : List K) :
    (feedAll chain s xs).moment_ = s.moment_ := by
  induction xs generalizing s with
  | nil => rfl
  | cons x xs ih =>
    have := ih (update chain s x)
    simp only [feedAll, List.foldl_cons] at this ⊢
    rw [this, update_moment]

theorem feedAll_ssd (e : Env K) (diff0 : K) (chain : List Tag) (h : chain.Nodup)
    (hc : Count ∈ chain) (hs : Tag.Sum ∈ chain) (hd : SumSquaredDifferences ∈ chain)
    (xs : List K) :
    (feedAll chain (init e diff0) xs).sumOfSquaredDifferences_ =
      (xs.map fun x => x ^ 2).sum - xs.sum ^ 2 / (xs.length : K) := by
  induction xs using List.reverseRecOn with
  | nil => simp [feedAll, init]
  | append_singleton xs x ih =>
    have hcnt : (feedAll chain (init e diff0) xs).count_ = (xs.length : K) := by
      rw [feedAll_count chain h, if_pos hc]
      simp [init]
    have hsum : (feedAll chain (init e diff0) xs).sum_ = xs.sum := by
      rw [feedAll_sum chain h, if_pos hs]
      simp [init]
    rw [feedAll_concat, update_ssd chain h, ih, hcnt, hsum]
    simp only [hd, true_and, List.map_append, List.sum_append, List.map_cons, List.map_nil,
      List.sum_cons, List.sum_nil, add_zero, List.length_append, List.length_singleton,
      Nat.cast_add, Nat.cast_one]
    rcases xs with _ | ⟨y, ys⟩
    · simp
    · have hn : ((y :: ys).length : K) ≠ 0 := by
        simp only [List.length_cons, Nat.cast_add, Nat.cast_one]
        positivity
      have hn1 : ((y :: ys).length : K) + 1 ≠ 0 := by positivity
      rw [if_pos hn]
      simp only [sq]
      field_simp
      ring

theorem feedAll_ssd_of_not_mem (chain : List Tag) (h : chain.Nodup)
    (hd : SumSquaredDifferences ∉ chain) (s : State K) (xs : List K) :
    (feedAll chain s xs).sumOfSquaredDifferences_ = s.sumOfSquaredDifferences_ := by
  induction xs generalizing s with
  | nil => rfl
  | cons x xs ih =>
    have := ih (update chain s x)
    simp only [feedAll, List.foldl_cons] at this ⊢
    rw [this, update_ssd chain h]
    simp [hd]

theorem feedAllPass2_count (chain : List Tag) (s : State K) (xs : List K) :
    (feedAllPass2 chain s xs).count_ = s.count_ := by
  induction xs generalizing s with
  | nil => rfl
  | cons x xs ih =>
    have := ih (updatePass2 chain s x)
    simp only [feedAllPass2, List.foldl_cons] at this ⊢
    rw [this, updatePass2_count]

theorem feedAllPass2_sum (chain : List Tag) (s : State K) (xs : List K) :
    (feedAllPass2 chain s xs).sum_ = s.sum_ := by
  induction xs generalizing s with
  | nil => rfl
  | cons x xs ih =>
    have := ih (updatePass2 chain s x)
    simp only [feedAllPass2, List.foldl_cons] at this ⊢
    rw [this, updatePass2_sum]

theorem feedAllPass2_ssd (chain : List Tag) (s : State K) (xs : List K) :
    (feedAllPass2 chain s xs).sumOfSquaredDifferences_ = s.sumOfSquaredDifferences_ := by
  induction xs generalizing s with
  | nil => rfl
  | cons x xs ih =>
    have := ih (updatePass2 chain s x)
    simp only [feedAllPass2, List.foldl_cons] at this ⊢
    rw [this, updatePass2_ssd]

theorem feedAllPass2_moment (chain : List Tag) (h : chain.Nodup) (s : State K) (xs : List K)
    (N : Nat) :
    (feedAllPass2 chain s xs).moment_ N =
      if CentralMoment N ∈ chain then
        s.moment_ N + (xs.map fun x => (x - s.sum_ / s.count_) ^ N).sum
      else s.moment_ N := by
  induction xs generalizing s with
  | nil => simp [feedAllPass2]
  | cons x xs ih =>
    have := ih (updatePass2 chain s x)
    simp only [feedAllPass2, List.foldl_cons] at this ⊢
    rw [this, updatePass2_moment chain h, updatePass2_count, updatePass2_sum]
    split_ifs
    · simp [add_assoc]
    · rfl

/-- After both passes on a fresh chain, the members `count_`, `sum_` and
`moment_ N` hold the sample count, the sample sum and the `N`-th central sum. -/
theorem twoPass_fields (e : Env K) (diff0 : K) (chain : List Tag) (h : chain.Nodup)
    (hc : Count ∈ chain) (hs : Tag.Sum ∈ chain) (xs : List K) :
    (twoPass e diff0 chain xs).count_ = (xs.length : K) ∧
    (twoPass e diff0 chain xs).sum_ = xs.sum ∧
    ∀ N, (twoPass e diff0 chain xs).moment_ N =
      if CentralMoment N ∈ chain then specCentralSum N xs else 0 := by
  have hcnt : (feedAll chain (init e diff0) xs).count_ = (xs.length : K) := by
    rw [feedAll_count chain h, if_pos hc]
    simp [init]
  have hsum : (feedAll chain (init e diff0) xs).sum_ = xs.sum := by
    rw [feedAll_sum chain h, if_pos hs]
    simp [init]
  refine ⟨?_, ?_, ?_⟩
  · rw [twoPass, feedAllPass2_count, hcnt]
  · rw [twoPass, feedAllPass2_sum, hsum]
  · intro N
    rw [twoPass, feedAllPass2_moment chain h, feedAll_moment, hcnt, hsum]
    simp [init, specCentralSum, specMean]

/-! ## Lemmas: the spec-side sums -/

theorem sum_sq_sub (xs : List K) (m : K) :
    (xs.map fun x => (x - m) ^ 2).sum =
      (xs.map fun x => x ^ 2).sum - 2 * m * xs.sum + (xs.length : K) * m ^ 2 := by
  induction xs with
  | nil => simp
  | cons x xs ih =>
    simp only [List.map_cons, List.sum_cons, List.length_cons, Nat.cast_add, Nat.cast_one, ih]
    ring

theorem specCentralSum_two (xs : List K) (hne : xs ≠ []) :
    specCentralSum 2 xs = (xs.map fun x => x ^ 2).sum - xs.sum ^ 2 / (xs.length : K) := by
  have hn : (xs.length : K) ≠ 0 := by
    have : 0 < xs.length := List.length_pos.mpr hne
    exact_mod_cast this.ne'
  rw [specCentralSum, sum_sq_sub, specMean]
  field_simp
  ring

theorem specCentralSum_nonneg_two (xs : List K) : 0 ≤ specCentralSum 2 xs := by
  unfold specCentralSum
  apply List.sum_nonneg
  intro y hy
  obtain ⟨x, -, rfl⟩ := List.mem_map.mp hy
  positivity

theorem specMean_perm {xs ys : List K} (hp : xs.Perm ys) : specMean xs = specMean ys := by
  rw [specMean, specMean, hp.sum_eq, hp.length_eq]

theorem specCentralSum_perm (N : Nat) {xs ys : List K} (hp : xs.Perm ys) :
    specCentralSum N xs = specCentralSum N ys := by
  rw [specCentralSum, specCentralSum, specMean_perm hp]
  exact (hp.map _).sum_eq

theorem totalWeight_eq (calls : List (Call K)) :
    totalWeight calls = (numberUnweighted calls : K) + sumOfWeights calls := by
  induction calls with
  | nil => simp [totalWeight, numberUnweighted, sumOfWeights]
  | cons c cs ih =>
    simp only [totalWeight, List.map_cons, List.sum_cons] at ih ⊢
    cases c with
    | plain t =>
      simp only [Call.weight, numberUnweighted, sumOfWeights, Nat.cast_add, Nat.cast_one, ih]
      ring
    | weighted t w =>
      simp only [Call.weight, numberUnweighted, sumOfWeights, ih]
      ring

theorem plain_calls (calls : List (Call K)) (h : ∀ c ∈ calls, ∃ t, c = Call.plain t) :
    numberUnweighted calls = calls.length ∧ sumOfWeights calls = 0 := by
  induction calls with
  | nil => exact ⟨rfl, rfl⟩
  | cons c cs ih =>
    obtain ⟨t, rfl⟩ := h c (List.mem_cons_self _ _)
    obtain ⟨h1, h2⟩ := ih fun d hd => h d (List.mem_cons_of_mem _ hd)
    exact ⟨by simp [numberUnweighted, h1], by simp [sumOfWeights, h2]⟩

theorem totalWeight_plain (xs : List K) :
    totalWeight (xs.map Call.plain) = (xs.length : K) := by
  induction xs with
  | nil => simp [totalWeight]
  | cons x xs ih =>
    simp only [totalWeight, List.map_cons, List.sum_cons, List.length_cons, Nat.cast_add,
      Nat.cast_one, Call.weight] at ih ⊢
    rw [ih]
    ring

theorem updateWeighted_fault (chain : List Tag) (h : Minimum ∈ chain ∨ Maximum ∈ chain)
    (s : State K) (t w : K) : ∃ s1, updateWeighted chain s t w = Outcome.fault s1 := by
  induction chain generalizing s with
  | nil => simp at h
  | cons tag rest ih =>
    cases tag
    case Minimum => exact ⟨s, rfl⟩
    case Maximum => exact ⟨s, rfl⟩
    case Count =>
      obtain ⟨s1, h1⟩ := ih (by simpa using h) s
      simp only [updateWeighted, h1, Outcome.map]
      exact ⟨_, rfl⟩
    case Sum =>
      obtain ⟨s1, h1⟩ := ih (by simpa using h) s
      simp only [updateWeighted, h1, Outcome.map]
      exact ⟨_, rfl⟩
    all_goals
      simp only [updateWeighted]
      exact ih (by simpa using h) _

/-- Whether a first pass is accepted does not depend on the state it starts from. -/
theorem feed_ok_of_feed_ok (chain : List Tag) (calls : List (Call K)) (s s1 : State K)
    (hok : feed chain s calls = Outcome.ok s1) (s2 : State K) :
    ∃ s3, feed chain s2 calls = Outcome.ok s3 := by
  induction calls generalizing s s2 with
  | nil => exact ⟨s2, rfl⟩
  | cons c cs ih =>
    simp only [feed, Outcome.andThen_eq_ok] at hok
    obtain ⟨s4, h4, h5⟩ := hok
    cases c with
    | plain t =>
      simp only [feed, step, Outcome.andThen]
      exact ih _ h5 _
    | weighted t w =>
      simp only [step] at h4
      have hno : ¬ (Minimum ∈ chain ∨ Maximum ∈ chain) := by
        intro hc
        obtain ⟨s6, h6⟩ := updateWeighted_fault chain hc s t w
        rw [h6] at h4
        cases h4
      push_neg at hno
      obtain ⟨s6, h6⟩ := updateWeighted_ok chain hno.1 hno.2 s2 t w
      simp only [feed, step, h6, Outcome.andThen]
      exact ih _ h5 _

theorem feed_append (chain : List Tag) (s : State K) (xs ys : List (Call K)) :
    feed chain s (xs ++ ys) = (feed chain s xs).andThen fun s1 => feed chain s1 ys := by
  induction xs generalizing s with
  | nil => rfl
  | cons c cs ih =>
    rw [List.cons_append, feed, feed]
    cases step chain s c with
    | ok s1 => exact ih s1
    | fault s1 => rfl

/-- The members a permutation of the samples cannot change, for one pass and
for both passes. -/
theorem perm_fields (e : Env K) (diff0 : K) (chain : List Tag) (hw : WellFormed chain)
    {S P : List K} (hp : S.Perm P) :
    (feedAll chain (init e diff0) S).count_ = (feedAll chain (init e diff0) P).count_ ∧
    (feedAll chain (init e diff0) S).sum_ = (feedAll chain (init e diff0) P).sum_ ∧
    (feedAll chain (init e diff0) S).sumOfSquaredDifferences_
      = (feedAll chain (init e diff0) P).sumOfSquaredDifferences_ ∧
    (twoPass e diff0 chain S).count_ = (twoPass e diff0 chain P).count_ ∧
    (twoPass e diff0 chain S).sum_ = (twoPass e diff0 chain P).sum_ ∧
    ∀ N, (twoPass e diff0 chain S).moment_ N = (twoPass e diff0 chain P).moment_ N := by
  have hcnt : (feedAll chain (init e diff0) S).count_
      = (feedAll chain (init e diff0) P).count_ := by
    rw [feedAll_count chain hw.1, feedAll_count chain hw.1, hp.length_eq]
  have hsum : (feedAll chain (init e diff0) S).sum_
      = (feedAll chain (init e diff0) P).sum_ := by
    rw [feedAll_sum chain hw.1, feedAll_sum chain hw.1, hp.sum_eq]
  refine ⟨hcnt, hsum, ?_, ?_, ?_, ?_⟩
  · by_cases hd : SumSquaredDifferences ∈ chain
    · have hmean : Mean ∈ chain := mem_of_dep hw hd (by simp [Dependencies])
      have hc : Count ∈ chain := mem_of_dep hw hd (by simp [Dependencies])
      have hs : Tag.Sum ∈ chain := mem_of_dep hw hmean (by simp [Dependencies])
      rw [feedAll_ssd e diff0 chain hw.1 hc hs hd, feedAll_ssd e diff0 chain hw.1 hc hs hd,
        (hp.map _).sum_eq, hp.sum_eq, hp.length_eq]
    · rw [feedAll_ssd_of_not_mem chain hw.1 hd, feedAll_ssd_of_not_mem chain hw.1 hd]
  · rw [twoPass, twoPass, feedAllPass2_count, feedAllPass2_count, hcnt]
  · rw [twoPass, twoPass, feedAllPass2_sum, feedAllPass2_sum, hsum]
  · intro N
    rw [twoPass, twoPass, feedAllPass2_moment chain hw.1, feedAllPass2_moment chain hw.1,
      feedAll_moment, feedAll_moment, hcnt, hsum]
    split_ifs
    · rw [(hp.map _).sum_eq]
    · rfl

/-! ## Lemmas: the merge of the second central moment -/

theorem MergeCentralMoments_moment_of_ne (N M : Nat) (hne : M ≠ N) (l r l1 : State K)
    (h : MergeCentralMoments N l r = some l1) : l1.moment_ M = l.moment_ M := by
  unfold MergeCentralMoments at h
  split_ifs at h with h2 h3 h4
  · simp only [Option.some.injEq] at h
    subst h
    subst h2
    simp [Function.update_noteq hne]
  · simp only [Option.some.injEq] at h
    subst h
    subst h3
    simp [Function.update_noteq hne]
  · simp only [Option.some.injEq] at h
    subst h
    subst h4
    simp [Function.update_noteq hne]

theorem merge_moment_of_not_mem (chain : List Tag) (N : Nat) (hN : CentralMoment N ∉ chain)
    (l r m : State K) (hok : merge chain l r = Outcome.ok m) : m.moment_ N = l.moment_ N := by
  induction chain generalizing l m with
  | nil =>
    simp only [merge, Outcome.ok.injEq] at hok
    rw [← hok]
  | cons tag rest ih =>
    have hN1 : CentralMoment N ∉ rest := fun hc => hN (List.mem_cons_of_mem _ hc)
    cases tag
    case CentralMoment M =>
      have hMN : N ≠ M := by
        intro hc
        subst hc
        exact hN (List.mem_cons_self _ _)
      simp only [merge] at hok
      cases hM : MergeCentralMoments M l r with
      | none => simp [hM] at hok
      | some l1 =>
        simp only [hM] at hok
        rw [ih hN1 l1 m hok, MergeCentralMoments_moment_of_ne M N hMN l r l1 hM]
    case Count =>
      simp only [merge, Outcome.map_eq_ok] at hok
      obtain ⟨m1, h1, rfl⟩ := hok
      exact ih hN1 l m1 h1
    case Minimum =>
      simp only [merge, Outcome.map_eq_ok] at hok
      obtain ⟨m1, h1, rfl⟩ := hok
      exact ih hN1 l m1 h1
    case Maximum =>
      simp only [merge, Outcome.map_eq_ok] at hok
      obtain ⟨m1, h1, rfl⟩ := hok
      exact ih hN1 l m1 h1
    case Sum =>
      simp only [merge, Outcome.map_eq_ok] at hok
      obtain ⟨m1, h1, rfl⟩ := hok
      exact ih hN1 l m1 h1
    all_goals
      simp only [merge] at hok
      exact (ih hN1 _ m hok).trans rfl

theorem merge_moment_two (chain : List Tag) (h : chain.Nodup)
    (h2 : CentralMoment 2 ∈ chain) (l r m : State K) (hok : merge chain l r = Outcome.ok m) :
    m.moment_ 2 = l.moment_ 2 + (r.moment_ 2 +
      l.count_ * r.count_ / (l.count_ + r.count_) *
        sq (l.sum_ / l.count_ - r.sum_ / r.count_)) := by
  induction chain generalizing l m with
  | nil => simp at h2
  | cons tag rest ih =>
    have hr := (List.nodup_cons.mp h).2
    have hn := (List.nodup_cons.mp h).1
    cases tag
    case CentralMoment M =>
      simp only [merge] at hok
      cases hM : MergeCentralMoments M l r with
      | none => simp [hM] at hok
      | some l1 =>
        simp only [hM] at hok
        obtain ⟨f1, f2, -⟩ := MergeCentralMoments_fields M l r l1 hM
        by_cases hM2 : M = 2
        · subst hM2
          rw [merge_moment_of_not_mem rest 2 hn l1 r m hok]
          simp only [MergeCentralMoments, if_true, Option.some.injEq] at hM
          rw [← hM]
          simp
        · have h2r : CentralMoment 2 ∈ rest := by
            rcases List.mem_cons.mp h2 with hc | hc
            · exact absurd (CentralMoment.inj hc).symm hM2
            · exact hc
          rw [ih hr h2r l1 m hok, f1, f2,
            MergeCentralMoments_moment_of_ne M 2 (fun hc => hM2 hc.symm) l r l1 hM]
    case Count =>
      simp only [merge, Outcome.map_eq_ok] at hok
      obtain ⟨m1, h1, rfl⟩ := hok
      exact ih hr (by simpa using h2) l m1 h1
    case Minimum =>
      simp only [merge, Outcome.map_eq_ok] at hok
      obtain ⟨m1, h1, rfl⟩ := hok
      exact ih hr (by simpa using h2) l m1 h1
    case Maximum =>
      simp only [merge, Outcome.map_eq_ok] at hok
      obtain ⟨m1, h1, rfl⟩ := hok
      exact ih hr (by simpa using h2) l m1 h1
    case Sum =>
      simp only [merge, Outcome.map_eq_ok] at hok
      obtain ⟨m1, h1, rfl⟩ := hok
      exact ih hr (by simpa using h2) l m1 h1
    all_goals
      simp only [merge] at hok
      exact (ih hr (by simpa using h2) _ m hok).trans rfl

/-! ## Lemmas: the extrema -/

theorem update_min (chain : List Tag) (h : chain.Nodup) (s : State K) (t : K) :
    (update chain s t).min_ = if Minimum ∈ chain then min s.min_ t else s.min_ := by
  induction chain generalizing s with
  | nil => simp [update]
  | cons tag rest ih =>
    have hr := (List.nodup_cons.mp h).2
    have hn := (List.nodup_cons.mp h).1
    cases tag <;> simp_all [update] <;> split_ifs <;> simp_all

theorem update_max (chain : List Tag) (h : chain.Nodup) (s : State K) (t : K) :
    (update chain s t).max_ = if Maximum ∈ chain then max s.max_ t else s.max_ := by
  induction chain generalizing s with
  | nil => simp [update]
  | cons tag rest ih =>
    have hr := (List.nodup_cons.mp h).2
    have hn := (List.nodup_cons.mp h).1
    cases tag <;> simp_all [update] <;> split_ifs <;> simp_all

theorem feedAll_min (chain : List Tag) (h : chain.Nodup) (hm : Minimum ∈ chain) (s : State K)
    (xs : List K) : (feedAll chain s xs).min_ = xs.foldl min s.min_ := by
  induction xs generalizing s with
  | nil => rfl
  | cons x xs ih =>
    have := ih (update chain s x)
    simp only [feedAll, List.foldl_cons] at this ⊢
    rw [this, update_min chain h, if_pos hm]

theorem feedAll_max (chain : List Tag) (h : chain.Nodup) (hm : Maximum ∈ chain) (s : State K)
    (xs : List K) : (feedAll chain s xs).max_ = xs.foldl max s.max_ := by
  induction xs generalizing s with
  | nil => rfl
  | cons x xs ih =>
    have := ih (update chain s x)
    simp only [feedAll, List.foldl_cons] at this ⊢
    rw [this, update_max chain h, if_pos hm]

theorem merge_min_max (chain : List Tag) (h : chain.Nodup) (l r m : State K)
    (hok : merge chain l r = Outcome.ok m) :
    m.min_ = (if Minimum ∈ chain then min l.min_ r.min_ else l.min_) ∧
    m.max_ = (if Maximum ∈ chain then max l.max_ r.max_ else l.max_) := by
  induction chain generalizing l m with
  | nil =>
    simp only [merge, Outcome.ok.injEq] at hok
    subst hok
    simp
  | cons tag rest ih =>
    have hr := (List.nodup_cons.mp h).2
    have hn := (List.nodup_cons.mp h).1
    cases tag
    case CentralMoment M =>
      simp only [merge] at hok
      cases hM : MergeCentralMoments M l r with
      | none => simp [hM] at hok
      | some l1 =>
        simp only [hM] at hok
        have hl1 : l1.min_ = l.min_ ∧ l1.max_ = l.max_ := by
          unfold MergeCentralMoments at hM
          split_ifs at hM <;> simp at hM <;> subst hM <;> simp
        have := ih hr l1 m hok
        simpa only [List.mem_cons, reduceCtorEq, false_or, hl1.1, hl1.2] using this
    case Count =>
      simp only [merge, Outcome.map_eq_ok] at hok
      obtain ⟨m1, h1, rfl⟩ := hok
      have := ih hr l m1 h1
      simpa only [List.mem_cons, reduceCtorEq, false_or] using this
    case Sum =>
      simp only [merge, Outcome.map_eq_ok] at hok
      obtain ⟨m1, h1, rfl⟩ := hok
      have := ih hr l m1 h1
      simpa only [List.mem_cons, reduceCtorEq, false_or] using this
    case Minimum =>
      simp only [merge, Outcome.map_eq_ok] at hok
      obtain ⟨m1, h1, rfl⟩ := hok
      have := ih hr l m1 h1
      simp_all
    case Maximum =>
      simp only [merge, Outcome.map_eq_ok] at hok
      obtain ⟨m1, h1, rfl⟩ := hok
      have := ih hr l m1 h1
      simp_all
    all_goals
      simp only [merge] at hok
      have := ih hr _ m hok
      simpa only [List.mem_cons, reduceCtorEq, false_or] using this

theorem foldl_min_le (xs : List K) (a : K) :
    xs.foldl min a ≤ a ∧ ∀ x ∈ xs, xs.foldl min a ≤ x := by
  induction xs generalizing a with
  | nil => simp
  | cons y ys ih =>
    obtain ⟨h1, h2⟩ := ih (min a y)
    refine ⟨le_trans h1 (min_le_left _ _), ?_⟩
    intro x hx
    rcases List.mem_cons.mp hx with rfl | hx
    · exact le_trans h1 (min_le_right _ _)
    · exact h2 x hx

theorem foldl_min_mem (xs : List K) (a : K) : xs.foldl min a = a ∨ xs.foldl min a ∈ xs := by
  induction xs generalizing a with
  | nil => simp
  | cons y ys ih =>
    rcases ih (min a y) with h | h
    · rcases min_choice a y with h1 | h1
      · left
        rw [List.foldl_cons, h, h1]
      · right
        rw [List.foldl_cons, h, h1]
        exact List.mem_cons_self _ _
    · right
      exact List.mem_cons_of_mem _ h

theorem le_foldl_max (xs : List K) (a : K) :
    a ≤ xs.foldl max a ∧ ∀ x ∈ xs, x ≤ xs.foldl max a := by
  induction xs generalizing a with
  | nil => simp
  | cons y ys ih =>
    obtain ⟨h1, h2⟩ := ih (max a y)
    refine ⟨le_trans (le_max_left _ _) h1, ?_⟩
    intro x hx
    rcases List.mem_cons.mp hx with rfl | hx
    · exact le_trans (le_max_right _ _) h1
    · exact h2 x hx

theorem foldl_max_mem (xs : List K) (a : K) : xs.foldl max a = a ∨ xs.foldl max a ∈ xs := by
  induction xs generalizing a with
  | nil => simp
  | cons y ys ih =>
    rcases ih (max a y) with h | h
    · rcases max_choice a y with h1 | h1
      · left
        rw [List.foldl_cons, h, h1]
      · right
        rw [List.foldl_cons, h, h1]
        exact List.mem_cons_self _ _
    · right
      exact List.mem_cons_of_mem _ h

/-- The fold of `min` over non-empty samples that do not exceed the start value
is the least sample. -/
theorem foldl_min_least (xs : List K) (a : K) (hne : xs ≠ []) (hle : ∀ x ∈ xs, x ≤ a) :
    xs.foldl min a ∈ xs ∧ ∀ x ∈ xs, xs.foldl min a ≤ x := by
  refine ⟨?_, (foldl_min_le xs a).2⟩
  rcases foldl_min_mem xs a with h | h
  · obtain ⟨y, hy⟩ := List.exists_mem_of_ne_nil xs hne
    have h1 : xs.foldl min a ≤ y := (foldl_min_le xs a).2 y hy
    have h2 : y ≤ a := hle y hy
    have h3 : y = a := le_antisymm h2 (h ▸ h1)
    rw [h, ← h3]
    exact hy
  · exact h

/-- The fold of `max` over non-empty samples that are not below the start value
is the greatest sample. -/
theorem foldl_max_greatest (xs : List K) (a : K) (hne : xs ≠ []) (hle : ∀ x ∈ xs, a ≤ x) :
    xs.foldl max a ∈ xs ∧ ∀ x ∈ xs, x ≤ xs.foldl max a := by
  refine ⟨?_, (le_foldl_max xs a).2⟩
  rcases foldl_max_mem xs a with h | h
  · obtain ⟨y, hy⟩ := List.exists_mem_of_ne_nil xs hne
    have h1 : y ≤ xs.foldl max a := (le_foldl_max xs a).2 y hy
    have h2 : a ≤ y := hle y hy
    have h3 : y = a := le_antisymm (h ▸ h1) h2
    rw [h, ← h3]
    exact hy
  · exact h

theorem min_foldl_min (ys : List K) (c M : K) (h : c ≤ M) :
    min c (ys.foldl min M) = ys.foldl min c := by
  induction ys generalizing c M with
  | nil => simpa using h
  | cons y ys ih =>
    have h1 : min c y ≤ min M y := min_le_min h le_rfl
    have h2 : ys.foldl min (min M y) ≤ y :=
      le_trans (foldl_min_le ys (min M y)).1 (min_le_right _ _)
    rw [List.foldl_cons, List.foldl_cons, ← ih (min c y) (min M y) h1, min_assoc,
      min_eq_right h2]

theorem max_foldl_max (ys : List K) (c M : K) (h : M ≤ c) :
    max c (ys.foldl max M) = ys.foldl max c := by
  induction ys generalizing c M with
  | nil => simpa using h
  | cons y ys ih =>
    have h1 : max M y ≤ max c y := max_le_max h le_rfl
    have h2 : y ≤ ys.foldl max (max M y) :=
      le_trans (le_max_right _ _) (le_foldl_max ys (max M y)).1
    rw [List.foldl_cons, List.foldl_cons, ← ih (max c y) (max M y) h1, max_assoc,
      max_eq_right h2]

/-! ## Lemmas: the resolved sequence -/

theorem mem_MergeUnique (l1 l2 : List Tag) (x : Tag) :
    x ∈ MergeUnique l1 l2 ↔ x ∈ l1 ∨ x ∈ l2 := by
  induction l1 with
  | nil => simp [MergeUnique]
  | cons h t ih =>
    simp only [MergeUnique]
    split_ifs with hm
    · rw [ih, List.mem_cons]
      constructor
      · rintro (h1 | h1)
        · exact Or.inl (Or.inr h1)
        · exact Or.inr h1
      · rintro ((rfl | h1) | h1)
        · exact (ih.mp hm)
        · exact Or.inl h1
        · exact Or.inr h1
    · rw [List.mem_cons, ih, List.mem_cons, or_assoc]

theorem nodup_MergeUnique (l1 l2 : List Tag) (h : l2.Nodup) : (MergeUnique l1 l2).Nodup := by
  induction l1 with
  | nil => simpa [MergeUnique] using h
  | cons a t ih =>
    simp only [MergeUnique]
    split_ifs with hm
    · exact ih
    · exact List.nodup_cons.mpr ⟨hm, ih⟩

theorem depsBelow_MergeUnique (l1 l2 : List Tag) (h1 : DepsBelow l1) (h2 : DepsBelow l2) :
    DepsBelow (MergeUnique l1 l2) := by
  induction l1 with
  | nil => simpa [MergeUnique] using h2
  | cons a t ih =>
    obtain ⟨ha, ht⟩ := h1
    simp only [MergeUnique]
    split_ifs with hm
    · exact ih ht
    · exact ⟨fun d hd => (mem_MergeUnique t l2 d).mpr (Or.inl (ha d hd)), ih ht⟩

theorem Requires.trans {a b c : Tag} (h1 : Requires a b) (h2 : Requires b c) : Requires a c := by
  induction h1 with
  | refl t => exact h2
  | step hd _ ih => exact Requires.step hd (ih h2)

theorem Requires.of_dep {t d : Tag} (hd : d ∈ Dependencies t) : Requires t d :=
  Requires.step hd (Requires.refl d)

/-- What `PushDependencies` computes: no tag twice, each layer's dependencies
further down, and exactly the requested tags with all they transitively require. -/
theorem PushDependencies_spec (sel : List Tag) :
    (PushDependencies sel).Nodup ∧ DepsBelow (PushDependencies sel) ∧
    ∀ x, x ∈ PushDependencies sel ↔ ∃ r ∈ sel, Requires r x := by
  induction sel using PushDependencies.induct with
  | case1 => simp [PushDependencies, DepsBelow]
  | case2 HEAD TAIL ihT ihD =>
    obtain ⟨t1, t2, t3⟩ := ihT
    obtain ⟨d1, d2, d3⟩ := ihD
    rw [PushDependencies]
    refine ⟨nodup_MergeUnique _ _ t1, depsBelow_MergeUnique _ _ ⟨?_, d2⟩ t2, ?_⟩
    · intro d hd
      exact (d3 d).mpr ⟨d, hd, Requires.refl d⟩
    · intro x
      simp only [mem_MergeUnique, List.mem_cons, t3, d3]
      constructor
      · rintro ((rfl | ⟨r, hr, hx⟩) | ⟨r, hr, hx⟩)
        · exact ⟨x, Or.inl rfl, Requires.refl x⟩
        · exact ⟨HEAD, Or.inl rfl, Requires.step hr hx⟩
        · exact ⟨r, Or.inr hr, hx⟩
      · rintro ⟨r, rfl | hr, hx⟩
        · cases hx with
          | refl => exact Or.inl (Or.inl rfl)
          | step hd hx => exact Or.inl (Or.inr ⟨_, hd, hx⟩)
        · exact Or.inr ⟨r, hr, hx⟩

theorem DepsBelow.of_append {pre post : List Tag} (h : DepsBelow (pre ++ post)) :
    DepsBelow post := by
  induction pre with
  | nil => exact h
  | cons a t ih => exact ih h.2

theorem DepsBelow.mem_of_requires {l : List Tag} (h : DepsBelow l) {t x : Tag} (ht : t ∈ l)
    (hx : Requires t x) : x ∈ l := by
  induction hx with
  | refl t => exact ht
  | @step t d x hd _ ih =>
    apply ih
    clear ih
    induction l with
    | nil => simp at ht
    | cons a post ihl =>
      rcases List.mem_cons.mp ht with rfl | ht1
      · exact List.mem_cons_of_mem _ (h.1 d hd)
      · exact List.mem_cons_of_mem _ (ihl h.2 ht1)

theorem DepsBelow.wellFormed {l : List Tag} (hn : l.Nodup) (h : DepsBelow l) : WellFormed l :=
  ⟨hn, fun _ ht _ hd => h.mem_of_requires ht (Requires.of_dep hd)⟩

theorem PushDependencies_wellFormed (sel : List Tag) : WellFormed (PushDependencies sel) :=
  DepsBelow.wellFormed (PushDependencies_spec sel).1 (PushDependencies_spec sel).2.1

theorem reads_required (t r : Tag) (hr : r ∈ Reads t) :
    ∃ d ∈ Dependencies t, Requires d r := by
  cases t
  case CentralMoment N =>
    simp only [Reads] at hr
    simp only [Dependencies]
    split_ifs at hr with h3 h4
    · subst h3
      simp only [List.mem_cons, List.mem_singleton, List.mem_nil_iff, or_false] at hr
      rcases hr with rfl | rfl | rfl
      · exact ⟨Mean, by simp, Requires.of_dep (by simp [Dependencies])⟩
      · exact ⟨Count, by simp, Requires.refl _⟩
      · exact ⟨CentralMoment 2, by simp, Requires.refl _⟩
    · subst h4
      simp only [List.mem_cons, List.mem_singleton, List.mem_nil_iff, or_false] at hr
      rcases hr with rfl | rfl | rfl | rfl
      · exact ⟨Mean, by simp, Requires.of_dep (by simp [Dependencies])⟩
      · exact ⟨Count, by simp, Requires.refl _⟩
      · exact ⟨CentralMoment 3, by simp, Requires.of_dep (by simp [Dependencies])⟩
      · exact ⟨CentralMoment 3, by simp, Requires.refl _⟩
    · simp only [List.mem_cons, List.mem_singleton, List.mem_nil_iff, or_false] at hr
      rcases hr with rfl | rfl
      · exact ⟨Mean, by split_ifs <;> simp, Requires.of_dep (by simp [Dependencies])⟩
      · exact ⟨Count, by split_ifs <;> simp, Requires.refl _⟩
  case Skewness =>
    simp only [Reads, List.mem_cons, List.mem_singleton, List.mem_nil_iff, or_false] at hr
    refine ⟨CentralMoment 3, by simp [Dependencies], ?_⟩
    rcases hr with rfl | rfl | rfl
    · exact Requires.of_dep (by simp [Dependencies])
    · exact Requires.refl _
    · exact Requires.of_dep (by simp [Dependencies])
  case Kurtosis =>
    simp only [Reads, List.mem_cons, List.mem_singleton, List.mem_nil_iff, or_false] at hr
    refine ⟨CentralMoment 4, by simp [Dependencies], ?_⟩
    rcases hr with rfl | rfl | rfl
    · exact Requires.of_dep (by simp [Dependencies])
    · exact Requires.refl _
    · exact Requires.step (d := CentralMoment 3) (by simp [Dependencies])
        (Requires.of_dep (by simp [Dependencies]))
  case StdDev =>
    simp only [Reads, List.mem_cons, List.mem_singleton, List.mem_nil_iff, or_false] at hr
    refine ⟨Variance, by simp [Dependencies], ?_⟩
    rcases hr with rfl | rfl <;> exact Requires.of_dep (by simp [Dependencies])
  case UnbiasedStdDev =>
    simp only [Reads, List.mem_cons, List.mem_singleton, List.mem_nil_iff, or_false] at hr
    refine ⟨UnbiasedVariance, by simp [Dependencies], ?_⟩
    rcases hr with rfl | rfl <;> exact Requires.of_dep (by simp [Dependencies])
  case SumSquaredDifferences =>
    simp only [Reads, List.mem_cons, List.mem_singleton, List.mem_nil_iff, or_false] at hr
    rcases hr with rfl | rfl
    · exact ⟨Count, by simp [Dependencies], Requires.refl _⟩
    · exact ⟨Mean, by simp [Dependencies], Requires.of_dep (by simp [Dependencies])⟩
  case ScatterMatrix =>
    simp only [Reads, List.mem_cons, List.mem_singleton, List.mem_nil_iff, or_false] at hr
    rcases hr with rfl | rfl
    · exact ⟨Mean, by simp [Dependencies], Requires.of_dep (by simp [Dependencies])⟩
    · exact ⟨Count, by simp [Dependencies], Requires.refl _⟩
  case Count => simp [Reads] at hr
  case Minimum => simp [Reads] at hr
  case Maximum => simp [Reads] at hr
  case Sum => simp [Reads] at hr
  all_goals
    simp only [Reads, List.mem_cons, List.mem_singleton, List.mem_nil_iff, or_false] at hr
    rcases hr with rfl | rfl <;> exact ⟨_, by simp [Dependencies], Requires.refl _⟩

theorem LookupTag_isSome (tag : Tag) (chain : List Tag) :
    (LookupTag tag chain).isSome = true ↔ tag ∈ chain := by
  induction chain with
  | nil => simp [LookupTag]
  | cons t rest ih =>
    simp only [LookupTag, List.mem_cons]
    split_ifs with h
    · simp [h]
    · simp [h, ih]

theorem LookupTag_eq_none (tag : Tag) (chain : List Tag) :
    LookupTag tag chain = none ↔ tag ∉ chain := by
  rw [← LookupTag_isSome]
  cases LookupTag tag chain <;> simp

/-! ## Lemmas: activation -/

theorem requires_iff (t x : Tag) :
    Requires t x ↔ x = t ∨ ∃ d ∈ Dependencies t, Requires d x := by
  constructor
  · intro h
    cases h with
    | refl => exact Or.inl rfl
    | step hd hx => exact Or.inr ⟨_, hd, hx⟩
  · rintro (rfl | ⟨d, hd, hx⟩)
    · exact Requires.refl _
    · exact Requires.step hd hx

theorem foldl_activate (rest : List Tag)
    (ih : ∀ (tag : Tag) (f : Tag → Bool) (x : Tag),
      activate rest tag f x = true ↔ f x = true ∨ (tag ∈ rest ∧ Requires tag x))
    (ds : List Tag) (hds : ∀ d ∈ ds, d ∈ rest) (f : Tag → Bool) (x : Tag) :
    (ds.foldl (fun flags d => activate rest d flags) f) x = true ↔
      f x = true ∨ ∃ d ∈ ds, Requires d x := by
  induction ds generalizing f with
  | nil => simp
  | cons d ds ihd =>
    rw [List.foldl_cons, ihd (fun d1 h1 => hds d1 (List.mem_cons_of_mem _ h1)), ih]
    have hd : d ∈ rest := hds d (List.mem_cons_self _ _)
    simp only [hd, true_and, List.mem_cons, exists_eq_or_imp, or_assoc]

/-- What `activate<Tag>` sets: the flags set before, and those of the tag and of
all it transitively requires. -/
theorem activate_iff (chain : List Tag) (hb : DepsBelow chain) (tag : Tag) (f : Tag → Bool)
    (x : Tag) :
    activate chain tag f x = true ↔ f x = true ∨ (tag ∈ chain ∧ Requires tag x) := by
  induction chain generalizing tag f x with
  | nil => simp [activate]
  | cons t rest ih =>
    obtain ⟨hd, hr⟩ := hb
    simp only [activate]
    split_ifs with h
    · subst h
      rw [foldl_activate rest (fun tag f x => ih hr tag f x) _ hd, requires_iff tag x]
      simp only [List.mem_cons, true_or, true_and]
      by_cases hx : x = tag
      · subst hx
        simp
      · simp [Function.update_noteq hx, hx]
    · rw [ih hr]
      simp [h]

theorem activate_mono (chain : List Tag) (tag : Tag) (f : Tag → Bool) (x : Tag)
    (hx : f x = true) : activate chain tag f x = true := by
  induction chain generalizing tag f with
  | nil => simpa [activate] using hx
  | cons t rest ih =>
    simp only [activate]
    split_ifs with h
    · have h0 : Function.update f t true x = true := by
        by_cases hxt : x = t
        · subst hxt
          simp
        · simpa [Function.update_noteq hxt] using hx
      generalize Function.update f t true = g at h0
      generalize Dependencies t = ds
      induction ds generalizing g with
      | nil => simpa using h0
      | cons d ds ihd => exact ihd _ (ih d g h0)
    · exact ih tag f hx

theorem activeClosed_false (chain : List Tag) : ActiveClosed chain (fun _ => false) := by
  intro t ht
  simp at ht

theorem activeClosed_activate (chain : List Tag) (hb : DepsBelow chain) (tag : Tag)
    (f : Tag → Bool) (hf : ActiveClosed chain f) : ActiveClosed chain (activate chain tag f) := by
  intro t ht
  rcases (activate_iff chain hb tag f t).mp ht with h | ⟨h1, h2⟩
  · exact ⟨(hf t h).1, fun x hx =>
      (activate_iff chain hb tag f x).mpr (Or.inl ((hf t h).2 x hx))⟩
  · exact ⟨hb.mem_of_requires h1 h2, fun x hx =>
      (activate_iff chain hb tag f x).mpr (Or.inr ⟨h1, h2.trans hx⟩)⟩

theorem activeClosed_resetFlags (chain : List Tag) (f : Tag → Bool)
    (hf : ActiveClosed chain f) : dynamicResetFlags chain f = fun _ => false := by
  funext t
  simp only [dynamicResetFlags]
  split_ifs with h
  · rfl
  · by_contra hc
    exact h (hf t (by simpa using hc)).1

/-! ## Lemmas: `get` on a dynamic chain -/

theorem dynamicGet_of_not_mem (e : Env K) (chain : List Tag) (f : Tag → Bool) (s : State K)
    (tag : Tag) (h : tag ∉ chain) : dynamicGet e chain f s tag = none := by
  induction chain with
  | nil => rfl
  | cons t rest ih =>
    have h1 : tag ≠ t := fun hc => h (hc ▸ List.mem_cons_self _ _)
    have h2 : tag ∉ rest := fun hc => h (List.mem_cons_of_mem _ hc)
    simp only [dynamicGet, h1, if_false]
    exact ih h2

theorem dynamicGet_of_inactive (e : Env K) (chain : List Tag) (f : Tag → Bool) (s : State K)
    (tag : Tag) (h : f tag = false) : dynamicGet e chain f s tag = none := by
  induction chain with
  | nil => rfl
  | cons t rest ih =>
    simp only [dynamicGet]
    split_ifs with h1 h2
    · subst h1
      rw [h] at h2
      cases h2
    · rfl
    · exact ih

/-- A layer that is flagged together with all it requires returns the value the
same layer returns in a static chain. -/
theorem dynamicGet_of_active (e : Env K) (chain : List Tag) (hb : DepsBelow chain)
    (f : Tag → Bool) (s : State K) (tag : Tag) (hm : tag ∈ chain)
    (hf : ∀ x, Requires tag x → f x = true) :
    dynamicGet e chain f s tag = some (result e tag s) := by
  induction chain generalizing tag with
  | nil => simp at hm
  | cons t rest ih =>
    obtain ⟨hd, hr⟩ := hb
    simp only [dynamicGet]
    split_ifs with h1 h2
    · subst h1
      have key : ∀ r ∈ Reads tag, dynamicGet e rest f s r = some (result e r s) := by
        intro r hrd
        obtain ⟨d, hd1, hd2⟩ := reads_required tag r hrd
        exact ih hr r (hr.mem_of_requires (hd d hd1) hd2)
          fun x hx => hf x ((Requires.step hd1 hd2).trans hx)
      cases tag with
      | CentralMoment N =>
        have := key Count (by simp only [Reads]; split_ifs <;> simp)
        simp [layerResult, result, this]
      | _ => simp [layerResult, result, Reads, key]
    · subst h1
      rw [hf tag (Requires.refl _)] at h2
      exact absurd rfl h2
    · rcases List.mem_cons.mp hm with h | h
      · exact absurd h h1
      · exact ih hr tag h hf

theorem dynamicGet_eq (e : Env K) (chain : List Tag) (hb : DepsBelow chain)
    (f : Tag → Bool) (hf : ActiveClosed chain f) (s : State K) (tag : Tag) :
    dynamicGet e chain f s tag = if f tag = true then some (result e tag s) else none := by
  split_ifs with h
  · exact dynamicGet_of_active e chain hb f s tag (hf tag h).1 (hf tag h).2
  · exact dynamicGet_of_inactive e chain f s tag (by simpa using h)

/-! ## Lemmas: the number of passes -/

theorem passesRequired_cases (chain : List Tag) :
    (passesRequired chain = 1 ∧ ¬ ∃ N, CentralMoment N ∈ chain) ∨
    (passesRequired chain = 2 ∧ ∃ N, CentralMoment N ∈ chain) := by
  induction chain with
  | nil => simp [passesRequired]
  | cons t rest ih =>
    cases t with
    | CentralMoment M =>
      right
      refine ⟨?_, M, List.mem_cons_self _ _⟩
      rcases ih with ⟨h, -⟩ | ⟨h, -⟩ <;> simp [passesRequired, h]
    | _ =>
      simp only [passesRequired, List.mem_cons, reduceCtorEq, false_or]
      exact ih

theorem dynamicPassesRequired_cases (chain : List Tag) (f : Tag → Bool) :
    (dynamicPassesRequired chain f = 1 ∧ ¬ ∃ N, CentralMoment N ∈ chain ∧ f (CentralMoment N) = true) ∨
    (dynamicPassesRequired chain f = 2 ∧ ∃ N, CentralMoment N ∈ chain ∧ f (CentralMoment N) = true) := by
  induction chain with
  | nil => simp [dynamicPassesRequired]
  | cons t rest ih =>
    cases t with
    | CentralMoment M =>
      simp only [dynamicPassesRequired]
      split_ifs with h
      · right
        refine ⟨?_, M, List.mem_cons_self _ _, h⟩
        rcases ih with ⟨h1, -⟩ | ⟨h1, -⟩ <;> simp [h1]
      · rcases ih with ⟨h1, h2⟩ | ⟨h1, N, h2, h3⟩
        · left
          refine ⟨h1, ?_⟩
          rintro ⟨N, hN, hf⟩
          rcases List.mem_cons.mp hN with hc | hc
          · rw [hc] at hf
            exact h hf
          · exact h2 ⟨N, hc, hf⟩
        · right
          exact ⟨h1, N, List.mem_cons_of_mem _ h2, h3⟩
    | _ =>
      simp only [dynamicPassesRequired, List.mem_cons, reduceCtorEq, false_or]
      exact ih

/-! ## Lemmas: a dynamic chain runs the static chain of its active layers -/

theorem activeChain_cons_pos (t : Tag) (rest : List Tag) (f : Tag → Bool) (h : f t = true) :
    activeChain (t :: rest) f = t :: activeChain rest f := by
  simp [activeChain, List.filter_cons, h]

theorem activeChain_cons_neg (t : Tag) (rest : List Tag) (f : Tag → Bool) (h : ¬ f t = true) :
    activeChain (t :: rest) f = activeChain rest f := by
  simp [activeChain, List.filter_cons, h]

theorem mem_activeChain (chain : List Tag) (f : Tag → Bool) (t : Tag) :
    t ∈ activeChain chain f ↔ t ∈ chain ∧ f t = true := by
  simp [activeChain]

/-- The reads of a flagged layer below the head of the chain. -/
theorem dynamicGet_below (e : Env K) (t : Tag) (rest : List Tag) (hb : DepsBelow (t :: rest))
    (f : Tag → Bool) (hf : ∀ u ∈ t :: rest, f u = true → ∀ x, Requires u x → f x = true)
    (ht : f t = true) (s : State K) (r : Tag) (hr : r ∈ Reads t) :
    dynamicGet e rest f s r = some (result e r s) := by
  obtain ⟨d, hd1, hd2⟩ := reads_required t r hr
  have hreq : Requires t r := Requires.step hd1 hd2
  exact dynamicGet_of_active e rest hb.2 f s r (hb.2.mem_of_requires (hb.1 d hd1) hd2)
    fun x hx => hf t (List.mem_cons_self _ _) ht x (hreq.trans hx)

theorem dynamicUpdate_eq (e : Env K) (chain : List Tag) (hb : DepsBelow chain)
    (f : Tag → Bool) (hf : ∀ u ∈ chain, f u = true → ∀ x, Requires u x → f x = true)
    (s : State K) (t : K) :
    dynamicUpdate e chain f s t = Outcome.ok (update (activeChain chain f) s t) := by
  induction chain generalizing s with
  | nil => rfl
  | cons tag rest ih =>
    have hf1 : ∀ u ∈ rest, f u = true → ∀ x, Requires u x → f x = true :=
      fun u hu => hf u (List.mem_cons_of_mem _ hu)
    have ih1 := ih hb.2 hf1
    by_cases ha : f tag = true
    · rw [activeChain_cons_pos tag rest f ha]
      have key := fun r hr => dynamicGet_below e tag rest hb f hf ha s r hr
      cases tag with
      | SumSquaredDifferences =>
        have k1 := key Count (by simp [Reads])
        have k2 := key Tag.Sum (by simp [Reads])
        simp only [result] at k1 k2
        simp only [dynamicUpdate, ha, if_true, k1, k2, update]
        split_ifs <;> exact ih1 _
      | ScatterMatrix =>
        have k1 := key Count (by simp [Reads])
        have k2 := key Tag.Sum (by simp [Reads])
        simp only [result] at k1 k2
        simp only [dynamicUpdate, ha, if_true, k1, k2, update]
        split_ifs <;> exact ih1 _
      | _ => simp only [dynamicUpdate, ha, if_true, update, ih1, Outcome.map]
    · rw [activeChain_cons_neg tag rest f ha]
      have ha1 : f tag = false := by simpa using ha
      cases tag with
      | _ => simp only [dynamicUpdate, ha1, Bool.false_eq_true, if_false, ih1]

theorem dynamicUpdateWeighted_eq (e : Env K) (chain : List Tag) (hb : DepsBelow chain)
    (f : Tag → Bool) (hf : ∀ u ∈ chain, f u = true → ∀ x, Requires u x → f x = true)
    (s : State K) (t w : K) :
    dynamicUpdateWeighted e chain f s t w = updateWeighted (activeChain chain f) s t w := by
  induction chain generalizing s with
  | nil => rfl
  | cons tag rest ih =>
    have hf1 : ∀ u ∈ rest, f u = true → ∀ x, Requires u x → f x = true :=
      fun u hu => hf u (List.mem_cons_of_mem _ hu)
    have ih1 := ih hb.2 hf1
    by_cases ha : f tag = true
    · rw [activeChain_cons_pos tag rest f ha]
      have key := fun r hr => dynamicGet_below e tag rest hb f hf ha s r hr
      cases tag with
      | SumSquaredDifferences =>
        have k1 := key Count (by simp [Reads])
        have k2 := key Tag.Sum (by simp [Reads])
        simp only [result] at k1 k2
        simp only [dynamicUpdateWeighted, ha, if_true, k1, k2, updateWeighted]
        split_ifs <;> exact ih1 _
      | ScatterMatrix =>
        have k1 := key Count (by simp [Reads])
        have k2 := key Tag.Sum (by simp [Reads])
        simp only [result] at k1 k2
        simp only [dynamicUpdateWeighted, ha, if_true, k1, k2, updateWeighted]
        split_ifs <;> exact ih1 _
      | _ => simp only [dynamicUpdateWeighted, ha, if_true, updateWeighted, ih1]
    · rw [activeChain_cons_neg tag rest f ha]
      have ha1 : f tag = false := by simpa using ha
      cases tag with
      | _ => simp only [dynamicUpdateWeighted, ha1, Bool.false_eq_true, if_false, ih1]

/-! ## Lemmas: the flags of a reachable dynamic chain -/

theorem DynamicReachable.activeClosed {e : Env K} {chain : List Tag} (hb : DepsBelow chain)
    {f : Tag → Bool} {s : State K} (h : DynamicReachable e chain f s) : ActiveClosed chain f := by
  induction h with
  | fresh diff0 => exact activeClosed_false chain
  | activate tag _ ih => exact activeClosed_activate chain hb tag _ ih
  | reset _ ih =>
    rw [activeClosed_resetFlags chain _ ih]
    exact activeClosed_false chain
  | update t _ ih => exact ih
  | updateWeighted t w _ ih => exact ih
  | updatePass2 t _ ih => exact ih
  | updatePass2Weighted t w _ ih => exact ih
  | merge _ _ ih _ => exact ih

theorem ActiveClosed.reads {chain : List Tag} {f : Tag → Bool} (hf : ActiveClosed chain f) :
    ∀ u ∈ chain, f u = true → ∀ x, Requires u x → f x = true :=
  fun u _ hu => (hf u hu).2

theorem updateWeighted_fault_iff (chain : List Tag) (s : State K) (t w : K) :
    (∃ s1, updateWeighted chain s t w = Outcome.fault s1) ↔
      Minimum ∈ chain ∨ Maximum ∈ chain := by
  constructor
  · rintro ⟨s1, h1⟩
    by_contra hc
    push_neg at hc
    obtain ⟨s2, h2⟩ := updateWeighted_ok chain hc.1 hc.2 s t w
    rw [h2] at h1
    cases h1
  · intro h
    exact updateWeighted_fault chain h s t w

/-! ## Lemmas: `reset` -/

theorem reset_members (e : Env K) (chain : List Tag) (s : State K) :
    (reset e chain s).count_ = (if Count ∈ chain then 0 else s.count_) ∧
    (reset e chain s).min_ = (if Minimum ∈ chain then e.traitsMax else s.min_) ∧
    (reset e chain s).max_ = (if Maximum ∈ chain then e.traitsMin else s.max_) ∧
    (reset e chain s).sum_ = (if Tag.Sum ∈ chain then 0 else s.sum_) ∧
    (∀ N, (reset e chain s).moment_ N = if CentralMoment N ∈ chain then 0 else s.moment_ N) ∧
    (reset e chain s).sumOfSquaredDifferences_
      = (if SumSquaredDifferences ∈ chain then 0 else s.sumOfSquaredDifferences_) ∧
    (reset e chain s).scatter_matrix_
      = (if ScatterMatrix ∈ chain then 0 else s.scatter_matrix_) ∧
    (reset e chain s).diff_ = s.diff_ := by
  induction chain generalizing s with
  | nil => simp [reset]
  | cons tag rest ih =>
    cases tag with
    | CentralMoment M =>
      obtain ⟨h1, h2, h3, h4, h5, h6, h7, h8⟩ := ih { s with moment_ := Function.update s.moment_ M 0 }
      simp only [reset, List.mem_cons, reduceCtorEq, false_or, CentralMoment.injEq]
      refine ⟨h1, h2, h3, h4, ?_, h6, h7, h8⟩
      intro N
      rw [h5 N]
      by_cases hNM : N = M
      · subst hNM
        simp
      · simp [hNM, Function.update_noteq hNM]
    | _ => simp [reset, ih]

/-! ## Lemmas: calls on states that agree in the members of the chain -/

theorem SameMembers.refl (C : List Tag) (a : State K) : SameMembers C a a :=
  ⟨fun _ => rfl, fun _ => rfl, fun _ => rfl, fun _ => rfl, fun _ _ => rfl, fun _ => rfl,
    fun _ => rfl⟩

theorem SameMembers.with_count {C : List Tag} {a b : State K} (h : SameMembers C a b)
    (x y : K) (hxy : Count ∈ C → x = y) :
    SameMembers C { a with count_ := x } { b with count_ := y } :=
  ⟨hxy, h.2.1, h.2.2.1, h.2.2.2.1, h.2.2.2.2.1, h.2.2.2.2.2.1, h.2.2.2.2.2.2⟩

theorem SameMembers.with_min {C : List Tag} {a b : State K} (h : SameMembers C a b)
    (x y : K) (hxy : Minimum ∈ C → x = y) :
    SameMembers C { a with min_ := x } { b with min_ := y } :=
  ⟨h.1, hxy, h.2.2.1, h.2.2.2.1, h.2.2.2.2.1, h.2.2.2.2.2.1, h.2.2.2.2.2.2⟩

theorem SameMembers.with_max {C : List Tag} {a b : State K} (h : SameMembers C a b)
    (x y : K) (hxy : Maximum ∈ C → x = y) :
    SameMembers C { a with max_ := x } { b with max_ := y } :=
  ⟨h.1, h.2.1, hxy, h.2.2.2.1, h.2.2.2.2.1, h.2.2.2.2.2.1, h.2.2.2.2.2.2⟩

theorem SameMembers.with_sum {C : List Tag} {a b : State K} (h : SameMembers C a b)
    (x y : K) (hxy : Tag.Sum ∈ C → x = y) :
    SameMembers C { a with sum_ := x } { b with sum_ := y } :=
  ⟨h.1, h.2.1, h.2.2.1, hxy, h.2.2.2.2.1, h.2.2.2.2.2.1, h.2.2.2.2.2.2⟩

theorem SameMembers.with_moment {C : List Tag} {a b : State K} (h : SameMembers C a b)
    (N : Nat) (x y : K) (hxy : CentralMoment N ∈ C → x = y) :
    SameMembers C { a with moment_ := Function.update a.moment_ N x }
      { b with moment_ := Function.update b.moment_ N y } := by
  refine ⟨h.1, h.2.1, h.2.2.1, h.2.2.2.1, ?_, h.2.2.2.2.2.1, h.2.2.2.2.2.2⟩
  intro M hM
  by_cases hMN : M = N
  · subst hMN
    simpa using hxy hM
  · simpa [Function.update_noteq hMN] using h.2.2.2.2.1 M hM

theorem SameMembers.with_ssd {C : List Tag} {a b : State K} (h : SameMembers C a b)
    (x y : K) (hxy : SumSquaredDifferences ∈ C → x = y) :
    SameMembers C { a with sumOfSquaredDifferences_ := x }
      { b with sumOfSquaredDifferences_ := y } :=
  ⟨h.1, h.2.1, h.2.2.1, h.2.2.2.1, h.2.2.2.2.1, hxy, h.2.2.2.2.2.2⟩

theorem SameMembers.with_scatter {C : List Tag} {a b : State K} (h : SameMembers C a b)
    (x y d d1 : K) (hxy : ScatterMatrix ∈ C → x = y) :
    SameMembers C { a with diff_ := d, scatter_matrix_ := x }
      { b with diff_ := d1, scatter_matrix_ := y } :=
  ⟨h.1, h.2.1, h.2.2.1, h.2.2.2.1, h.2.2.2.2.1, h.2.2.2.2.2.1, hxy⟩

theorem SameMembers.with_diff {C : List Tag} {a b : State K} (h : SameMembers C a b)
    (d d1 : K) : SameMembers C { a with diff_ := d } { b with diff_ := d1 } :=
  ⟨h.1, h.2.1, h.2.2.1, h.2.2.2.1, h.2.2.2.2.1, h.2.2.2.2.2.1, h.2.2.2.2.2.2⟩

/-- With a layer that reads `Count` and `Sum`, these two are layers of a chain
that holds the dependencies of its layers. -/
theorem count_sum_mem {C : List Tag} (hC : ∀ t ∈ C, ∀ d ∈ Dependencies t, d ∈ C) {t : Tag}
    (ht : t ∈ C) (hm : Mean ∈ Dependencies t) (hc : Count ∈ Dependencies t) :
    Count ∈ C ∧ Tag.Sum ∈ C :=
  ⟨hC t ht Count hc, hC Mean (hC t ht Mean hm) Tag.Sum (by simp [Dependencies])⟩

theorem update_same (C : List Tag) (hC : ∀ t ∈ C, ∀ d ∈ Dependencies t, d ∈ C)
    (c : List Tag) (hc : ∀ t ∈ c, t ∈ C) (a b : State K) (h : SameMembers C a b) (t : K) :
    SameMembers C (update c a t) (update c b t) := by
  induction c generalizing a b with
  | nil => exact h
  | cons tag rest ih =>
    have hr : ∀ t ∈ rest, t ∈ C := fun t ht => hc t (List.mem_cons_of_mem _ ht)
    have htag : tag ∈ C := hc tag (List.mem_cons_self _ _)
    have ih1 := ih hr
    cases tag with
    | Count =>
      have h1 := ih1 a b h
      exact h1.with_count _ _ fun hm => by rw [h1.1 hm]
    | Minimum =>
      have h1 := ih1 a b h
      exact h1.with_min _ _ fun hm => by rw [h1.2.1 hm]
    | Maximum =>
      have h1 := ih1 a b h
      exact h1.with_max _ _ fun hm => by rw [h1.2.2.1 hm]
    | Sum =>
      have h1 := ih1 a b h
      exact h1.with_sum _ _ fun hm => by rw [h1.2.2.2.1 hm]
    | SumSquaredDifferences =>
      obtain ⟨m1, m2⟩ := count_sum_mem hC htag (by simp [Dependencies]) (by simp [Dependencies])
      have e1 := h.1 m1
      have e2 := h.2.2.2.1 m2
      have e3 := h.2.2.2.2.2.1 htag
      simp only [update]
      apply ih1
      by_cases hz : a.count_ = 0
      · have hz1 : b.count_ = 0 := e1 ▸ hz
        rw [if_neg (not_not.mpr hz), if_neg (not_not.mpr hz1)]
        exact h
      · have hz1 : b.count_ ≠ 0 := e1 ▸ hz
        rw [if_pos hz, if_pos hz1]
        exact h.with_ssd _ _ fun _ => by rw [e1, e2, e3]
    | ScatterMatrix =>
      obtain ⟨m1, m2⟩ := count_sum_mem hC htag (by simp [Dependencies]) (by simp [Dependencies])
      have e1 := h.1 m1
      have e2 := h.2.2.2.1 m2
      have e3 := h.2.2.2.2.2.2 htag
      simp only [update]
      apply ih1
      by_cases hz : a.count_ = 0
      · have hz1 : b.count_ = 0 := e1 ▸ hz
        rw [if_neg (not_not.mpr hz), if_neg (not_not.mpr hz1)]
        exact h
      · have hz1 : b.count_ ≠ 0 := e1 ▸ hz
        rw [if_pos hz, if_pos hz1]
        exact h.with_scatter _ _ _ _ fun _ => by rw [e1, e2, e3]
    | _ => exact ih1 a b h

theorem Outcome.Rel.map {R : State K → State K → Prop} {o o1 : Outcome K}
    (h : Outcome.Rel R o o1) (g g1 : State K → State K) (hg : ∀ a b, R a b → R (g a) (g1 b)) :
    Outcome.Rel R (o.map g) (o1.map g1) := by
  cases o <;> cases o1 <;> simp_all [Outcome.Rel, Outcome.map]

theorem Outcome.Rel.andThen {R : State K → State K → Prop} {o o1 : Outcome K}
    (h : Outcome.Rel R o o1) (g g1 : State K → Outcome K)
    (hg : ∀ a b, R a b → Outcome.Rel R (g a) (g1 b)) :
    Outcome.Rel R (o.andThen g) (o1.andThen g1) := by
  cases o <;> cases o1 <;> simp_all [Outcome.Rel, Outcome.andThen]

theorem mem_of_requires_closed {C : List Tag} (hC : ∀ t ∈ C, ∀ d ∈ Dependencies t, d ∈ C)
    {t x : Tag} (ht : t ∈ C) (hx : Requires t x) : x ∈ C := by
  induction hx with
  | refl t => exact ht
  | step hd _ ih => exact ih (hC _ ht _ hd)

/-- The value of a layer is a function of the members of the layers it reads. -/
theorem result_congr (e : Env K) (C : List Tag) (hC : ∀ t ∈ C, ∀ d ∈ Dependencies t, d ∈ C)
    (tag : Tag) (ht : tag ∈ C) (a b : State K) (h : SameMembers C a b) :
    result e tag a = result e tag b := by
  have hreads : ∀ r ∈ Reads tag, r ∈ C := by
    intro r hr
    obtain ⟨d, hd1, hd2⟩ := reads_required tag r hr
    exact mem_of_requires_closed hC ht (Requires.step hd1 hd2)
  obtain ⟨h1, h2, h3, h4, h5, h6, h7⟩ := h
  cases tag with
  | CentralMoment N =>
    have := hreads Count (by simp only [Reads]; split_ifs <;> simp)
    simp only [result, h1 this, h5 N ht]
  | _ => simp_all [result, Reads]

/-! ## Lemmas: a call changes only the members of the layers it runs -/

theorem Untouched.same (c : List Tag) (s : State K) : Untouched c s s :=
  ⟨fun _ => rfl, fun _ => rfl, fun _ => rfl, fun _ => rfl, fun _ _ => rfl, fun _ => rfl,
    fun _ => rfl⟩

theorem Untouched.weaken {c c1 : List Tag} {s s1 : State K} (h : Untouched c s s1)
    (hc : ∀ t ∈ c, t ∈ c1) : Untouched c1 s s1 :=
  ⟨fun hn => h.1 fun hm => hn (hc _ hm), fun hn => h.2.1 fun hm => hn (hc _ hm),
    fun hn => h.2.2.1 fun hm => hn (hc _ hm), fun hn => h.2.2.2.1 fun hm => hn (hc _ hm),
    fun N hn => h.2.2.2.2.1 N fun hm => hn (hc _ hm),
    fun hn => h.2.2.2.2.2.1 fun hm => hn (hc _ hm),
    fun hn => h.2.2.2.2.2.2 fun hm => hn (hc _ hm)⟩

theorem Untouched.followed {c : List Tag} {s s1 s2 : State K} (h : Untouched c s s1)
    (h1 : Untouched c s1 s2) : Untouched c s s2 :=
  ⟨fun hn => (h1.1 hn).trans (h.1 hn), fun hn => (h1.2.1 hn).trans (h.2.1 hn),
    fun hn => (h1.2.2.1 hn).trans (h.2.2.1 hn), fun hn => (h1.2.2.2.1 hn).trans (h.2.2.2.1 hn),
    fun N hn => (h1.2.2.2.2.1 N hn).trans (h.2.2.2.2.1 N hn),
    fun hn => (h1.2.2.2.2.2.1 hn).trans (h.2.2.2.2.2.1 hn),
    fun hn => (h1.2.2.2.2.2.2 hn).trans (h.2.2.2.2.2.2 hn)⟩

theorem Untouched.cons {c : List Tag} {s s1 : State K} (h : Untouched c s s1) (t : Tag) :
    Untouched (t :: c) s s1 :=
  h.weaken fun _ hm => List.mem_cons_of_mem _ hm

theorem Untouched.own_count (c : List Tag) (s : State K) (x : K) :
    Untouched (Count :: c) s { s with count_ := x } :=
  ⟨fun h => absurd (List.mem_cons_self _ _) h, fun _ => rfl, fun _ => rfl, fun _ => rfl,
    fun _ _ => rfl, fun _ => rfl, fun _ => rfl⟩

theorem Untouched.own_min (c : List Tag) (s : State K) (x : K) :
    Untouched (Minimum :: c) s { s with min_ := x } :=
  ⟨fun _ => rfl, fun h => absurd (List.mem_cons_self _ _) h, fun _ => rfl, fun _ => rfl,
    fun _ _ => rfl, fun _ => rfl, fun _ => rfl⟩

theorem Untouched.own_max (c : List Tag) (s : State K) (x : K) :
    Untouched (Maximum :: c) s { s with max_ := x } :=
  ⟨fun _ => rfl, fun _ => rfl, fun h => absurd (List.mem_cons_self _ _) h, fun _ => rfl,
    fun _ _ => rfl, fun _ => rfl, fun _ => rfl⟩

theorem Untouched.own_sum (c : List Tag) (s : State K) (x : K) :
    Untouched (Tag.Sum :: c) s { s with sum_ := x } :=
  ⟨fun _ => rfl, fun _ => rfl, fun _ => rfl, fun h => absurd (List.mem_cons_self _ _) h,
    fun _ _ => rfl, fun _ => rfl, fun _ => rfl⟩

theorem Untouched.own_moment (c : List Tag) (s : State K) (N : Nat) (x : K) :
    Untouched (CentralMoment N :: c) s { s with moment_ := Function.update s.moment_ N x } :=
  ⟨fun _ => rfl, fun _ => rfl, fun _ => rfl, fun _ => rfl,
    fun M h => Function.update_noteq
      (fun (hc : M = N) => h (by rw [hc]; exact List.mem_cons_self _ _)) _ _,
    fun _ => rfl, fun _ => rfl⟩

theorem Untouched.own_ssd (c : List Tag) (s : State K) (x : K) :
    Untouched (SumSquaredDifferences :: c) s { s with sumOfSquaredDifferences_ := x } :=
  ⟨fun _ => rfl, fun _ => rfl, fun _ => rfl, fun _ => rfl, fun _ _ => rfl,
    fun h => absurd (List.mem_cons_self _ _) h, fun _ => rfl⟩

theorem Untouched.own_scatter (c : List Tag) (s : State K) (d x : K) :
    Untouched (ScatterMatrix :: c) s { s with diff_ := d, scatter_matrix_ := x } :=
  ⟨fun _ => rfl, fun _ => rfl, fun _ => rfl, fun _ => rfl, fun _ _ => rfl, fun _ => rfl,
    fun h => absurd (List.mem_cons_self _ _) h⟩

theorem Untouched.map_state {c : List Tag} {s : State K} {o : Outcome K}
    (h : Untouched c s o.state) (t : Tag) (g : State K → State K)
    (hg : ∀ x, Untouched (t :: c) x (g x)) : Untouched (t :: c) s (o.map g).state := by
  cases o with
  | ok x => exact (h.cons t).followed (hg x)
  | fault x => exact h.cons t

theorem update_untouched (c : List Tag) (s : State K) (t : K) :
    Untouched c s (update c s t) := by
  induction c generalizing s with
  | nil => exact Untouched.same _ _
  | cons tag rest ih =>
    cases tag with
    | Count => exact ((ih s).cons _).followed (Untouched.own_count _ _ _)
    | Minimum => exact ((ih s).cons _).followed (Untouched.own_min _ _ _)
    | Maximum => exact ((ih s).cons _).followed (Untouched.own_max _ _ _)
    | Sum => exact ((ih s).cons _).followed (Untouched.own_sum _ _ _)
    | SumSquaredDifferences =>
      simp only [update]
      refine Untouched.followed ?_ ((ih _).cons _)
      split_ifs
      · exact Untouched.own_ssd _ _ _
      · exact Untouched.same _ _
    | ScatterMatrix =>
      simp only [update]
      refine Untouched.followed ?_ ((ih _).cons _)
      split_ifs
      · exact Untouched.own_scatter _ _ _ _
      · exact Untouched.same _ _
    | _ => exact (ih s).cons _

theorem updateWeighted_untouched (c : List Tag) (s : State K) (t w : K) :
    Untouched c s (updateWeighted c s t w).state := by
  induction c generalizing s with
  | nil => exact Untouched.same _ _
  | cons tag rest ih =>
    cases tag with
    | Count => exact (ih s).map_state _ _ fun x => Untouched.own_count _ _ _
    | Minimum => exact Untouched.same _ _
    | Maximum => exact Untouched.same _ _
    | Sum => exact (ih s).map_state _ _ fun x => Untouched.own_sum _ _ _
    | SumSquaredDifferences =>
      simp only [updateWeighted]
      refine Untouched.followed ?_ ((ih _).cons _)
      split_ifs
      · exact Untouched.own_ssd _ _ _
      · exact Untouched.same _ _
    | ScatterMatrix =>
      simp only [updateWeighted]
      refine Untouched.followed ?_ ((ih _).cons _)
      split_ifs
      · exact Untouched.own_scatter _ _ _ _
      · exact Untouched.same _ _
    | _ => exact (ih s).cons _

theorem updatePass2_untouched (c : List Tag) (s : State K) (t : K) :
    Untouched c s (updatePass2 c s t) := by
  induction c generalizing s with
  | nil => exact Untouched.same _ _
  | cons tag rest ih =>
    cases tag with
    | CentralMoment N => exact ((ih s).cons _).followed (Untouched.own_moment _ _ _ _)
    | _ => exact (ih s).cons _

theorem updatePass2Weighted_untouched (c : List Tag) (s : State K) (t w : K) :
    Untouched c s (updatePass2Weighted c s t w) := by
  induction c generalizing s with
  | nil => exact Untouched.same _ _
  | cons tag rest ih =>
    cases tag with
    | CentralMoment N => exact ((ih s).cons _).followed (Untouched.own_moment _ _ _ _)
    | _ => exact (ih s).cons _


theorem Untouched.andThen_state {c : List Tag} {s : State K} {o : Outcome K}
    (h : Untouched c s o.state) (g : State K → Outcome K)
    (hg : ∀ x, Untouched c x (g x).state) : Untouched c s (o.andThen g).state := by
  cases o with
  | ok x => exact h.followed (hg x)
  | fault x => exact h

theorem dynamicMergeCentralMoments_untouched (getL getR : Tag → Option K) (N : Nat)
    (l r l1 : State K) (h : dynamicMergeCentralMoments getL getR N l r = some l1)
    (c : List Tag) : Untouched (CentralMoment N :: c) l l1 := by
  unfold dynamicMergeCentralMoments at h
  split_ifs at h with h2 h3 h4
  · subst h2
    split at h
    · cases h
      exact Untouched.own_moment _ _ _ _
    · cases h
  · subst h3
    split at h
    · cases h
      exact Untouched.own_moment _ _ _ _
    · cases h
  · subst h4
    split at h
    · cases h
      exact Untouched.own_moment _ _ _ _
    · cases h

theorem dynamicMerge_untouched (e : Env K) (chain : List Tag) (f : Tag → Bool) (l : State K)
    (g : Tag → Bool) (r : State K) :
    Untouched (activeChain chain f) l (dynamicMerge e chain f l g r).state := by
  induction chain generalizing l with
  | nil => exact Untouched.same _ _
  | cons tag rest ih =>
    by_cases ha : f tag = true
    · rw [activeChain_cons_pos tag rest f ha]
      cases tag with
      | Count =>
        simp only [dynamicMerge, ha, if_true]
        exact (ih l).map_state _ _ fun x => Untouched.own_count _ _ _
      | Minimum =>
        simp only [dynamicMerge, ha, if_true]
        exact (ih l).map_state _ _ fun x => Untouched.own_min _ _ _
      | Maximum =>
        simp only [dynamicMerge, ha, if_true]
        exact (ih l).map_state _ _ fun x => Untouched.own_max _ _ _
      | Sum =>
        simp only [dynamicMerge, ha, if_true]
        exact (ih l).map_state _ _ fun x => Untouched.own_sum _ _ _
      | CentralMoment N =>
        simp only [dynamicMerge, ha, if_true]
        split
        · rename_i l1 h1
          exact (dynamicMergeCentralMoments_untouched _ _ N l r l1 h1 _).followed ((ih l1).cons _)
        · exact Untouched.same _ _
      | SumSquaredDifferences =>
        simp only [dynamicMerge, ha, if_true]
        split
        · exact (Untouched.own_ssd _ _ _).followed ((ih _).cons _)
        · exact Untouched.same _ _
      | ScatterMatrix =>
        simp only [dynamicMerge, ha, if_true]
        split
        · exact (Untouched.own_scatter _ _ _ _).followed ((ih _).cons _)
        · exact Untouched.same _ _
      | _ =>
        simp only [dynamicMerge]
        exact (ih l).cons _
    · rw [activeChain_cons_neg tag rest f ha]
      have ha1 : f tag = false := by simpa using ha
      cases tag with
      | _ => simp only [dynamicMerge, ha1, Bool.false_eq_true, if_false]; exact ih l

theorem reset_append (e : Env K) (c c1 : List Tag) (s : State K) :
    reset e (c ++ c1) s = reset e c1 (reset e c s) := by
  induction c generalizing s with
  | nil => rfl
  | cons tag rest ih =>
    cases tag with
    | _ => exact ih _

theorem dynamicReset_eq (e : Env K) (chain : List Tag) (f : Tag → Bool) (s : State K) :
    dynamicReset e chain f s = reset e (activeChain chain f) s := by
  induction chain generalizing s with
  | nil => rfl
  | cons tag rest ih =>
    by_cases ha : f tag = true
    · rw [activeChain_cons_pos tag rest f ha]
      simp only [dynamicReset, ha, if_true, ih]
      exact (reset_append e [tag] (activeChain rest f) s).symm
    · rw [activeChain_cons_neg tag rest f ha]
      have ha1 : f tag = false := by simpa using ha
      simp only [dynamicReset, ha1, Bool.false_eq_true, if_false, ih]

theorem dynamicUpdatePass2_eq (e : Env K) (chain : List Tag) (hb : DepsBelow chain)
    (f : Tag → Bool) (hf : ∀ u ∈ chain, f u = true → ∀ x, Requires u x → f x = true)
    (s : State K) (t : K) :
    dynamicUpdatePass2 e chain f s t = Outcome.ok (updatePass2 (activeChain chain f) s t) := by
  induction chain generalizing s with
  | nil => rfl
  | cons tag rest ih =>
    have hf1 : ∀ u ∈ rest, f u = true → ∀ x, Requires u x → f x = true :=
      fun u hu => hf u (List.mem_cons_of_mem _ hu)
    have ih1 := ih hb.2 hf1
    by_cases ha : f tag = true
    · rw [activeChain_cons_pos tag rest f ha]
      cases tag with
      | CentralMoment N =>
        have key := fun x r hr => dynamicGet_below e (CentralMoment N) rest hb f hf ha x r hr
        have k1 := fun x => key x Count (by simp only [Reads]; split_ifs <;> simp)
        have k2 := fun x => key x Tag.Sum (by simp only [Reads]; split_ifs <;> simp)
        simp only [result] at k1 k2
        simp only [dynamicUpdatePass2, ha, if_true, ih1, Outcome.andThen, k1, k2, updatePass2]
      | _ => simp only [dynamicUpdatePass2, updatePass2, ih1]
    · rw [activeChain_cons_neg tag rest f ha]
      have ha1 : f tag = false := by simpa using ha
      cases tag with
      | _ => simp only [dynamicUpdatePass2, ha1, Bool.false_eq_true, if_false, ih1]

theorem dynamicUpdatePass2Weighted_eq (e : Env K) (chain : List Tag) (hb : DepsBelow chain)
    (f : Tag → Bool) (hf : ∀ u ∈ chain, f u = true → ∀ x, Requires u x → f x = true)
    (s : State K) (t w : K) :
    dynamicUpdatePass2Weighted e chain f s t w =
      Outcome.ok (updatePass2Weighted (activeChain chain f) s t w) := by
  induction chain generalizing s with
  | nil => rfl
  | cons tag rest ih =>
    have hf1 : ∀ u ∈ rest, f u = true → ∀ x, Requires u x → f x = true :=
      fun u hu => hf u (List.mem_cons_of_mem _ hu)
    have ih1 := ih hb.2 hf1
    by_cases ha : f tag = true
    · rw [activeChain_cons_pos tag rest f ha]
      cases tag with
      | CentralMoment N =>
        have key := fun x r hr => dynamicGet_below e (CentralMoment N) rest hb f hf ha x r hr
        have k1 := fun x => key x Count (by simp only [Reads]; split_ifs <;> simp)
        have k2 := fun x => key x Tag.Sum (by simp only [Reads]; split_ifs <;> simp)
        simp only [result] at k1 k2
        simp only [dynamicUpdatePass2Weighted, ha, if_true, ih1, Outcome.andThen, k1, k2,
          updatePass2Weighted]
      | _ => simp only [dynamicUpdatePass2Weighted, updatePass2Weighted, ih1]
    · rw [activeChain_cons_neg tag rest f ha]
      have ha1 : f tag = false := by simpa using ha
      cases tag with
      | _ => simp only [dynamicUpdatePass2Weighted, ha1, Bool.false_eq_true, if_false, ih1]

theorem runDynamic_eq (e : Env K) (chain : List Tag) (hb : DepsBelow chain)
    (f : Tag → Bool) (hf : ∀ u ∈ chain, f u = true → ∀ x, Requires u x → f x = true)
    (calls : List (Feed K)) (s : State K) :
    runDynamic e chain f s calls = runStatic (activeChain chain f) s calls := by
  induction calls generalizing s with
  | nil => rfl
  | cons c cs ih =>
    have h1 : stepDynamic e chain f s c = stepStatic (activeChain chain f) s c := by
      cases c with
      | update t => exact dynamicUpdate_eq e chain hb f hf s t
      | updateWeighted t w => exact dynamicUpdateWeighted_eq e chain hb f hf s t w
      | updatePass2 t => exact dynamicUpdatePass2_eq e chain hb f hf s t
      | updatePass2Weighted t w => exact dynamicUpdatePass2Weighted_eq e chain hb f hf s t w
    simp only [runDynamic, runStatic, h1, ih]

/-! ## Lemmas: a dynamic chain never writes the members of a layer whose flag is clear -/

theorem DynamicReachable.untouched {e : Env K} {chain : List Tag} (hb : DepsBelow chain)
    {f : Tag → Bool} {s : State K} (h : DynamicReachable e chain f s) :
    Untouched (activeChain chain f) (init e 0) s := by
  induction h with
  | fresh diff0 =>
    exact ⟨fun _ => rfl, fun _ => rfl, fun _ => rfl, fun _ => rfl, fun _ _ => rfl, fun _ => rfl,
      fun _ => rfl⟩
  | activate tag _ ih =>
    exact ih.weaken fun t ht => (mem_activeChain _ _ _).mpr
      ⟨((mem_activeChain _ _ _).mp ht).1, activate_mono _ _ _ _ ((mem_activeChain _ _ _).mp ht).2⟩
  | @reset f s h ih =>
    obtain ⟨h1, h2, h3, h4, h5, h6, h7, -⟩ := reset_members e (activeChain chain f) s
    obtain ⟨i1, i2, i3, i4, i5, i6, i7⟩ := ih
    rw [dynamicReset_eq]
    refine ⟨fun _ => ?_, fun _ => ?_, fun _ => ?_, fun _ => ?_, fun N _ => ?_, fun _ => ?_,
      fun _ => ?_⟩
    · rw [h1]; split_ifs with hm
      · rfl
      · exact i1 hm
    · rw [h2]; split_ifs with hm
      · rfl
      · exact i2 hm
    · rw [h3]; split_ifs with hm
      · rfl
      · exact i3 hm
    · rw [h4]; split_ifs with hm
      · rfl
      · exact i4 hm
    · rw [h5]; split_ifs with hm
      · rfl
      · exact i5 N hm
    · rw [h6]; split_ifs with hm
      · rfl
      · exact i6 hm
    · rw [h7]; split_ifs with hm
      · rfl
      · exact i7 hm
  | update t h ih =>
    rw [dynamicUpdate_eq e chain hb _ (h.activeClosed hb).reads]
    exact ih.followed (update_untouched _ _ _)
  | updateWeighted t w h ih =>
    rw [dynamicUpdateWeighted_eq e chain hb _ (h.activeClosed hb).reads]
    exact ih.followed (updateWeighted_untouched _ _ _ _)
  | updatePass2 t h ih =>
    rw [dynamicUpdatePass2_eq e chain hb _ (h.activeClosed hb).reads]
    exact ih.followed (updatePass2_untouched _ _ _)
  | updatePass2Weighted t w h ih =>
    rw [dynamicUpdatePass2Weighted_eq e chain hb _ (h.activeClosed hb).reads]
    exact ih.followed (updatePass2Weighted_untouched _ _ _ _)
  | merge _ _ ih _ => exact ih.followed (dynamicMerge_untouched _ _ _ _ _ _)

/-! ## Lemmas: `reset()` and the state of a fresh chain -/

theorem dynamicReset_same_init {e : Env K} {chain : List Tag} (hb : DepsBelow chain)
    {f : Tag → Bool} {s : State K} (h : DynamicReachable e chain f s) (C : List Tag)
    (diff0 : K) : SameMembers C (dynamicReset e chain f s) (init e diff0) := by
  obtain ⟨h1, h2, h3, h4, h5, h6, h7, -⟩ := reset_members e (activeChain chain f) s
  obtain ⟨i1, i2, i3, i4, i5, i6, i7⟩ := h.untouched hb
  rw [dynamicReset_eq]
  refine ⟨fun _ => ?_, fun _ => ?_, fun _ => ?_, fun _ => ?_, fun N _ => ?_, fun _ => ?_,
    fun _ => ?_⟩
  · rw [h1]; split_ifs with hm
    · rfl
    · exact i1 hm
  · rw [h2]; split_ifs with hm
    · rfl
    · exact i2 hm
  · rw [h3]; split_ifs with hm
    · rfl
    · exact i3 hm
  · rw [h4]; split_ifs with hm
    · rfl
    · exact i4 hm
  · rw [h5]; split_ifs with hm
    · rfl
    · exact i5 N hm
  · rw [h6]; split_ifs with hm
    · rfl
    · exact i6 hm
  · rw [h7]; split_ifs with hm
    · rfl
    · exact i7 hm

theorem activeClosed_activateAll (chain : List Tag) (hb : DepsBelow chain) (tags : List Tag)
    (f : Tag → Bool) (hf : ActiveClosed chain f) : ActiveClosed chain (activateAll chain f tags) := by
  induction tags generalizing f with
  | nil => exact hf
  | cons t ts ih => exact ih _ (activeClosed_activate chain hb t f hf)

theorem DepsBelow.closed {chain : List Tag} (hb : DepsBelow chain) :
    ∀ t ∈ chain, ∀ d ∈ Dependencies t, d ∈ chain :=
  fun _ ht _ hd => hb.mem_of_requires ht (Requires.of_dep hd)

theorem vupdate_fields {d : Nat} (chain : List Tag) (h : chain.Nodup) (s : VState d K)
    (t : Fin d → K) :
    (vupdate chain s t).count_ = (if Count ∈ chain then s.count_ + 1 else s.count_) ∧
    (vupdate chain s t).sum_ = (if Tag.Sum ∈ chain then fun i => s.sum_ i + t i else s.sum_) ∧
    (vupdate chain s t).scatter_matrix_ =
      (if ScatterMatrix ∈ chain ∧ s.count_ ≠ 0 then
        fun i j => s.scatter_matrix_ i j
          + s.count_ / (s.count_ + 1) * 1 * (s.sum_ i / s.count_ - t i)
            * (s.sum_ j / s.count_ - t j)
      else s.scatter_matrix_) ∧
    (vupdate chain s t).needs_reshape_ = s.needs_reshape_ := by
  induction chain generalizing s with
  | nil => simp [vupdate]
  | cons tag rest ih =>
    have hr := (List.nodup_cons.mp h).2
    have hn := (List.nodup_cons.mp h).1
    cases tag <;> simp_all [vupdate] <;> split_ifs <;> simp_all

theorem vreshape_fields {d : Nat} (chain : List Tag) (s : VState d K) :
    (vreshape chain s).count_ = s.count_ ∧
    (vreshape chain s).sum_ = s.sum_ ∧
    (vreshape chain s).scatter_matrix_ =
      (if ScatterMatrix ∈ chain then fun _ _ => 0 else s.scatter_matrix_) ∧
    (vreshape chain s).needs_reshape_ = s.needs_reshape_ := by
  induction chain generalizing s with
  | nil => simp [vreshape]
  | cons tag rest ih =>
    cases tag <;> simp_all [vreshape]

theorem needsReshape_of_mem (chain : List Tag) (h : ScatterMatrix ∈ chain) :
    NeedsReshape chain = true := by
  simp only [NeedsReshape, List.any_eq_true]
  exact ⟨ScatterMatrix, h, by simp⟩

/-- One sample on a chain with `Count`, `Sum` and `ScatterMatrix` layers: the
matrix the layer adds to is the zero matrix when the chain is reshaped first. -/
theorem vupdateTop_fields {d : Nat} (chain : List Tag) (h : chain.Nodup) (hc : Count ∈ chain)
    (hs : Tag.Sum ∈ chain) (hm : ScatterMatrix ∈ chain) (s : VState d K) (t : Fin d → K) :
    (vupdateTop chain s t).count_ = s.count_ + 1 ∧
    (vupdateTop chain s t).sum_ = (fun i => s.sum_ i + t i) ∧
    (vupdateTop chain s t).scatter_matrix_ =
      (if s.count_ ≠ 0 then
        fun i j => (if s.needs_reshape_ = true then 0 else s.scatter_matrix_ i j)
          + s.count_ / (s.count_ + 1) * 1 * (s.sum_ i / s.count_ - t i)
            * (s.sum_ j / s.count_ - t j)
      else fun i j => if s.needs_reshape_ = true then 0 else s.scatter_matrix_ i j) ∧
    (vupdateTop chain s t).needs_reshape_ = false := by
  obtain ⟨r1, r2, r3, r4⟩ := vreshape_fields chain s
  rw [if_pos hm] at r3
  simp only [vupdateTop, needsReshape_of_mem chain hm, if_true]
  by_cases hn : s.needs_reshape_ = true
  · obtain ⟨u1, u2, u3, u4⟩ := vupdate_fields chain h
      { vreshape chain s with needs_reshape_ := false } t
    simp only [hn, if_true]
    rw [u1, u2, u3, u4, if_pos hc, if_pos hs]
    refine ⟨by rw [r1], by rw [r2], ?_, rfl⟩
    simp only [r1, r2, r3, hm, true_and]
  · have hn1 : s.needs_reshape_ = false := by simpa using hn
    obtain ⟨u1, u2, u3, u4⟩ := vupdate_fields chain h s t
    simp only [hn1, Bool.false_eq_true, if_false]
    rw [u1, u2, u3, u4, if_pos hc, if_pos hs]
    refine ⟨rfl, rfl, ?_, hn1⟩
    simp only [hm, true_and]

theorem vfeedAll_fields {d : Nat} (e : Env K) (diff0 : Fin d → K) (chain : List Tag)
    (h : chain.Nodup) (hc : Count ∈ chain) (hs : Tag.Sum ∈ chain) (hm : ScatterMatrix ∈ chain)
    (xs : List (Fin d → K)) :
    (vfeedAll chain (vinit e diff0) xs).count_ = (xs.length : K) ∧
    (∀ i, (vfeedAll chain (vinit e diff0) xs).sum_ i = (xs.map fun x => x i).sum) ∧
    (∀ i j, (vfeedAll chain (vinit e diff0) xs).scatter_matrix_ i j =
      (xs.map fun x => x i * x j).sum
        - (xs.map fun x => x i).sum * (xs.map fun x => x j).sum / (xs.length : K)) ∧
    (xs ≠ [] → (vfeedAll chain (vinit e diff0) xs).needs_reshape_ = false) := by
  induction xs using List.reverseRecOn with
  | nil => simp [vfeedAll, vinit]
  | append_singleton xs x ih =>
    obtain ⟨i1, i2, i3, i4⟩ := ih
    have hstep : vfeedAll chain (vinit e diff0) (xs ++ [x])
        = vupdateTop chain (vfeedAll chain (vinit e diff0) xs) x := by
      simp [vfeedAll, List.foldl_append]
    obtain ⟨u1, u2, u3, u4⟩ := vupdateTop_fields chain h hc hs hm
      (vfeedAll chain (vinit e diff0) xs) x
    rw [hstep]
    refine ⟨?_, ?_, ?_, fun _ => u4⟩
    · rw [u1, i1]; simp
    · intro i
      rw [u2]; simp [i2]
    · intro i j
      rw [u3]
      by_cases hx : xs = []
      · subst hx
        simp [vfeedAll, vinit]
      · have hcount : (xs.length : K) ≠ 0 := by
          have : 0 < xs.length := List.length_pos.mpr hx
          exact_mod_cast this.ne'
        have hcount1 : (xs.length : K) + 1 ≠ 0 := by positivity
        rw [i1, if_pos hcount]
        simp only [i4 hx, Bool.false_eq_true, if_false, i3, i2]
        rw [List.map_append, List.map_append, List.map_append, List.sum_append, List.sum_append,
          List.sum_append, List.length_append]
        simp only [List.length_singleton, Nat.cast_add, Nat.cast_one]
        generalize (xs.length : K) = n at hcount hcount1
        generalize (xs.map fun x => x i * x j).sum = Q
        generalize (xs.map fun x => x i).sum = Si
        generalize (xs.map fun x => x j).sum = Sj
        simp only [List.map_cons, List.map_nil, List.sum_cons, List.sum_nil, add_zero]
        field_simp
        ring

theorem vMergeCentralMoments_fields {d : Nat} (N : Nat) (l r l1 : VState d K)
    (h : vMergeCentralMoments N l r = some l1) :
    l1.count_ = l.count_ ∧ l1.sum_ = l.sum_ ∧ l1.scatter_matrix_ = l.scatter_matrix_ := by
  unfold vMergeCentralMoments at h
  split_ifs at h <;> simp only [Option.some.injEq] at h <;> subst h <;> exact ⟨rfl, rfl, rfl⟩

theorem vMergeCentralMoments_isSome {d : Nat} (N : Nat) (hN : N = 2 ∨ N = 3 ∨ N = 4)
    (l r : VState d K) : ∃ l1, vMergeCentralMoments N l r = some l1 := by
  rcases hN with rfl | rfl | rfl
  · exact ⟨_, rfl⟩
  · exact ⟨_, rfl⟩
  · exact ⟨_, rfl⟩

theorem vmerge_ok {d : Nat} (chain : List Tag)
    (h : ∀ N, CentralMoment N ∈ chain → N = 2 ∨ N = 3 ∨ N = 4) (l r : VState d K) :
    ∃ m, vmerge chain l r = some m := by
  induction chain generalizing l with
  | nil => exact ⟨l, rfl⟩
  | cons tag rest ih =>
    have h1 : ∀ N, CentralMoment N ∈ rest → N = 2 ∨ N = 3 ∨ N = 4 :=
      fun N hN => h N (List.mem_cons_of_mem _ hN)
    cases tag with
    | CentralMoment M =>
      obtain ⟨l1, hl1⟩ := vMergeCentralMoments_isSome M (h M (List.mem_cons_self _ _)) l r
      simp only [vmerge, hl1]
      exact ih h1 l1
    | Count =>
      obtain ⟨m, hm⟩ := ih h1 l
      simp only [vmerge, hm, Option.map_some']
      exact ⟨_, rfl⟩
    | Minimum =>
      obtain ⟨m, hm⟩ := ih h1 l
      simp only [vmerge, hm, Option.map_some']
      exact ⟨_, rfl⟩
    | Maximum =>
      obtain ⟨m, hm⟩ := ih h1 l
      simp only [vmerge, hm, Option.map_some']
      exact ⟨_, rfl⟩
    | Sum =>
      obtain ⟨m, hm⟩ := ih h1 l
      simp only [vmerge, hm, Option.map_some']
      exact ⟨_, rfl⟩
    | _ =>
      simp only [vmerge]
      exact ih h1 _

theorem vmerge_fields {d : Nat} (chain : List Tag) (h : chain.Nodup) (l r m : VState d K)
    (hok : vmerge chain l r = some m) :
    m.count_ = (if Count ∈ chain then l.count_ + r.count_ else l.count_) ∧
    m.sum_ = (if Tag.Sum ∈ chain then fun i => l.sum_ i + r.sum_ i else l.sum_) ∧
    m.scatter_matrix_ =
      (if ScatterMatrix ∈ chain then
        fun i j => l.scatter_matrix_ i j
          + l.count_ * r.count_ / (l.count_ + r.count_)
            * (l.sum_ i / l.count_ - r.sum_ i / r.count_)
            * (l.sum_ j / l.count_ - r.sum_ j / r.count_)
          + r.scatter_matrix_ i j
      else l.scatter_matrix_) := by
  induction chain generalizing l m with
  | nil =>
    simp only [vmerge, Option.some.injEq] at hok
    subst hok
    simp
  | cons tag rest ih =>
    have hr := (List.nodup_cons.mp h).2
    have hn := (List.nodup_cons.mp h).1
    cases tag with
    | CentralMoment M =>
      simp only [vmerge] at hok
      cases hM : vMergeCentralMoments M l r with
      | none => simp [hM] at hok
      | some l1 =>
        simp only [hM] at hok
        obtain ⟨h1, h2, h3⟩ := vMergeCentralMoments_fields M l r l1 hM
        have := ih hr l1 m hok
        simpa only [List.mem_cons, reduceCtorEq, false_or, h1, h2, h3] using this
    | Count =>
      simp only [vmerge, Option.map_eq_some'] at hok
      obtain ⟨m1, h1, rfl⟩ := hok
      have := ih hr l m1 h1
      simp_all
    | Minimum =>
      simp only [vmerge, Option.map_eq_some'] at hok
      obtain ⟨m1, h1, rfl⟩ := hok
      have := ih hr l m1 h1
      simpa only [List.mem_cons, reduceCtorEq, false_or] using this
    | Maximum =>
      simp only [vmerge, Option.map_eq_some'] at hok
      obtain ⟨m1, h1, rfl⟩ := hok
      have := ih hr l m1 h1
      simpa only [List.mem_cons, reduceCtorEq, false_or] using this
    | Sum =>
      simp only [vmerge, Option.map_eq_some'] at hok
      obtain ⟨m1, h1, rfl⟩ := hok
      have := ih hr l m1 h1
      simp_all
    | SumSquaredDifferences =>
      simp only [vmerge] at hok
      have := ih hr _ m hok
      simp_all
    | ScatterMatrix =>
      simp only [vmerge] at hok
      have := ih hr _ m hok
      simp_all
    | _ =>
      simp only [vmerge] at hok
      have := ih hr _ m hok
      simpa only [List.mem_cons, reduceCtorEq, false_or] using this

theorem sum_shifted_products {d : Nat} (xs : List (Fin d → K)) (i j : Fin d) (a b : K) :
    (xs.map fun x => (x i - a) * (x j - b)).sum =
      (xs.map fun x => x i * x j).sum - b * (xs.map fun x => x i).sum
        - a * (xs.map fun x => x j).sum + (xs.length : K) * a * b := by
  induction xs with
  | nil => simp
  | cons x xs ih =>
    simp only [List.map_cons, List.sum_cons, List.length_cons, Nat.cast_add, Nat.cast_one, ih]
    ring

theorem specScatter_eq {d : Nat} (xs : List (Fin d → K)) (hne : xs ≠ []) (i j : Fin d) :
    specScatter xs i j =
      (xs.map fun x => x i * x j).sum
        - (xs.map fun x => x i).sum * (xs.map fun x => x j).sum / (xs.length : K) := by
  have hn : (xs.length : K) ≠ 0 := by
    have : 0 < xs.length := List.length_pos.mpr hne
    exact_mod_cast this.ne'
  rw [specScatter, sum_shifted_products, specVecMean, specVecMean]
  field_simp
  ring


/-! ## Lemmas: the weighted sum of squared differences -/

theorem step_fields (chain : List Tag) (h : chain.Nodup) (s s1 : State K) (c : Call K)
    (hok : step chain s c = Outcome.ok s1) :
    s1.count_ = (if Count ∈ chain then s.count_ + c.weight else s.count_) ∧
    s1.sum_ = (if Tag.Sum ∈ chain then s.sum_ + c.weight * c.value else s.sum_) ∧
    s1.sumOfSquaredDifferences_ =
      (if SumSquaredDifferences ∈ chain ∧ s.count_ ≠ 0 then
        s.sumOfSquaredDifferences_
          + s.count_ / (s.count_ + c.weight) * c.weight * sq (s.sum_ / s.count_ - c.value)
      else s.sumOfSquaredDifferences_) := by
  cases c with
  | plain t =>
    simp only [step, Outcome.ok.injEq] at hok
    subst hok
    simp only [Call.weight, Call.value, update_count chain h, update_sum chain h,
      update_ssd chain h, one_mul, mul_one, and_self]
  | weighted t w =>
    obtain ⟨h1, h2, -, h4⟩ := updateWeighted_fields chain h s s1 t w hok
    exact ⟨h1, h2, h4⟩

theorem totalWeight_pos (calls : List (Call K)) (hne : calls ≠ [])
    (hpos : ∀ c ∈ calls, 0 < c.weight) : 0 < totalWeight calls := by
  induction calls with
  | nil => exact absurd rfl hne
  | cons c cs ih =>
    simp only [totalWeight, List.map_cons, List.sum_cons]
    have h1 : 0 < c.weight := hpos c (List.mem_cons_self _ _)
    have h2 : 0 ≤ (cs.map Call.weight).sum := by
      apply List.sum_nonneg
      intro y hy
      obtain ⟨x, hx, rfl⟩ := List.mem_map.mp hy
      exact (hpos x (List.mem_cons_of_mem _ hx)).le
    linarith

theorem feed_ssd (e : Env K) (diff0 : K) (chain : List Tag) (h : chain.Nodup)
    (hc : Count ∈ chain) (hs : Tag.Sum ∈ chain) (hd : SumSquaredDifferences ∈ chain)
    (calls : List (Call K)) (hpos : ∀ c ∈ calls, 0 < c.weight) (s : State K)
    (hok : feed chain (init e diff0) calls = Outcome.ok s) :
    s.sumOfSquaredDifferences_ =
      (calls.map fun c => c.weight * c.value ^ 2).sum
        - weightedSum calls ^ 2 / totalWeight calls := by
  induction calls using List.reverseRecOn generalizing s with
  | nil =>
    simp only [feed, Outcome.ok.injEq] at hok
    subst hok
    simp [init, weightedSum, totalWeight]
  | append_singleton cs c ih =>
    rw [feed_append, Outcome.andThen_eq_ok] at hok
    obtain ⟨s1, h1, h2⟩ := hok
    simp only [feed, Outcome.andThen_eq_ok] at h2
    obtain ⟨s2, h3, h4⟩ := h2
    simp only [Outcome.ok.injEq] at h4
    subst h4
    have hpos1 : ∀ c ∈ cs, 0 < c.weight := fun x hx => hpos x (List.mem_append_left _ hx)
    have hw : 0 < c.weight := hpos c (List.mem_append_right _ (List.mem_singleton_self _))
    obtain ⟨f1, f2⟩ := feed_fields chain h _ s1 cs h1
    obtain ⟨-, -, g3⟩ := step_fields chain h s1 s2 c h3
    rw [if_pos hc] at f1
    rw [if_pos hs] at f2
    have i1 : (init e diff0).count_ = 0 := rfl
    have i2 : (init e diff0).sum_ = 0 := rfl
    rw [i1, zero_add] at f1
    rw [i2, zero_add] at f2
    rw [g3, ih hpos1 s1 h1, f1, f2]
    simp only [hd, true_and, weightedSum, totalWeight, List.map_append, List.sum_append,
      List.map_cons, List.map_nil, List.sum_cons, List.sum_nil, add_zero]
    by_cases hcs : cs = []
    · subst hcs
      have hw0 : c.weight ≠ 0 := hw.ne'
      simp only [List.map_nil, List.sum_nil, ne_eq, not_true_eq_false, if_false, zero_add]
      field_simp
      ring
    · have hW : 0 < totalWeight cs := totalWeight_pos cs hcs hpos1
      simp only [totalWeight] at hW
      have hW0 : (cs.map Call.weight).sum ≠ 0 := hW.ne'
      have hW1 : (cs.map Call.weight).sum + c.weight ≠ 0 := by positivity
      rw [if_pos hW0]
      simp only [sq]
      field_simp
      ring

theorem specWeightedSquares_eq (calls : List (Call K)) (hW : totalWeight calls ≠ 0) :
    specWeightedSquares calls =
      (calls.map fun c => c.weight * c.value ^ 2).sum
        - weightedSum calls ^ 2 / totalWeight calls := by
  have key : ∀ (m : K) (l : List (Call K)),
      (l.map fun c => c.weight * (c.value - m) ^ 2).sum =
        (l.map fun c => c.weight * c.value ^ 2).sum - 2 * m * weightedSum l
          + m ^ 2 * totalWeight l := by
    intro m l
    induction l with
    | nil => simp [weightedSum, totalWeight]
    | cons c cs ih =>
      simp only [List.map_cons, List.sum_cons, ih, weightedSum, totalWeight]
      ring
  rw [specWeightedSquares, key]
  field_simp
  ring


/-! ## Lemmas: a chain and the chain of its flagged layers -/

theorem SameMembers.right_count {A : List Tag} {a b : State K} (h : SameMembers A a b)
    (hn : Count ∉ A) (y : K) : SameMembers A a { b with count_ := y } :=
  ⟨fun hm => absurd hm hn, h.2.1, h.2.2.1, h.2.2.2.1, h.2.2.2.2.1, h.2.2.2.2.2.1, h.2.2.2.2.2.2⟩

theorem SameMembers.right_min {A : List Tag} {a b : State K} (h : SameMembers A a b)
    (hn : Minimum ∉ A) (y : K) : SameMembers A a { b with min_ := y } :=
  ⟨h.1, fun hm => absurd hm hn, h.2.2.1, h.2.2.2.1, h.2.2.2.2.1, h.2.2.2.2.2.1, h.2.2.2.2.2.2⟩

theorem SameMembers.right_max {A : List Tag} {a b : State K} (h : SameMembers A a b)
    (hn : Maximum ∉ A) (y : K) : SameMembers A a { b with max_ := y } :=
  ⟨h.1, h.2.1, fun hm => absurd hm hn, h.2.2.2.1, h.2.2.2.2.1, h.2.2.2.2.2.1, h.2.2.2.2.2.2⟩

theorem SameMembers.right_sum {A : List Tag} {a b : State K} (h : SameMembers A a b)
    (hn : Tag.Sum ∉ A) (y : K) : SameMembers A a { b with sum_ := y } :=
  ⟨h.1, h.2.1, h.2.2.1, fun hm => absurd hm hn, h.2.2.2.2.1, h.2.2.2.2.2.1, h.2.2.2.2.2.2⟩

theorem SameMembers.right_moment {A : List Tag} {a b : State K} (h : SameMembers A a b)
    (N : Nat) (hn : CentralMoment N ∉ A) (y : K) :
    SameMembers A a { b with moment_ := Function.update b.moment_ N y } := by
  refine ⟨h.1, h.2.1, h.2.2.1, h.2.2.2.1, ?_, h.2.2.2.2.2.1, h.2.2.2.2.2.2⟩
  intro M hM
  have hMN : M ≠ N := fun hc => hn (hc ▸ hM)
  simpa [Function.update_noteq hMN] using h.2.2.2.2.1 M hM

theorem SameMembers.right_ssd {A : List Tag} {a b : State K} (h : SameMembers A a b)
    (hn : SumSquaredDifferences ∉ A) (y : K) :
    SameMembers A a { b with sumOfSquaredDifferences_ := y } :=
  ⟨h.1, h.2.1, h.2.2.1, h.2.2.2.1, h.2.2.2.2.1, fun hm => absurd hm hn, h.2.2.2.2.2.2⟩

theorem SameMembers.right_scatter {A : List Tag} {a b : State K} (h : SameMembers A a b)
    (hn : ScatterMatrix ∉ A) (d y : K) :
    SameMembers A a { b with diff_ := d, scatter_matrix_ := y } :=
  ⟨h.1, h.2.1, h.2.2.1, h.2.2.2.1, h.2.2.2.2.1, h.2.2.2.2.2.1, fun hm => absurd hm hn⟩

/-- One sample on the chain of the flagged layers and on the whole chain: the
members of the layers in `A`, which holds the flagged layers and what they
depend on and no unflagged layer, stay the same. -/
theorem update_sub (A : List Tag) (hA : ∀ t ∈ A, ∀ d ∈ Dependencies t, d ∈ A)
    (F : Tag → Bool) (C : List Tag) (hact : ∀ t ∈ C, F t = true → t ∈ A)
    (hin : ∀ t ∈ C, F t = false → t ∉ A) (a b : State K) (h : SameMembers A a b) (t : K) :
    SameMembers A (update (activeChain C F) a t) (update C b t) := by
  induction C generalizing a b with
  | nil => exact h
  | cons tag rest ih =>
    have ih1 := ih (fun u hu => hact u (List.mem_cons_of_mem _ hu))
      (fun u hu => hin u (List.mem_cons_of_mem _ hu))
    by_cases ha : F tag = true
    · rw [activeChain_cons_pos tag rest F ha]
      have htag : tag ∈ A := hact tag (List.mem_cons_self _ _) ha
      cases tag with
      | Count =>
        have h1 := ih1 a b h
        exact h1.with_count _ _ fun hm => by rw [h1.1 hm]
      | Minimum =>
        have h1 := ih1 a b h
        exact h1.with_min _ _ fun hm => by rw [h1.2.1 hm]
      | Maximum =>
        have h1 := ih1 a b h
        exact h1.with_max _ _ fun hm => by rw [h1.2.2.1 hm]
      | Sum =>
        have h1 := ih1 a b h
        exact h1.with_sum _ _ fun hm => by rw [h1.2.2.2.1 hm]
      | SumSquaredDifferences =>
        obtain ⟨m1, m2⟩ := count_sum_mem hA htag (by simp [Dependencies]) (by simp [Dependencies])
        have e1 := h.1 m1
        have e2 := h.2.2.2.1 m2
        have e3 := h.2.2.2.2.2.1 htag
        simp only [update]
        apply ih1
        by_cases hz : a.count_ = 0
        · have hz1 : b.count_ = 0 := e1 ▸ hz
          rw [if_neg (not_not.mpr hz), if_neg (not_not.mpr hz1)]
          exact h
        · have hz1 : b.count_ ≠ 0 := e1 ▸ hz
          rw [if_pos hz, if_pos hz1]
          exact h.with_ssd _ _ fun _ => by rw [e1, e2, e3]
      | ScatterMatrix =>
        obtain ⟨m1, m2⟩ := count_sum_mem hA htag (by simp [Dependencies]) (by simp [Dependencies])
        have e1 := h.1 m1
        have e2 := h.2.2.2.1 m2
        have e3 := h.2.2.2.2.2.2 htag
        simp only [update]
        apply ih1
        by_cases hz : a.count_ = 0
        · have hz1 : b.count_ = 0 := e1 ▸ hz
          rw [if_neg (not_not.mpr hz), if_neg (not_not.mpr hz1)]
          exact h
        · have hz1 : b.count_ ≠ 0 := e1 ▸ hz
          rw [if_pos hz, if_pos hz1]
          exact h.with_scatter _ _ _ _ fun _ => by rw [e1, e2, e3]
      | _ => exact ih1 a b h
    · rw [activeChain_cons_neg tag rest F ha]
      have ha1 : F tag = false := by simpa using ha
      have htag : tag ∉ A := hin tag (List.mem_cons_self _ _) ha1
      cases tag with
      | Count => exact (ih1 a b h).right_count htag _
      | Minimum => exact (ih1 a b h).right_min htag _
      | Maximum => exact (ih1 a b h).right_max htag _
      | Sum => exact (ih1 a b h).right_sum htag _
      | SumSquaredDifferences =>
        simp only [update]
        apply ih1
        split_ifs
        · exact h.right_ssd htag _
        · exact h
      | ScatterMatrix =>
        simp only [update]
        apply ih1
        split_ifs
        · exact h.right_scatter htag _ _
        · exact h
      | _ => exact ih1 a b h

theorem updatePass2_sub (A : List Tag) (hA : ∀ t ∈ A, ∀ d ∈ Dependencies t, d ∈ A)
    (F : Tag → Bool) (C : List Tag) (hact : ∀ t ∈ C, F t = true → t ∈ A)
    (hin : ∀ t ∈ C, F t = false → t ∉ A) (a b : State K) (h : SameMembers A a b) (t : K) :
    SameMembers A (updatePass2 (activeChain C F) a t) (updatePass2 C b t) := by
  induction C generalizing a b with
  | nil => exact h
  | cons tag rest ih =>
    have ih1 := ih (fun u hu => hact u (List.mem_cons_of_mem _ hu))
      (fun u hu => hin u (List.mem_cons_of_mem _ hu))
    by_cases ha : F tag = true
    · rw [activeChain_cons_pos tag rest F ha]
      have htag : tag ∈ A := hact tag (List.mem_cons_self _ _) ha
      cases tag with
      | CentralMoment N =>
        obtain ⟨m1, m2⟩ := count_sum_mem hA htag (by simp only [Dependencies]; split_ifs <;> simp)
          (by simp only [Dependencies]; split_ifs <;> simp)
        have h1 := ih1 a b h
        exact h1.with_moment N _ _ fun hm => by
          rw [h1.1 m1, h1.2.2.2.1 m2, h1.2.2.2.2.1 N hm]
      | _ => exact ih1 a b h
    · rw [activeChain_cons_neg tag rest F ha]
      have ha1 : F tag = false := by simpa using ha
      have htag : tag ∉ A := hin tag (List.mem_cons_self _ _) ha1
      cases tag with
      | CentralMoment N => exact (ih1 a b h).right_moment N htag _
      | _ => exact ih1 a b h

theorem feedAll_sub (A : List Tag) (hA : ∀ t ∈ A, ∀ d ∈ Dependencies t, d ∈ A)
    (F : Tag → Bool) (C : List Tag) (hact : ∀ t ∈ C, F t = true → t ∈ A)
    (hin : ∀ t ∈ C, F t = false → t ∉ A) (xs : List K) (a b : State K)
    (h : SameMembers A a b) :
    SameMembers A (feedAll (activeChain C F) a xs) (feedAll C b xs) := by
  induction xs generalizing a b with
  | nil => exact h
  | cons x xs ih => exact ih _ _ (update_sub A hA F C hact hin a b h x)

theorem feedAllPass2_sub (A : List Tag) (hA : ∀ t ∈ A, ∀ d ∈ Dependencies t, d ∈ A)
    (F : Tag → Bool) (C : List Tag) (hact : ∀ t ∈ C, F t = true → t ∈ A)
    (hin : ∀ t ∈ C, F t = false → t ∉ A) (xs : List K) (a b : State K)
    (h : SameMembers A a b) :
    SameMembers A (feedAllPass2 (activeChain C F) a xs) (feedAllPass2 C b xs) := by
  induction xs generalizing a b with
  | nil => exact h
  | cons x xs ih => exact ih _ _ (updatePass2_sub A hA F C hact hin a b h x)

/-- A second pass changes no member of a layer in `A` when `A` has no
`CentralMoment<N>` layer. -/
theorem feedAllPass2_frame (A : List Tag) (hA : ∀ N, CentralMoment N ∉ A) (C : List Tag)
    (xs : List K) (a b : State K) (h : SameMembers A a b) :
    SameMembers A a (feedAllPass2 C b xs) := by
  induction xs generalizing b with
  | nil => exact h
  | cons x xs ih =>
    apply ih
    clear ih
    induction C with
    | nil => exact h
    | cons tag rest ih2 =>
      cases tag with
      | CentralMoment N => exact ih2.right_moment N (hA N) _
      | _ => exact ih2

theorem runStatic_passes (c : List Tag) (s : State K) (xs ys : List K) :
    runStatic c s (xs.map Feed.update ++ ys.map Feed.updatePass2)
      = Outcome.ok (feedAllPass2 c (feedAll c s xs) ys) := by
  induction xs generalizing s with
  | nil =>
    simp only [List.map_nil, List.nil_append, feedAll, List.foldl_nil]
    induction ys generalizing s with
    | nil => rfl
    | cons y ys ih =>
      simp only [List.map_cons, runStatic, stepStatic, Outcome.andThen, feedAllPass2,
        List.foldl_cons]
      exact ih _
  | cons x xs ih =>
    simp only [List.map_cons, List.cons_append, runStatic, stepStatic, Outcome.andThen, feedAll,
      List.foldl_cons]
    exact ih _

theorem runStatic_passCalls (c : List Tag) (s : State K) (passes : Nat) (xs : List K) :
    runStatic c s (passCalls passes xs) =
      Outcome.ok (if 2 ≤ passes then feedAllPass2 c (feedAll c s xs) xs else feedAll c s xs) := by
  unfold passCalls
  split_ifs
  · exact runStatic_passes c s xs xs
  · have := runStatic_passes c s xs []
    simpa [feedAllPass2] using this

theorem feedAll_untouched (c : List Tag) (s : State K) (xs : List K) :
    Untouched c s (feedAll c s xs) := by
  induction xs generalizing s with
  | nil => exact Untouched.same _ _
  | cons x xs ih => exact (update_untouched c s x).followed (ih _)

theorem feedAllPass2_untouched (c : List Tag) (s : State K) (xs : List K) :
    Untouched c s (feedAllPass2 c s xs) := by
  induction xs generalizing s with
  | nil => exact Untouched.same _ _
  | cons x xs ih => exact (updatePass2_untouched c s x).followed (ih _)

theorem activateAll_iff (chain : List Tag) (hb : DepsBelow chain) (tags : List Tag)
    (f : Tag → Bool) (x : Tag) :
    activateAll chain f tags x = true ↔
      f x = true ∨ ∃ t ∈ tags, t ∈ chain ∧ Requires t x := by
  induction tags generalizing f with
  | nil => simp [activateAll]
  | cons t ts ih =>
    have h1 : activateAll chain f (t :: ts) = activateAll chain (activate chain t f) ts := rfl
    rw [h1, ih, activate_iff chain hb]
    simp only [List.mem_cons, exists_eq_or_imp]
    tauto

/-- The flagged layers of a dynamic chain, fed as many passes as the dynamic
chain requires, hold what the same layers of the static chain hold after as
many passes as the static chain requires. -/
theorem dynamic_passes_same (e : Env K) (chain : List Tag) (hb : DepsBelow chain)
    (F : Tag → Bool) (hF : ActiveClosed chain F) (xs : List K) (diffa diffb : K) :
    ∃ a b,
      runDynamic e chain F (init e diffa) (passCalls (dynamicPassesRequired chain F) xs)
        = Outcome.ok a ∧
      runStatic chain (init e diffb) (passCalls (passesRequired chain) xs) = Outcome.ok b ∧
      SameMembers (activeChain chain F) a b ∧
      Untouched (activeChain chain F) (init e diffa) a := by
  have hA : ∀ t ∈ activeChain chain F, ∀ d ∈ Dependencies t, d ∈ activeChain chain F := by
    intro t ht d hd
    obtain ⟨h1, h2⟩ := (mem_activeChain _ _ _).mp ht
    exact (mem_activeChain _ _ _).mpr ⟨hb.closed t h1 d hd, (hF t h2).2 d (Requires.of_dep hd)⟩
  have hact : ∀ t ∈ chain, F t = true → t ∈ activeChain chain F :=
    fun t ht hf => (mem_activeChain _ _ _).mpr ⟨ht, hf⟩
  have hin : ∀ t ∈ chain, F t = false → t ∉ activeChain chain F := by
    intro t _ hf hm
    rw [((mem_activeChain _ _ _).mp hm).2] at hf
    cases hf
  have h0 : SameMembers (activeChain chain F) (init e diffa) (init e diffb) :=
    ⟨fun _ => rfl, fun _ => rfl, fun _ => rfl, fun _ => rfl, fun _ _ => rfl, fun _ => rfl,
      fun _ => rfl⟩
  have h1 := feedAll_sub _ hA F chain hact hin xs _ _ h0
  rw [runDynamic_eq e chain hb F hF.reads, runStatic_passCalls, runStatic_passCalls]
  refine ⟨_, _, rfl, rfl, ?_, ?_⟩
  · rcases dynamicPassesRequired_cases chain F with ⟨hd, hnd⟩ | ⟨hd, N, hN1, hN2⟩
    · rw [hd, if_neg (by norm_num)]
      split_ifs
      · refine feedAllPass2_frame _ (fun N hN => hnd ⟨N, ?_⟩) chain xs _ _ h1
        exact (mem_activeChain _ _ _).mp hN
      · exact h1
    · have hs : passesRequired chain = 2 := by
        rcases passesRequired_cases chain with ⟨-, hn⟩ | ⟨h2, -⟩
        · exact absurd ⟨N, hN1⟩ hn
        · exact h2
      rw [hd, hs, if_pos le_rfl]
      exact feedAllPass2_sub _ hA F chain hact hin xs _ _ h1
  · split_ifs
    · exact (feedAll_untouched _ _ _).followed (feedAllPass2_untouched _ _ _)
    · exact feedAll_untouched _ _ _


/-! ## Lemmas: the reshape before the first sample -/

theorem areshape_fields (e : Env K) (kind : SampleKind) (chain : List Tag) (s : List Nat)
    (st : AState K) :
    (areshape e kind chain s st).count_ = st.count_ ∧
    (areshape e kind chain s st).min_ =
      (if Minimum ∈ chain ∧ NeedReshape kind ResultType.MinmaxType = true then
        Storage.filled s e.traitsMax else st.min_) ∧
    (areshape e kind chain s st).max_ =
      (if Maximum ∈ chain ∧ NeedReshape kind ResultType.MinmaxType = true then
        Storage.filled s e.traitsMin else st.max_) ∧
    (areshape e kind chain s st).sum_ =
      (if Tag.Sum ∈ chain ∧ NeedReshape kind ResultType.SumType = true then
        Storage.filled s 0 else st.sum_) ∧
    (∀ N, (areshape e kind chain s st).moment_ N =
      (if CentralMoment N ∈ chain ∧ NeedReshape kind ResultType.SumType = true then
        Storage.filled s 0 else st.moment_ N)) ∧
    (areshape e kind chain s st).sumOfSquaredDifferences_ =
      (if SumSquaredDifferences ∈ chain ∧ NeedReshape kind ResultType.SumType = true then
        Storage.filled s 0 else st.sumOfSquaredDifferences_) ∧
    (areshape e kind chain s st).scatter_matrix_ =
      (if ScatterMatrix ∈ chain ∧ NeedReshape kind ResultType.CovarianceType = true then
        Storage.filled [s.prod, s.prod] 0 else st.scatter_matrix_) ∧
    (areshape e kind chain s st).diff_ =
      (if ScatterMatrix ∈ chain ∧ NeedReshape kind ResultType.SumType = true then
        Storage.filled s 0 else st.diff_) := by
  induction chain generalizing st with
  | nil => simp [areshape]
  | cons tag rest ih =>
    cases tag with
    | CentralMoment M =>
      obtain ⟨h1, h2, h3, h4, h5, h6, h7, h8⟩ := ih
        (if NeedReshape kind ResultType.SumType then
          { st with moment_ := Function.update st.moment_ M (Storage.filled s 0) }
        else st)
      simp only [areshape, List.mem_cons, reduceCtorEq, false_or, h1, h2, h3, h4, h5, h6, h7, h8]
      refine ⟨?_, ?_, ?_, ?_, ?_, ?_, ?_, ?_⟩
      · split_ifs <;> rfl
      · split_ifs <;> rfl
      · split_ifs <;> rfl
      · split_ifs <;> rfl
      · intro N
        by_cases hn : NeedReshape kind ResultType.SumType = true
        · simp only [hn, if_true, and_true, CentralMoment.injEq]
          by_cases hNM : N = M
          · subst hNM
            simp
          · simp [hNM, Function.update_noteq hNM]
        · simp [hn]
      · split_ifs <;> rfl
      · split_ifs <;> rfl
      · split_ifs <;> rfl
    | Minimum =>
      obtain ⟨h1, h2, h3, h4, h5, h6, h7, h8⟩ := ih
        (if NeedReshape kind ResultType.MinmaxType then
          { st with min_ := Storage.filled s e.traitsMax }
        else st)
      simp only [areshape, List.mem_cons, reduceCtorEq, false_or, true_or, true_and,
        h1, h2, h3, h4, h5, h6, h7, h8]
      refine ⟨?_, ?_, ?_, ?_, ?_, ?_, ?_, ?_⟩ <;> (try intro N) <;> split_ifs <;>
        first | rfl | simp_all
    | Maximum =>
      obtain ⟨h1, h2, h3, h4, h5, h6, h7, h8⟩ := ih
        (if NeedReshape kind ResultType.MinmaxType then
          { st with max_ := Storage.filled s e.traitsMin }
        else st)
      simp only [areshape, List.mem_cons, reduceCtorEq, false_or, true_or, true_and,
        h1, h2, h3, h4, h5, h6, h7, h8]
      refine ⟨?_, ?_, ?_, ?_, ?_, ?_, ?_, ?_⟩ <;> (try intro N) <;> split_ifs <;>
        first | rfl | simp_all
    | Sum =>
      obtain ⟨h1, h2, h3, h4, h5, h6, h7, h8⟩ := ih
        (if NeedReshape kind ResultType.SumType then { st with sum_ := Storage.filled s 0 }
        else st)
      simp only [areshape, List.mem_cons, reduceCtorEq, false_or, true_or, true_and,
        h1, h2, h3, h4, h5, h6, h7, h8]
      refine ⟨?_, ?_, ?_, ?_, ?_, ?_, ?_, ?_⟩ <;> (try intro N) <;> split_ifs <;>
        first | rfl | simp_all
    | SumSquaredDifferences =>
      obtain ⟨h1, h2, h3, h4, h5, h6, h7, h8⟩ := ih
        (if NeedReshape kind ResultType.SumType then
          { st with sumOfSquaredDifferences_ := Storage.filled s 0 }
        else st)
      simp only [areshape, List.mem_cons, reduceCtorEq, false_or, true_or, true_and,
        h1, h2, h3, h4, h5, h6, h7, h8]
      refine ⟨?_, ?_, ?_, ?_, ?_, ?_, ?_, ?_⟩ <;> (try intro N) <;> split_ifs <;>
        first | rfl | simp_all
    | ScatterMatrix =>
      simp only [areshape, List.mem_cons, reduceCtorEq, false_or, true_or, true_and]
      generalize hst : (if NeedReshape kind ResultType.SumType = true then
          { (if NeedReshape kind ResultType.CovarianceType = true then
              { st with scatter_matrix_ := Storage.filled [s.prod, s.prod] 0 }
            else st) with diff_ := Storage.filled s 0 }
        else (if NeedReshape kind ResultType.CovarianceType = true then
              { st with scatter_matrix_ := Storage.filled [s.prod, s.prod] 0 }
            else st)) = st2
      obtain ⟨h1, h2, h3, h4, h5, h6, h7, h8⟩ := ih st2
      simp only [h1, h2, h3, h4, h5, h6, h7, h8]
      subst hst
      refine ⟨?_, ?_, ?_, ?_, ?_, ?_, ?_, ?_⟩ <;> (try intro N) <;> split_ifs <;>
        first | rfl | simp_all
    | _ =>
      simp only [areshape, List.mem_cons, reduceCtorEq, false_or]
      exact ih st

theorem Storage.filled_spec (s : List Nat) (x : K) :
    (Storage.filled s x).shape = s ∧ (Storage.filled s x).elements.length = s.prod ∧
      ∀ y ∈ (Storage.filled s x).elements, y = x :=
  ⟨rfl, List.length_replicate _ _, fun _ hy => List.eq_of_mem_replicate hy⟩

theorem foldl_step_reshaped {B T : Type} (reshape : List Nat → B → B) (shape : T → List Nat)
    (baseUpdate : B → T → B) (baseUpdateWeighted : B → T → K → B)
    (cs : List (SampleCall T K)) (b : B) :
    cs.foldl (ReshapeAccumulator.step reshape shape baseUpdate baseUpdateWeighted) ⟨false, b⟩
      = ⟨false, cs.foldl (baseStep baseUpdate baseUpdateWeighted) b⟩ := by
  induction cs generalizing b with
  | nil => rfl
  | cons c cs ih =>
    cases c with
    | plain t => exact ih _
    | weighted t w => exact ih _

theorem areshape_cons (e : Env K) (kind : SampleKind) (t : Tag) (rest : List Tag)
    (s : List Nat) (st : AState K) :
    areshape e kind (t :: rest) s st = areshape e kind rest s (areshape e kind [t] s st) := by
  cases t <;> rfl

theorem dynamicAreshape_eq (e : Env K) (kind : SampleKind) (chain : List Tag)
    (f : Tag → Bool) (s : List Nat) (st : AState K) :
    dynamicAreshape e kind chain f s st = areshape e kind (activeChain chain f) s st := by
  induction chain generalizing st with
  | nil => rfl
  | cons tag rest ih =>
    by_cases ha : f tag = true
    · rw [activeChain_cons_pos tag rest f ha, areshape_cons]
      simp only [dynamicAreshape, ha, if_true, ih]
    · rw [activeChain_cons_neg tag rest f ha]
      have ha1 : f tag = false := by simpa using ha
      simp only [dynamicAreshape, ha1, Bool.false_eq_true, if_false, ih]

theorem initialShape_prod (kind : SampleKind) (hkind : kind ≠ SampleKind.multiArray 0)
    (h : NeedReshape kind ResultType.MinmaxType = true ∨
      NeedReshape kind ResultType.SumType = true) : kind.initialShape.prod = 0 := by
  cases kind with
  | scalar => simp [NeedReshape] at h
  | tinyVector N => simp [NeedReshape] at h
  | multiArray N =>
    cases N with
    | zero => exact absurd rfl hkind
    | succ n => simp [SampleKind.initialShape, List.replicate_succ]

theorem initialMatrixShape_prod (kind : SampleKind)
    (h : NeedReshape kind ResultType.CovarianceType = true) :
    kind.initialMatrixShape.prod = 0 := by
  cases kind with
  | scalar => simp [NeedReshape] at h
  | tinyVector N => simp [SampleKind.initialMatrixShape]
  | multiArray N => simp [SampleKind.initialMatrixShape]


/-! ## Lemmas: the queue of the shortest-path search -/

theorem mem_pqIds {q : List (Nat × K)} {v : Nat} : v ∈ pqIds q ↔ ∃ p, (v, p) ∈ q := by
  simp [pqIds]

theorem pqContains_iff (q : List (Nat × K)) (v : Nat) : pqContains q v = true ↔ v ∈ pqIds q := by
  simp [pqContains]

theorem mem_pqPush (q : List (Nat × K)) (i : Nat) (p : K) (x : Nat × K) :
    x ∈ pqPush q i p ↔ x = (i, p) ∨ (x ∈ q ∧ x.1 ≠ i) := by
  unfold pqPush
  split_ifs with h
  · rw [pqContains_iff, mem_pqIds] at h
    obtain ⟨p0, hp0⟩ := h
    simp only [List.mem_map]
    constructor
    · rintro ⟨y, hy, rfl⟩
      split_ifs with hyi
      · exact Or.inl rfl
      · exact Or.inr ⟨hy, hyi⟩
    · rintro (rfl | ⟨hx, hxi⟩)
      · exact ⟨(i, p0), hp0, by simp⟩
      · exact ⟨x, hx, by simp [hxi]⟩
  · have h1 : i ∉ pqIds q := fun hc => h ((pqContains_iff q i).mpr hc)
    simp only [List.mem_append, List.mem_singleton]
    constructor
    · rintro (hx | rfl)
      · refine Or.inr ⟨hx, fun hc => h1 ?_⟩
        exact mem_pqIds.mpr ⟨x.2, by rw [← hc]; exact hx⟩
      · exact Or.inl rfl
    · rintro (rfl | ⟨hx, -⟩)
      · exact Or.inr rfl
      · exact Or.inl hx

theorem mem_pqIds_pqPush (q : List (Nat × K)) (i : Nat) (p : K) (v : Nat) :
    v ∈ pqIds (pqPush q i p) ↔ v = i ∨ v ∈ pqIds q := by
  rw [mem_pqIds]
  constructor
  · rintro ⟨p1, h⟩
    rcases (mem_pqPush q i p _).mp h with h1 | ⟨h1, -⟩
    · exact Or.inl (Prod.mk.inj h1).1
    · exact Or.inr (mem_pqIds.mpr ⟨p1, h1⟩)
  · rintro (rfl | h)
    · exact ⟨p, (mem_pqPush q v p _).mpr (Or.inl rfl)⟩
    · by_cases hv : v = i
      · subst hv
        exact ⟨p, (mem_pqPush q v p _).mpr (Or.inl rfl)⟩
      · obtain ⟨p1, h1⟩ := mem_pqIds.mp h
        exact ⟨p1, (mem_pqPush q i p _).mpr (Or.inr ⟨h1, hv⟩)⟩

theorem nodup_pqIds_pqPush (q : List (Nat × K)) (i : Nat) (p : K) (h : (pqIds q).Nodup) :
    (pqIds (pqPush q i p)).Nodup := by
  unfold pqPush
  split_ifs with hc
  · have : pqIds (q.map fun x => if x.1 = i then (i, p) else x) = pqIds q := by
      simp only [pqIds, List.map_map]
      apply List.map_congr_left
      intro x _
      simp only [Function.comp]
      split_ifs with hx
      · exact hx.symm
      · rfl
    rw [this]
    exact h
  · have h1 : i ∉ pqIds q := fun hm => hc ((pqContains_iff q i).mpr hm)
    simp only [pqIds, List.map_append, List.map_cons, List.map_nil]
    refine List.nodup_append.mpr ⟨h, List.nodup_singleton i, fun a ha hb => h1 ?_⟩
    rw [List.mem_singleton] at hb
    subst hb
    exact ha

theorem mem_pqPop (top : List (Nat × K) → Nat) (q : List (Nat × K)) (x : Nat × K) :
    x ∈ pqPop top q ↔ x ∈ q ∧ x.1 ≠ top q := by
  simp [pqPop]

theorem mem_pqIds_pqPop (top : List (Nat × K) → Nat) (q : List (Nat × K)) (v : Nat) :
    v ∈ pqIds (pqPop top q) ↔ v ∈ pqIds q ∧ v ≠ top q := by
  simp only [mem_pqIds, mem_pqPop]
  constructor
  · rintro ⟨p, h1, h2⟩
    exact ⟨⟨p, h1⟩, h2⟩
  · rintro ⟨⟨p, h1⟩, h2⟩
    exact ⟨p, h1, h2⟩

theorem nodup_pqIds_pqPop (top : List (Nat × K) → Nat) (q : List (Nat × K))
    (h : (pqIds q).Nodup) : (pqIds (pqPop top q)).Nodup := by
  have : (pqIds (pqPop top q)).Sublist (pqIds q) := by
    simp only [pqIds, pqPop]
    exact (List.filter_sublist q).map _
  exact this.nodup h

theorem length_pqPop (top : List (Nat × K) → Nat) (htop : TopSpec top) (q : List (Nat × K))
    (hq : q ≠ []) : (pqPop top q).length < q.length := by
  obtain ⟨p, hp, -⟩ := htop q hq
  unfold pqPop
  apply List.length_filter_lt_length_iff_exists.mpr
  exact ⟨(top q, p), hp, by simp⟩

theorem top_mem (top : List (Nat × K) → Nat) (htop : TopSpec top) (q : List (Nat × K))
    (hq : q ≠ []) : top q ∈ pqIds q := by
  obtain ⟨p, hp, -⟩ := htop q hq
  exact mem_pqIds.mpr ⟨p, hp⟩

/-! ## Lemmas: paths along the predecessors -/

theorem PredWalk.enlarge {g : Graph} {weights : Nat → K} {S S1 : List Nat}
    {pred pred1 : Nat → Option Nat} {source v : Nat} {l : K}
    (h : PredWalk g weights S pred source v l) (hS : ∀ x ∈ S, x ∈ S1)
    (hp : ∀ x ∈ S, pred1 x = pred x) : PredWalk g weights S1 pred1 source v l := by
  induction h with
  | source hs hp0 => exact PredWalk.source (hS _ hs) ((hp _ hs).trans hp0)
  | step a _ hv hne hp0 ha hy ih =>
    exact PredWalk.step a ih (hS _ hv) hne ((hp _ hv).trans hp0) ha hy

theorem PredWalk.walk {g : Graph} {weights : Nat → K} {S : List Nat}
    {pred : Nat → Option Nat} {source v : Nat} {l : K}
    (h : PredWalk g weights S pred source v l) : Walk g weights source v l := by
  induction h with
  | source _ _ => exact Walk.nil
  | step a _ _ _ _ ha hy ih => exact Walk.snoc a ih ha hy

theorem PredWalk.mem {g : Graph} {weights : Nat → K} {S : List Nat}
    {pred : Nat → Option Nat} {source v : Nat} {l : K}
    (h : PredWalk g weights S pred source v l) : v ∈ S := by
  cases h with
  | source hs _ => exact hs
  | step a _ hv _ _ _ _ => exact hv

theorem Walk.node {g : Graph} (hg : g.WellFormed) {weights : Nat → K} {source v : Nat} {l : K}
    (hs : source ∈ g.nodes) (h : Walk g weights source v l) : v ∈ g.nodes := by
  induction h with
  | nil => exact hs
  | snoc a _ ha hy ih => exact hy ▸ hg.2 _ ih a ha

theorem Walk.nonneg {g : Graph} (hg : g.WellFormed) {weights : Nat → K}
    (hw : ∀ u ∈ g.nodes, ∀ a ∈ g.outArcs u, 0 ≤ weights a.1) {source v : Nat} {l : K}
    (hs : source ∈ g.nodes) (h : Walk g weights source v l) : 0 ≤ l := by
  induction h with
  | nil => exact le_rfl
  | snoc a h1 ha hy ih => exact add_nonneg ih (hw _ (h1.node hg hs) a ha)

/-! ## Lemmas: one iteration of the search -/

/-- Visiting the node `top()` returns keeps the invariant; the node is then the
last one visited and no visited node is farther than it. -/
theorem SearchInv.visit {g : Graph} {weights : Nat → K} {maxDistance : K} {source : Nat}
    {st : ShortestPathDijkstra K} (h : SearchInv g weights maxDistance source st)
    (top : List (Nat × K) → Nat) (htop : TopSpec top) (hq : st.pq_ ≠ []) :
    SearchInv g weights maxDistance source
      { st with pq_ := pqPop top st.pq_,
                discoveryOrder_ := st.discoveryOrder_ ++ [top st.pq_] } ∧
    (∀ x ∈ st.discoveryOrder_ ++ [top st.pq_], st.distMap_ x ≤ st.distMap_ (top st.pq_)) := by
  obtain ⟨p, hp, hmin⟩ := htop st.pq_ hq
  have htq : top st.pq_ ∈ pqIds st.pq_ := mem_pqIds.mpr ⟨p, hp⟩
  have htS : top st.pq_ ∉ st.discoveryOrder_ := fun hc => h.disj _ hc htq
  have hpd : p = st.distMap_ (top st.pq_) := (h.prio _ hp).1
  have hle : ∀ y ∈ pqIds st.pq_, st.distMap_ (top st.pq_) ≤ st.distMap_ y := by
    intro y hy
    obtain ⟨py, hpy⟩ := mem_pqIds.mp hy
    have := hmin _ hpy
    rw [(h.prio _ hpy).1, hpd] at this
    exact this
  have hmax : ∀ x ∈ st.discoveryOrder_ ++ [top st.pq_],
      st.distMap_ x ≤ st.distMap_ (top st.pq_) := by
    intro x hx
    rcases List.mem_append.mp hx with hx | hx
    · exact h.leSQ x hx _ htq
    · rw [List.mem_singleton.mp hx]
  refine ⟨?_, hmax⟩
  constructor
  · exact List.nodup_append.mpr ⟨h.nodupS, List.nodup_singleton _, fun a ha hb =>
      htS (by rw [List.mem_singleton] at hb; exact hb ▸ ha)⟩
  · exact nodup_pqIds_pqPop top _ h.nodupQ
  · intro v hv hc
    obtain ⟨hc1, hc2⟩ := (mem_pqIds_pqPop top _ v).mp hc
    rcases List.mem_append.mp hv with hv | hv
    · exact h.disj v hv hc1
    · exact hc2 (List.mem_singleton.mp hv)
  · intro v hv
    rcases List.mem_append.mp hv with hv | hv
    · exact h.subS v hv
    · rw [List.mem_singleton.mp hv]
      exact h.subQ _ htq
  · intro v hv
    exact h.subQ v ((mem_pqIds_pqPop top _ v).mp hv).1
  · intro x hx
    exact h.prio x ((mem_pqPop top _ x).mp hx).1
  · intro v hv hS hQ
    refine h.predNone v hv (fun hc => hS (List.mem_append_left _ hc)) fun hc => ?_
    by_cases hvt : v = top st.pq_
    · exact hS (List.mem_append_right _ (List.mem_singleton.mpr hvt))
    · exact hQ ((mem_pqIds_pqPop top _ v).mpr ⟨hc, hvt⟩)
  · intro v hv
    apply h.predSome
    rcases hv with hv | hv
    · rcases List.mem_append.mp hv with hv | hv
      · exact Or.inl hv
      · rw [List.mem_singleton.mp hv]
        exact Or.inr htq
    · exact Or.inr ((mem_pqIds_pqPop top _ v).mp hv).1
  · intro x hx y hy
    have hy1 := ((mem_pqIds_pqPop top _ y).mp hy).1
    rcases List.mem_append.mp hx with hx | hx
    · exact h.leSQ x hx y hy1
    · rw [List.mem_singleton.mp hx]
      exact hle y hy1
  · refine List.pairwise_append.mpr ⟨h.sorted, List.pairwise_singleton _ _, ?_⟩
    intro x hx y hy
    rw [List.mem_singleton.mp hy]
    exact h.leSQ x hx _ htq
  · intro x hx
    rcases List.mem_append.mp hx with hx | hx
    · exact h.boundS x hx
    · rw [List.mem_singleton.mp hx]
      exact hpd ▸ (h.prio _ hp).2
  · intro v hv
    rcases List.mem_append.mp hv with hv | hv
    · exact (h.realS v hv).enlarge (fun x hx => List.mem_append_left _ hx) fun _ _ => rfl
    · rw [List.mem_singleton.mp hv]
      rcases h.treeQ _ htq with ⟨h1, h2, h3, h4⟩ | ⟨h1, u, hu, h2, a, ha, h3, h4⟩
      · rw [h3, h2]
        refine PredWalk.source ?_ (h2 ▸ h4)
        rw [← h2]
        exact List.mem_append_right _ (List.mem_singleton_self _)
      · rw [h4]
        exact PredWalk.step a
          ((h.realS u hu).enlarge (fun x hx => List.mem_append_left _ hx) fun _ _ => rfl)
          (List.mem_append_right _ (List.mem_singleton_self _)) h1 h2 ha h3
  · intro v hv
    obtain ⟨hv1, hv2⟩ := (mem_pqIds_pqPop top _ v).mp hv
    rcases h.treeQ v hv1 with ⟨h1, -, -, -⟩ | ⟨h1, u, hu, h2⟩
    · exfalso
      rcases h.src with ⟨-, hs⟩ | hs
      · rw [hs] at hv1 htq
        exact hv2 ((List.mem_singleton.mp hv1).trans (List.mem_singleton.mp htq).symm)
      · rw [h1] at hs
        cases hs
    · exact Or.inr ⟨h1, u, List.mem_append_left _ hu, h2⟩
  · right
    rcases h.src with ⟨h1, h2⟩ | h1
    · rw [h2] at htq
      simp only [h1, List.nil_append, List.head?_cons, List.mem_singleton.mp htq]
    · cases hS : st.discoveryOrder_ with
      | nil => rw [hS] at h1; cases h1
      | cons x xs => rw [hS] at h1; simpa using h1

theorem mem_of_head? {l : List Nat} {x : Nat} (h : l.head? = some x) : x ∈ l := by
  cases l with
  | nil => cases h
  | cons y ys =>
    simp only [List.head?_cons, Option.some.injEq] at h
    exact h ▸ List.mem_cons_self _ _

/-- Giving the node `y`, which is not visited, the distance of the last visited
node plus the weight of an arc from it, that node as predecessor, and an entry
in the queue, keeps the invariant. -/
theorem SearchInv.assign {g : Graph} {weights : Nat → K} {maxDistance : K} {source : Nat}
    {st : ShortestPathDijkstra K} (h : SearchInv g weights maxDistance source st)
    (topNode : Nat) (ht : topNode ∈ st.discoveryOrder_)
    (hmax : ∀ x ∈ st.discoveryOrder_, st.distMap_ x ≤ st.distMap_ topNode)
    (a : Nat × Nat) (ha : a ∈ g.outArcs topNode) (hy : a.2 ∈ g.nodes)
    (hyS : a.2 ∉ st.discoveryOrder_) (hw : 0 ≤ weights a.1)
    (hM : st.distMap_ topNode + weights a.1 ≤ maxDistance) :
    SearchInv g weights maxDistance source
      { st with pq_ := pqPush st.pq_ a.2 (st.distMap_ topNode + weights a.1),
                distMap_ := Function.update st.distMap_ a.2 (st.distMap_ topNode + weights a.1),
                predMap_ := Function.update st.predMap_ a.2 (some topNode) } := by
  have hne : st.discoveryOrder_ ≠ [] := List.ne_nil_of_mem ht
  have hsrc : source ∈ st.discoveryOrder_ := by
    rcases h.src with ⟨h1, -⟩ | h1
    · exact absurd h1 hne
    · exact mem_of_head? h1
  have hys : a.2 ≠ source := fun hc => hyS (hc ▸ hsrc)
  have hS : ∀ x ∈ st.discoveryOrder_, x ≠ a.2 := fun x hx hc => hyS (hc ▸ hx)
  have hd : ∀ x ∈ st.discoveryOrder_,
      Function.update st.distMap_ a.2 (st.distMap_ topNode + weights a.1) x = st.distMap_ x :=
    fun x hx => Function.update_noteq (hS x hx) _ _
  have hp : ∀ x ∈ st.discoveryOrder_,
      Function.update st.predMap_ a.2 (some topNode) x = st.predMap_ x :=
    fun x hx => Function.update_noteq (hS x hx) _ _
  constructor
  · exact h.nodupS
  · exact nodup_pqIds_pqPush _ _ _ h.nodupQ
  · intro v hv hc
    rcases (mem_pqIds_pqPush _ _ _ v).mp hc with hc | hc
    · exact hS v hv hc
    · exact h.disj v hv hc
  · exact h.subS
  · intro v hv
    rcases (mem_pqIds_pqPush _ _ _ v).mp hv with hc | hc
    · exact hc ▸ hy
    · exact h.subQ v hc
  · intro x hx
    rcases (mem_pqPush _ _ _ x).mp hx with hc | ⟨hc1, hc2⟩
    · subst hc
      simp only [Function.update_same, true_and]
      exact hM
    · simp only [Function.update_noteq hc2]
      exact h.prio x hc1
  · intro v hv hvS hvQ
    have hvy : v ≠ a.2 := fun hc => hvQ ((mem_pqIds_pqPush _ _ _ v).mpr (Or.inl hc))
    simp only [Function.update_noteq hvy]
    exact h.predNone v hv hvS fun hc => hvQ ((mem_pqIds_pqPush _ _ _ v).mpr (Or.inr hc))
  · intro v hv
    by_cases hvy : v = a.2
    · subst hvy
      simp
    · simp only [Function.update_noteq hvy]
      apply h.predSome
      rcases hv with hv | hv
      · exact Or.inl hv
      · rcases (mem_pqIds_pqPush _ _ _ v).mp hv with hc | hc
        · exact absurd hc hvy
        · exact Or.inr hc
  · intro x hx z hz
    simp only [hd x hx]
    by_cases hzy : z = a.2
    · subst hzy
      simp only [Function.update_same]
      have := hmax x hx
      linarith
    · simp only [Function.update_noteq hzy]
      rcases (mem_pqIds_pqPush _ _ _ z).mp hz with hc | hc
      · exact absurd hc hzy
      · exact h.leSQ x hx z hc
  · refine h.sorted.imp_of_mem fun {x z} hx hz hxz => ?_
    simp only [hd x hx, hd z hz]
    exact hxz
  · intro x hx
    simp only [hd x hx]
    exact h.boundS x hx
  · intro v hv
    simp only [hd v hv]
    exact (h.realS v hv).enlarge (fun _ hx => hx) hp
  · intro v hv
    right
    by_cases hvy : v = a.2
    · subst hvy
      refine ⟨hys, topNode, ht, by simp, a, ha, rfl, ?_⟩
      simp only [Function.update_same, hd topNode ht]
    · rcases (mem_pqIds_pqPush _ _ _ v).mp hv with hc | hc
      · exact absurd hc hvy
      · rcases h.treeQ v hc with ⟨h1, -⟩ | ⟨h1, u, hu, h2, b, hb, h3, h4⟩
        · exact absurd h1 hne
        · refine ⟨h1, u, hu, ?_, b, hb, h3, ?_⟩
          · simp only [Function.update_noteq hvy, h2]
          · simp only [Function.update_noteq hvy, hd u hu, h4]
  · exact Or.inr (by
      rcases h.src with ⟨h1, -⟩ | h1
      · exact absurd h1 hne
      · exact h1)

theorem Progress.stay (st : ShortestPathDijkstra K) : Progress st st :=
  ⟨rfl, fun _ _ => rfl, fun _ hv => ⟨hv, le_rfl⟩, rfl, rfl⟩

theorem Progress.chain {st st1 st2 : ShortestPathDijkstra K} (h : Progress st st1)
    (h1 : Progress st1 st2) : Progress st st2 := by
  obtain ⟨a1, a2, a3, a4, a5⟩ := h
  obtain ⟨b1, b2, b3, b4, b5⟩ := h1
  refine ⟨b1.trans a1, fun x hx => ?_, fun v hv => ?_, b4.trans a4, b5.trans a5⟩
  · rw [b2 x (a1 ▸ hx), a2 x hx]
  · obtain ⟨c1, c2⟩ := a3 v hv
    obtain ⟨c3, c4⟩ := b3 v c1
    exact ⟨c3, c4.trans c2⟩

theorem Relaxed.progress {g : Graph} {weights : Nat → K} {maxDistance : K}
    {st st1 : ShortestPathDijkstra K} {x : Nat} (h : Relaxed g weights maxDistance st x)
    (hx : x ∈ st.discoveryOrder_) (hp : Progress st st1) :
    Relaxed g weights maxDistance st1 x := by
  obtain ⟨a1, a2, a3, -, -⟩ := hp
  intro a ha hM
  rw [a2 x hx] at hM ⊢
  obtain ⟨h1, h2⟩ := h a ha hM
  rcases h1 with h1 | h1
  · exact ⟨Or.inl (a1 ▸ h1), by rw [a2 _ h1]; exact h2⟩
  · exact ⟨Or.inr (a3 _ h1).1, (a3 _ h1).2.trans h2⟩

/-- The body of the loop over the arcs of the last visited node, for one arc. -/
theorem relaxArc_spec {g : Graph} {weights : Nat → K} {maxDistance : K} {source : Nat}
    {st : ShortestPathDijkstra K} (h : SearchInv g weights maxDistance source st)
    (topNode : Nat) (ht : topNode ∈ st.discoveryOrder_)
    (hmax : ∀ x ∈ st.discoveryOrder_, st.distMap_ x ≤ st.distMap_ topNode)
    (a : Nat × Nat) (ha : a ∈ g.outArcs topNode) (hy : a.2 ∈ g.nodes)
    (hw : 0 ≤ weights a.1) :
    SearchInv g weights maxDistance source (relaxArc weights maxDistance topNode st a) ∧
    Progress st (relaxArc weights maxDistance topNode st a) ∧
    (st.distMap_ topNode + weights a.1 ≤ maxDistance →
      (a.2 ∈ st.discoveryOrder_ ∨
        a.2 ∈ pqIds (relaxArc weights maxDistance topNode st a).pq_) ∧
      (relaxArc weights maxDistance topNode st a).distMap_ a.2
        ≤ st.distMap_ topNode + weights a.1) := by
  unfold relaxArc
  by_cases hc : pqContains st.pq_ a.2 = true
  · have hq : a.2 ∈ pqIds st.pq_ := (pqContains_iff _ _).mp hc
    have hyS : a.2 ∉ st.discoveryOrder_ := fun hS => h.disj _ hS hq
    simp only [hc, if_true]
    by_cases hlt : st.distMap_ topNode + weights a.1 < st.distMap_ a.2
    · simp only [hlt, if_true]
      have hM : st.distMap_ topNode + weights a.1 ≤ maxDistance := by
        obtain ⟨p, hp⟩ := mem_pqIds.mp hq
        exact hlt.le.trans (h.prio _ hp).2
      refine ⟨h.assign topNode ht hmax a ha hy hyS hw hM, ⟨rfl, fun x hx => ?_, fun v hv => ?_,
        rfl, rfl⟩, fun _ => ⟨Or.inr ((mem_pqIds_pqPush _ _ _ _).mpr (Or.inl rfl)), ?_⟩⟩
      · exact Function.update_noteq (fun (hxy : x = a.2) => hyS (hxy ▸ hx)) _ _
      · refine ⟨(mem_pqIds_pqPush _ _ _ _).mpr (Or.inr hv), ?_⟩
        by_cases hvy : v = a.2
        · subst hvy
          simp only [Function.update_same]
          exact hlt.le
        · simp only [Function.update_noteq hvy, le_refl]
      · simp only [Function.update_same, le_refl]
    · simp only [hlt, if_false]
      exact ⟨h, Progress.stay st, fun _ => ⟨Or.inr hq, not_lt.mp hlt⟩⟩
  · have hq : a.2 ∉ pqIds st.pq_ := fun hq => hc ((pqContains_iff _ _).mpr hq)
    have hc1 : pqContains st.pq_ a.2 = false := by simpa using hc
    simp only [hc1, Bool.false_eq_true, if_false]
    by_cases hn : st.predMap_ a.2 = none
    · have hyS : a.2 ∉ st.discoveryOrder_ := fun hS => h.predSome _ (Or.inl hS) hn
      simp only [hn, if_true]
      by_cases hM : st.distMap_ topNode + weights a.1 ≤ maxDistance
      · simp only [hM, if_true]
        refine ⟨h.assign topNode ht hmax a ha hy hyS hw hM, ⟨rfl, fun x hx => ?_,
          fun v hv => ?_, rfl, rfl⟩,
          fun _ => ⟨Or.inr ((mem_pqIds_pqPush _ _ _ _).mpr (Or.inl rfl)), ?_⟩⟩
        · exact Function.update_noteq (fun (hxy : x = a.2) => hyS (hxy ▸ hx)) _ _
        · refine ⟨(mem_pqIds_pqPush _ _ _ _).mpr (Or.inr hv), ?_⟩
          have hvy : v ≠ a.2 := fun hvy => hq (hvy ▸ hv)
          simp only [Function.update_noteq hvy, le_refl]
        · simp only [Function.update_same, le_refl]
      · simp only [hM, if_false]
        exact ⟨h, Progress.stay st, fun hM1 => hM1.elim⟩
    · simp only [hn, if_false]
      have hyS : a.2 ∈ st.discoveryOrder_ := by
        by_contra hS
        exact hn (h.predNone _ hy hS hq)
      refine ⟨h, Progress.stay st, fun _ => ⟨Or.inl hyS, ?_⟩⟩
      have := hmax _ hyS
      linarith

/-- The loop over the arcs of the last visited node. -/
theorem relax_foldl {g : Graph} {weights : Nat → K} {maxDistance : K} {source : Nat}
    (topNode : Nat) (arcs : List (Nat × Nat))
    (harcs : ∀ a ∈ arcs, a ∈ g.outArcs topNode ∧ a.2 ∈ g.nodes ∧ 0 ≤ weights a.1)
    (st : ShortestPathDijkstra K) (h : SearchInv g weights maxDistance source st)
    (ht : topNode ∈ st.discoveryOrder_)
    (hmax : ∀ x ∈ st.discoveryOrder_, st.distMap_ x ≤ st.distMap_ topNode) :
    SearchInv g weights maxDistance source
      (arcs.foldl (relaxArc weights maxDistance topNode) st) ∧
    Progress st (arcs.foldl (relaxArc weights maxDistance topNode) st) ∧
    ∀ a ∈ arcs, st.distMap_ topNode + weights a.1 ≤ maxDistance →
      (a.2 ∈ st.discoveryOrder_ ∨
        a.2 ∈ pqIds (arcs.foldl (relaxArc weights maxDistance topNode) st).pq_) ∧
      (arcs.foldl (relaxArc weights maxDistance topNode) st).distMap_ a.2
        ≤ st.distMap_ topNode + weights a.1 := by
  induction arcs generalizing st with
  | nil => exact ⟨h, Progress.stay st, fun a ha => absurd ha (List.not_mem_nil a)⟩
  | cons a rest ih =>
    obtain ⟨ha1, ha2, ha3⟩ := harcs a (List.mem_cons_self _ _)
    obtain ⟨i1, p1, r1⟩ := relaxArc_spec h topNode ht hmax a ha1 ha2 ha3
    have hS1 := p1.1
    have hd1 := p1.2.1
    have ht1 : topNode ∈ (relaxArc weights maxDistance topNode st a).discoveryOrder_ :=
      hS1 ▸ ht
    have hmax1 : ∀ x ∈ (relaxArc weights maxDistance topNode st a).discoveryOrder_,
        (relaxArc weights maxDistance topNode st a).distMap_ x
          ≤ (relaxArc weights maxDistance topNode st a).distMap_ topNode := by
      intro x hx
      rw [hS1] at hx
      rw [hd1 x hx, hd1 topNode ht]
      exact hmax x hx
    obtain ⟨i2, p2, r2⟩ := ih (fun b hb => harcs b (List.mem_cons_of_mem _ hb)) _ i1 ht1 hmax1
    simp only [List.foldl_cons]
    refine ⟨i2, p1.chain p2, fun b hb hM => ?_⟩
    rcases List.mem_cons.mp hb with hb | hb
    · subst hb
      obtain ⟨c1, c2⟩ := r1 hM
      rcases c1 with c1 | c1
      · refine ⟨Or.inl c1, ?_⟩
        rw [p2.2.1 _ (hS1 ▸ c1)]
        exact c2
      · exact ⟨Or.inr (p2.2.2.1 _ c1).1, (p2.2.2.1 _ c1).2.trans c2⟩
    · have := r2 b hb (by rw [hd1 topNode ht]; exact hM)
      rw [hd1 topNode ht, hS1] at this
      exact this

theorem Relaxed.unqueue {g : Graph} {weights : Nat → K} {maxDistance : K}
    {st : ShortestPathDijkstra K} {x : Nat} (h : Relaxed g weights maxDistance st x)
    (top : List (Nat × K) → Nat) :
    Relaxed g weights maxDistance
      { st with pq_ := pqPop top st.pq_,
                discoveryOrder_ := st.discoveryOrder_ ++ [top st.pq_] } x := by
  intro a ha hM
  obtain ⟨h1, h2⟩ := h a ha hM
  refine ⟨?_, h2⟩
  rcases h1 with h1 | h1
  · exact Or.inl (List.mem_append_left _ h1)
  · by_cases hc : a.2 = top st.pq_
    · exact Or.inl (List.mem_append_right _ (List.mem_singleton.mpr hc))
    · exact Or.inr ((mem_pqIds_pqPop top _ _).mpr ⟨h1, hc⟩)

theorem SearchInv.length_le {g : Graph} {weights : Nat → K} {maxDistance : K} {source : Nat}
    {st : ShortestPathDijkstra K} (h : SearchInv g weights maxDistance source st) :
    st.discoveryOrder_.length ≤ g.nodes.length :=
  (List.subperm_of_subset h.nodupS h.subS).length_le

theorem SearchInv.ne_nil {g : Graph} {weights : Nat → K} {maxDistance : K} {source : Nat}
    {st : ShortestPathDijkstra K} (h : SearchInv g weights maxDistance source st)
    (hq : st.pq_ = []) : st.discoveryOrder_ ≠ [] := by
  intro hS
  rcases h.src with ⟨-, h1⟩ | h1
  · rw [hq] at h1
    cases h1
  · rw [hS] at h1
    cases h1

/-- The first loop of `runImpl` ends, within as many iterations as the graph has
nodes, in a state that keeps the invariant. -/
theorem mainLoop_spec {g : Graph} (hg : g.WellFormed) (top : List (Nat × K) → Nat)
    (htop : TopSpec top) (weights : Nat → K)
    (hw : ∀ u ∈ g.nodes, ∀ a ∈ g.outArcs u, 0 ≤ weights a.1) (target : Option Nat)
    (maxDistance : K) (source : Nat) (fuel : Nat) (st : ShortestPathDijkstra K)
    (h : SearchInv g weights maxDistance source st)
    (hr : ∀ x ∈ st.discoveryOrder_, Relaxed g weights maxDistance st x)
    (hnt : ∀ t, target = some t → t ∉ st.discoveryOrder_)
    (hfuel : g.nodes.length + 1 ≤ fuel + st.discoveryOrder_.length) :
    ∃ st1, mainLoop g top weights target maxDistance fuel st = some st1 ∧
      SearchInv g weights maxDistance source st1 ∧
      LoopExit g weights maxDistance target st1 ∧ st1.discoveryOrder_ ≠ [] ∧
      st1.source_ = st.source_ ∧ st1.target_ = st.target_ := by
  induction fuel generalizing st with
  | zero =>
    have := h.length_le
    omega
  | succ fuel ih =>
    unfold mainLoop
    by_cases hq : st.pq_ = []
    · simp only [hq, List.isEmpty_nil, if_true]
      exact ⟨st, rfl, h, Or.inl ⟨hq, hr, hnt⟩, h.ne_nil hq, rfl, rfl⟩
    · have hq1 : st.pq_.isEmpty = false := by
        cases hp : st.pq_ with
        | nil => exact absurd hp hq
        | cons x xs => rfl
      have htq := top_mem top htop st.pq_ hq
      obtain ⟨p, hp⟩ := mem_pqIds.mp htq
      have hM : ¬ st.distMap_ (top st.pq_) > maxDistance := not_lt.mpr (h.prio _ hp).2
      obtain ⟨i1, hmax⟩ := h.visit top htop hq
      simp only [hq1, Bool.false_eq_true, if_false, hM]
      by_cases htt : some (top st.pq_) = target
      · simp only [htt, if_true]
        refine ⟨_, rfl, i1, Or.inr ⟨top st.pq_, htt.symm, ?_⟩, ?_, rfl, rfl⟩
        · simp
        · simp
      · simp only [htt, if_false]
        have htn : top st.pq_ ∈ g.nodes := h.subQ _ htq
        obtain ⟨i2, p2, r2⟩ := relax_foldl (top st.pq_) (g.outArcs (top st.pq_))
          (fun a ha => ⟨ha, hg.2 _ htn a ha, hw _ htn a ha⟩) _ i1
          (List.mem_append_right _ (List.mem_singleton_self _)) hmax
        obtain ⟨st1, e1, e2, e3, e4, e5, e6⟩ := ih _ i2 (by
            intro x hx
            rw [p2.1] at hx
            rcases List.mem_append.mp hx with hx1 | hx1
            · exact ((hr x hx1).unqueue top).progress hx p2
            · rw [List.mem_singleton.mp hx1]
              intro a ha hMa
              rw [p2.2.1 _ (List.mem_append_right _ (List.mem_singleton_self _))] at hMa ⊢
              obtain ⟨c1, c2⟩ := r2 a ha hMa
              refine ⟨?_, c2⟩
              rcases c1 with c1 | c1
              · exact Or.inl (p2.1 ▸ c1)
              · exact Or.inr c1)
          (by
            intro t ht hc
            rw [p2.1] at hc
            rcases List.mem_append.mp hc with hc | hc
            · exact hnt t ht hc
            · exact htt (by rw [ht, List.mem_singleton.mp hc]))
          (by
            rw [p2.1]
            simp only [List.length_append, List.length_singleton]
            omega)
        exact ⟨st1, e1, e2, e3, e4, e5.trans p2.2.2.2.1, e6.trans p2.2.2.2.2⟩

/-- The second loop of `runImpl` ends with an empty queue and has cleared the
predecessor of every node that was queued. -/
theorem drain_spec (top : List (Nat × K) → Nat) (htop : TopSpec top) (fuel : Nat)
    (st : ShortestPathDijkstra K) (hfuel : st.pq_.length + 1 ≤ fuel) :
    ∃ st1, drain top fuel st = some st1 ∧ st1.pq_ = [] ∧
      st1.discoveryOrder_ = st.discoveryOrder_ ∧ st1.distMap_ = st.distMap_ ∧
      st1.source_ = st.source_ ∧ st1.target_ = st.target_ ∧
      ∀ v, st1.predMap_ v = if v ∈ pqIds st.pq_ then none else st.predMap_ v := by
  induction fuel generalizing st with
  | zero => omega
  | succ fuel ih =>
    unfold drain
    by_cases hq : st.pq_ = []
    · simp only [hq, List.isEmpty_nil, if_true]
      exact ⟨st, rfl, hq, rfl, rfl, rfl, rfl, fun v => by simp [hq, pqIds]⟩
    · have hq1 : st.pq_.isEmpty = false := by
        cases hp : st.pq_ with
        | nil => exact absurd hp hq
        | cons x xs => rfl
      simp only [hq1, Bool.false_eq_true, if_false]
      have hlen := length_pqPop top htop st.pq_ hq
      obtain ⟨st1, e1, e2, e3, e4, e5, e6, e7⟩ := ih
        { st with predMap_ := Function.update st.predMap_ (top st.pq_) none,
                  pq_ := pqPop top st.pq_ } (by simp only; omega)
      refine ⟨st1, e1, e2, e3, e4, e5, e6, fun v => ?_⟩
      rw [e7 v]
      simp only [mem_pqIds_pqPop]
      by_cases hv : v = top st.pq_
      · subst hv
        simp [top_mem top htop st.pq_ hq]
      · simp [hv, Function.update_noteq hv]

theorem SearchInv.ofEq {g : Graph} {weights : Nat → K} {maxDistance : K} {source : Nat}
    {st st1 : ShortestPathDijkstra K} (h : SearchInv g weights maxDistance source st)
    (h1 : st1.pq_ = st.pq_) (h2 : st1.discoveryOrder_ = st.discoveryOrder_)
    (h3 : st1.distMap_ = st.distMap_) (h4 : st1.predMap_ = st.predMap_) :
    SearchInv g weights maxDistance source st1 := by
  cases st
  cases st1
  simp only at h1 h2 h3 h4
  subst h1 h2 h3 h4
  exact ⟨h.nodupS, h.nodupQ, h.disj, h.subS, h.subQ, h.prio, h.predNone, h.predSome, h.leSQ,
    h.sorted, h.boundS, h.realS, h.treeQ, h.src⟩

/-- Emptying the queue after the first loop keeps the invariant. -/
theorem SearchInv.drained {g : Graph} {weights : Nat → K} {maxDistance : K} {source : Nat}
    {st st1 : ShortestPathDijkstra K} (h : SearchInv g weights maxDistance source st)
    (hne : st.discoveryOrder_ ≠ []) (h1 : st1.pq_ = [])
    (h2 : st1.discoveryOrder_ = st.discoveryOrder_) (h3 : st1.distMap_ = st.distMap_)
    (h4 : ∀ v, st1.predMap_ v = if v ∈ pqIds st.pq_ then none else st.predMap_ v) :
    SearchInv g weights maxDistance source st1 := by
  have hp : ∀ x ∈ st.discoveryOrder_, st1.predMap_ x = st.predMap_ x := by
    intro x hx
    rw [h4 x, if_neg (h.disj x hx)]
  constructor
  · rw [h2]; exact h.nodupS
  · rw [h1]; exact List.nodup_nil
  · rw [h1]; intro v _ hc; cases hc
  · rw [h2]; exact h.subS
  · rw [h1]; intro v hc; cases hc
  · rw [h1]; intro x hc; cases hc
  · intro v hv hS _
    rw [h4 v]
    split_ifs with hq
    · rfl
    · exact h.predNone v hv (h2 ▸ hS) hq
  · intro v hv
    rw [h1, h2] at hv
    rcases hv with hv | hv
    · rw [hp v hv]
      exact h.predSome v (Or.inl hv)
    · cases hv
  · rw [h1]; intro x _ y hc; cases hc
  · rw [h2, h3]; exact h.sorted
  · rw [h2, h3]; exact h.boundS
  · rw [h2, h3]
    intro v hv
    exact (h.realS v hv).enlarge (fun _ hx => hx) hp
  · rw [h1]; intro v hc; cases hc
  · right
    rw [h2]
    rcases h.src with ⟨h5, -⟩ | h5
    · exact absurd h5 hne
    · exact h5

theorem foldl_update_none (l : List Nat) (m : Nat → Option Nat) (v : Nat) :
    l.foldl (fun m node => Function.update m node none) m v = if v ∈ l then none else m v := by
  induction l generalizing m with
  | nil => simp
  | cons x xs ih =>
    rw [List.foldl_cons, ih]
    by_cases hv : v ∈ xs
    · simp [hv]
    · by_cases hx : v = x
      · subst hx
        simp [hv]
      · simp [hv, hx, Function.update_noteq hx]

/-- The state `initializeMaps` leaves on an object with an empty queue satisfies
the invariant when `maxDistance` is not negative. -/
theorem SearchInv.init {g : Graph} (weights : Nat → K) {maxDistance : K}
    (hM : 0 ≤ maxDistance) {source : Nat} (hs : source ∈ g.nodes)
    (st : ShortestPathDijkstra K) (h0 : st.pq_ = []) :
    SearchInv g weights maxDistance source { initializeMaps g st source with target_ := none } := by
  have hq : (initializeMaps g st source).pq_ = [(source, 0)] := by
    simp [initializeMaps, h0, pqPush, pqContains, pqIds]
  have hS : (initializeMaps g st source).discoveryOrder_ = [] := rfl
  have hd : (initializeMaps g st source).distMap_ source = 0 := by simp [initializeMaps]
  have hp : (initializeMaps g st source).predMap_ source = some source := by
    simp [initializeMaps]
  have hpn : ∀ v ∈ g.nodes, v ≠ source → (initializeMaps g st source).predMap_ v = none := by
    intro v hv hne
    simp only [initializeMaps, Function.update_noteq hne, foldl_update_none, hv, if_true]
  constructor
  · simp only [hS]; exact List.nodup_nil
  · simp only [hq, pqIds, List.map_cons, List.map_nil]; exact List.nodup_singleton _
  · simp only [hS]; intro v hc; cases hc
  · simp only [hS]; intro v hc; cases hc
  · simp only [hq, pqIds, List.map_cons, List.map_nil, List.mem_singleton]
    rintro v rfl
    exact hs
  · simp only [hq, List.mem_singleton]
    rintro x rfl
    exact ⟨hd.symm, hd ▸ hM⟩
  · simp only [hS, hq, pqIds, List.map_cons, List.map_nil, List.mem_singleton]
    intro v hv _ hne
    exact hpn v hv hne
  · simp only [hS, hq, pqIds, List.map_cons, List.map_nil, List.mem_singleton]
    rintro v (hc | rfl)
    · cases hc
    · rw [hp]
      exact Option.some_ne_none _
  · simp only [hS]; intro x hc; cases hc
  · simp only [hS]; exact List.Pairwise.nil
  · simp only [hS]; intro x hc; cases hc
  · simp only [hS]; intro x hc; cases hc
  · simp only [hS, hq, pqIds, List.map_cons, List.map_nil, List.mem_singleton]
    rintro v rfl
    exact Or.inl ⟨trivial, rfl, hd, hp⟩
  · left
    simp only [hS, hq, pqIds, List.map_cons, List.map_nil, and_self]

/-! ## Lemmas: a whole search -/

theorem mainLoop_mono (g : Graph) (top : List (Nat × K) → Nat) (weights : Nat → K)
    (target : Option Nat) (maxDistance : K) (fuel k : Nat) (st st1 : ShortestPathDijkstra K)
    (h : mainLoop g top weights target maxDistance fuel st = some st1) :
    mainLoop g top weights target maxDistance (fuel + k) st = some st1 := by
  induction fuel generalizing st with
  | zero => simp [mainLoop] at h
  | succ fuel ih =>
    rw [Nat.add_right_comm]
    unfold mainLoop at h ⊢
    simp only at h ⊢
    split_ifs at h ⊢ with h1 h2 h3
    · exact h
    · exact h
    · exact h
    · exact ih _ h

theorem drain_mono (top : List (Nat × K) → Nat) (fuel k : Nat)
    (st st1 : ShortestPathDijkstra K) (h : drain top fuel st = some st1) :
    drain top (fuel + k) st = some st1 := by
  induction fuel generalizing st with
  | zero => simp [drain] at h
  | succ fuel ih =>
    rw [Nat.add_right_comm]
    unfold drain at h ⊢
    split_ifs at h ⊢ with h1
    · exact h
    · exact ih _ h

theorem runImpl_mono (g : Graph) (top : List (Nat × K) → Nat) (fuel k : Nat)
    (weights : Nat → K) (target : Option Nat) (maxDistance : K)
    (st st1 : ShortestPathDijkstra K)
    (h : runImpl g top fuel weights target maxDistance st = Search.returned st1) :
    runImpl g top (fuel + k) weights target maxDistance st = Search.returned st1 := by
  unfold runImpl at h ⊢
  cases h1 : mainLoop g top weights target maxDistance fuel { st with target_ := none } with
  | none => simp [h1] at h
  | some s1 =>
    rw [h1] at h
    rw [mainLoop_mono g top weights target maxDistance fuel k _ s1 h1]
    simp only at h ⊢
    cases h2 : drain top fuel s1 with
    | none => simp [h2] at h
    | some s2 =>
      rw [h2] at h
      rw [drain_mono top fuel k s1 s2 h2]
      exact h

theorem Relaxed.sameFields {g : Graph} {weights : Nat → K} {maxDistance : K}
    {st st1 : ShortestPathDijkstra K} {x : Nat} (h : Relaxed g weights maxDistance st x)
    (h1 : st1.pq_ = st.pq_) (h2 : st1.discoveryOrder_ = st.discoveryOrder_)
    (h3 : st1.distMap_ = st.distMap_) : Relaxed g weights maxDistance st1 x := by
  intro a ha hM
  rw [h1, h2, h3] at *
  exact h a ha hM

theorem LoopExit.carry {g : Graph} {weights : Nat → K} {maxDistance : K} {target : Option Nat}
    {st st1 : ShortestPathDijkstra K} (h : LoopExit g weights maxDistance target st)
    (h1 : st.pq_ = [] → st1.pq_ = st.pq_) (h2 : st1.discoveryOrder_ = st.discoveryOrder_)
    (h3 : st1.distMap_ = st.distMap_) : LoopExit g weights maxDistance target st1 := by
  rcases h with ⟨a1, a2, a3⟩ | ⟨t, a1, a2⟩
  · left
    refine ⟨(h1 a1).trans a1, fun x hx => (a2 x (h2 ▸ hx)).sameFields (h1 a1) h2 h3, fun t ht => ?_⟩
    rw [h2]
    exact a3 t ht
  · right
    exact ⟨t, a1, h2 ▸ a2⟩

/-- The member function `runImpl` on a state that satisfies the invariant and in
which no node is visited yet: with a bound of more iterations than the graph
has nodes it returns, in a state that satisfies the invariant. -/
theorem runImpl_spec {g : Graph} (hg : g.WellFormed) (top : List (Nat × K) → Nat)
    (htop : TopSpec top) (weights : Nat → K)
    (hw : ∀ u ∈ g.nodes, ∀ a ∈ g.outArcs u, 0 ≤ weights a.1) (target : Option Nat)
    (maxDistance : K) (source : Nat) (fuel : Nat) (hfuel : g.nodes.length + 1 ≤ fuel)
    (st : ShortestPathDijkstra K)
    (h : SearchInv g weights maxDistance source { st with target_ := none })
    (hS : st.discoveryOrder_ = []) :
    ∃ st1, runImpl g top fuel weights target maxDistance st = Search.returned st1 ∧
      SearchInv g weights maxDistance source st1 ∧ st1.pq_ = [] ∧
      LoopExit g weights maxDistance target st1 ∧ st1.discoveryOrder_ ≠ [] ∧
      st1.source_ = st.source_ ∧
      st1.target_ = (if target = none ∨ st1.discoveryOrder_.getLast? = target then
        st1.discoveryOrder_.getLast? else none) := by
  obtain ⟨s1, e1, e2, e3, e4, e5, e6⟩ := mainLoop_spec hg top htop weights hw target
    maxDistance source fuel _ h (by simp only [hS]; intro x hx; cases hx)
    (by simp only [hS]; intro t _ hc; cases hc) (by simp only [hS, List.length_nil]; omega)
  have hlen : s1.pq_.length ≤ g.nodes.length := by
    have := (List.subperm_of_subset e2.nodupQ e2.subQ).length_le
    simpa [pqIds] using this
  obtain ⟨s2, d1, d2, d3, d4, d5, d6, d7⟩ := drain_spec top htop fuel s1 (by omega)
  have i2 : SearchInv g weights maxDistance source s2 := e2.drained e4 d2 d3 d4 d7
  have x2 : LoopExit g weights maxDistance target s2 :=
    e3.carry (fun hq => d2.trans hq.symm) d3 d4
  unfold runImpl
  rw [e1]
  simp only [d1]
  cases hb : s2.discoveryOrder_.getLast? with
  | none =>
    rw [List.getLast?_eq_none_iff] at hb
    exact absurd (d3 ▸ hb) e4
  | some back =>
    simp only
    have hne : s2.discoveryOrder_ ≠ [] := d3 ▸ e4
    split_ifs with hc
    · refine ⟨_, rfl, i2.ofEq rfl rfl rfl rfl, d2, x2.carry (fun _ => rfl) rfl rfl, hne,
        d5.trans e5, ?_⟩
      simp only [hb, hc, if_true]
    · refine ⟨_, rfl, i2, d2, x2, hne, d5.trans e5, ?_⟩
      rw [hb, if_neg hc, d6, e6]

theorem initializeMaps_fields (g : Graph) (st : ShortestPathDijkstra K) (source : Nat) :
    (initializeMaps g st source).discoveryOrder_ = [] ∧
    (initializeMaps g st source).source_ = some source :=
  ⟨rfl, rfl⟩

/-- The member function `run` with a source node of the graph, edge weights that
are not negative and a `maxDistance` that is not negative, on an object whose
queue is empty. -/
theorem run_spec {g : Graph} (hg : g.WellFormed) (top : List (Nat × K) → Nat)
    (htop : TopSpec top) (weights : Nat → K)
    (hw : ∀ u ∈ g.nodes, ∀ a ∈ g.outArcs u, 0 ≤ weights a.1) (target : Option Nat)
    (maxDistance : K) (hM : 0 ≤ maxDistance) (source : Nat) (hs : source ∈ g.nodes)
    (fuel : Nat) (hfuel : g.nodes.length + 1 ≤ fuel) (st : ShortestPathDijkstra K)
    (h0 : st.pq_ = []) :
    ∃ st1, run g top fuel weights st source target maxDistance = Search.returned st1 ∧
      SearchInv g weights maxDistance source st1 ∧ st1.pq_ = [] ∧
      LoopExit g weights maxDistance target st1 ∧ st1.discoveryOrder_ ≠ [] ∧
      st1.source_ = some source ∧
      st1.target_ = (if target = none ∨ st1.discoveryOrder_.getLast? = target then
        st1.discoveryOrder_.getLast? else none) :=
  runImpl_spec hg top htop weights hw target maxDistance source fuel hfuel
    (initializeMaps g st source) (SearchInv.init weights hM hs st h0) rfl

theorem drain_discoveryOrder (top : List (Nat × K) → Nat) (fuel : Nat)
    (st st1 : ShortestPathDijkstra K) (h : drain top fuel st = some st1) :
    st1.discoveryOrder_ = st.discoveryOrder_ := by
  induction fuel generalizing st with
  | zero => simp [drain] at h
  | succ fuel ih =>
    unfold drain at h
    split_ifs at h with h1
    · simp only [Option.some.injEq] at h
      rw [← h]
    · have h2 := ih _ h
      exact h2

/-- With a negative `maxDistance` the search visits no node and `runImpl` takes
`back()` of the empty `discoveryOrder_`: `run` does not return. -/
theorem run_negative (g : Graph) (top : List (Nat × K) → Nat) (htop : TopSpec top)
    (weights : Nat → K) (target : Option Nat) (maxDistance : K) (hM : maxDistance < 0)
    (source : Nat) (fuel : Nat) (st st1 : ShortestPathDijkstra K) (h0 : st.pq_ = []) :
    run g top fuel weights st source target maxDistance ≠ Search.returned st1 := by
  have hq : (initializeMaps g st source).pq_ = [(source, 0)] := by
    simp [initializeMaps, h0, pqPush, pqContains, pqIds]
  have hd : (initializeMaps g st source).distMap_ source = 0 := by simp [initializeMaps]
  have htop1 : top [(source, (0 : K))] = source := by
    obtain ⟨p, hp, -⟩ := htop [(source, 0)] (by simp)
    simp only [List.mem_singleton, Prod.mk.injEq] at hp
    exact hp.1
  intro hc
  unfold run runImpl at hc
  cases fuel with
  | zero => simp [mainLoop] at hc
  | succ fuel =>
    have hml : mainLoop g top weights target maxDistance (fuel + 1)
        { initializeMaps g st source with target_ := none }
        = some { initializeMaps g st source with target_ := none } := by
      unfold mainLoop
      simp only [hq, List.isEmpty_cons, Bool.false_eq_true, if_false, htop1, hd]
      rw [if_pos hM]
    rw [hml] at hc
    simp only at hc
    cases hdr : drain top (fuel + 1) { initializeMaps g st source with target_ := none } with
    | none => simp [hdr] at hc
    | some s2 =>
      rw [hdr] at hc
      have := drain_discoveryOrder top _ _ _ hdr
      simp only at hc
      have hnil : s2.discoveryOrder_ = [] := this
      simp [hnil] at hc

/-- With a negative `maxDistance` the first loop of `runImpl` ends at its first
test, the second loop takes the source off the queue, and `runImpl` then
evaluates `back()` on the empty `discoveryOrder_`. -/
theorem run_negative_back (g : Graph) (top : List (Nat × K) → Nat) (htop : TopSpec top)
    (weights : Nat → K) (target : Option Nat) (maxDistance : K) (hM : maxDistance < 0)
    (source : Nat) (fuel : Nat) (hfuel : 2 ≤ fuel) (st : ShortestPathDijkstra K)
    (h0 : st.pq_ = []) :
    (∃ st1 st2, mainLoop g top weights target maxDistance fuel
          { initializeMaps g st source with target_ := none } = some st1 ∧
        drain top fuel st1 = some st2 ∧ st2.discoveryOrder_ = []) ∧
      run g top fuel weights st source target maxDistance = Search.undefinedBack := by
  have hq : (initializeMaps g st source).pq_ = [(source, 0)] := by
    simp [initializeMaps, h0, pqPush, pqContains, pqIds]
  have hd : (initializeMaps g st source).distMap_ source = 0 := by simp [initializeMaps]
  have htop1 : top [(source, (0 : K))] = source := by
    obtain ⟨p, hp, -⟩ := htop [(source, 0)] (by simp)
    simp only [List.mem_singleton, Prod.mk.injEq] at hp
    exact hp.1
  obtain ⟨k, rfl⟩ : ∃ k, fuel = k + 1 := ⟨fuel - 1, by omega⟩
  have hml : mainLoop g top weights target maxDistance (k + 1)
      { initializeMaps g st source with target_ := none }
      = some { initializeMaps g st source with target_ := none } := by
    unfold mainLoop
    simp only [hq, List.isEmpty_cons, Bool.false_eq_true, if_false, htop1, hd]
    rw [if_pos hM]
  obtain ⟨s2, d1, -, d3, -⟩ := drain_spec top htop (k + 1)
    { initializeMaps g st source with target_ := none } (by simp only [hq, List.length_singleton]; omega)
  have hnil : s2.discoveryOrder_ = [] := d3
  refine ⟨⟨_, s2, hml, d1, hnil⟩, ?_⟩
  unfold run runImpl
  rw [hml]
  simp only [d1, hnil, List.getLast?_nil]

/-! ## Lemmas: what a finished search has found -/

theorem PredWalk.at_source {g : Graph} {weights : Nat → K} {S : List Nat}
    {pred : Nat → Option Nat} {source : Nat} {l : K}
    (h : PredWalk g weights S pred source source l) : l = 0 := by
  cases h with
  | source _ _ => rfl
  | step a _ _ hne _ _ _ => exact absurd rfl hne

theorem SearchInv.head_source {g : Graph} {weights : Nat → K} {maxDistance : K} {source : Nat}
    {st : ShortestPathDijkstra K} (h : SearchInv g weights maxDistance source st)
    (hne : st.discoveryOrder_ ≠ []) : st.discoveryOrder_.head? = some source := by
  rcases h.src with ⟨h1, -⟩ | h1
  · exact absurd h1 hne
  · exact h1

/-- Once the queue is empty and the arcs of all visited nodes have been looked
at, every path from the source that stays within `maxDistance` ends in a
visited node whose distance is at most the weight of the path. -/
theorem walk_lower_bound {g : Graph} (hg : g.WellFormed) {weights : Nat → K}
    (hw : ∀ u ∈ g.nodes, ∀ a ∈ g.outArcs u, 0 ≤ weights a.1) {maxDistance : K} {source : Nat}
    (hs : source ∈ g.nodes) {st : ShortestPathDijkstra K}
    (h : SearchInv g weights maxDistance source st) (hq : st.pq_ = [])
    (hne : st.discoveryOrder_ ≠ [])
    (hR : ∀ x ∈ st.discoveryOrder_, Relaxed g weights maxDistance st x)
    {v : Nat} {l : K} (hwalk : Walk g weights source v l) (hl : l ≤ maxDistance) :
    v ∈ st.discoveryOrder_ ∧ st.distMap_ v ≤ l := by
  induction hwalk with
  | nil =>
    have hsS : source ∈ st.discoveryOrder_ := mem_of_head? (h.head_source hne)
    exact ⟨hsS, le_of_eq (h.realS source hsS).at_source⟩
  | snoc a h1 ha hy ih =>
    rename_i x y l1
    have hx : x ∈ g.nodes := h1.node hg hs
    have hwa : 0 ≤ weights a.1 := hw x hx a ha
    obtain ⟨hxS, hdx⟩ := ih (by linarith)
    obtain ⟨r1, r2⟩ := hR x hxS a ha (by linarith)
    rw [hq] at r1
    rw [hy] at r1 r2
    rcases r1 with r1 | r1
    · exact ⟨r1, by linarith⟩
    · simp [pqIds] at r1

/-! ## Lemmas: what every search leaves behind -/

theorem relaxArc_tidy {g : Graph} (weights : Nat → K) (maxDistance : K) (topNode : Nat)
    (st : ShortestPathDijkstra K) (arc : Nat × Nat) (h : Tidy g st) (ha : arc.2 ∈ g.nodes) :
    Tidy g (relaxArc weights maxDistance topNode st arc) := by
  obtain ⟨t1, t2, t3⟩ := h
  have key : ∀ d : K, Tidy g
      { st with pq_ := pqPush st.pq_ arc.2 d,
                distMap_ := Function.update st.distMap_ arc.2 d,
                predMap_ := Function.update st.predMap_ arc.2 (some topNode) } := by
    intro d
    refine ⟨fun v hv hS hQ => ?_, t2, fun v hv => ?_⟩
    · simp only [mem_pqIds_pqPush, not_or] at hQ
      simp only
      rw [Function.update_noteq hQ.1]
      exact t1 v hv hS hQ.2
    · simp only [mem_pqIds_pqPush] at hv
      rcases hv with hv | hv
      · rw [hv]
        exact ha
      · exact t3 v hv
  unfold relaxArc
  simp only
  split_ifs
  · exact key _
  · exact ⟨t1, t2, t3⟩
  · exact key _
  · exact ⟨t1, t2, t3⟩
  · exact ⟨t1, t2, t3⟩

theorem foldl_relaxArc_tidy {g : Graph} (weights : Nat → K) (maxDistance : K) (topNode : Nat)
    (arcs : List (Nat × Nat)) (st : ShortestPathDijkstra K) (h : Tidy g st)
    (ha : ∀ a ∈ arcs, a.2 ∈ g.nodes) :
    Tidy g (arcs.foldl (relaxArc weights maxDistance topNode) st) := by
  induction arcs generalizing st with
  | nil => exact h
  | cons a rest ih =>
    rw [List.foldl_cons]
    exact ih _ (relaxArc_tidy weights maxDistance topNode st a h (ha a (List.mem_cons_self _ _)))
      fun b hb => ha b (List.mem_cons_of_mem _ hb)

theorem mainLoop_tidy {g : Graph} (hg : g.WellFormed) (top : List (Nat × K) → Nat)
    (htop : TopSpec top) (weights : Nat → K) (target : Option Nat) (maxDistance : K)
    (fuel : Nat) (st st1 : ShortestPathDijkstra K) (h : Tidy g st)
    (hrun : mainLoop g top weights target maxDistance fuel st = some st1) : Tidy g st1 := by
  induction fuel generalizing st with
  | zero => simp [mainLoop] at hrun
  | succ fuel ih =>
    unfold mainLoop at hrun
    simp only at hrun
    have popped : st.pq_ ≠ [] → Tidy g
        { st with pq_ := pqPop top st.pq_,
                  discoveryOrder_ := st.discoveryOrder_ ++ [top st.pq_] } := by
      intro hq
      obtain ⟨t1, t2, t3⟩ := h
      have hmem := top_mem top htop st.pq_ hq
      refine ⟨fun v hv hS hQ => ?_, fun v hv => ?_, fun v hv => ?_⟩
      · simp only [List.mem_append, List.mem_singleton, not_or] at hS
        simp only [mem_pqIds_pqPop, not_and, not_not] at hQ
        exact t1 v hv hS.1 fun hc => hS.2 (hQ hc)
      · simp only [List.mem_append, List.mem_singleton] at hv
        rcases hv with hv | hv
        · exact t2 v hv
        · rw [hv]
          exact t3 _ hmem
      · simp only [mem_pqIds_pqPop] at hv
        exact t3 v hv.1
    split_ifs at hrun with h1 h2 h3
    · simp only [Option.some.injEq] at hrun
      rw [← hrun]
      exact h
    · simp only [Option.some.injEq] at hrun
      rw [← hrun]
      exact h
    · have hq : st.pq_ ≠ [] := by
        intro hc
        rw [hc] at h1
        exact h1 rfl
      simp only [Option.some.injEq] at hrun
      rw [← hrun]
      exact popped hq
    · have hq : st.pq_ ≠ [] := by
        intro hc
        rw [hc] at h1
        exact h1 rfl
      refine ih _ (foldl_relaxArc_tidy weights maxDistance _ _ _ (popped hq) ?_) hrun
      exact hg.2 _ (h.2.2 _ (top_mem top htop st.pq_ hq))

theorem drain_tidy {g : Graph} (top : List (Nat × K) → Nat) (fuel : Nat)
    (st st1 : ShortestPathDijkstra K) (h : Tidy g st) (hrun : drain top fuel st = some st1) :
    Tidy g st1 ∧ st1.pq_ = [] := by
  induction fuel generalizing st with
  | zero => simp [drain] at hrun
  | succ fuel ih =>
    unfold drain at hrun
    split_ifs at hrun with h1
    · simp only [Option.some.injEq] at hrun
      rw [← hrun]
      exact ⟨h, List.isEmpty_iff.mp h1⟩
    · refine ih _ ?_ hrun
      obtain ⟨t1, t2, t3⟩ := h
      refine ⟨fun v hv hS hQ => ?_, t2, fun v hv => ?_⟩
      · simp only [mem_pqIds_pqPop, not_and, not_not] at hQ
        simp only
        by_cases hvt : v = top st.pq_
        · rw [hvt, Function.update_same]
        · rw [Function.update_noteq hvt]
          exact t1 v hv hS fun hc => hvt (hQ hc)
      · simp only [mem_pqIds_pqPop] at hv
        exact t3 v hv.1

/-- Whatever the weights and `maxDistance`: after `runImpl` has returned the
queue is empty and a node of the graph outside `discoveryOrder_` has no
predecessor. -/
theorem runImpl_tidy {g : Graph} (hg : g.WellFormed) (top : List (Nat × K) → Nat)
    (htop : TopSpec top) (weights : Nat → K) (target : Option Nat) (maxDistance : K)
    (fuel : Nat) (st st1 : ShortestPathDijkstra K) (h : Tidy g st)
    (hrun : runImpl g top fuel weights target maxDistance st = Search.returned st1) :
    st1.pq_ = [] ∧ (∀ v ∈ g.nodes, v ∉ st1.discoveryOrder_ → st1.predMap_ v = none) ∧
      ∀ v ∈ st1.discoveryOrder_, v ∈ g.nodes := by
  unfold runImpl at hrun
  cases h1 : mainLoop g top weights target maxDistance fuel { st with target_ := none } with
  | none => simp [h1] at hrun
  | some s1 =>
    rw [h1] at hrun
    simp only at hrun
    have i1 : Tidy g s1 := mainLoop_tidy hg top htop weights target maxDistance fuel
      { st with target_ := none } s1 ⟨h.1, h.2.1, h.2.2⟩ h1
    cases h2 : drain top fuel s1 with
    | none => simp [h2] at hrun
    | some s2 =>
      rw [h2] at hrun
      simp only at hrun
      obtain ⟨⟨t1, t2, t3⟩, hq⟩ := drain_tidy top fuel s1 s2 i1 h2
      have fin : s2.pq_ = [] ∧ (∀ v ∈ g.nodes, v ∉ s2.discoveryOrder_ → s2.predMap_ v = none) ∧
          ∀ v ∈ s2.discoveryOrder_, v ∈ g.nodes := by
        refine ⟨hq, fun v hv hS => t1 v hv hS ?_, t2⟩
        rw [hq]
        simp [pqIds]
      cases hb : s2.discoveryOrder_.getLast? with
      | none => simp [hb] at hrun
      | some back =>
        rw [hb] at hrun
        simp only at hrun
        split_ifs at hrun
        · simp only [Search.returned.injEq] at hrun
          rw [← hrun]
          exact fin
        · simp only [Search.returned.injEq] at hrun
          rw [← hrun]
          exact fin

theorem initializeMaps_tidy (g : Graph) (st : ShortestPathDijkstra K) (source : Nat)
    (hs : source ∈ g.nodes) (h0 : st.pq_ = []) : Tidy g (initializeMaps g st source) := by
  have hq : pqIds (initializeMaps g st source).pq_ = [source] := by
    simp [initializeMaps, h0, pqPush, pqContains, pqIds]
  refine ⟨fun v hv _ hQ => ?_, fun v hv => ?_, fun v hv => ?_⟩
  · rw [hq, List.mem_singleton] at hQ
    simp only [initializeMaps]
    rw [Function.update_noteq hQ, foldl_update_none, if_pos hv]
  · simp [initializeMaps] at hv
  · rw [hq, List.mem_singleton] at hv
    rw [hv]
    exact hs

theorem initializeMapsMultiSource_tidy (g : Graph) (st : ShortestPathDijkstra K)
    (sources : List Nat) (hs : ∀ s ∈ sources, s ∈ g.nodes) (h0 : st.pq_ = []) :
    Tidy g (initializeMapsMultiSource g st sources) := by
  have step : ∀ (l : List Nat) (s : ShortestPathDijkstra K), (∀ x ∈ l, x ∈ g.nodes) → Tidy g s →
      Tidy g (l.foldl
        (fun (s : ShortestPathDijkstra K) source =>
          { s with distMap_ := Function.update s.distMap_ source 0,
                   predMap_ := Function.update s.predMap_ source (some source),
                   pq_ := pqPush s.pq_ source 0 }) s) := by
    intro l
    induction l with
    | nil => intro s _ h; exact h
    | cons x xs ih =>
      intro s hl h
      rw [List.foldl_cons]
      refine ih _ (fun y hy => hl y (List.mem_cons_of_mem _ hy)) ?_
      obtain ⟨t1, t2, t3⟩ := h
      refine ⟨fun v hv hS hQ => ?_, t2, fun v hv => ?_⟩
      · simp only [mem_pqIds_pqPush, not_or] at hQ
        simp only
        rw [Function.update_noteq hQ.1]
        exact t1 v hv hS hQ.2
      · simp only [mem_pqIds_pqPush] at hv
        rcases hv with hv | hv
        · rw [hv]
          exact hl x (List.mem_cons_self _ _)
        · exact t3 v hv
  have base : Tidy g
      ({ st with predMap_ := g.nodes.foldl (fun m node => Function.update m node none) st.predMap_,
                 discoveryOrder_ := [] } : ShortestPathDijkstra K) := by
    refine ⟨fun v hv _ _ => ?_, fun v hv => ?_, fun v hv => ?_⟩
    · simp only
      rw [foldl_update_none, if_pos hv]
    · simp at hv
    · simp [h0, pqIds] at hv
  obtain ⟨t1, t2, t3⟩ := step sources _ hs base
  exact ⟨t1, t2, t3⟩

theorem reInitializeMaps_clean {g : Graph} (st : ShortestPathDijkstra K)
    (h : st.pq_ = [] ∧ (∀ v ∈ g.nodes, v ∉ st.discoveryOrder_ → st.predMap_ v = none) ∧
      ∀ v ∈ st.discoveryOrder_, v ∈ g.nodes) (source : Nat) :
    reInitializeMaps st source = initializeMaps g st source := by
  obtain ⟨-, i2, i3⟩ := h
  have hp : st.discoveryOrder_.foldl (fun m node => Function.update m node none)
      st.predMap_ = g.nodes.foldl (fun m node => Function.update m node none)
      st.predMap_ := by
    funext v
    rw [foldl_update_none, foldl_update_none]
    by_cases hv : v ∈ st.discoveryOrder_
    · rw [if_pos hv, if_pos (i3 v hv)]
    · rw [if_neg hv]
      by_cases hn : v ∈ g.nodes
      · rw [if_pos hn, i2 v hn hv]
      · rw [if_neg hn]
  unfold reInitializeMaps initializeMaps
  simp only [hp]

/-- An object on which a search has returned has an empty queue, and the only
nodes of the graph with a predecessor are those in `discoveryOrder_`. -/
theorem Completed.clean {g : Graph} (hg : g.WellFormed) {top : List (Nat × K) → Nat}
    (htop : TopSpec top) {st : ShortestPathDijkstra K} (h : Completed g top st) :
    st.pq_ = [] ∧ (∀ v ∈ g.nodes, v ∉ st.discoveryOrder_ → st.predMap_ v = none) ∧
      ∀ v ∈ st.discoveryOrder_, v ∈ g.nodes := by
  induction h with
  | first st0 st h0 fuel weights source hs target maxDistance hrun =>
    exact runImpl_tidy hg top htop weights target maxDistance fuel _ st
      (initializeMaps_tidy g st0 source hs h0) hrun
  | multi st0 st h0 fuel weights sources hs target maxDistance hrun =>
    exact runImpl_tidy hg top htop weights target maxDistance fuel _ st
      (initializeMapsMultiSource_tidy g st0 sources hs h0) hrun
  | reRun st0 st hc fuel weights source hs target maxDistance hrun ih =>
    have hrun2 : runImpl g top fuel weights target maxDistance (reInitializeMaps st0 source)
        = Search.returned st := hrun
    rw [reInitializeMaps_clean st0 ih source] at hrun2
    exact runImpl_tidy hg top htop weights target maxDistance fuel _ st
      (initializeMaps_tidy g st0 source hs ih.1) hrun2

/-- On an object on which a search has returned, `reInitializeMaps` leaves the
members as `initializeMaps` does. -/
theorem reInitializeMaps_eq {g : Graph} (hg : g.WellFormed) {top : List (Nat × K) → Nat}
    (htop : TopSpec top) {st : ShortestPathDijkstra K} (h : Completed g top st)
    (source : Nat) : reInitializeMaps st source = initializeMaps g st source :=
  reInitializeMaps_clean st (h.clean hg htop) source

theorem topFirst_fold (l : List (Nat × K)) (x : Nat × K) :
    (l.foldl (fun best y => if y.2 < best.2 then y else best) x ∈ x :: l) ∧
      ∀ y ∈ x :: l, (l.foldl (fun best y => if y.2 < best.2 then y else best) x).2 ≤ y.2 := by
  induction l generalizing x with
  | nil => simp
  | cons z zs ih =>
    rw [List.foldl_cons]
    obtain ⟨i1, i2⟩ := ih (if z.2 < x.2 then z else x)
    constructor
    · rcases List.mem_cons.mp i1 with i1 | i1
      · rw [i1]
        split_ifs <;> simp
      · exact List.mem_cons_of_mem _ (List.mem_cons_of_mem _ i1)
    · intro y hy
      have hb := i2 (if z.2 < x.2 then z else x) (List.mem_cons_self _ _)
      rcases List.mem_cons.mp hy with hy | hy
      · subst hy
        refine le_trans hb ?_
        split_ifs with hc
        · exact le_of_lt hc
        · exact le_rfl
      · rcases List.mem_cons.mp hy with hy | hy
        · subst hy
          refine le_trans hb ?_
          split_ifs with hc
          · exact le_rfl
          · exact not_lt.mp hc
        · exact i2 y (List.mem_cons_of_mem _ hy)

/-- The queue order used for evaluation keeps the contract of `top()`. -/
theorem topFirst_spec : TopSpec (topFirst : List (Nat × K) → Nat) := by
  intro q hq
  cases q with
  | nil => exact absurd rfl hq
  | cons x rest =>
    obtain ⟨i1, i2⟩ := topFirst_fold rest x
    exact ⟨_, i1, i2⟩

/-- Whatever the iteration bound, a `run` that returns leaves the object in a
state that satisfies the invariant, with an empty queue. -/
theorem run_returned {g : Graph} (hg : g.WellFormed) (top : List (Nat × K) → Nat)
    (htop : TopSpec top) (weights : Nat → K)
    (hw : ∀ u ∈ g.nodes, ∀ a ∈ g.outArcs u, 0 ≤ weights a.1) (target : Option Nat)
    (maxDistance : K) (source : Nat) (hs : source ∈ g.nodes) (fuel : Nat)
    (st0 st : ShortestPathDijkstra K) (h0 : st0.pq_ = [])
    (hrun : run g top fuel weights st0 source target maxDistance = Search.returned st) :
    0 ≤ maxDistance ∧ SearchInv g weights maxDistance source st ∧ st.pq_ = [] ∧
      LoopExit g weights maxDistance target st ∧ st.discoveryOrder_ ≠ [] ∧
      st.source_ = some source ∧
      st.target_ = (if target = none ∨ st.discoveryOrder_.getLast? = target then
        st.discoveryOrder_.getLast? else none) := by
  by_cases hM : 0 ≤ maxDistance
  · obtain ⟨st1, e1, e2⟩ := run_spec hg top htop weights hw target maxDistance hM
      source hs (fuel + (g.nodes.length + 1)) (by omega) st0 h0
    have e4 := runImpl_mono g top fuel (g.nodes.length + 1) weights target maxDistance
      (initializeMaps g st0 source) st hrun
    unfold run at e1
    rw [e4] at e1
    simp only [Search.returned.injEq] at e1
    subst e1
    exact ⟨hM, e2⟩
  · exact absurd hrun
      (run_negative g top htop weights target maxDistance (not_le.mp hM) source fuel st0 st h0)

/-- After a `run` without target: a node that a path of weight within
`maxDistance` leads to is visited, its distance is the weight of the path back
along the predecessors and no path to it weighs less; any other node of the
graph has no predecessor. -/
theorem run_shortest {g : Graph} (hg : g.WellFormed) (top : List (Nat × K) → Nat)
    (htop : TopSpec top) (weights : Nat → K)
    (hw : ∀ u ∈ g.nodes, ∀ a ∈ g.outArcs u, 0 ≤ weights a.1)
    (maxDistance : K) (source : Nat) (hs : source ∈ g.nodes) (fuel : Nat)
    (st0 st : ShortestPathDijkstra K) (h0 : st0.pq_ = [])
    (hrun : run g top fuel weights st0 source none maxDistance = Search.returned st) :
    (∀ v l, Walk g weights source v l → l ≤ maxDistance →
      PredWalk g weights st.discoveryOrder_ st.predMap_ source v (st.distMap_ v) ∧
        ∀ l1, Walk g weights source v l1 → st.distMap_ v ≤ l1) ∧
    (∀ v ∈ g.nodes, (¬ ∃ l, l ≤ maxDistance ∧ Walk g weights source v l) →
      st.predMap_ v = none) := by
  obtain ⟨hM, e2, e3, e4, e5, -⟩ :=
    run_returned hg top htop weights hw none maxDistance source hs fuel st0 st h0 hrun
  have hR : ∀ x ∈ st.discoveryOrder_, Relaxed g weights maxDistance st x := by
    rcases e4 with ⟨-, hR, -⟩ | ⟨t, ht, -⟩
    · exact hR
    · cases ht
  constructor
  · intro v l hwalk hl
    obtain ⟨hvS, -⟩ := walk_lower_bound hg hw hs e2 e3 e5 hR hwalk hl
    refine ⟨e2.realS v hvS, fun l1 h1 => ?_⟩
    by_cases hl1 : l1 ≤ maxDistance
    · exact (walk_lower_bound hg hw hs e2 e3 e5 hR h1 hl1).2
    · exact le_trans (e2.boundS v hvS) (le_of_lt (not_le.mp hl1))
  · intro v hv hno
    refine e2.predNone v hv (fun hvS => hno ⟨_, e2.boundS v hvS, (e2.realS v hvS).walk⟩) ?_
    rw [e3]
    simp [pqIds]

/-- After a `run` with a target: `target_` is the target if a path of weight
within `maxDistance` leads to it, and invalid if not. -/
theorem run_target {g : Graph} (hg : g.WellFormed) (top : List (Nat × K) → Nat)
    (htop : TopSpec top) (weights : Nat → K)
    (hw : ∀ u ∈ g.nodes, ∀ a ∈ g.outArcs u, 0 ≤ weights a.1) (t : Nat)
    (maxDistance : K) (source : Nat) (hs : source ∈ g.nodes) (fuel : Nat)
    (st0 st : ShortestPathDijkstra K) (h0 : st0.pq_ = [])
    (hrun : run g top fuel weights st0 source (some t) maxDistance = Search.returned st) :
    ((∃ l, l ≤ maxDistance ∧ Walk g weights source t l) → st.target_ = some t) ∧
    ((¬ ∃ l, l ≤ maxDistance ∧ Walk g weights source t l) → st.target_ = none) := by
  obtain ⟨hM, e2, e3, e4, e5, -, e7⟩ :=
    run_returned hg top htop weights hw (some t) maxDistance source hs fuel st0 st h0 hrun
  simp only [reduceCtorEq, false_or] at e7
  rcases e4 with ⟨-, hR, hT⟩ | ⟨t1, ht, hlast⟩
  · have htS : t ∉ st.discoveryOrder_ := hT t rfl
    have hne : st.discoveryOrder_.getLast? ≠ some t :=
      fun hc => htS (List.mem_of_getLast?_eq_some hc)
    rw [if_neg hne] at e7
    refine ⟨fun ⟨l, hl, hwalk⟩ => ?_, fun _ => e7⟩
    exact absurd (walk_lower_bound hg hw hs e2 e3 e5 hR hwalk hl).1 htS
  · simp only [Option.some.injEq] at ht
    subst ht
    rw [if_pos hlast] at e7
    refine ⟨fun _ => e7.trans hlast, fun hno => ?_⟩
    have htS : t ∈ st.discoveryOrder_ := List.mem_of_getLast?_eq_some hlast
    exact absurd ⟨_, e2.boundS t htS, (e2.realS t htS).walk⟩ hno


/-! ## Lemmas: the resolved sequence as a merge of branches -/

theorem mem_keepLastOccurrence (l : List Tag) (x : Tag) : x ∈ keepLastOccurrence l ↔ x ∈ l := by
  induction l with
  | nil => simp [keepLastOccurrence]
  | cons a t ih =>
    simp only [keepLastOccurrence]
    split_ifs with hm
    · rw [ih, List.mem_cons]
      constructor
      · exact fun h => Or.inr h
      · rintro (rfl | h)
        · exact hm
        · exact h
    · rw [List.mem_cons, ih, List.mem_cons]

theorem keepLastOccurrence_cons (x : Tag) (xs : List Tag) :
    keepLastOccurrence (x :: xs)
      = if x ∈ xs then keepLastOccurrence xs else x :: keepLastOccurrence xs := rfl

theorem keepLastOccurrence_of_nodup (l : List Tag) (h : l.Nodup) : keepLastOccurrence l = l := by
  induction l with
  | nil => rfl
  | cons a t ih =>
    obtain ⟨h1, h2⟩ := List.nodup_cons.mp h
    simp only [keepLastOccurrence, if_neg h1, ih h2]

theorem MergeUnique_eq (l1 l2 : List Tag) (h : l2.Nodup) :
    MergeUnique l1 l2 = keepLastOccurrence (l1 ++ l2) := by
  induction l1 with
  | nil => simp [MergeUnique, keepLastOccurrence_of_nodup l2 h]
  | cons a t ih =>
    simp only [MergeUnique, List.cons_append, keepLastOccurrence_cons, ih, mem_keepLastOccurrence]

theorem keepLastOccurrence_append_right (a b : List Tag) :
    keepLastOccurrence (a ++ keepLastOccurrence b) = keepLastOccurrence (a ++ b) := by
  induction a with
  | nil =>
    simp only [List.nil_append]
    induction b with
    | nil => rfl
    | cons x xs ih =>
      simp only [keepLastOccurrence]
      split_ifs with hm
      · exact ih
      · simp only [keepLastOccurrence, mem_keepLastOccurrence, if_neg hm, ih]
  | cons x xs ih =>
    simp only [List.cons_append, keepLastOccurrence_cons, List.mem_append,
      mem_keepLastOccurrence, ih]

theorem keepLastOccurrence_append_left (a b : List Tag) :
    keepLastOccurrence (keepLastOccurrence a ++ b) = keepLastOccurrence (a ++ b) := by
  induction a with
  | nil => rfl
  | cons x xs ih =>
    simp only [keepLastOccurrence_cons, List.cons_append, List.mem_append]
    by_cases hm : x ∈ xs
    · simp only [hm, if_true, true_or, ih]
    · simp only [hm, if_false, false_or, List.cons_append, keepLastOccurrence_cons,
        List.mem_append, mem_keepLastOccurrence, ih]

theorem PushDependencies_cons (t : Tag) (rest : List Tag) :
    PushDependencies (t :: rest)
      = MergeUnique (t :: PushDependencies (Dependencies t)) (PushDependencies rest) := by
  rw [PushDependencies]

theorem PushDependencies_single (t : Tag) :
    PushDependencies [t] = keepLastOccurrence (t :: PushDependencies (Dependencies t)) := by
  rw [PushDependencies_cons, MergeUnique_eq _ _ (PushDependencies_spec []).1]
  have h0 : PushDependencies [] = [] := by rw [PushDependencies]
  rw [h0, List.append_nil]

/-! ## Lemmas: the state a rejected weighted update leaves -/

theorem rejectedState_nil (s : State K) (t w : K) : rejectedState [] s t w = s := by
  cases s
  simp [rejectedState]

theorem rejectedState_cons (a : Tag) (rest : List Tag) (ha1 : a ≠ SumSquaredDifferences)
    (ha2 : a ≠ ScatterMatrix) (s : State K) (t w : K) :
    rejectedState (a :: rest) s t w = rejectedState rest s t w := by
  have h1 : SumSquaredDifferences ∈ a :: rest ↔ SumSquaredDifferences ∈ rest := by
    simp [List.mem_cons, Ne.symm ha1]
  have h2 : ScatterMatrix ∈ a :: rest ↔ ScatterMatrix ∈ rest := by
    simp [List.mem_cons, Ne.symm ha2]
  simp only [rejectedState, h1, h2]

theorem updateWeighted_rejected (pre post : List Tag) (m : Tag)
    (hm : m = Minimum ∨ m = Maximum) (hn : pre.Nodup) (hmin : Minimum ∉ pre)
    (hmax : Maximum ∉ pre) (s : State K) (t w : K) :
    updateWeighted (pre ++ m :: post) s t w = Outcome.fault (rejectedState pre s t w) := by
  induction pre generalizing s with
  | nil =>
    rw [rejectedState_nil]
    rcases hm with rfl | rfl <;> rfl
  | cons a rest ih =>
    obtain ⟨hnot, hn1⟩ := List.nodup_cons.mp hn
    have hmin1 : Minimum ∉ rest := fun h => hmin (List.mem_cons_of_mem _ h)
    have hmax1 : Maximum ∉ rest := fun h => hmax (List.mem_cons_of_mem _ h)
    have ih1 := fun s => ih hn1 hmin1 hmax1 s
    rw [List.cons_append]
    cases a with
    | Minimum => exact absurd (List.mem_cons_self _ _) hmin
    | Maximum => exact absurd (List.mem_cons_self _ _) hmax
    | Count =>
      rw [updateWeighted, ih1, rejectedState_cons _ _ (by decide) (by decide)]
      rfl
    | Sum =>
      rw [updateWeighted, ih1, rejectedState_cons _ _ (by decide) (by decide)]
      rfl
    | SumSquaredDifferences =>
      rw [updateWeighted]
      simp only [ih1]
      congr 1
      by_cases hc : s.count_ = 0
      · simp [rejectedState, hc, hnot]
      · simp [rejectedState, hc, hnot]
    | ScatterMatrix =>
      rw [updateWeighted]
      simp only [ih1]
      congr 1
      by_cases hc : s.count_ = 0
      · simp [rejectedState, hc, hnot]
      · simp [rejectedState, hc, hnot]
    | _ =>
      rw [updateWeighted, ih1, rejectedState_cons _ _ (by simp) (by simp)] <;> simp


/-! ## Lemmas: the sign of `Count` and the divisions with the divisor checked -/

theorem update_count_nonneg (chain : List Tag) (s : State K) (t : K) (h : 0 ≤ s.count_) :
    0 ≤ (update chain s t).count_ := by
  induction chain generalizing s with
  | nil => exact h
  | cons tag rest ih =>
    cases tag with
    | Count =>
      simp only [update]
      linarith [ih s h]
    | SumSquaredDifferences =>
      simp only [update]
      split_ifs
      · exact ih _ h
      · exact ih _ h
    | ScatterMatrix =>
      simp only [update]
      split_ifs
      · exact ih _ h
      · exact ih _ h
    | _ =>
      simp only [update]
      exact ih s h

theorem updateWeighted_count_nonneg (chain : List Tag) (s : State K) (t w : K)
    (h : 0 ≤ s.count_) (hw : 0 ≤ w) : 0 ≤ (updateWeighted chain s t w).state.count_ := by
  induction chain generalizing s with
  | nil => exact h
  | cons tag rest ih =>
    cases tag with
    | Count =>
      simp only [updateWeighted]
      have := ih s h
      cases hu : updateWeighted rest s t w with
      | ok s1 =>
        rw [hu] at this
        simp only [Outcome.map, Outcome.state] at this ⊢
        linarith
      | fault s1 =>
        rw [hu] at this
        exact this
    | Sum =>
      simp only [updateWeighted]
      have := ih s h
      cases hu : updateWeighted rest s t w with
      | ok s1 =>
        rw [hu] at this
        exact this
      | fault s1 =>
        rw [hu] at this
        exact this
    | Minimum => exact h
    | Maximum => exact h
    | SumSquaredDifferences =>
      simp only [updateWeighted]
      split_ifs
      · exact ih _ h
      · exact ih _ h
    | ScatterMatrix =>
      simp only [updateWeighted]
      split_ifs
      · exact ih _ h
      · exact ih _ h
    | _ =>
      simp only [updateWeighted]
      exact ih s h

theorem feed_count_nonneg (chain : List Tag) (calls : List (Call K))
    (hnn : ∀ c ∈ calls, 0 ≤ c.weight) (s : State K) (h : 0 ≤ s.count_) :
    0 ≤ (feed chain s calls).state.count_ := by
  induction calls generalizing s with
  | nil => exact h
  | cons c cs ih =>
    have hc := hnn c (List.mem_cons_self _ _)
    have hcs : ∀ x ∈ cs, 0 ≤ x.weight := fun x hx => hnn x (List.mem_cons_of_mem _ hx)
    simp only [feed]
    cases c with
    | plain t =>
      simp only [step, Outcome.andThen]
      exact ih hcs _ (update_count_nonneg chain s t h)
    | weighted t w =>
      have hstep := updateWeighted_count_nonneg chain s t w h hc
      simp only [step]
      cases hu : updateWeighted chain s t w with
      | ok s1 =>
        rw [hu] at hstep
        exact ih hcs _ hstep
      | fault s1 =>
        rw [hu] at hstep
        exact hstep

theorem checkedDiv_of_ne (a b : K) (h : b ≠ 0) : checkedDiv a b = some (a / b) := by
  unfold checkedDiv
  rw [if_neg h]

theorem checkedDiv_zero (a : K) : checkedDiv a 0 = none := by
  unfold checkedDiv
  rw [if_pos rfl]

/-- With a `count_` that is not negative no divisor of `update` is zero, and the
call with the divisors checked is the call `update`. -/
theorem updateChecked_eq (chain : List Tag) (s : State K) (t : K) (h : 0 ≤ s.count_) :
    updateChecked chain s t = some (update chain s t) := by
  induction chain generalizing s with
  | nil => rfl
  | cons tag rest ih =>
    cases tag with
    | SumSquaredDifferences =>
      simp only [updateChecked, update]
      by_cases h0 : s.count_ ≠ 0
      · have h1 : s.count_ + 1 ≠ 0 := by
          have : 0 < s.count_ + 1 := by linarith
          exact ne_of_gt this
        simp only [h0, if_true, ne_eq, not_false_eq_true, checkedDiv_of_ne _ _ h1,
          checkedDiv_of_ne _ _ h0, Option.bind_eq_bind, Option.some_bind]
        exact ih _ h
      · simp only [h0, if_false]
        exact ih _ h
    | ScatterMatrix =>
      simp only [updateChecked, update]
      by_cases h0 : s.count_ ≠ 0
      · have h1 : s.count_ + 1 ≠ 0 := by
          have : 0 < s.count_ + 1 := by linarith
          exact ne_of_gt this
        simp only [h0, if_true, ne_eq, not_false_eq_true, checkedDiv_of_ne _ _ h1,
          checkedDiv_of_ne _ _ h0, Option.bind_eq_bind, Option.some_bind]
        exact ih _ h
      · simp only [h0, if_false]
        exact ih _ h
    | _ =>
      simp [updateChecked, update, ih s h]

/-- With a `count_` and a weight that are not negative no divisor of
`update(t, weight)` is zero. -/
theorem updateWeightedChecked_eq (chain : List Tag) (s : State K) (t w : K)
    (h : 0 ≤ s.count_) (hw : 0 ≤ w) :
    updateWeightedChecked chain s t w = some (updateWeighted chain s t w) := by
  induction chain generalizing s with
  | nil => rfl
  | cons tag rest ih =>
    cases tag with
    | SumSquaredDifferences =>
      simp only [updateWeightedChecked, updateWeighted]
      by_cases h0 : s.count_ ≠ 0
      · have h1 : s.count_ + w ≠ 0 := by
          have : 0 < s.count_ := lt_of_le_of_ne h (Ne.symm h0)
          have : 0 < s.count_ + w := by linarith
          exact ne_of_gt this
        simp only [h0, if_true, ne_eq, not_false_eq_true, checkedDiv_of_ne _ _ h1,
          checkedDiv_of_ne _ _ h0, Option.bind_eq_bind, Option.some_bind]
        exact ih _ h
      · simp only [h0, if_false]
        exact ih _ h
    | ScatterMatrix =>
      simp only [updateWeightedChecked, updateWeighted]
      by_cases h0 : s.count_ ≠ 0
      · have h1 : s.count_ + w ≠ 0 := by
          have : 0 < s.count_ := lt_of_le_of_ne h (Ne.symm h0)
          have : 0 < s.count_ + w := by linarith
          exact ne_of_gt this
        simp only [h0, if_true, ne_eq, not_false_eq_true, checkedDiv_of_ne _ _ h1,
          checkedDiv_of_ne _ _ h0, Option.bind_eq_bind, Option.some_bind]
        exact ih _ h
      · simp only [h0, if_false]
        exact ih _ h
    | _ =>
      simp [updateWeightedChecked, updateWeighted, ih s h]

theorem MergeCentralMomentsChecked_eq (N : Nat) (l r : State K) (hl : 0 < l.count_)
    (hr : 0 < r.count_) :
    MergeCentralMomentsChecked N l r = some (MergeCentralMoments N l r) := by
  have h1 : l.count_ ≠ 0 := ne_of_gt hl
  have h2 : r.count_ ≠ 0 := ne_of_gt hr
  have h3 : l.count_ + r.count_ ≠ 0 := ne_of_gt (by linarith)
  have h4 : sq (l.count_ + r.count_) ≠ 0 := by
    unfold sq
    exact mul_ne_zero h3 h3
  have h5 : (l.count_ + r.count_) ^ 3 ≠ 0 := pow_ne_zero 3 h3
  unfold MergeCentralMomentsChecked MergeCentralMoments
  split_ifs
  · simp only [checkedDiv_of_ne _ _ h1, checkedDiv_of_ne _ _ h2, checkedDiv_of_ne _ _ h3,
      Option.bind_eq_bind, Option.some_bind, Option.pure_def]
  · simp only [checkedDiv_of_ne _ _ h1, checkedDiv_of_ne _ _ h2, checkedDiv_of_ne _ _ h3,
      checkedDiv_of_ne _ _ h4, Option.bind_eq_bind, Option.some_bind, Option.pure_def]
  · simp only [checkedDiv_of_ne _ _ h1, checkedDiv_of_ne _ _ h2, checkedDiv_of_ne _ _ h3,
      checkedDiv_of_ne _ _ h4, checkedDiv_of_ne _ _ h5, Option.bind_eq_bind, Option.some_bind,
      Option.pure_def]
  · rfl

theorem MergeCentralMoments_count (N : Nat) (l r l1 : State K)
    (h : MergeCentralMoments N l r = some l1) : l1.count_ = l.count_ := by
  unfold MergeCentralMoments at h
  split_ifs at h <;> simp only [Option.some.injEq] at h <;> rw [← h]

/-- With operands whose `count_` is positive no divisor of a merge is zero. -/
theorem mergeChecked_eq (chain : List Tag) (l r : State K) (hl : 0 < l.count_)
    (hr : 0 < r.count_) : mergeChecked chain l r = some (merge chain l r) := by
  have h1 : l.count_ ≠ 0 := ne_of_gt hl
  have h2 : r.count_ ≠ 0 := ne_of_gt hr
  have h3 : l.count_ + r.count_ ≠ 0 := ne_of_gt (by linarith)
  induction chain generalizing l with
  | nil => rfl
  | cons tag rest ih =>
    cases tag with
    | CentralMoment N =>
      simp only [mergeChecked, merge, MergeCentralMomentsChecked_eq N l r hl hr]
      cases hm : MergeCentralMoments N l r with
      | none => rfl
      | some l1 =>
        have hc := MergeCentralMoments_count N l r l1 hm
        simp only
        exact ih l1 (hc ▸ hl) (hc ▸ h1) (hc ▸ h3)
    | SumSquaredDifferences =>
      simp only [mergeChecked, merge, checkedDiv_of_ne _ _ h1, checkedDiv_of_ne _ _ h2,
        checkedDiv_of_ne _ _ h3, Option.bind_eq_bind, Option.some_bind]
      exact ih _ hl h1 h3
    | ScatterMatrix =>
      simp only [mergeChecked, merge, checkedDiv_of_ne _ _ h1, checkedDiv_of_ne _ _ h2,
        checkedDiv_of_ne _ _ h3, Option.bind_eq_bind, Option.some_bind]
      exact ih _ hl h1 h3
    | _ =>
      simp [mergeChecked, merge, ih l hl h1 h3]

/-- The check is not idle: the merge of two chains that have taken no sample
divides by zero in `SumSquaredDifferences`. -/
theorem mergeChecked_zero_count (rest : List Tag) (l r : State K)
    (h : l.count_ + r.count_ = 0) :
    mergeChecked (SumSquaredDifferences :: rest) l r = none := by
  simp only [mergeChecked, h, checkedDiv_zero, Option.bind_eq_bind, Option.none_bind]

/-! ## Lemmas: the symmetry of the scatter matrix -/

theorem vreshape_symmetric {d : Nat} (chain : List Tag) (s : VState d K)
    (h : ∀ i j, s.scatter_matrix_ i j = s.scatter_matrix_ j i) :
    ∀ i j, (vreshape chain s).scatter_matrix_ i j = (vreshape chain s).scatter_matrix_ j i := by
  induction chain generalizing s with
  | nil => exact h
  | cons tag rest ih =>
    cases tag with
    | ScatterMatrix =>
      simp only [vreshape]
      exact ih _ fun _ _ => rfl
    | _ =>
      simp only [vreshape]
      exact ih s h

theorem vupdate_symmetric {d : Nat} (chain : List Tag) (s : VState d K) (t : Fin d → K)
    (h : ∀ i j, s.scatter_matrix_ i j = s.scatter_matrix_ j i) :
    ∀ i j, (vupdate chain s t).scatter_matrix_ i j = (vupdate chain s t).scatter_matrix_ j i := by
  induction chain generalizing s with
  | nil => exact h
  | cons tag rest ih =>
    cases tag with
    | ScatterMatrix =>
      simp only [vupdate]
      refine ih _ ?_
      intro i j
      split_ifs
      · simp only
        rw [h i j]
        ring
      · exact h i j
    | SumSquaredDifferences =>
      simp only [vupdate]
      refine ih _ ?_
      intro i j
      split_ifs
      · exact h i j
      · exact h i j
    | Count => simp only [vupdate]; exact ih s h
    | Minimum => simp only [vupdate]; exact ih s h
    | Maximum => simp only [vupdate]; exact ih s h
    | Sum => simp only [vupdate]; exact ih s h
    | _ => simp only [vupdate]; exact ih s h

theorem vupdateWeighted_symmetric {d : Nat} (chain : List Tag) (s : VState d K)
    (t : Fin d → K) (w : K) (h : ∀ i j, s.scatter_matrix_ i j = s.scatter_matrix_ j i) :
    ∀ i j, (vupdateWeighted chain s t w).state.scatter_matrix_ i j
      = (vupdateWeighted chain s t w).state.scatter_matrix_ j i := by
  induction chain generalizing s with
  | nil => exact h
  | cons tag rest ih =>
    cases tag with
    | ScatterMatrix =>
      simp only [vupdateWeighted]
      refine ih _ ?_
      intro i j
      split_ifs
      · simp only
        rw [h i j]
        ring
      · exact h i j
    | SumSquaredDifferences =>
      simp only [vupdateWeighted]
      refine ih _ ?_
      intro i j
      split_ifs
      · exact h i j
      · exact h i j
    | Count =>
      simp only [vupdateWeighted]
      have := ih s h
      cases hu : vupdateWeighted rest s t w with
      | ok s1 =>
        rw [hu] at this
        exact this
      | fault s1 =>
        rw [hu] at this
        exact this
    | Sum =>
      simp only [vupdateWeighted]
      have := ih s h
      cases hu : vupdateWeighted rest s t w with
      | ok s1 =>
        rw [hu] at this
        exact this
      | fault s1 =>
        rw [hu] at this
        exact this
    | Minimum => exact h
    | Maximum => exact h
    | _ => simp only [vupdateWeighted]; exact ih s h

theorem vMergeCentralMoments_scatter {d : Nat} (N : Nat) (l r l1 : VState d K)
    (h : vMergeCentralMoments N l r = some l1) : l1.scatter_matrix_ = l.scatter_matrix_ := by
  unfold vMergeCentralMoments at h
  split_ifs at h <;> simp only [Option.some.injEq] at h <;> rw [← h]

theorem vmerge_symmetric {d : Nat} (chain : List Tag) (l r m : VState d K)
    (hm : vmerge chain l r = some m)
    (hl : ∀ i j, l.scatter_matrix_ i j = l.scatter_matrix_ j i)
    (hr : ∀ i j, r.scatter_matrix_ i j = r.scatter_matrix_ j i) :
    ∀ i j, m.scatter_matrix_ i j = m.scatter_matrix_ j i := by
  induction chain generalizing l m with
  | nil =>
    simp only [vmerge, Option.some.injEq] at hm
    rw [← hm]
    exact hl
  | cons tag rest ih =>
    cases tag with
    | Count =>
      simp only [vmerge] at hm
      cases hv : vmerge rest l r with
      | none => simp [hv] at hm
      | some l1 =>
        rw [hv] at hm
        simp only [Option.map_some', Option.some.injEq] at hm
        rw [← hm]
        exact ih l l1 hv hl
    | Minimum =>
      simp only [vmerge] at hm
      cases hv : vmerge rest l r with
      | none => simp [hv] at hm
      | some l1 =>
        rw [hv] at hm
        simp only [Option.map_some', Option.some.injEq] at hm
        rw [← hm]
        exact ih l l1 hv hl
    | Maximum =>
      simp only [vmerge] at hm
      cases hv : vmerge rest l r with
      | none => simp [hv] at hm
      | some l1 =>
        rw [hv] at hm
        simp only [Option.map_some', Option.some.injEq] at hm
        rw [← hm]
        exact ih l l1 hv hl
    | Sum =>
      simp only [vmerge] at hm
      cases hv : vmerge rest l r with
      | none => simp [hv] at hm
      | some l1 =>
        rw [hv] at hm
        simp only [Option.map_some', Option.some.injEq] at hm
        rw [← hm]
        exact ih l l1 hv hl
    | CentralMoment N =>
      simp only [vmerge] at hm
      cases hc : vMergeCentralMoments N l r with
      | none => simp [hc] at hm
      | some l1 =>
        rw [hc] at hm
        refine ih l1 m hm ?_
        rw [vMergeCentralMoments_scatter N l r l1 hc]
        exact hl
    | SumSquaredDifferences =>
      simp only [vmerge] at hm
      exact ih _ m hm hl
    | ScatterMatrix =>
      simp only [vmerge] at hm
      refine ih _ m hm ?_
      intro i j
      simp only
      rw [hl i j, hr i j]
      ring
    | _ =>
      simp only [vmerge] at hm
      exact ih l m hm hl

theorem vreset_symmetric {d : Nat} (e : Env K) (chain : List Tag) (s : VState d K)
    (h : ∀ i j, s.scatter_matrix_ i j = s.scatter_matrix_ j i) :
    ∀ i j, (vreset e chain s).scatter_matrix_ i j = (vreset e chain s).scatter_matrix_ j i := by
  induction chain generalizing s with
  | nil => exact h
  | cons tag rest ih =>
    cases tag with
    | ScatterMatrix =>
      simp only [vreset]
      exact ih _ fun _ _ => rfl
    | Count => simp only [vreset]; exact ih _ h
    | Minimum => simp only [vreset]; exact ih _ h
    | Maximum => simp only [vreset]; exact ih _ h
    | Sum => simp only [vreset]; exact ih _ h
    | CentralMoment N => simp only [vreset]; exact ih _ h
    | SumSquaredDifferences => simp only [vreset]; exact ih _ h
    | _ => simp only [vreset]; exact ih s h


/-! ## Lemmas: smoothing of node features -/

theorem foldl_update_apply (l : List Nat) (F : Nat → K) (out : Nat → K) (v : Nat) :
    l.foldl (fun o node => Function.update o node (F node)) out v
      = if v ∈ l then F v else out v := by
  induction l generalizing out with
  | nil => simp
  | cons x xs ih =>
    rw [List.foldl_cons, ih]
    by_cases hv : v ∈ xs
    · simp [hv]
    · by_cases hx : v = x
      · subst hx
        simp [hv]
      · simp [hv, hx]

theorem graphSmoothingImpl_apply (g : Graph) (nodeFeaturesIn edgeWeights : Nat → K)
    (f : K → K) (out : Nat → K) (v : Nat) :
    graphSmoothingImpl g nodeFeaturesIn edgeWeights f out v
      = if v ∈ g.nodes then smoothNode g nodeFeaturesIn edgeWeights f v else out v :=
  foldl_update_apply g.nodes _ out v

theorem copyNodeMap_apply (g : Graph) (a b : Nat → K) (v : Nat) :
    copyNodeMap g a b v = if v ∈ g.nodes then a v else b v :=
  foldl_update_apply g.nodes a b v

theorem smoothNode_congr (g : Graph) (in1 in2 edgeWeights : Nat → K) (f : K → K) (v : Nat)
    (hv : in1 v = in2 v) (ha : ∀ a ∈ g.outArcs v, in1 a.2 = in2 a.2) :
    smoothNode g in1 edgeWeights f v = smoothNode g in2 edgeWeights f v := by
  have key : ∀ (l : List (Nat × Nat)) (acc : K × K × Nat), (∀ a ∈ l, in1 a.2 = in2 a.2) →
      l.foldl (fun (acc : K × K × Nat) a =>
          (if acc.2.2 = 0 then in1 a.2 * f (edgeWeights a.1)
            else acc.1 + in1 a.2 * f (edgeWeights a.1),
            acc.2.1 + f (edgeWeights a.1), acc.2.2 + 1)) acc
        = l.foldl (fun (acc : K × K × Nat) a =>
          (if acc.2.2 = 0 then in2 a.2 * f (edgeWeights a.1)
            else acc.1 + in2 a.2 * f (edgeWeights a.1),
            acc.2.1 + f (edgeWeights a.1), acc.2.2 + 1)) acc := by
    intro l
    induction l with
    | nil => intro acc _; rfl
    | cons a rest ih =>
      intro acc h
      rw [List.foldl_cons, List.foldl_cons, h a (List.mem_cons_self _ _)]
      exact ih _ fun b hb => h b (List.mem_cons_of_mem _ hb)
  unfold smoothNode
  simp only [hv, key _ _ ha]

theorem graphSmoothing_congr (exp : K → K) (g : Graph)
    (harcs : ∀ u ∈ g.nodes, ∀ a ∈ g.outArcs u, a.2 ∈ g.nodes) (in1 in2 : Nat → K)
    (edgeIndicator : Nat → K) (lambda edgeThreshold scale : K) (out1 out2 : Nat → K)
    (h : ∀ v ∈ g.nodes, in1 v = in2 v) :
    ∀ v ∈ g.nodes, graphSmoothing exp g in1 edgeIndicator lambda edgeThreshold scale out1 v
      = graphSmoothing exp g in2 edgeIndicator lambda edgeThreshold scale out2 v := by
  intro v hv
  unfold graphSmoothing
  rw [graphSmoothingImpl_apply, graphSmoothingImpl_apply, if_pos hv, if_pos hv]
  exact smoothNode_congr g in1 in2 edgeIndicator _ v (h v hv)
    fun a ha => h a.2 (harcs v hv a ha)

theorem smoothingLoop_spec (exp : K → K) (g : Graph)
    (harcs : ∀ u ∈ g.nodes, ∀ a ∈ g.outArcs u, a.2 ∈ g.nodes) (nodeFeaturesIn : Nat → K)
    (edgeIndicator : Nat → K) (lambda edgeThreshold scale : K) (scratch : Nat → K)
    (iterations : Nat) (outAsIn : Bool) (buffer out : Nat → K) (m : Nat)
    (h : ∀ v ∈ g.nodes, (if outAsIn then out else buffer) v
      = smoothedTimes exp g edgeIndicator lambda edgeThreshold scale scratch m nodeFeaturesIn v) :
    ∀ v ∈ g.nodes,
      (if (smoothingLoop exp g edgeIndicator lambda edgeThreshold scale iterations outAsIn
            buffer out).1
        then (smoothingLoop exp g edgeIndicator lambda edgeThreshold scale iterations outAsIn
            buffer out).2.2
        else (smoothingLoop exp g edgeIndicator lambda edgeThreshold scale iterations outAsIn
            buffer out).2.1) v
      = smoothedTimes exp g edgeIndicator lambda edgeThreshold scale scratch (m + iterations)
          nodeFeaturesIn v := by
  induction iterations generalizing outAsIn buffer out m with
  | zero => exact h
  | succ n ih =>
    have hm : m + (n + 1) = (m + 1) + n := by omega
    rw [hm]
    cases outAsIn with
    | true =>
      simp only [smoothingLoop, if_true]
      refine ih false _ out (m + 1) ?_
      intro v hv
      simp only [Bool.false_eq_true, if_false, smoothedTimes]
      exact graphSmoothing_congr exp g harcs _ _ edgeIndicator lambda edgeThreshold scale _ _
        (fun u hu => by simpa using h u hu) v hv
    | false =>
      simp only [smoothingLoop, Bool.false_eq_true, if_false]
      refine ih true buffer _ (m + 1) ?_
      intro v hv
      simp only [if_true, smoothedTimes]
      exact graphSmoothing_congr exp g harcs _ _ edgeIndicator lambda edgeThreshold scale _ _
        (fun u hu => by simpa using h u hu) v hv

/-! ## Lemmas: the contour of an object -/

theorem wallSide_turn_right (p : Int × Int) (d : Nat) (hd : d < 4) :
    wallSide p ((d + 1) % 4) = p + contourStep d := by
  interval_cases d <;> rfl

theorem wallSide_forward (p : Int × Int) (d : Nat) :
    wallSide (p + contourStep d) d = p + contourStep d + contourStep ((d + 3) % 4) := rfl

theorem wallSide_turn_left (p : Int × Int) (d : Nat) (hd : d < 4) :
    wallSide (p + contourStep d + contourStep ((d + 3) % 4)) ((d + 3) % 4) = wallSide p d := by
  obtain ⟨x, y⟩ := p
  interval_cases d <;>
    simp only [wallSide, contourStep, Prod.mk_add_mk, Prod.mk.injEq] <;> constructor <;> ring

theorem wallSide_back (p : Int × Int) (d : Nat) (hd : d < 4) :
    p = wallSide p d + contourStep ((d + 1) % 4) := by
  obtain ⟨x, y⟩ := p
  interval_cases d <;>
    simp only [wallSide, contourStep, Prod.mk_add_mk, Prod.mk.injEq] <;> constructor <;> ring

theorem contour_point_midpoint (p : Int × Int) (d : Nat) (hd : d < 4) :
    (((p.1 : K) + (contour_offsets d : K × K).1, (p.2 : K) + (contour_offsets d : K × K).2)
      : K × K)
    = ((((wallSide p d).1 : K) + (p.1 : K)) / 2, (((wallSide p d).2 : K) + (p.2 : K)) / 2) := by
  obtain ⟨x, y⟩ := p
  interval_cases d <;>
    simp only [wallSide, contourStep, contour_offsets, Prod.mk_add_mk, Prod.mk.injEq] <;>
    constructor <;> push_cast <;> ring

theorem contourBody_points (img : Image) (foreground : Int) (st : ContourState K) :
    (contourBody img foreground st).contour_points
      = st.contour_points ++
        [((st.position.1 : K) + (contour_offsets st.direction).1,
          (st.position.2 : K) + (contour_offsets st.direction).2)] := by
  unfold contourBody
  simp only
  split_ifs <;> rfl

theorem contourBody_inv (img : Image) (foreground : Int) (st : ContourState K)
    (h : ContourInv img foreground st) :
    ContourInv img foreground (contourBody img foreground st) ∧
    IsWallSection img foreground
      (((st.position.1 : K) + (contour_offsets st.direction).1,
        (st.position.2 : K) + (contour_offsets st.direction).2) : K × K) := by
  obtain ⟨hd, hp, hw⟩ := h
  constructor
  · unfold contourBody
    simp only
    split_ifs with h1 h2
    · refine ⟨Nat.mod_lt _ (by decide), hp, ?_⟩
      simp only
      rw [wallSide_turn_right _ _ hd]
      exact h1
    · refine ⟨Nat.mod_lt _ (by decide), ?_, ?_⟩
      · simp only
        intro hc
        rcases h2 with h2 | h2
        · exact h2 hc.1
        · exact h2 hc.2
      · simp only
        rw [wallSide_turn_left _ _ hd]
        exact hw
    · refine ⟨hd, h1, ?_⟩
      simp only
      rw [wallSide_forward]
      by_contra hc
      apply h2
      by_cases hi : img.isInside (st.position + contourStep st.direction
          + contourStep ((st.direction + 3) % 4)) = true
      · exact Or.inr fun hl => hc ⟨hi, hl⟩
      · exact Or.inl hi
  · refine ⟨wallSide st.position st.direction, st.position, hw, hp,
      ⟨(st.direction + 1) % 4, Nat.mod_lt _ (by decide), wallSide_back _ _ hd⟩, ?_⟩
    exact contour_point_midpoint st.position st.direction hd

theorem contourStart_inv (img : Image) (anchor_point : Int × Int)
    (contour_points : List (K × K)) (hin : img.isInside anchor_point = true)
    (hleft : ¬ img.isForeground (img.label anchor_point) (anchor_point + contourStep 0)) :
    ContourInv img (img.label anchor_point) (contourStart anchor_point contour_points) := by
  refine ⟨(by decide : (3 : Nat) < 4), hleft, ?_⟩
  have hw : wallSide (anchor_point + contourStep 0) 3 = anchor_point := by
    obtain ⟨x, y⟩ := anchor_point
    simp only [wallSide, contourStep, Prod.mk_add_mk, Prod.mk.injEq]
    constructor <;> ring
  show img.isForeground _ (wallSide (anchor_point + contourStep 0) 3)
  rw [hw]
  exact ⟨hin, rfl⟩

theorem contourAfter_inv (img : Image) (anchor_point : Int × Int)
    (contour_points : List (K × K)) (hin : img.isInside anchor_point = true)
    (hleft : ¬ img.isForeground (img.label anchor_point) (anchor_point + contourStep 0))
    (n : Nat) :
    ContourInv img (img.label anchor_point) (contourAfter img anchor_point contour_points n) ∧
    ∃ added : List (K × K),
      (contourAfter img anchor_point contour_points n).contour_points = contour_points ++ added ∧
      added.length = n ∧ ∀ p ∈ added, IsWallSection img (img.label anchor_point) p := by
  induction n with
  | zero =>
    exact ⟨contourStart_inv img anchor_point contour_points hin hleft, [], by simp [contourAfter, contourStart], rfl,
      fun p hp => by cases hp⟩
  | succ n ih =>
    obtain ⟨i1, added, a1, a2, a3⟩ := ih
    obtain ⟨b1, b2⟩ := contourBody_inv img (img.label anchor_point) _ i1
    refine ⟨b1, added ++
      [(((contourAfter img anchor_point contour_points n).position.1 : K)
          + (contour_offsets (contourAfter img anchor_point contour_points n).direction).1,
        ((contourAfter img anchor_point contour_points n).position.2 : K)
          + (contour_offsets (contourAfter img anchor_point contour_points n).direction).2)],
      ?_, by simp [a2], ?_⟩
    · show (contourBody img (img.label anchor_point) _).contour_points = _
      rw [contourBody_points, a1, List.append_assoc]
    · intro p hp
      rcases List.mem_append.mp hp with hp | hp
      · exact a3 p hp
      · rw [List.mem_singleton.mp hp]
        exact b2

theorem contourLoop_after (img : Image) (anchor_point : Int × Int)
    (contour_points : List (K × K)) (ip : Int × Int) (id : Nat) (fuel m : Nat)
    (st : ContourState K)
    (h : contourLoop img (img.label anchor_point) ip id fuel
      (contourAfter img anchor_point contour_points m) = some st) :
    ∃ n, m < n ∧ st = contourAfter img anchor_point contour_points n := by
  induction fuel generalizing m with
  | zero => simp [contourLoop] at h
  | succ fuel ih =>
    unfold contourLoop at h
    simp only at h
    split_ifs at h with hc
    · obtain ⟨n, hn, e⟩ := ih (m + 1) h
      exact ⟨n, by omega, e⟩
    · simp only [Option.some.injEq] at h
      exact ⟨m + 1, by omega, h.symm⟩

theorem contourBody_lost (img : Image) (foreground : Int) (p : Int × Int) (d : Nat)
    (pts : List (K × K)) (h1 : ¬ img.isForeground foreground (p + contourStep d))
    (h2 : ¬ img.isForeground foreground (p + contourStep d + contourStep ((d + 3) % 4))) :
    contourBody img foreground ⟨p, d, pts⟩
      = ⟨p + contourStep d + contourStep ((d + 3) % 4), (d + 3) % 4,
          pts ++ [((p.1 : K) + (contour_offsets d).1, (p.2 : K) + (contour_offsets d).2)]⟩ := by
  have h2a : ¬ img.isInside (p + contourStep d + contourStep ((d + 3) % 4)) = true ∨
      img.label (p + contourStep d + contourStep ((d + 3) % 4)) ≠ foreground := by
    by_cases hi : img.isInside (p + contourStep d + contourStep ((d + 3) % 4)) = true
    · exact Or.inr fun hl => h2 ⟨hi, hl⟩
    · exact Or.inl hi
  have h1a : ¬ (img.isInside (p + contourStep d) = true ∧
      img.label (p + contourStep d) = foreground) := h1
  unfold contourBody
  simp only
  rw [if_neg h1a, if_pos h2a]

/-- An object of one pixel, none of the eight positions around it being
foreground: the loop of `extractContour2` ends after four iterations, with the
four wall sections of the pixel. -/
theorem contour_single_pixel (img : Image) (x y : Int) (contour_points : List (K × K))
    (hin : img.isInside (x, y) = true)
    (haround : ∀ q ∈ aroundOffsets, ¬ img.isForeground (img.label (x, y)) ((x, y) + q))
    (fuel : Nat) (hfuel : 4 ≤ fuel) :
    extractContour2 img (x, y) contour_points fuel
      = Contour.returned (contour_points ++
          [((x : K) - 1 / 2, (y : K)), ((x : K), (y : K) + 1 / 2),
            ((x : K) + 1 / 2, (y : K)), ((x : K), (y : K) - 1 / 2)]) := by
  obtain ⟨k, rfl⟩ : ∃ k, fuel = k + 4 := ⟨fuel - 4, by omega⟩
  have a1 : ¬ img.isForeground (img.label (x, y)) (x - 1, y + 1) := by
    have := haround (-1, 1) (by decide)
    simpa [sub_eq_add_neg] using this
  have a2 : ¬ img.isForeground (img.label (x, y)) (x, y + 1) := by
    have := haround (0, 1) (by decide)
    simpa using this
  have a3 : ¬ img.isForeground (img.label (x, y)) (x + 1, y + 1) := by
    have := haround (1, 1) (by decide)
    simpa using this
  have a4 : ¬ img.isForeground (img.label (x, y)) (x + 1, y) := by
    have := haround (1, 0) (by decide)
    simpa using this
  have a5 : ¬ img.isForeground (img.label (x, y)) (x + 1, y - 1) := by
    have := haround (1, -1) (by decide)
    simpa [sub_eq_add_neg] using this
  have a6 : ¬ img.isForeground (img.label (x, y)) (x, y - 1) := by
    have := haround (0, -1) (by decide)
    simpa [sub_eq_add_neg] using this
  have a7 : ¬ img.isForeground (img.label (x, y)) (x - 1, y - 1) := by
    have := haround (-1, -1) (by decide)
    simpa [sub_eq_add_neg] using this
  have a8 : ¬ img.isForeground (img.label (x, y)) (x - 1, y) := by
    have := haround (-1, 0) (by decide)
    simpa [sub_eq_add_neg] using this
  have p0 : ((x, y) : Int × Int) + contourStep 0 = (x - 1, y) := by
    simp only [contourStep, Prod.mk_add_mk, Prod.mk.injEq]
    constructor <;> ring
  have e1 : ∀ pts : List (K × K), contourBody img (img.label (x, y)) ⟨(x - 1, y), 3, pts⟩
      = ⟨(x, y + 1), 2, pts ++ [((x : K) - 1 / 2, (y : K))]⟩ := by
    intro pts
    have q1 : ((x - 1, y) : Int × Int) + contourStep 3 = (x - 1, y + 1) := by
      simp only [contourStep, Prod.mk_add_mk, Prod.mk.injEq]
      constructor <;> first | trivial | ring1
    have q2 : ((x - 1, y) : Int × Int) + contourStep 3 + contourStep ((3 + 3) % 4)
        = (x, y + 1) := by
      simp only [contourStep, Prod.mk_add_mk, Prod.mk.injEq]
      constructor <;> first | trivial | ring1
    rw [contourBody_lost img _ _ 3 pts (q1 ▸ a1) (q2 ▸ a2), q2]
    simp only [contour_offsets, ContourState.mk.injEq, true_and, List.append_cancel_left_eq,
      List.cons.injEq, Prod.mk.injEq, and_true]
    constructor <;> push_cast <;> ring
  have e2 : ∀ pts : List (K × K), contourBody img (img.label (x, y)) ⟨(x, y + 1), 2, pts⟩
      = ⟨(x + 1, y), 1, pts ++ [((x : K), (y : K) + 1 / 2)]⟩ := by
    intro pts
    have q1 : ((x, y + 1) : Int × Int) + contourStep 2 = (x + 1, y + 1) := by
      simp only [contourStep, Prod.mk_add_mk, Prod.mk.injEq]
      constructor <;> first | trivial | ring1
    have q2 : ((x, y + 1) : Int × Int) + contourStep 2 + contourStep ((2 + 3) % 4)
        = (x + 1, y) := by
      simp only [contourStep, Prod.mk_add_mk, Prod.mk.injEq]
      constructor <;> first | trivial | ring1
    rw [contourBody_lost img _ _ 2 pts (q1 ▸ a3) (q2 ▸ a4), q2]
    simp only [contour_offsets, ContourState.mk.injEq, true_and, List.append_cancel_left_eq,
      List.cons.injEq, Prod.mk.injEq, and_true]
    constructor <;> push_cast <;> ring
  have e3 : ∀ pts : List (K × K), contourBody img (img.label (x, y)) ⟨(x + 1, y), 1, pts⟩
      = ⟨(x, y - 1), 0, pts ++ [((x : K) + 1 / 2, (y : K))]⟩ := by
    intro pts
    have q1 : ((x + 1, y) : Int × Int) + contourStep 1 = (x + 1, y - 1) := by
      simp only [contourStep, Prod.mk_add_mk, Prod.mk.injEq]
      constructor <;> first | trivial | ring1
    have q2 : ((x + 1, y) : Int × Int) + contourStep 1 + contourStep ((1 + 3) % 4)
        = (x, y - 1) := by
      simp only [contourStep, Prod.mk_add_mk, Prod.mk.injEq]
      constructor <;> first | trivial | ring1
    rw [contourBody_lost img _ _ 1 pts (q1 ▸ a5) (q2 ▸ a6), q2]
    simp only [contour_offsets, ContourState.mk.injEq, true_and, List.append_cancel_left_eq,
      List.cons.injEq, Prod.mk.injEq, and_true]
    constructor <;> push_cast <;> ring
  have e4 : ∀ pts : List (K × K), contourBody img (img.label (x, y)) ⟨(x, y - 1), 0, pts⟩
      = ⟨(x - 1, y), 3, pts ++ [((x : K), (y : K) - 1 / 2)]⟩ := by
    intro pts
    have q1 : ((x, y - 1) : Int × Int) + contourStep 0 = (x - 1, y - 1) := by
      simp only [contourStep, Prod.mk_add_mk, Prod.mk.injEq]
      constructor <;> first | trivial | ring1
    have q2 : ((x, y - 1) : Int × Int) + contourStep 0 + contourStep ((0 + 3) % 4)
        = (x - 1, y) := by
      simp only [contourStep, Prod.mk_add_mk, Prod.mk.injEq]
      constructor <;> first | trivial | ring1
    rw [contourBody_lost img _ _ 0 pts (q1 ▸ a7) (q2 ▸ a8), q2]
    simp only [contour_offsets, ContourState.mk.injEq, true_and, List.append_cancel_left_eq,
      List.cons.injEq, Prod.mk.injEq, and_true]
    constructor <;> push_cast <;> ring
  unfold extractContour2
  rw [if_pos hin]
  simp only [p0]
  have hloop : contourLoop img (img.label (x, y)) (x - 1, y) 3 (k + 4)
      (⟨(x - 1, y), 3, contour_points⟩ : ContourState K)
      = some ⟨(x - 1, y), 3, contour_points ++
          [((x : K) - 1 / 2, (y : K)), ((x : K), (y : K) + 1 / 2),
            ((x : K) + 1 / 2, (y : K)), ((x : K), (y : K) - 1 / 2)]⟩ := by
    rw [contourLoop]
    simp only [e1]
    rw [if_pos (Or.inr (by decide))]
    rw [contourLoop]
    simp only [e2]
    rw [if_pos (Or.inr (by decide))]
    rw [contourLoop]
    simp only [e3]
    rw [if_pos (Or.inr (by decide))]
    rw [contourLoop]
    simp only [e4]
    rw [if_neg (by simp)]
    simp
  rw [hloop]


/-! ## Lemmas: `reset()` on a chain over vector samples -/

end lemmas

/-! ## The claims -/

section claims

set_option linter.unusedVariables false

variable {K : Type} [LinearOrderedField K]

set_option maxRecDepth 100000 in
/-- C1, as stated, fails in `double` arithmetic. Chain of the request `[Count]`,
calls `update(5)`, `update(7, 1e16)`, `update(2)`: `count_` goes 0, 1, then
`1 + 1e16`, which rounds to `1e16`, then `1e16 + 1`, which rounds to `1e16`
again; `get<Count>` is `1e16`. The number of unweighted calls plus the sum of
the weights is `2 + 1e16`, which is a `double` (and the sum of the `double`
values 2 and `1e16`). -/
theorem C1_count_rounds :
    PushDependencies [Count] = [Count] ∧
    (∀ e : Env Double,
      ieee.get e [Count]
        (ieee.feed [Count] (ieee.init e 0)
          [Call.plain 5, Call.weighted 7 10000000000000000, Call.plain 2]).state Count
        = some 10000000000000000) ∧
    (10000000000000000 : Double).toRat = 10000000000000000 ∧
    (numberUnweighted [Call.plain 5, Call.weighted 7 10000000000000000, Call.plain 2] : ℚ)
      + sumOfWeights ([Call.plain 5, Call.weighted 7 10000000000000000, Call.plain 2] :
          List (Call ℚ)) = 10000000000000002 ∧
    (2 : Double) + 10000000000000000 = 10000000000000002 ∧
    (10000000000000002 : Double).toRat = 10000000000000002 := by
  refine ⟨by simp [PushDependencies, MergeUnique, Dependencies], fun e => ?_, ?_, ?_, by decide, ?_⟩
  · simp only [ieee.get, ieee.feed, ieee.step, ieee.update, ieee.updateWeighted, ieee.result,
      ieee.init, Outcome.andThen, Outcome.map, Outcome.state, List.mem_singleton, if_true]
    decide
  · have h : (10000000000000000 : Double) = ⟨5000000000000000, 1⟩ := by decide
    rw [h]
    norm_num [Double.toRat]
  · norm_num [numberUnweighted, sumOfWeights]
  · have h : (10000000000000002 : Double) = ⟨5000000000000001, 1⟩ := by decide
    rw [h]
    norm_num [Double.toRat]

/-- C1 (amended): in exact arithmetic, `double` taken as an ordered field, on a
static chain with a `Count` layer and neither `Minimum` nor `Maximum`, every
sequence of `update(value)` / `update(value, weight)` calls is
accepted, and afterwards `get<Count>` is the number of unweighted calls plus
the sum of the weights of the weighted calls; when every call is unweighted
this is the number of samples. -/
theorem C1_count_is_calls_plus_weights (e : Env K) (diff0 : K) (chain : List Tag)
    (hw : WellFormed chain) (hc : Count ∈ chain) (hmin : Minimum ∉ chain)
    (hmax : Maximum ∉ chain) (calls : List (Call K)) :
    ∃ s, feed chain (init e diff0) calls = Outcome.ok s ∧
      get e chain s Count = some ((numberUnweighted calls : K) + sumOfWeights calls) ∧
      ((∀ c ∈ calls, ∃ t, c = Call.plain t) →
        get e chain s Count = some (calls.length : K)) := by
  obtain ⟨s, hs⟩ := feed_ok chain hmin hmax (init e diff0) calls
  have hcnt : s.count_ = (numberUnweighted calls : K) + sumOfWeights calls := by
    rw [(feed_fields chain hw.1 _ s calls hs).1, if_pos hc, totalWeight_eq]
    simp [init]
  have hget : get e chain s Count = some ((numberUnweighted calls : K) + sumOfWeights calls) := by
    simp [get, hc, result, hcnt]
  refine ⟨s, hs, hget, ?_⟩
  intro hall
  obtain ⟨h1, h2⟩ := plain_calls calls hall
  rw [hget, h1, h2, add_zero]

/-- C1 (amended) at a concrete input: two unweighted calls and one of weight 1/2 give
Count 5/2. -/
theorem C1_count_is_calls_plus_weights_witness :
    WellFormed [Mean, Tag.Sum, Count] ∧ Count ∈ [Mean, Tag.Sum, Count] ∧
    Minimum ∉ [Mean, Tag.Sum, Count] ∧ Maximum ∉ [Mean, Tag.Sum, Count] ∧
    ∃ s, feed [Mean, Tag.Sum, Count]
          (init (⟨Real.sqrt, fun x y => x ^ y, 2 ^ 1024, -2 ^ 1024⟩ : Env ℝ) 0)
          [Call.plain 5, Call.weighted 7 (1 / 2), Call.plain 2] = Outcome.ok s ∧
      get (⟨Real.sqrt, fun x y => x ^ y, 2 ^ 1024, -2 ^ 1024⟩ : Env ℝ)
        [Mean, Tag.Sum, Count] s Count = some (5 / 2) := by
  refine ⟨by decide, by decide, by decide, by decide, ?_⟩
  obtain ⟨s, hs, hg, -⟩ := C1_count_is_calls_plus_weights
    (⟨Real.sqrt, fun x y => x ^ y, 2 ^ 1024, -2 ^ 1024⟩ : Env ℝ) 0 [Mean, Tag.Sum, Count]
    (by decide) (by decide) (by decide) (by decide)
    [Call.plain 5, Call.weighted 7 (1 / 2), Call.plain 2]
  refine ⟨s, hs, ?_⟩
  rw [hg]
  norm_num [numberUnweighted, sumOfWeights]

/-- C2: in every state a static chain with a `Mean` layer reaches by a sequence
of accepted update calls and in which Count is positive, `get<Mean>` is
`get<Sum>` divided by `get<Count>`. -/
theorem C2_mean_is_sum_div_count (e : Env K) (diff0 : K) (chain : List Tag)
    (hw : WellFormed chain) (hm : Mean ∈ chain) (calls : List (Call K)) (s : State K)
    (hfed : feed chain (init e diff0) calls = Outcome.ok s) (c : K)
    (hc : get e chain s Count = some c) (hpos : 0 < c) :
    ∃ m a, get e chain s Mean = some m ∧ get e chain s Tag.Sum = some a ∧ m = a / c := by
  have hsum : Tag.Sum ∈ chain := mem_of_dep hw hm (by simp [Dependencies])
  have hcount : Count ∈ chain := mem_of_dep hw hm (by simp [Dependencies])
  simp only [get, hcount, if_true, result, Option.some.injEq] at hc
  refine ⟨s.sum_ / s.count_, s.sum_, ?_, ?_, ?_⟩
  · simp [get, hm, result]
  · simp [get, hsum, result]
  · rw [hc]

/-- C2 at a concrete input: samples 10 and 20, Count 2. -/
theorem C2_mean_is_sum_div_count_witness :
    ∃ m a, get (⟨Real.sqrt, fun x y => x ^ y, 2 ^ 1024, -2 ^ 1024⟩ : Env ℝ)
        [Mean, Tag.Sum, Count]
        (feedAll [Mean, Tag.Sum, Count]
          (init (⟨Real.sqrt, fun x y => x ^ y, 2 ^ 1024, -2 ^ 1024⟩ : Env ℝ) 0) [10, 20])
        Mean = some m ∧
      get (⟨Real.sqrt, fun x y => x ^ y, 2 ^ 1024, -2 ^ 1024⟩ : Env ℝ)
        [Mean, Tag.Sum, Count]
        (feedAll [Mean, Tag.Sum, Count]
          (init (⟨Real.sqrt, fun x y => x ^ y, 2 ^ 1024, -2 ^ 1024⟩ : Env ℝ) 0) [10, 20])
        Tag.Sum = some a ∧ m = a / 2 :=
  C2_mean_is_sum_div_count (⟨Real.sqrt, fun x y => x ^ y, 2 ^ 1024, -2 ^ 1024⟩ : Env ℝ) 0
    [Mean, Tag.Sum, Count] (by decide) (by decide) [Call.plain 10, Call.plain 20]
    (feedAll [Mean, Tag.Sum, Count]
      (init (⟨Real.sqrt, fun x y => x ^ y, 2 ^ 1024, -2 ^ 1024⟩ : Env ℝ) 0) [10, 20])
    (feed_plain [Mean, Tag.Sum, Count] _ [10, 20]) 2
    (by
      simp only [get, List.mem_cons, List.mem_singleton, or_true, if_true, result,
        Option.some.injEq]
      norm_num [feedAll, update, init])
    (by norm_num)

/-- C4: after a non-empty sequence of unweighted samples fed to a static chain
with `Variance` and `StdDev` layers, Count is `n`, Mean is `(sum x_i)/n`,
`get<SumSquaredDifferences>` is the sum of `(x_i - mean)^2`, `get<Variance>` is
that sum divided by `n`, and `get<StdDev>` is `sqrt` of the variance, hence
(for a `sqrt` that is the non-negative root) non-negative with square the
variance. -/
theorem C4_variance_stddev (e : Env K) (diff0 : K) (chain : List Tag)
    (hw : WellFormed chain) (hv : Variance ∈ chain) (hsd : StdDev ∈ chain)
    (hsqrt : ∀ x : K, 0 ≤ x → 0 ≤ e.sqrt x ∧ e.sqrt x * e.sqrt x = x)
    (xs : List K) (hne : xs ≠ []) :
    get e chain (feedAll chain (init e diff0) xs) Count = some (xs.length : K) ∧
    get e chain (feedAll chain (init e diff0) xs) Mean = some (specMean xs) ∧
    get e chain (feedAll chain (init e diff0) xs) SumSquaredDifferences
      = some (specCentralSum 2 xs) ∧
    get e chain (feedAll chain (init e diff0) xs) Variance
      = some (specCentralSum 2 xs / (xs.length : K)) ∧
    ∃ sd, get e chain (feedAll chain (init e diff0) xs) StdDev = some sd ∧
      sd = e.sqrt (specCentralSum 2 xs / (xs.length : K)) ∧
      0 ≤ sd ∧ sd * sd = specCentralSum 2 xs / (xs.length : K) := by
  have hssd : SumSquaredDifferences ∈ chain := mem_of_dep hw hv (by simp [Dependencies])
  have hcount : Count ∈ chain := mem_of_dep hw hv (by simp [Dependencies])
  have hmean : Mean ∈ chain := mem_of_dep hw hssd (by simp [Dependencies])
  have hsum : Tag.Sum ∈ chain := mem_of_dep hw hmean (by simp [Dependencies])
  have f1 : (feedAll chain (init e diff0) xs).count_ = (xs.length : K) := by
    rw [feedAll_count chain hw.1, if_pos hcount]
    simp [init]
  have f2 : (feedAll chain (init e diff0) xs).sum_ = xs.sum := by
    rw [feedAll_sum chain hw.1, if_pos hsum]
    simp [init]
  have f3 : (feedAll chain (init e diff0) xs).sumOfSquaredDifferences_ = specCentralSum 2 xs := by
    rw [feedAll_ssd e diff0 chain hw.1 hcount hsum hssd, specCentralSum_two xs hne]
  have hvar : 0 ≤ specCentralSum 2 xs / (xs.length : K) :=
    div_nonneg (specCentralSum_nonneg_two xs) (Nat.cast_nonneg _)
  refine ⟨?_, ?_, ?_, ?_, ?_⟩
  · simp [get, hcount, result, f1]
  · simp [get, hmean, result, f1, f2, specMean]
  · simp [get, hssd, result, f3]
  · simp [get, hv, result, f1, f3]
  · refine ⟨e.sqrt (specCentralSum 2 xs / (xs.length : K)), ?_, rfl, hsqrt _ hvar⟩
    simp [get, hsd, result, f1, f3]

/-- C4 at the spec's input: `[2, 4, 4, 4, 5, 5, 7, 9]` gives Count 8, Mean 5,
Variance 4 and StdDev 2. -/
theorem C4_variance_stddev_witness :
    get (⟨Real.sqrt, fun x y => x ^ y, 2 ^ 1024, -2 ^ 1024⟩ : Env ℝ)
        [StdDev, Variance, SumSquaredDifferences, Mean, Tag.Sum, Count]
        (feedAll [StdDev, Variance, SumSquaredDifferences, Mean, Tag.Sum, Count]
          (init (⟨Real.sqrt, fun x y => x ^ y, 2 ^ 1024, -2 ^ 1024⟩ : Env ℝ) 0)
          [2, 4, 4, 4, 5, 5, 7, 9]) Count = some 8 ∧
    get (⟨Real.sqrt, fun x y => x ^ y, 2 ^ 1024, -2 ^ 1024⟩ : Env ℝ)
        [StdDev, Variance, SumSquaredDifferences, Mean, Tag.Sum, Count]
        (feedAll [StdDev, Variance, SumSquaredDifferences, Mean, Tag.Sum, Count]
          (init (⟨Real.sqrt, fun x y => x ^ y, 2 ^ 1024, -2 ^ 1024⟩ : Env ℝ) 0)
          [2, 4, 4, 4, 5, 5, 7, 9]) Mean = some 5 ∧
    get (⟨Real.sqrt, fun x y => x ^ y, 2 ^ 1024, -2 ^ 1024⟩ : Env ℝ)
        [StdDev, Variance, SumSquaredDifferences, Mean, Tag.Sum, Count]
        (feedAll [StdDev, Variance, SumSquaredDifferences, Mean, Tag.Sum, Count]
          (init (⟨Real.sqrt, fun x y => x ^ y, 2 ^ 1024, -2 ^ 1024⟩ : Env ℝ) 0)
          [2, 4, 4, 4, 5, 5, 7, 9]) Variance = some 4 ∧
    get (⟨Real.sqrt, fun x y => x ^ y, 2 ^ 1024, -2 ^ 1024⟩ : Env ℝ)
        [StdDev, Variance, SumSquaredDifferences, Mean, Tag.Sum, Count]
        (feedAll [StdDev, Variance, SumSquaredDifferences, Mean, Tag.Sum, Count]
          (init (⟨Real.sqrt, fun x y => x ^ y, 2 ^ 1024, -2 ^ 1024⟩ : Env ℝ) 0)
          [2, 4, 4, 4, 5, 5, 7, 9]) StdDev = some 2 := by
  obtain ⟨h1, h2, -, h4, sd, h5, -, h6, h7⟩ := C4_variance_stddev
    (⟨Real.sqrt, fun x y => x ^ y, 2 ^ 1024, -2 ^ 1024⟩ : Env ℝ) 0
    [StdDev, Variance, SumSquaredDifferences, Mean, Tag.Sum, Count]
    (by decide) (by decide) (by decide)
    (fun x hx => ⟨Real.sqrt_nonneg x, Real.mul_self_sqrt hx⟩)
    [2, 4, 4, 4, 5, 5, 7, 9] (by simp)
  have hvar : specCentralSum 2 ([2, 4, 4, 4, 5, 5, 7, 9] : List ℝ)
      / (([2, 4, 4, 4, 5, 5, 7, 9] : List ℝ).length : ℝ) = 4 := by
    norm_num [specCentralSum, specMean]
  rw [hvar] at h4 h7
  refine ⟨?_, ?_, h4, ?_⟩
  · rw [h1]
    norm_num
  · rw [h2]
    norm_num [specMean]
  · rw [h5]
    congr 1
    nlinarith

/-- C6: for a sample sequence `S` and a permutation `P` of it, a static chain
fed `S` and a chain of the same composition fed `P` return the same Count, Sum,
Mean, SumSquaredDifferences and Variance, and after the second pass over the
same data the same `CentralMoment<2..4>`, Skewness and Kurtosis. -/
theorem C6_order_invariance (e : Env K) (diff0 : K) (chain : List Tag)
    (hw : WellFormed chain) (S P : List K) (hp : S.Perm P) :
    (∀ tag ∈ [Count, Tag.Sum, Mean, SumSquaredDifferences, Variance],
      get e chain (feedAll chain (init e diff0) S) tag
        = get e chain (feedAll chain (init e diff0) P) tag) ∧
    (∀ tag ∈ [CentralMoment 2, CentralMoment 3, CentralMoment 4, Skewness, Kurtosis],
      get e chain (twoPass e diff0 chain S) tag = get e chain (twoPass e diff0 chain P) tag) := by
  obtain ⟨f1, f2, f3, g1, g2, g3⟩ := perm_fields e diff0 chain hw hp
  constructor
  · intro tag htag
    simp only [List.mem_cons, List.mem_singleton, List.mem_nil_iff, or_false] at htag
    rcases htag with rfl | rfl | rfl | rfl | rfl <;>
      simp only [get, result, f1, f2, f3]
  · intro tag htag
    simp only [List.mem_cons, List.mem_singleton, List.mem_nil_iff, or_false] at htag
    rcases htag with rfl | rfl | rfl | rfl | rfl <;>
      simp only [get, result, g1, g2, g3]

/-- C6 at a concrete input: `[1, 2, 4]` and its rotation `[4, 1, 2]`. -/
theorem C6_order_invariance_witness :
    (∀ tag ∈ [Count, Tag.Sum, Mean, SumSquaredDifferences, Variance],
      get (⟨Real.sqrt, fun x y => x ^ y, 2 ^ 1024, -2 ^ 1024⟩ : Env ℝ)
          [Kurtosis, CentralMoment 4, Skewness, CentralMoment 3, CentralMoment 2, Variance,
            SumSquaredDifferences, Mean, Tag.Sum, Count]
          (feedAll [Kurtosis, CentralMoment 4, Skewness, CentralMoment 3, CentralMoment 2,
            Variance, SumSquaredDifferences, Mean, Tag.Sum, Count]
            (init (⟨Real.sqrt, fun x y => x ^ y, 2 ^ 1024, -2 ^ 1024⟩ : Env ℝ) 0) [1, 2, 4]) tag
        = get (⟨Real.sqrt, fun x y => x ^ y, 2 ^ 1024, -2 ^ 1024⟩ : Env ℝ)
          [Kurtosis, CentralMoment 4, Skewness, CentralMoment 3, CentralMoment 2, Variance,
            SumSquaredDifferences, Mean, Tag.Sum, Count]
          (feedAll [Kurtosis, CentralMoment 4, Skewness, CentralMoment 3, CentralMoment 2,
            Variance, SumSquaredDifferences, Mean, Tag.Sum, Count]
            (init (⟨Real.sqrt, fun x y => x ^ y, 2 ^ 1024, -2 ^ 1024⟩ : Env ℝ) 0) [4, 1, 2]) tag) ∧
    (∀ tag ∈ [CentralMoment 2, CentralMoment 3, CentralMoment 4, Skewness, Kurtosis],
      get (⟨Real.sqrt, fun x y => x ^ y, 2 ^ 1024, -2 ^ 1024⟩ : Env ℝ)
          [Kurtosis, CentralMoment 4, Skewness, CentralMoment 3, CentralMoment 2, Variance,
            SumSquaredDifferences, Mean, Tag.Sum, Count]
          (twoPass (⟨Real.sqrt, fun x y => x ^ y, 2 ^ 1024, -2 ^ 1024⟩ : Env ℝ) 0
            [Kurtosis, CentralMoment 4, Skewness, CentralMoment 3, CentralMoment 2, Variance,
              SumSquaredDifferences, Mean, Tag.Sum, Count] [1, 2, 4]) tag
        = get (⟨Real.sqrt, fun x y => x ^ y, 2 ^ 1024, -2 ^ 1024⟩ : Env ℝ)
          [Kurtosis, CentralMoment 4, Skewness, CentralMoment 3, CentralMoment 2, Variance,
            SumSquaredDifferences, Mean, Tag.Sum, Count]
          (twoPass (⟨Real.sqrt, fun x y => x ^ y, 2 ^ 1024, -2 ^ 1024⟩ : Env ℝ) 0
            [Kurtosis, CentralMoment 4, Skewness, CentralMoment 3, CentralMoment 2, Variance,
              SumSquaredDifferences, Mean, Tag.Sum, Count] [4, 1, 2]) tag) :=
  C6_order_invariance (⟨Real.sqrt, fun x y => x ^ y, 2 ^ 1024, -2 ^ 1024⟩ : Env ℝ) 0
    [Kurtosis, CentralMoment 4, Skewness, CentralMoment 3, CentralMoment 2, Variance,
      SumSquaredDifferences, Mean, Tag.Sum, Count] (by decide) [1, 2, 4] [4, 1, 2]
    (List.perm_append_comm : ([1, 2] ++ [4] : List ℝ).Perm ([4] ++ [1, 2]))

set_option maxRecDepth 100000 in
/-- C7, as stated, fails in `double` arithmetic. Chains of the request `[Mean]`:
`a` fed `1e16`, `b` fed `1, 1`. After `a += b` the sum is `1e16 + 2`, the
`double` sum of `1e16` and `2`, while one chain fed `1e16, 1, 1` adds `1` twice
to `1e16`, each sum rounding back to `1e16`: `get<Sum>` and `get<Mean>` of the
merged chain are not those of the one chain (`get<Count>` is 3 on both). -/
theorem C7_merge_sum_rounds :
    PushDependencies [Mean] = [Mean, Tag.Sum, Count] ∧
    (∀ e : Env Double,
      ieee.merge [Mean, Tag.Sum, Count]
          (ieee.feedAll [Mean, Tag.Sum, Count] (ieee.init e 0) [10000000000000000])
          (ieee.feedAll [Mean, Tag.Sum, Count] (ieee.init e 0) [1, 1])
        = Outcome.ok
            (ieee.merge [Mean, Tag.Sum, Count]
              (ieee.feedAll [Mean, Tag.Sum, Count] (ieee.init e 0) [10000000000000000])
              (ieee.feedAll [Mean, Tag.Sum, Count] (ieee.init e 0) [1, 1])).state ∧
      ieee.get e [Mean, Tag.Sum, Count]
          (ieee.merge [Mean, Tag.Sum, Count]
            (ieee.feedAll [Mean, Tag.Sum, Count] (ieee.init e 0) [10000000000000000])
            (ieee.feedAll [Mean, Tag.Sum, Count] (ieee.init e 0) [1, 1])).state Tag.Sum
        = some 10000000000000002 ∧
      ieee.get e [Mean, Tag.Sum, Count]
          (ieee.feedAll [Mean, Tag.Sum, Count] (ieee.init e 0) [10000000000000000, 1, 1])
          Tag.Sum
        = some 10000000000000000 ∧
      ieee.get e [Mean, Tag.Sum, Count]
          (ieee.merge [Mean, Tag.Sum, Count]
            (ieee.feedAll [Mean, Tag.Sum, Count] (ieee.init e 0) [10000000000000000])
            (ieee.feedAll [Mean, Tag.Sum, Count] (ieee.init e 0) [1, 1])).state Mean
        ≠ ieee.get e [Mean, Tag.Sum, Count]
          (ieee.feedAll [Mean, Tag.Sum, Count] (ieee.init e 0) [10000000000000000, 1, 1])
          Mean ∧
      ieee.get e [Mean, Tag.Sum, Count]
          (ieee.merge [Mean, Tag.Sum, Count]
            (ieee.feedAll [Mean, Tag.Sum, Count] (ieee.init e 0) [10000000000000000])
            (ieee.feedAll [Mean, Tag.Sum, Count] (ieee.init e 0) [1, 1])).state Count
        = some 3 ∧
      ieee.get e [Mean, Tag.Sum, Count]
          (ieee.feedAll [Mean, Tag.Sum, Count] (ieee.init e 0) [10000000000000000, 1, 1])
          Count
        = some 3) ∧
    (10000000000000002 : Double) ≠ 10000000000000000 ∧
    (10000000000000002 : Double).toRat = 10000000000000002 ∧
    (10000000000000000 : Double).toRat = 10000000000000000 := by
  refine ⟨by simp [PushDependencies, MergeUnique, Dependencies], fun e => ?_, by decide, ?_, ?_⟩
  · simp only [ieee.get, ieee.merge, ieee.feedAll, ieee.update, ieee.result, ieee.init,
      Outcome.map, Outcome.state, List.foldl_cons, List.foldl_nil, List.mem_cons,
      List.mem_singleton, true_or, or_true, if_true]
    refine ⟨trivial, ?_, ?_, ?_, ?_, ?_⟩ <;> decide
  · have h : (10000000000000002 : Double) = ⟨5000000000000001, 1⟩ := by decide
    rw [h]
    norm_num [Double.toRat]
  · have h : (10000000000000000 : Double) = ⟨5000000000000000, 1⟩ := by decide
    rw [h]
    norm_num [Double.toRat]

/-- C7 (amended): in exact arithmetic, `double` taken as an ordered field: if
chain `a` was fed `S1` and chain `b` of the same composition was fed
`S2` (`S1 ++ S2` non-empty), then after `a += b` the values of `get<Count>`,
`get<Sum>` and `get<Mean>` on `a` are those of one chain fed `S1 ++ S2` (which
accepts it), and Count and Sum are the sums of the two operands' values. -/
theorem C7_merge_count_sum_mean (e : Env K) (diff0 : K) (chain : List Tag)
    (hw : WellFormed chain) (S1 S2 : List (Call K)) (hne : S1 ++ S2 ≠ [])
    (a b m : State K) (ha : feed chain (init e diff0) S1 = Outcome.ok a)
    (hb : feed chain (init e diff0) S2 = Outcome.ok b)
    (hm : merge chain a b = Outcome.ok m) :
    ∃ whole, feed chain (init e diff0) (S1 ++ S2) = Outcome.ok whole ∧
      (∀ tag ∈ [Count, Tag.Sum, Mean], get e chain m tag = get e chain whole tag) ∧
      (∀ tag ∈ [Count, Tag.Sum], ∀ x y, get e chain a tag = some x →
        get e chain b tag = some y → get e chain m tag = some (x + y)) := by
  obtain ⟨whole, hwhole⟩ := feed_ok_of_feed_ok chain S2 _ b hb a
  have hfeed : feed chain (init e diff0) (S1 ++ S2) = Outcome.ok whole := by
    rw [feed_append, ha]
    exact hwhole
  obtain ⟨a1, a2⟩ := feed_fields chain hw.1 _ a S1 ha
  obtain ⟨b1, b2⟩ := feed_fields chain hw.1 _ b S2 hb
  obtain ⟨w1, w2⟩ := feed_fields chain hw.1 _ whole S2 hwhole
  obtain ⟨m1, m2, -⟩ := merge_fields chain hw.1 a b m hm
  have hcount : m.count_ = whole.count_ := by
    rw [m1, w1, b1]
    split_ifs <;> simp [init]
  have hsum : m.sum_ = whole.sum_ := by
    rw [m2, w2, b2]
    split_ifs <;> simp [init]
  refine ⟨whole, hfeed, ?_, ?_⟩
  · intro tag htag
    simp only [List.mem_cons, List.mem_singleton, List.mem_nil_iff, or_false] at htag
    rcases htag with rfl | rfl | rfl <;> simp only [get, result, hcount, hsum]
  · intro tag htag x y hx hy
    simp only [List.mem_cons, List.mem_singleton, List.mem_nil_iff, or_false] at htag
    rcases htag with rfl | rfl
    · by_cases hc : Count ∈ chain
      · simp only [get, hc, if_true, result, Option.some.injEq] at hx hy ⊢
        rw [m1, if_pos hc, hx, hy]
      · simp [get, hc] at hx
    · by_cases hc : Tag.Sum ∈ chain
      · simp only [get, hc, if_true, result, Option.some.injEq] at hx hy ⊢
        rw [m2, if_pos hc, hx, hy]
      · simp [get, hc] at hx

/-- C7 (amended) at a concrete input: `S1 = [1, 2]` unweighted and `S2 = [(6, 2)]`
weighted; the merged chain is `m`. -/
theorem C7_merge_count_sum_mean_witness :
    ∃ a b m whole,
      feed [Mean, Tag.Sum, Count]
        (init (⟨Real.sqrt, fun x y => x ^ y, 2 ^ 1024, -2 ^ 1024⟩ : Env ℝ) 0)
        [Call.plain 1, Call.plain 2] = Outcome.ok a ∧
      feed [Mean, Tag.Sum, Count]
        (init (⟨Real.sqrt, fun x y => x ^ y, 2 ^ 1024, -2 ^ 1024⟩ : Env ℝ) 0)
        [Call.weighted 6 2] = Outcome.ok b ∧
      merge [Mean, Tag.Sum, Count] a b = Outcome.ok m ∧
      feed [Mean, Tag.Sum, Count]
        (init (⟨Real.sqrt, fun x y => x ^ y, 2 ^ 1024, -2 ^ 1024⟩ : Env ℝ) 0)
        ([Call.plain 1, Call.plain 2] ++ [Call.weighted 6 2]) = Outcome.ok whole ∧
      (∀ tag ∈ [Count, Tag.Sum, Mean],
        get (⟨Real.sqrt, fun x y => x ^ y, 2 ^ 1024, -2 ^ 1024⟩ : Env ℝ)
            [Mean, Tag.Sum, Count] m tag
          = get (⟨Real.sqrt, fun x y => x ^ y, 2 ^ 1024, -2 ^ 1024⟩ : Env ℝ)
            [Mean, Tag.Sum, Count] whole tag) := by
  obtain ⟨a, ha⟩ := feed_ok [Mean, Tag.Sum, Count] (by decide) (by decide)
    (init (⟨Real.sqrt, fun x y => x ^ y, 2 ^ 1024, -2 ^ 1024⟩ : Env ℝ) 0)
    [Call.plain 1, Call.plain 2]
  obtain ⟨b, hb⟩ := feed_ok [Mean, Tag.Sum, Count] (by decide) (by decide)
    (init (⟨Real.sqrt, fun x y => x ^ y, 2 ^ 1024, -2 ^ 1024⟩ : Env ℝ) 0)
    [Call.weighted 6 2]
  obtain ⟨m, hm⟩ := merge_ok [Mean, Tag.Sum, Count] (by simp) a b
  obtain ⟨whole, h1, h2, -⟩ := C7_merge_count_sum_mean
    (⟨Real.sqrt, fun x y => x ^ y, 2 ^ 1024, -2 ^ 1024⟩ : Env ℝ) 0 [Mean, Tag.Sum, Count]
    (by decide) [Call.plain 1, Call.plain 2] [Call.weighted 6 2] (by simp) a b m ha hb hm
  exact ⟨a, b, m, whole, ha, hb, hm, h1, h2⟩

/-- C8: for non-empty sample sequences `S1` and `S2` fed to chains `a` and `b`
of one composition with a `Variance` layer, after `a += b` the values of
`get<SumSquaredDifferences>` and `get<Variance>` on `a` are those of one chain
fed `S1 ++ S2` in order: the sum of squared deviations from the mean of
`S1 ++ S2`, and that sum divided by the number of samples. -/
theorem C8_merge_variance (e : Env K) (diff0 : K) (chain : List Tag)
    (hw : WellFormed chain) (hv : Variance ∈ chain) (S1 S2 : List K)
    (h1 : S1 ≠ []) (h2 : S2 ≠ []) (m : State K)
    (hm : merge chain (feedAll chain (init e diff0) S1) (feedAll chain (init e diff0) S2)
      = Outcome.ok m) :
    get e chain m SumSquaredDifferences
      = get e chain (feedAll chain (init e diff0) (S1 ++ S2)) SumSquaredDifferences ∧
    get e chain m Variance = get e chain (feedAll chain (init e diff0) (S1 ++ S2)) Variance ∧
    get e chain m SumSquaredDifferences = some (specCentralSum 2 (S1 ++ S2)) ∧
    get e chain m Variance
      = some (specCentralSum 2 (S1 ++ S2) / ((S1 ++ S2).length : K)) := by
  have hssd : SumSquaredDifferences ∈ chain := mem_of_dep hw hv (by simp [Dependencies])
  have hcount : Count ∈ chain := mem_of_dep hw hv (by simp [Dependencies])
  have hmean : Mean ∈ chain := mem_of_dep hw hssd (by simp [Dependencies])
  have hsum : Tag.Sum ∈ chain := mem_of_dep hw hmean (by simp [Dependencies])
  have hcnt : ∀ xs : List K, (feedAll chain (init e diff0) xs).count_ = (xs.length : K) := by
    intro xs
    rw [feedAll_count chain hw.1, if_pos hcount]
    simp [init]
  have hsm : ∀ xs : List K, (feedAll chain (init e diff0) xs).sum_ = xs.sum := by
    intro xs
    rw [feedAll_sum chain hw.1, if_pos hsum]
    simp [init]
  have hsq := feedAll_ssd e diff0 chain hw.1 hcount hsum hssd
  obtain ⟨m1, -, m3⟩ := merge_fields chain hw.1 _ _ m hm
  rw [if_pos hcount, hcnt, hcnt] at m1
  rw [if_pos hssd, hsq, hsq, hcnt, hcnt, hsm, hsm] at m3
  have hn1 : (S1.length : K) ≠ 0 := by
    have : 0 < S1.length := List.length_pos.mpr h1
    exact_mod_cast this.ne'
  have hn2 : (S2.length : K) ≠ 0 := by
    have : 0 < S2.length := List.length_pos.mpr h2
    exact_mod_cast this.ne'
  have hn : (S1.length : K) + (S2.length : K) ≠ 0 := by positivity
  have hne : S1 ++ S2 ≠ [] := by simp [h1]
  have key : m.sumOfSquaredDifferences_
      = (feedAll chain (init e diff0) (S1 ++ S2)).sumOfSquaredDifferences_ := by
    rw [m3, hsq]
    simp only [List.map_append, List.sum_append, List.length_append, Nat.cast_add, sq]
    field_simp
    ring
  have keyc : m.count_ = (feedAll chain (init e diff0) (S1 ++ S2)).count_ := by
    rw [m1, hcnt]
    simp
  have hspec : (feedAll chain (init e diff0) (S1 ++ S2)).sumOfSquaredDifferences_
      = specCentralSum 2 (S1 ++ S2) := by
    rw [hsq, specCentralSum_two _ hne]
  refine ⟨?_, ?_, ?_, ?_⟩
  · simp only [get, result, key]
  · simp only [get, result, key, keyc]
  · simp only [get, hssd, if_true, result, key, hspec]
  · simp only [get, hv, if_true, result, key, keyc, hspec, hcnt]

/-- C8 at a concrete input: `S1 = [1, 2]`, `S2 = [3, 4, 5, 7]`. -/
theorem C8_merge_variance_witness :
    ∃ m, merge [Variance, SumSquaredDifferences, Mean, Tag.Sum, Count]
        (feedAll [Variance, SumSquaredDifferences, Mean, Tag.Sum, Count]
          (init (⟨Real.sqrt, fun x y => x ^ y, 2 ^ 1024, -2 ^ 1024⟩ : Env ℝ) 0) [1, 2])
        (feedAll [Variance, SumSquaredDifferences, Mean, Tag.Sum, Count]
          (init (⟨Real.sqrt, fun x y => x ^ y, 2 ^ 1024, -2 ^ 1024⟩ : Env ℝ) 0) [3, 4, 5, 7])
        = Outcome.ok m ∧
      get (⟨Real.sqrt, fun x y => x ^ y, 2 ^ 1024, -2 ^ 1024⟩ : Env ℝ)
        [Variance, SumSquaredDifferences, Mean, Tag.Sum, Count] m SumSquaredDifferences
        = some (70 / 3) ∧
      get (⟨Real.sqrt, fun x y => x ^ y, 2 ^ 1024, -2 ^ 1024⟩ : Env ℝ)
        [Variance, SumSquaredDifferences, Mean, Tag.Sum, Count] m Variance
        = some (35 / 9) := by
  obtain ⟨m, hm⟩ := merge_ok [Variance, SumSquaredDifferences, Mean, Tag.Sum, Count] (by simp)
    (feedAll [Variance, SumSquaredDifferences, Mean, Tag.Sum, Count]
      (init (⟨Real.sqrt, fun x y => x ^ y, 2 ^ 1024, -2 ^ 1024⟩ : Env ℝ) 0) [1, 2])
    (feedAll [Variance, SumSquaredDifferences, Mean, Tag.Sum, Count]
      (init (⟨Real.sqrt, fun x y => x ^ y, 2 ^ 1024, -2 ^ 1024⟩ : Env ℝ) 0) [3, 4, 5, 7])
  obtain ⟨-, -, g3, g4⟩ := C8_merge_variance
    (⟨Real.sqrt, fun x y => x ^ y, 2 ^ 1024, -2 ^ 1024⟩ : Env ℝ) 0
    [Variance, SumSquaredDifferences, Mean, Tag.Sum, Count] (by decide) (by decide)
    [1, 2] [3, 4, 5, 7] (by simp) (by simp) m hm
  refine ⟨m, hm, ?_, ?_⟩
  · rw [g3]
    norm_num [specCentralSum, specMean]
  · rw [g4]
    norm_num [specCentralSum, specMean]

/-- C9 (the code differs): with `S1 = [0]` and `S2 = [1, 1]`, both passes on each
chain and then `a += b`, `get<CentralMoment<3>>(a)` is `2/27` and
`get<Skewness>(a)` is positive, while one chain fed both passes over
`[0, 1, 1]` returns `-2/27` and a negative Skewness. -/
theorem C9_merge_third_moment_diverges :
    ∃ m sk1 sk2, merge [Skewness, CentralMoment 3, CentralMoment 2, Mean, Tag.Sum, Count]
        (twoPass (⟨Real.sqrt, fun x y => x ^ y, 2 ^ 1024, -2 ^ 1024⟩ : Env ℝ) 0
          [Skewness, CentralMoment 3, CentralMoment 2, Mean, Tag.Sum, Count] [0])
        (twoPass (⟨Real.sqrt, fun x y => x ^ y, 2 ^ 1024, -2 ^ 1024⟩ : Env ℝ) 0
          [Skewness, CentralMoment 3, CentralMoment 2, Mean, Tag.Sum, Count] [1, 1])
        = Outcome.ok m ∧
      get (⟨Real.sqrt, fun x y => x ^ y, 2 ^ 1024, -2 ^ 1024⟩ : Env ℝ)
        [Skewness, CentralMoment 3, CentralMoment 2, Mean, Tag.Sum, Count] m (CentralMoment 3)
        = some (2 / 27) ∧
      get (⟨Real.sqrt, fun x y => x ^ y, 2 ^ 1024, -2 ^ 1024⟩ : Env ℝ)
        [Skewness, CentralMoment 3, CentralMoment 2, Mean, Tag.Sum, Count]
        (twoPass (⟨Real.sqrt, fun x y => x ^ y, 2 ^ 1024, -2 ^ 1024⟩ : Env ℝ) 0
          [Skewness, CentralMoment 3, CentralMoment 2, Mean, Tag.Sum, Count] [0, 1, 1])
        (CentralMoment 3) = some (-2 / 27) ∧
      get (⟨Real.sqrt, fun x y => x ^ y, 2 ^ 1024, -2 ^ 1024⟩ : Env ℝ)
        [Skewness, CentralMoment 3, CentralMoment 2, Mean, Tag.Sum, Count] m Skewness
        = some sk1 ∧
      get (⟨Real.sqrt, fun x y => x ^ y, 2 ^ 1024, -2 ^ 1024⟩ : Env ℝ)
        [Skewness, CentralMoment 3, CentralMoment 2, Mean, Tag.Sum, Count]
        (twoPass (⟨Real.sqrt, fun x y => x ^ y, 2 ^ 1024, -2 ^ 1024⟩ : Env ℝ) 0
          [Skewness, CentralMoment 3, CentralMoment 2, Mean, Tag.Sum, Count] [0, 1, 1])
        Skewness = some sk2 ∧ 0 < sk1 ∧ sk2 < 0 := by
  refine ⟨_, _, _, rfl, ?_, ?_, rfl, rfl, ?_, ?_⟩
  · norm_num [twoPass, feedAll, feedAllPass2, update, updatePass2, merge, MergeCentralMoments,
      init, get, result, sq, Function.update, Outcome.map]
  · norm_num [twoPass, feedAll, feedAllPass2, update, updatePass2, merge, MergeCentralMoments,
      init, get, result, sq, Function.update, Outcome.map]
  · norm_num [twoPass, feedAll, feedAllPass2, update, updatePass2, merge, MergeCentralMoments,
      init, get, result, sq, Function.update, Outcome.map]
    positivity
  · norm_num [twoPass, feedAll, feedAllPass2, update, updatePass2, merge, MergeCentralMoments,
      init, get, result, sq, Function.update, Outcome.map]
    have h1 : (0 : ℝ) < √3 * (2 / 9) := by positivity
    have h2 : (0 : ℝ) < (2 / 3 : ℝ) ^ (3 / 2 : ℝ) := by positivity
    exact div_neg_of_neg_of_pos (neg_neg_of_pos h1) h2

/-- C10 (the code differs): with `S1 = [0]` and `S2 = [1, 1, 4]`, both passes on
each chain and then `a += b`, `get<CentralMoment<4>>(a)` is `89/16` and
`get<Kurtosis>(a)` is `89/81`, while one chain fed both passes over
`[0, 1, 1, 4]` returns `177/16` and `59/27`. -/
theorem C10_merge_fourth_moment_diverges :
    ∃ m, merge [Kurtosis, CentralMoment 4, CentralMoment 3, CentralMoment 2, Mean, Tag.Sum, Count]
        (twoPass (⟨Real.sqrt, fun x y => x ^ y, 2 ^ 1024, -2 ^ 1024⟩ : Env ℝ) 0
          [Kurtosis, CentralMoment 4, CentralMoment 3, CentralMoment 2, Mean, Tag.Sum, Count]
          [0])
        (twoPass (⟨Real.sqrt, fun x y => x ^ y, 2 ^ 1024, -2 ^ 1024⟩ : Env ℝ) 0
          [Kurtosis, CentralMoment 4, CentralMoment 3, CentralMoment 2, Mean, Tag.Sum, Count]
          [1, 1, 4])
        = Outcome.ok m ∧
      get (⟨Real.sqrt, fun x y => x ^ y, 2 ^ 1024, -2 ^ 1024⟩ : Env ℝ)
        [Kurtosis, CentralMoment 4, CentralMoment 3, CentralMoment 2, Mean, Tag.Sum, Count]
        m (CentralMoment 4) = some (89 / 16) ∧
      get (⟨Real.sqrt, fun x y => x ^ y, 2 ^ 1024, -2 ^ 1024⟩ : Env ℝ)
        [Kurtosis, CentralMoment 4, CentralMoment 3, CentralMoment 2, Mean, Tag.Sum, Count]
        (twoPass (⟨Real.sqrt, fun x y => x ^ y, 2 ^ 1024, -2 ^ 1024⟩ : Env ℝ) 0
          [Kurtosis, CentralMoment 4, CentralMoment 3, CentralMoment 2, Mean, Tag.Sum, Count]
          [0, 1, 1, 4])
        (CentralMoment 4) = some (177 / 16) ∧
      get (⟨Real.sqrt, fun x y => x ^ y, 2 ^ 1024, -2 ^ 1024⟩ : Env ℝ)
        [Kurtosis, CentralMoment 4, CentralMoment 3, CentralMoment 2, Mean, Tag.Sum, Count]
        m Kurtosis = some (89 / 81) ∧
      get (⟨Real.sqrt, fun x y => x ^ y, 2 ^ 1024, -2 ^ 1024⟩ : Env ℝ)
        [Kurtosis, CentralMoment 4, CentralMoment 3, CentralMoment 2, Mean, Tag.Sum, Count]
        (twoPass (⟨Real.sqrt, fun x y => x ^ y, 2 ^ 1024, -2 ^ 1024⟩ : Env ℝ) 0
          [Kurtosis, CentralMoment 4, CentralMoment 3, CentralMoment 2, Mean, Tag.Sum, Count]
          [0, 1, 1, 4])
        Kurtosis = some (59 / 27) := by
  generalize (⟨Real.sqrt, fun x y => x ^ y, 2 ^ 1024, -2 ^ 1024⟩ : Env ℝ) = E
  have hnd : ([Kurtosis, CentralMoment 4, CentralMoment 3, CentralMoment 2, Mean, Tag.Sum,
      Count] : List Tag).Nodup := by decide
  obtain ⟨w1, w2, w3⟩ := twoPass_fields E 0 _ hnd (by decide) (by decide) [0, 1, 1, 4]
  obtain ⟨a1, a2, a3⟩ := twoPass_fields E 0 _ hnd (by decide) (by decide) [0]
  obtain ⟨b1, b2, b3⟩ := twoPass_fields E 0 _ hnd (by decide) (by decide) [1, 1, 4]
  have w4 := w3 4
  have w5 := w3 2
  have a4 := a3 4
  have a5 := a3 3
  have a6 := a3 2
  have b4 := b3 4
  have b5 := b3 3
  have b6 := b3 2
  norm_num [specCentralSum, specMean] at w1 w2 w4 w5 a1 a2 a4 a5 a6 b1 b2 b4 b5 b6
  clear w3 a3 b3
  generalize twoPass E 0
    [Kurtosis, CentralMoment 4, CentralMoment 3, CentralMoment 2, Mean, Tag.Sum, Count]
    [0, 1, 1, 4] = whole at w1 w2 w4 w5 ⊢
  generalize twoPass E 0
    [Kurtosis, CentralMoment 4, CentralMoment 3, CentralMoment 2, Mean, Tag.Sum, Count]
    [0] = a at a1 a2 a4 a5 a6 ⊢
  generalize twoPass E 0
    [Kurtosis, CentralMoment 4, CentralMoment 3, CentralMoment 2, Mean, Tag.Sum, Count]
    [1, 1, 4] = b at b1 b2 b4 b5 b6 ⊢
  refine ⟨_, rfl, ?_, ?_, ?_, ?_⟩
  · simp only [get, result, MergeCentralMoments, Function.update, sq, a1, a2, a4, a5, a6, b1,
      b2, b4, b5, b6]
    norm_num
  · simp only [get, result, w1, w4]
    norm_num
  · simp only [get, result, MergeCentralMoments, Function.update, sq, a1, a2, a4, a5, a6, b1,
      b2, b4, b5, b6]
    norm_num
  · simp only [get, result, sq, w1, w4, w5]
    norm_num

/-- C11: for non-empty sample sequences `S1` and `S2` fed through both passes to
chains `a` and `b` of one composition with a `CentralMoment<2>` layer, after
`a += b` the member `moment_` of that layer is the sum of the operands' two
`moment_` plus `n1*n2/(n1+n2)` times the squared difference of their pre-merge
means `Sum/Count`, and `get<CentralMoment<2>>(a)` is the population variance of
`S1 ++ S2`. -/
theorem C11_merge_second_moment (e : Env K) (diff0 : K) (chain : List Tag)
    (hw : WellFormed chain) (hcm : CentralMoment 2 ∈ chain) (S1 S2 : List K)
    (h1 : S1 ≠ []) (h2 : S2 ≠ []) (m : State K)
    (hm : merge chain (twoPass e diff0 chain S1) (twoPass e diff0 chain S2) = Outcome.ok m) :
    m.moment_ 2 = (twoPass e diff0 chain S1).moment_ 2 + ((twoPass e diff0 chain S2).moment_ 2 +
      (twoPass e diff0 chain S1).count_ * (twoPass e diff0 chain S2).count_ /
          ((twoPass e diff0 chain S1).count_ + (twoPass e diff0 chain S2).count_) *
        sq ((twoPass e diff0 chain S1).sum_ / (twoPass e diff0 chain S1).count_
          - (twoPass e diff0 chain S2).sum_ / (twoPass e diff0 chain S2).count_)) ∧
    get e chain m (CentralMoment 2)
      = some (specCentralSum 2 (S1 ++ S2) / ((S1 ++ S2).length : K)) ∧
    get e chain m (CentralMoment 2)
      = get e chain (twoPass e diff0 chain (S1 ++ S2)) (CentralMoment 2) := by
  have hmean : Mean ∈ chain := mem_of_dep hw hcm (by simp [Dependencies])
  have hcount : Count ∈ chain := mem_of_dep hw hcm (by simp [Dependencies])
  have hsum : Tag.Sum ∈ chain := mem_of_dep hw hmean (by simp [Dependencies])
  have hmom := merge_moment_two chain hw.1 hcm _ _ m hm
  obtain ⟨m1, -, -⟩ := merge_fields chain hw.1 _ _ m hm
  obtain ⟨a1, a2, a3⟩ := twoPass_fields e diff0 chain hw.1 hcount hsum S1
  obtain ⟨b1, b2, b3⟩ := twoPass_fields e diff0 chain hw.1 hcount hsum S2
  obtain ⟨w1, w2, w3⟩ := twoPass_fields e diff0 chain hw.1 hcount hsum (S1 ++ S2)
  have a4 := a3 2
  have b4 := b3 2
  have w4 := w3 2
  rw [if_pos hcm] at a4 b4 w4
  rw [if_pos hcount] at m1
  have hn1 : (S1.length : K) ≠ 0 := by
    have : 0 < S1.length := List.length_pos.mpr h1
    exact_mod_cast this.ne'
  have hn2 : (S2.length : K) ≠ 0 := by
    have : 0 < S2.length := List.length_pos.mpr h2
    exact_mod_cast this.ne'
  have hn : (S1.length : K) + (S2.length : K) ≠ 0 := by positivity
  have hne : S1 ++ S2 ≠ [] := by simp [h1]
  have key : m.moment_ 2 = specCentralSum 2 (S1 ++ S2) := by
    rw [hmom, a4, b4, a1, a2, b1, b2, specCentralSum_two S1 h1, specCentralSum_two S2 h2,
      specCentralSum_two _ hne]
    simp only [List.map_append, List.sum_append, List.length_append, Nat.cast_add, sq]
    field_simp
    ring
  have keyc : m.count_ = ((S1 ++ S2).length : K) := by
    rw [m1, a1, b1]
    simp
  refine ⟨hmom, ?_, ?_⟩
  · simp only [get, hcm, if_true, result, key, keyc]
  · simp only [get, hcm, if_true, result, key, keyc, w1, w4]

/-- C11 at a concrete input: `S1 = [1, 2]`, `S2 = [3, 4, 5, 7]`, whose
population variance is `35/9`. -/
theorem C11_merge_second_moment_witness :
    ∃ m, merge [CentralMoment 2, Mean, Tag.Sum, Count]
        (twoPass (⟨Real.sqrt, fun x y => x ^ y, 2 ^ 1024, -2 ^ 1024⟩ : Env ℝ) 0
          [CentralMoment 2, Mean, Tag.Sum, Count] [1, 2])
        (twoPass (⟨Real.sqrt, fun x y => x ^ y, 2 ^ 1024, -2 ^ 1024⟩ : Env ℝ) 0
          [CentralMoment 2, Mean, Tag.Sum, Count] [3, 4, 5, 7])
        = Outcome.ok m ∧
      get (⟨Real.sqrt, fun x y => x ^ y, 2 ^ 1024, -2 ^ 1024⟩ : Env ℝ)
        [CentralMoment 2, Mean, Tag.Sum, Count] m (CentralMoment 2) = some (35 / 9) := by
  obtain ⟨m, hm⟩ := merge_ok [CentralMoment 2, Mean, Tag.Sum, Count] (by simp)
    (twoPass (⟨Real.sqrt, fun x y => x ^ y, 2 ^ 1024, -2 ^ 1024⟩ : Env ℝ) 0
      [CentralMoment 2, Mean, Tag.Sum, Count] [1, 2])
    (twoPass (⟨Real.sqrt, fun x y => x ^ y, 2 ^ 1024, -2 ^ 1024⟩ : Env ℝ) 0
      [CentralMoment 2, Mean, Tag.Sum, Count] [3, 4, 5, 7])
  obtain ⟨-, g, -⟩ := C11_merge_second_moment
    (⟨Real.sqrt, fun x y => x ^ y, 2 ^ 1024, -2 ^ 1024⟩ : Env ℝ) 0
    [CentralMoment 2, Mean, Tag.Sum, Count] (by decide) (by decide)
    [1, 2] [3, 4, 5, 7] (by simp) (by simp) m hm
  refine ⟨m, hm, ?_⟩
  rw [g]
  norm_num [specCentralSum, specMean]

/-- C12: for unweighted sample sequences `S1` and `S2` fed to static chains `a`
and `b` of one composition with `Minimum` and `Maximum` layers, after `a += b`
`get<Minimum>(a)` is the minimum of the two pre-merge Minimum values and
`get<Maximum>(a)` the maximum of the two pre-merge Maximum values; when
`S1 ++ S2` is non-empty (its samples being values of the element type, between
`NumericTraits::min()` and `NumericTraits::max()`) these are the least and the
greatest sample of `S1 ++ S2`; and merging with a chain that received no
samples changes neither. -/
theorem C12_merge_min_max (e : Env K) (diff0 : K) (chain : List Tag)
    (hw : WellFormed chain) (hmin : Minimum ∈ chain) (hmax : Maximum ∈ chain)
    (S1 S2 : List K) (m : State K)
    (hm : merge chain (feedAll chain (init e diff0) S1) (feedAll chain (init e diff0) S2)
      = Outcome.ok m) :
    (∃ x y, get e chain (feedAll chain (init e diff0) S1) Minimum = some x ∧
      get e chain (feedAll chain (init e diff0) S2) Minimum = some y ∧
      get e chain m Minimum = some (min x y)) ∧
    (∃ x y, get e chain (feedAll chain (init e diff0) S1) Maximum = some x ∧
      get e chain (feedAll chain (init e diff0) S2) Maximum = some y ∧
      get e chain m Maximum = some (max x y)) ∧
    (S1 ++ S2 ≠ [] → (∀ x ∈ S1 ++ S2, e.traitsMin ≤ x ∧ x ≤ e.traitsMax) →
      ∃ lo hi, get e chain m Minimum = some lo ∧ get e chain m Maximum = some hi ∧
        lo ∈ S1 ++ S2 ∧ (∀ x ∈ S1 ++ S2, lo ≤ x) ∧
        hi ∈ S1 ++ S2 ∧ (∀ x ∈ S1 ++ S2, x ≤ hi)) ∧
    (S2 = [] →
      get e chain m Minimum = get e chain (feedAll chain (init e diff0) S1) Minimum ∧
      get e chain m Maximum = get e chain (feedAll chain (init e diff0) S1) Maximum) := by
  obtain ⟨m1, m2⟩ := merge_min_max chain hw.1 _ _ m hm
  rw [if_pos hmin] at m1
  rw [if_pos hmax] at m2
  have amin := feedAll_min chain hw.1 hmin (init e diff0) S1
  have bmin := feedAll_min chain hw.1 hmin (init e diff0) S2
  have amax := feedAll_max chain hw.1 hmax (init e diff0) S1
  have bmax := feedAll_max chain hw.1 hmax (init e diff0) S2
  have i1 : (init e diff0).min_ = e.traitsMax := rfl
  have i2 : (init e diff0).max_ = e.traitsMin := rfl
  rw [i1] at amin bmin
  rw [i2] at amax bmax
  have hminall : m.min_ = (S1 ++ S2).foldl min e.traitsMax := by
    rw [m1, amin, bmin, List.foldl_append]
    exact min_foldl_min S2 _ _ (foldl_min_le S1 e.traitsMax).1
  have hmaxall : m.max_ = (S1 ++ S2).foldl max e.traitsMin := by
    rw [m2, amax, bmax, List.foldl_append]
    exact max_foldl_max S2 _ _ (le_foldl_max S1 e.traitsMin).1
  refine ⟨⟨(feedAll chain (init e diff0) S1).min_, (feedAll chain (init e diff0) S2).min_,
      ?_, ?_, ?_⟩,
    ⟨(feedAll chain (init e diff0) S1).max_, (feedAll chain (init e diff0) S2).max_,
      ?_, ?_, ?_⟩, ?_, ?_⟩
  · simp only [get, hmin, if_true, result]
  · simp only [get, hmin, if_true, result]
  · simp only [get, hmin, if_true, result, m1]
  · simp only [get, hmax, if_true, result]
  · simp only [get, hmax, if_true, result]
  · simp only [get, hmax, if_true, result, m2]
  · intro hne hrange
    obtain ⟨l1, l2⟩ := foldl_min_least (S1 ++ S2) e.traitsMax hne fun x hx => (hrange x hx).2
    obtain ⟨g1, g2⟩ := foldl_max_greatest (S1 ++ S2) e.traitsMin hne fun x hx => (hrange x hx).1
    refine ⟨(S1 ++ S2).foldl min e.traitsMax, (S1 ++ S2).foldl max e.traitsMin,
      ?_, ?_, l1, l2, g1, g2⟩
    · simp only [get, hmin, if_true, result, hminall]
    · simp only [get, hmax, if_true, result, hmaxall]
  · intro hS2
    subst hS2
    simp only [get, hmin, hmax, if_true, result, m1, m2, amin, amax, bmin, bmax,
      List.foldl_nil, Option.some.injEq]
    exact ⟨min_eq_left (foldl_min_le S1 e.traitsMax).1,
      max_eq_left (le_foldl_max S1 e.traitsMin).1⟩

/-- C12 at a concrete input: `S1 = [3, 1]`, `S2 = [2, 5]` give Minimum 1 and
Maximum 5. -/
theorem C12_merge_min_max_witness :
    ∃ m, merge [Minimum, Maximum]
        (feedAll [Minimum, Maximum]
          (init (⟨Real.sqrt, fun x y => x ^ y, 2 ^ 1024, -2 ^ 1024⟩ : Env ℝ) 0) [3, 1])
        (feedAll [Minimum, Maximum]
          (init (⟨Real.sqrt, fun x y => x ^ y, 2 ^ 1024, -2 ^ 1024⟩ : Env ℝ) 0) [2, 5])
        = Outcome.ok m ∧
      get (⟨Real.sqrt, fun x y => x ^ y, 2 ^ 1024, -2 ^ 1024⟩ : Env ℝ)
        [Minimum, Maximum] m Minimum = some 1 ∧
      get (⟨Real.sqrt, fun x y => x ^ y, 2 ^ 1024, -2 ^ 1024⟩ : Env ℝ)
        [Minimum, Maximum] m Maximum = some 5 := by
  obtain ⟨m, hm⟩ := merge_ok [Minimum, Maximum] (by simp)
    (feedAll [Minimum, Maximum]
      (init (⟨Real.sqrt, fun x y => x ^ y, 2 ^ 1024, -2 ^ 1024⟩ : Env ℝ) 0) [3, 1])
    (feedAll [Minimum, Maximum]
      (init (⟨Real.sqrt, fun x y => x ^ y, 2 ^ 1024, -2 ^ 1024⟩ : Env ℝ) 0) [2, 5])
  obtain ⟨-, -, h3, -⟩ := C12_merge_min_max
    (⟨Real.sqrt, fun x y => x ^ y, 2 ^ 1024, -2 ^ 1024⟩ : Env ℝ) 0
    [Minimum, Maximum] (by decide) (by decide) (by decide) [3, 1] [2, 5] m hm
  obtain ⟨lo, hi, g1, g2, l1, l2, u1, u2⟩ := h3 (by simp) (by
    intro x hx
    simp only [List.cons_append, List.nil_append, List.mem_cons, List.mem_singleton,
      List.mem_nil_iff, or_false] at hx
    rcases hx with rfl | rfl | rfl | rfl <;> constructor <;> norm_num)
  refine ⟨m, hm, ?_, ?_⟩
  · rw [g1]
    congr 1
    simp only [List.cons_append, List.nil_append, List.mem_cons, List.mem_singleton,
      List.mem_nil_iff, or_false] at l1
    rcases l1 with h | h | h | h <;> linarith [l2 1 (by simp)]
  · rw [g2]
    congr 1
    simp only [List.cons_append, List.nil_append, List.mem_cons, List.mem_singleton,
      List.mem_nil_iff, or_false] at u1
    rcases u1 with h | h | h | h <;> linarith [u2 5 (by simp)]

/-- C19: for every list of requested statistics the sequence computed by
`PushDependencies` contains no statistic twice, its elements are exactly the
requested statistics and everything they transitively depend on, and a
requested statistic without dependencies resolves to itself alone. -/
theorem C19_resolved_sequence (sel : List Tag) (t : Tag) :
    (PushDependencies sel).Nodup ∧
    (∀ x, x ∈ PushDependencies sel ↔ ∃ r ∈ sel, Requires r x) ∧
    (Dependencies t = [] → PushDependencies [t] = [t]) := by
  refine ⟨(PushDependencies_spec sel).1, (PushDependencies_spec sel).2.2, ?_⟩
  intro ht
  rw [PushDependencies, PushDependencies, ht, PushDependencies]
  simp [MergeUnique]

/-- C19 at a concrete input: the request `[Count, Variance]` resolves to
`[Variance, SumSquaredDifferences, Mean, Sum, Count]`, and `[Count]` to itself. -/
theorem C19_resolved_sequence_witness :
    PushDependencies [Count, Variance]
      = [Variance, SumSquaredDifferences, Mean, Tag.Sum, Count] ∧
    (PushDependencies [Count, Variance]).Nodup ∧
    Dependencies Count = [] ∧ PushDependencies [Count] = [Count] :=
  ⟨by simp [PushDependencies, MergeUnique, Dependencies],
    (C19_resolved_sequence [Count, Variance] Count).1,
    rfl, (C19_resolved_sequence [Count, Variance] Count).2.2 rfl⟩

/-- C20: in the chain composed from the resolved sequence, the layers of all
transitive dependencies of a statistic lie strictly below its own layer, so
the downward search `LookupTag` from that layer finds every statistic the
layer reads. -/
theorem C20_dependencies_below (sel : List Tag) (t : Tag) (pre post : List Tag)
    (h : PushDependencies sel = pre ++ t :: post) :
    t ∉ post ∧
    (∀ d0 ∈ Dependencies t, ∀ d, Requires d0 d → d ∈ post ∧ d ∉ pre ∧ d ≠ t) ∧
    (∀ r ∈ Reads t, r ∈ post ∧ (LookupTag r (t :: post)).isSome = true) := by
  obtain ⟨hn, hb, -⟩ := PushDependencies_spec sel
  rw [h] at hn hb
  have hb1 : DepsBelow (t :: post) := hb.of_append
  have hn1 : (t :: post).Nodup := (List.nodup_append.mp hn).2.1
  have hdis := (List.nodup_append.mp hn).2.2
  have htp : t ∉ post := (List.nodup_cons.mp hn1).1
  have key : ∀ d0 ∈ Dependencies t, ∀ d, Requires d0 d → d ∈ post :=
    fun d0 hd0 d hd => hb1.2.mem_of_requires (hb1.1 d0 hd0) hd
  refine ⟨htp, ?_, ?_⟩
  · intro d0 hd0 d hd
    have hp := key d0 hd0 d hd
    refine ⟨hp, ?_, ?_⟩
    · intro hc
      exact hdis hc (List.mem_cons_of_mem _ hp)
    · rintro rfl
      exact htp hp
  · intro r hr
    obtain ⟨d0, hd0, hd⟩ := reads_required t r hr
    have hp := key d0 hd0 r hd
    exact ⟨hp, (LookupTag_isSome r (t :: post)).mpr (List.mem_cons_of_mem _ hp)⟩

/-- C20 at a concrete input: in the chain of the request `[Count, Variance]` the
layer `SumSquaredDifferences` has `Mean`, `Sum` and `Count` below it. -/
theorem C20_dependencies_below_witness :
    PushDependencies [Count, Variance]
      = [Variance] ++ SumSquaredDifferences :: [Mean, Tag.Sum, Count] ∧
    (∀ r ∈ Reads SumSquaredDifferences, r ∈ [Mean, Tag.Sum, Count] ∧
      (LookupTag r (SumSquaredDifferences :: [Mean, Tag.Sum, Count])).isSome = true) :=
  ⟨by simp [PushDependencies, MergeUnique, Dependencies],
    (C20_dependencies_below [Count, Variance] SumSquaredDifferences [Variance]
      [Mean, Tag.Sum, Count] (by simp [PushDependencies, MergeUnique, Dependencies])).2.2⟩

/-- C14: on the dynamic chain of any request list, whatever flags were set
before, after `activate<S>` for a statistic `S` of the chain the flag of `S`
and of every statistic `S` transitively depends on is set, and `get` of each
of them returns its value without a precondition failure. -/
theorem C14_activation_closure (e : Env K) (sel : List Tag) (S : Tag)
    (hS : S ∈ PushDependencies sel) (is_active_ : Tag → Bool) (s : State K) (x : Tag)
    (hx : Requires S x) :
    activate (PushDependencies sel) S is_active_ x = true ∧
    dynamicGet e (PushDependencies sel) (activate (PushDependencies sel) S is_active_) s x
      = some (result e x s) := by
  obtain ⟨-, hb, -⟩ := PushDependencies_spec sel
  have hact : ∀ y, Requires S y → activate (PushDependencies sel) S is_active_ y = true :=
    fun y hy => (activate_iff _ hb S is_active_ y).mpr (Or.inr ⟨hS, hy⟩)
  exact ⟨hact x hx, dynamicGet_of_active e _ hb _ s x (hb.mem_of_requires hS hx)
    fun y hy => hact y (hx.trans hy)⟩

/-- C14 at the spec's input: on the chain of the request `[Variance]` with no flag
set, `activate<Variance>` makes `SumSquaredDifferences`, `Mean`, `Sum` and
`Count` readable. -/
theorem C14_activation_closure_witness :
    Variance ∈ PushDependencies [Variance] ∧
    ∀ x ∈ [SumSquaredDifferences, Mean, Tag.Sum, Count],
      Requires Variance x ∧
      dynamicGet (⟨Real.sqrt, fun x y => x ^ y, 2 ^ 1024, -2 ^ 1024⟩ : Env ℝ)
        (PushDependencies [Variance])
        (activate (PushDependencies [Variance]) Variance fun _ => false)
        (init (⟨Real.sqrt, fun x y => x ^ y, 2 ^ 1024, -2 ^ 1024⟩ : Env ℝ) 0) x
      = some (result (⟨Real.sqrt, fun x y => x ^ y, 2 ^ 1024, -2 ^ 1024⟩ : Env ℝ) x
          (init (⟨Real.sqrt, fun x y => x ^ y, 2 ^ 1024, -2 ^ 1024⟩ : Env ℝ) 0)) := by
  have hV : Variance ∈ PushDependencies [Variance] := by
    simp [PushDependencies, MergeUnique, Dependencies]
  refine ⟨hV, ?_⟩
  intro x hx
  have hreq : Requires Variance x := by
    simp only [List.mem_cons, List.mem_singleton, List.mem_nil_iff, or_false] at hx
    have h1 : Requires Variance SumSquaredDifferences :=
      Requires.of_dep (by simp [Dependencies])
    have h2 : Requires SumSquaredDifferences Mean := Requires.of_dep (by simp [Dependencies])
    have h3 : Requires Mean Tag.Sum := Requires.of_dep (by simp [Dependencies])
    have h4 : Requires Variance Count := Requires.of_dep (by simp [Dependencies])
    rcases hx with rfl | rfl | rfl | rfl
    · exact h1
    · exact h1.trans h2
    · exact (h1.trans h2).trans h3
    · exact h4
  exact ⟨hreq, (C14_activation_closure
    (⟨Real.sqrt, fun x y => x ^ y, 2 ^ 1024, -2 ^ 1024⟩ : Env ℝ) [Variance] Variance hV
    (fun _ => false)
    (init (⟨Real.sqrt, fun x y => x ^ y, 2 ^ 1024, -2 ^ 1024⟩ : Env ℝ) 0) x hreq).2⟩

/-- C15: on the static chain of a request list `get<Stat>` fails exactly when
`Stat` is not a layer of the chain, and returns the layer's value otherwise; on
the dynamic chain, in every state its interface can produce, `get<Stat>` fails
exactly when `Stat` is not a layer of the chain or the flag of its layer is not
set. -/
theorem C15_get_fails_iff (e : Env K) (sel : List Tag) (tag : Tag) (s0 : State K)
    (is_active_ : Tag → Bool) (s : State K)
    (hreach : DynamicReachable e (PushDependencies sel) is_active_ s) :
    (get e (PushDependencies sel) s0 tag = none ↔ tag ∉ PushDependencies sel) ∧
    (tag ∈ PushDependencies sel →
      get e (PushDependencies sel) s0 tag = some (result e tag s0)) ∧
    (dynamicGet e (PushDependencies sel) is_active_ s tag = none ↔
      tag ∉ PushDependencies sel ∨ is_active_ tag = false) ∧
    (tag ∈ PushDependencies sel → is_active_ tag = true →
      dynamicGet e (PushDependencies sel) is_active_ s tag = some (result e tag s)) := by
  obtain ⟨-, hb, -⟩ := PushDependencies_spec sel
  have hc := hreach.activeClosed hb
  have hg := dynamicGet_eq e _ hb is_active_ hc s tag
  refine ⟨?_, ?_, ?_, ?_⟩
  · simp only [get]
    split_ifs with h <;> simp [h]
  · intro h
    simp [get, h]
  · rw [hg]
    by_cases h : is_active_ tag = true
    · simp [h, (hc tag h).1]
    · have h1 : is_active_ tag = false := by simpa using h
      simp [h1]
  · intro _ h
    rw [hg, if_pos h]

/-- C15 at a concrete input: on the dynamic chain of the request `[Variance]`,
after `activate<Mean>`, `get<Mean>` returns a value and `get<Variance>` fails. -/
theorem C15_get_fails_iff_witness :
    DynamicReachable (⟨Real.sqrt, fun x y => x ^ y, 2 ^ 1024, -2 ^ 1024⟩ : Env ℝ)
      (PushDependencies [Variance])
      (activate (PushDependencies [Variance]) Mean fun _ => false)
      (init (⟨Real.sqrt, fun x y => x ^ y, 2 ^ 1024, -2 ^ 1024⟩ : Env ℝ) 0) ∧
    (dynamicGet (⟨Real.sqrt, fun x y => x ^ y, 2 ^ 1024, -2 ^ 1024⟩ : Env ℝ)
        (PushDependencies [Variance])
        (activate (PushDependencies [Variance]) Mean fun _ => false)
        (init (⟨Real.sqrt, fun x y => x ^ y, 2 ^ 1024, -2 ^ 1024⟩ : Env ℝ) 0) Variance = none ↔
      Variance ∉ PushDependencies [Variance] ∨
        activate (PushDependencies [Variance]) Mean (fun _ => false) Variance = false) :=
  ⟨DynamicReachable.activate Mean (DynamicReachable.fresh 0),
    (C15_get_fails_iff (⟨Real.sqrt, fun x y => x ^ y, 2 ^ 1024, -2 ^ 1024⟩ : Env ℝ)
      [Variance] Variance
      (init (⟨Real.sqrt, fun x y => x ^ y, 2 ^ 1024, -2 ^ 1024⟩ : Env ℝ) 0) _ _
      (DynamicReachable.activate Mean (DynamicReachable.fresh 0))).2.2.1⟩

/-- C16: on the static chain of a request list a weighted update raises the
precondition failure, for every value and weight, exactly when the chain has a
`Minimum` or `Maximum` layer; on the dynamic chain, in every state its
interface can produce, it raises exactly when the flag of `Minimum` or of
`Maximum` is set. -/
theorem C16_weighted_update_rejected (e : Env K) (sel : List Tag) (t w : K) (s0 : State K)
    (is_active_ : Tag → Bool) (s : State K)
    (hreach : DynamicReachable e (PushDependencies sel) is_active_ s) :
    ((∃ s1, updateWeighted (PushDependencies sel) s0 t w = Outcome.fault s1) ↔
      Minimum ∈ PushDependencies sel ∨ Maximum ∈ PushDependencies sel) ∧
    ((∃ s1, dynamicUpdateWeighted e (PushDependencies sel) is_active_ s t w = Outcome.fault s1) ↔
      is_active_ Minimum = true ∨ is_active_ Maximum = true) := by
  obtain ⟨-, hb, -⟩ := PushDependencies_spec sel
  have hc := hreach.activeClosed hb
  refine ⟨updateWeighted_fault_iff _ s0 t w, ?_⟩
  rw [dynamicUpdateWeighted_eq e _ hb is_active_ hc.reads, updateWeighted_fault_iff,
    mem_activeChain, mem_activeChain]
  constructor
  · rintro (h | h)
    · exact Or.inl h.2
    · exact Or.inr h.2
  · rintro (h | h)
    · exact Or.inl ⟨(hc _ h).1, h⟩
    · exact Or.inr ⟨(hc _ h).1, h⟩

/-- C16 at a concrete input: on the dynamic chain of the request
`[Minimum, Mean]` after `activate<Minimum>`, the weighted update `(5, 2)` raises. -/
theorem C16_weighted_update_rejected_witness :
    DynamicReachable (⟨Real.sqrt, fun x y => x ^ y, 2 ^ 1024, -2 ^ 1024⟩ : Env ℝ)
      (PushDependencies [Minimum, Mean])
      (activate (PushDependencies [Minimum, Mean]) Minimum fun _ => false)
      (init (⟨Real.sqrt, fun x y => x ^ y, 2 ^ 1024, -2 ^ 1024⟩ : Env ℝ) 0) ∧
    ∃ s1, dynamicUpdateWeighted (⟨Real.sqrt, fun x y => x ^ y, 2 ^ 1024, -2 ^ 1024⟩ : Env ℝ)
      (PushDependencies [Minimum, Mean])
      (activate (PushDependencies [Minimum, Mean]) Minimum fun _ => false)
      (init (⟨Real.sqrt, fun x y => x ^ y, 2 ^ 1024, -2 ^ 1024⟩ : Env ℝ) 0) 5 2
      = Outcome.fault s1 :=
  ⟨DynamicReachable.activate Minimum (DynamicReachable.fresh 0),
    (C16_weighted_update_rejected (⟨Real.sqrt, fun x y => x ^ y, 2 ^ 1024, -2 ^ 1024⟩ : Env ℝ)
      [Minimum, Mean] 5 2
      (init (⟨Real.sqrt, fun x y => x ^ y, 2 ^ 1024, -2 ^ 1024⟩ : Env ℝ) 0) _ _
      (DynamicReachable.activate Minimum (DynamicReachable.fresh 0))).2.mpr
      (Or.inl (by simp [PushDependencies, MergeUnique, Dependencies, activate]))⟩

/-- C18: `passesRequired()` returns 1 or 2. On the static chain of a request list
it returns 2 exactly when the chain has a `CentralMoment<N>` layer, which is
when some requested statistic is or transitively requires a `CentralMoment<N>`
(as `Skewness` and `Kurtosis` do); on the dynamic chain, with any flags, it
returns 2 exactly when the flag of some `CentralMoment<N>` layer is set. -/
theorem C18_passes_required (sel : List Tag) (is_active_ : Tag → Bool) :
    (passesRequired (PushDependencies sel) = 1 ∨ passesRequired (PushDependencies sel) = 2) ∧
    (passesRequired (PushDependencies sel) = 2 ↔ ∃ N, CentralMoment N ∈ PushDependencies sel) ∧
    (passesRequired (PushDependencies sel) = 2 ↔
      ∃ r ∈ sel, ∃ N, Requires r (CentralMoment N)) ∧
    (dynamicPassesRequired (PushDependencies sel) is_active_ = 1 ∨
      dynamicPassesRequired (PushDependencies sel) is_active_ = 2) ∧
    (dynamicPassesRequired (PushDependencies sel) is_active_ = 2 ↔
      ∃ N, CentralMoment N ∈ PushDependencies sel ∧ is_active_ (CentralMoment N) = true) ∧
    passesRequired (PushDependencies [Skewness]) = 2 ∧
    passesRequired (PushDependencies [Kurtosis]) = 2 ∧
    passesRequired (PushDependencies [Variance]) = 1 := by
  have h1 : passesRequired (PushDependencies sel) = 2 ↔
      ∃ N, CentralMoment N ∈ PushDependencies sel := by
    rcases passesRequired_cases (PushDependencies sel) with ⟨h, hn⟩ | ⟨h, hn⟩
    · simp [h, hn]
    · simp [h, hn]
  refine ⟨?_, h1, ?_, ?_, ?_, ?_, ?_, ?_⟩
  · rcases passesRequired_cases (PushDependencies sel) with ⟨h, -⟩ | ⟨h, -⟩
    · exact Or.inl h
    · exact Or.inr h
  · rw [h1]
    constructor
    · rintro ⟨N, hN⟩
      obtain ⟨r, hr, hreq⟩ := ((PushDependencies_spec sel).2.2 _).mp hN
      exact ⟨r, hr, N, hreq⟩
    · rintro ⟨r, hr, N, hreq⟩
      exact ⟨N, ((PushDependencies_spec sel).2.2 _).mpr ⟨r, hr, hreq⟩⟩
  · rcases dynamicPassesRequired_cases (PushDependencies sel) is_active_ with ⟨h, -⟩ | ⟨h, -⟩
    · exact Or.inl h
    · exact Or.inr h
  · rcases dynamicPassesRequired_cases (PushDependencies sel) is_active_ with ⟨h, hn⟩ | ⟨h, hn⟩
    · simp only [h, OfNat.one_ne_ofNat, false_iff]
      exact hn
    · simp only [h, true_iff]
      exact hn
  · simp [PushDependencies, MergeUnique, Dependencies, passesRequired]
  · simp [PushDependencies, MergeUnique, Dependencies, passesRequired]
  · simp [PushDependencies, MergeUnique, Dependencies, passesRequired]


/-- C13: for non-empty sequences `S1` and `S2` of vector samples fed to chains
`a` and `b` of one composition with a `ScatterMatrix` layer, a merge `a += b`
that returns leaves in `a` the scatter matrix of `S1 ++ S2`, the sum over its
samples `x` of `(x - m)(x - m)^T` with `m` their mean, which is the sum of the
scatter matrices of `S1` and `S2`, held by `a` and `b` before, plus
`n1*n2/(n1+n2)` times the outer product of the difference of the two means;
and the merge returns whenever the chain has no `CentralMoment<N>` layer with
`N` other than 2, 3, 4. -/
theorem C13_merge_scatter_matrix {d : Nat} (e : Env K) (diffa diffb : Fin d → K)
    (chain : List Tag) (hw : WellFormed chain) (hsm : ScatterMatrix ∈ chain)
    (S1 S2 : List (Fin d → K)) (h1 : S1 ≠ []) (h2 : S2 ≠ []) :
    ((∀ N, CentralMoment N ∈ chain → N = 2 ∨ N = 3 ∨ N = 4) →
      ∃ m, vmerge chain (vfeedAll chain (vinit e diffa) S1) (vfeedAll chain (vinit e diffb) S2)
        = some m) ∧
    ∀ m, vmerge chain (vfeedAll chain (vinit e diffa) S1) (vfeedAll chain (vinit e diffb) S2)
        = some m →
      vgetScatterMatrix chain m = some (specScatter (S1 ++ S2)) ∧
      vgetScatterMatrix chain m = some (fun i j =>
        specScatter S1 i j + specScatter S2 i j
          + (S1.length : K) * (S2.length : K) / ((S1.length : K) + (S2.length : K))
            * ((specVecMean S1 i - specVecMean S2 i) * (specVecMean S1 j - specVecMean S2 j))) ∧
      vgetScatterMatrix chain (vfeedAll chain (vinit e diffa) S1) = some (specScatter S1) ∧
      vgetScatterMatrix chain (vfeedAll chain (vinit e diffb) S2) = some (specScatter S2) := by
  have hmean : Mean ∈ chain := mem_of_dep hw hsm (by simp [Dependencies])
  have hcount : Count ∈ chain := mem_of_dep hw hsm (by simp [Dependencies])
  have hsum : Tag.Sum ∈ chain := mem_of_dep hw hmean (by simp [Dependencies])
  refine ⟨fun hN => vmerge_ok chain hN _ _, fun m hm => ?_⟩
  obtain ⟨-, -, m3⟩ := vmerge_fields chain hw.1 _ _ m hm
  obtain ⟨a1, a2, a3, -⟩ := vfeedAll_fields e diffa chain hw.1 hcount hsum hsm S1
  obtain ⟨b1, b2, b3, -⟩ := vfeedAll_fields e diffb chain hw.1 hcount hsum hsm S2
  rw [if_pos hsm] at m3
  have hn1 : (S1.length : K) ≠ 0 := by
    have : 0 < S1.length := List.length_pos.mpr h1
    exact_mod_cast this.ne'
  have hn2 : (S2.length : K) ≠ 0 := by
    have : 0 < S2.length := List.length_pos.mpr h2
    exact_mod_cast this.ne'
  have hn : (S1.length : K) + (S2.length : K) ≠ 0 := by positivity
  have hne : S1 ++ S2 ≠ [] := by simp [h1]
  have ha : (vfeedAll chain (vinit e diffa) S1).scatter_matrix_ = specScatter S1 := by
    funext i j
    rw [a3, specScatter_eq S1 h1]
  have hb : (vfeedAll chain (vinit e diffb) S2).scatter_matrix_ = specScatter S2 := by
    funext i j
    rw [b3, specScatter_eq S2 h2]
  simp only [vgetScatterMatrix, hsm, if_true, Option.some.injEq]
  refine ⟨?_, ?_, ha, hb⟩
  · funext i j
    rw [m3, specScatter_eq _ hne]
    simp only [a3, b3, a1, b1, a2, b2, List.map_append, List.sum_append, List.length_append,
      Nat.cast_add]
    field_simp
    ring
  · funext i j
    rw [m3, specScatter_eq S1 h1, specScatter_eq S2 h2]
    simp only [a3, b3, a1, b1, a2, b2, specVecMean]
    field_simp
    ring

/-- C13 at a concrete input: the chain of `Select<ScatterMatrix>` over samples
of two components, `S1 = [(1, 2), (3, 4)]` and `S2 = [(5, 6)]`. -/
theorem C13_merge_scatter_matrix_witness :
    ∃ m, vmerge [ScatterMatrix, Mean, Tag.Sum, Count]
        (vfeedAll [ScatterMatrix, Mean, Tag.Sum, Count]
          (vinit (⟨Real.sqrt, fun x y => x ^ y, 2 ^ 1024, -2 ^ 1024⟩ : Env ℝ) fun _ => 0)
          [![1, 2], ![3, 4]])
        (vfeedAll [ScatterMatrix, Mean, Tag.Sum, Count]
          (vinit (⟨Real.sqrt, fun x y => x ^ y, 2 ^ 1024, -2 ^ 1024⟩ : Env ℝ) fun _ => 0)
          [![5, 6]])
        = some m ∧
      vgetScatterMatrix [ScatterMatrix, Mean, Tag.Sum, Count] m
        = some (specScatter ([![1, 2], ![3, 4]] ++ [![5, 6]])) ∧
      specScatter ([![1, 2], ![3, 4]] ++ [![5, 6]] : List (Fin 2 → ℝ)) 0 1 = 8 := by
  obtain ⟨hex, hall⟩ := C13_merge_scatter_matrix
    (⟨Real.sqrt, fun x y => x ^ y, 2 ^ 1024, -2 ^ 1024⟩ : Env ℝ) (fun _ => 0) (fun _ => 0)
    [ScatterMatrix, Mean, Tag.Sum, Count] (by decide) (by decide)
    [![1, 2], ![3, 4]] [![5, 6]] (by simp) (by simp)
  obtain ⟨m, hm⟩ := hex (by simp)
  refine ⟨m, hm, (hall m hm).1, ?_⟩
  norm_num [specScatter, specVecMean]


/-- C27: for every sequence of updates with positive weights (an unweighted
update counting with weight 1) fed to a static chain with a
`SumSquaredDifferences` layer, a feed that returns leaves `get` of that layer
equal to the sum of `w_i * (x_i - m)^2` with `m` the weighted mean; each call
adds `W*w/(W+w) * (Sum/W - x)^2` with `W = Count` and `Sum` as they were before
the call, and nothing when `Count` was zero, as it is at the first sample; the
feed returns when the chain has neither `Minimum` nor `Maximum`. -/
theorem C27_weighted_ssd (e : Env K) (diff0 : K) (chain : List Tag) (hw : WellFormed chain)
    (hssd : SumSquaredDifferences ∈ chain) (calls : List (Call K))
    (hpos : ∀ c ∈ calls, 0 < c.weight) :
    (Minimum ∉ chain → Maximum ∉ chain →
      ∃ s, feed chain (init e diff0) calls = Outcome.ok s) ∧
    (∀ s, feed chain (init e diff0) calls = Outcome.ok s →
      get e chain s SumSquaredDifferences = some (specWeightedSquares calls)) ∧
    (∀ (s s1 : State K) (c : Call K), step chain s c = Outcome.ok s1 →
      s1.sumOfSquaredDifferences_ =
        if s.count_ ≠ 0 then
          s.sumOfSquaredDifferences_
            + s.count_ * c.weight / (s.count_ + c.weight) * (s.sum_ / s.count_ - c.value) ^ 2
        else s.sumOfSquaredDifferences_) ∧
    (∀ (s1 : State K) (c : Call K), step chain (init e diff0) c = Outcome.ok s1 →
      s1.sumOfSquaredDifferences_ = 0) := by
  have hmean : Mean ∈ chain := mem_of_dep hw hssd (by simp [Dependencies])
  have hcount : Count ∈ chain := mem_of_dep hw hssd (by simp [Dependencies])
  have hsum : Tag.Sum ∈ chain := mem_of_dep hw hmean (by simp [Dependencies])
  refine ⟨fun hmin hmax => feed_ok chain hmin hmax _ calls, ?_, ?_, ?_⟩
  · intro s hok
    have h1 := feed_ssd e diff0 chain hw.1 hcount hsum hssd calls hpos s hok
    simp only [get, hssd, if_true, result, Option.some.injEq]
    rw [h1]
    by_cases hc : calls = []
    · subst hc
      simp [specWeightedSquares, weightedSum, totalWeight]
    · rw [specWeightedSquares_eq calls (totalWeight_pos calls hc hpos).ne']
  · intro s s1 c hok
    obtain ⟨-, -, h3⟩ := step_fields chain hw.1 s s1 c hok
    rw [h3]
    simp only [hssd, true_and]
    split_ifs with hz
    · simp only [sq]
      ring
    · rfl
  · intro s1 c hok
    obtain ⟨-, -, h3⟩ := step_fields chain hw.1 _ s1 c hok
    rw [h3]
    simp [init]

/-- C27 at a concrete input: the samples `1` with weight `2` and `4` with weight
`1` have weighted mean `2` and weighted sum of squared differences `6`. -/
theorem C27_weighted_ssd_witness :
    ∃ s, feed [SumSquaredDifferences, Mean, Tag.Sum, Count]
        (init (⟨Real.sqrt, fun x y => x ^ y, 2 ^ 1024, -2 ^ 1024⟩ : Env ℝ) 0)
        [Call.weighted 1 2, Call.weighted 4 1] = Outcome.ok s ∧
      get (⟨Real.sqrt, fun x y => x ^ y, 2 ^ 1024, -2 ^ 1024⟩ : Env ℝ)
        [SumSquaredDifferences, Mean, Tag.Sum, Count] s SumSquaredDifferences = some 6 := by
  obtain ⟨hex, hget, -, -⟩ := C27_weighted_ssd
    (⟨Real.sqrt, fun x y => x ^ y, 2 ^ 1024, -2 ^ 1024⟩ : Env ℝ) 0
    [SumSquaredDifferences, Mean, Tag.Sum, Count] (by decide) (by decide)
    [Call.weighted 1 2, Call.weighted 4 1] (by
      intro c hc
      simp only [List.mem_cons, List.mem_singleton, List.mem_nil_iff, or_false] at hc
      rcases hc with rfl | rfl <;> norm_num [Call.weight])
  obtain ⟨s, hs⟩ := hex (by decide) (by decide)
  refine ⟨s, hs, ?_⟩
  rw [hget s hs]
  norm_num [specWeightedSquares, weightedSum, totalWeight, Call.weight, Call.value]


/-- C28: for every non-empty sequence of unweighted vector samples fed to a
static chain with `ScatterMatrix` and `Covariance` layers, entry `(i, j)` of
`get<ScatterMatrix>` is the sum over the samples `x` of
`(x[i] - m[i]) * (x[j] - m[j])` with `m` the sample mean, and `get<Covariance>`
is that matrix divided by the number of samples. -/
theorem C28_scatter_and_covariance {d : Nat} (e : Env K) (diff0 : Fin d → K)
    (chain : List Tag) (hw : WellFormed chain) (hsm : ScatterMatrix ∈ chain)
    (hcov : Covariance ∈ chain) (xs : List (Fin d → K)) (hne : xs ≠ []) :
    vgetScatterMatrix chain (vfeedAll chain (vinit e diff0) xs) = some (specScatter xs) ∧
    vgetCovariance chain (vfeedAll chain (vinit e diff0) xs)
      = some (fun i j => specScatter xs i j / (xs.length : K)) := by
  have hmean : Mean ∈ chain := mem_of_dep hw hsm (by simp [Dependencies])
  have hcount : Count ∈ chain := mem_of_dep hw hsm (by simp [Dependencies])
  have hsum : Tag.Sum ∈ chain := mem_of_dep hw hmean (by simp [Dependencies])
  obtain ⟨a1, -, a3, -⟩ := vfeedAll_fields e diff0 chain hw.1 hcount hsum hsm xs
  have ha : (vfeedAll chain (vinit e diff0) xs).scatter_matrix_ = specScatter xs := by
    funext i j
    rw [a3, specScatter_eq xs hne]
  simp only [vgetScatterMatrix, vgetCovariance, hsm, hcov, if_true, ha, a1, and_self]

/-- C28 at a concrete input: the samples `(1, 2), (3, 4), (5, 6)` have scatter
entry `(0, 1)` equal to `8`. -/
theorem C28_scatter_and_covariance_witness :
    vgetCovariance [Covariance, ScatterMatrix, Mean, Tag.Sum, Count]
        (vfeedAll [Covariance, ScatterMatrix, Mean, Tag.Sum, Count]
          (vinit (⟨Real.sqrt, fun x y => x ^ y, 2 ^ 1024, -2 ^ 1024⟩ : Env ℝ) fun _ => 0)
          [![1, 2], ![3, 4], ![5, 6]])
      = some (fun i j => specScatter [![1, 2], ![3, 4], ![5, 6]] i j
          / (([![1, 2], ![3, 4], ![5, 6]] : List (Fin 2 → ℝ)).length : ℝ)) ∧
    specScatter ([![1, 2], ![3, 4], ![5, 6]] : List (Fin 2 → ℝ)) 0 1 = 8 :=
  ⟨(C28_scatter_and_covariance
      (⟨Real.sqrt, fun x y => x ^ y, 2 ^ 1024, -2 ^ 1024⟩ : Env ℝ) (fun _ => 0)
      [Covariance, ScatterMatrix, Mean, Tag.Sum, Count] (by decide) (by decide) (by decide)
      [![1, 2], ![3, 4], ![5, 6]] (by simp)).2,
    by norm_num [specScatter, specVecMean]⟩

/-- C29: in a freshly constructed dynamic chain the flag of every layer is
clear, also for the statistics named in the request list; `get` fails for
every statistic, `passesRequired()` returns 1, and after `activate<Tag>` for a
layer of the chain `get<Tag>` returns that layer's value. -/
theorem C29_fresh_dynamic_inactive (e : Env K) (sel : List Tag) (diff0 : K) (tag : Tag) :
    dynamicInit tag = false ∧
    dynamicGet e (PushDependencies sel) dynamicInit (init e diff0) tag = none ∧
    dynamicPassesRequired (PushDependencies sel) dynamicInit = 1 ∧
    (tag ∈ PushDependencies sel →
      dynamicGet e (PushDependencies sel) (activate (PushDependencies sel) tag dynamicInit)
        (init e diff0) tag = some (result e tag (init e diff0))) := by
  obtain ⟨-, hb, -⟩ := PushDependencies_spec sel
  refine ⟨rfl, dynamicGet_of_inactive e _ _ _ tag rfl, ?_, fun hm => ?_⟩
  · rcases dynamicPassesRequired_cases (PushDependencies sel) dynamicInit with ⟨h, -⟩ | ⟨-, N, -, h⟩
    · exact h
    · cases h
  · have hcl : ActiveClosed (PushDependencies sel)
        (activate (PushDependencies sel) tag dynamicInit) :=
      activeClosed_activate _ hb tag _ (activeClosed_false (PushDependencies sel))
    rw [dynamicGet_eq e _ hb _ hcl, if_pos]
    exact (activate_iff _ hb tag _ tag).mpr (Or.inr ⟨hm, Requires.refl _⟩)

/-- C29 at a concrete input: the dynamic chain of the request `[Variance]`
gives no `get<Variance>` when fresh and gives one after `activate<Variance>`. -/
theorem C29_fresh_dynamic_inactive_witness :
    dynamicGet (⟨Real.sqrt, fun x y => x ^ y, 2 ^ 1024, -2 ^ 1024⟩ : Env ℝ)
        (PushDependencies [Variance]) dynamicInit
        (init (⟨Real.sqrt, fun x y => x ^ y, 2 ^ 1024, -2 ^ 1024⟩ : Env ℝ) 0) Variance = none ∧
    dynamicGet (⟨Real.sqrt, fun x y => x ^ y, 2 ^ 1024, -2 ^ 1024⟩ : Env ℝ)
        (PushDependencies [Variance])
        (activate (PushDependencies [Variance]) Variance dynamicInit)
        (init (⟨Real.sqrt, fun x y => x ^ y, 2 ^ 1024, -2 ^ 1024⟩ : Env ℝ) 0) Variance
      = some (result (⟨Real.sqrt, fun x y => x ^ y, 2 ^ 1024, -2 ^ 1024⟩ : Env ℝ) Variance
          (init (⟨Real.sqrt, fun x y => x ^ y, 2 ^ 1024, -2 ^ 1024⟩ : Env ℝ) 0)) :=
  ⟨(C29_fresh_dynamic_inactive (⟨Real.sqrt, fun x y => x ^ y, 2 ^ 1024, -2 ^ 1024⟩ : Env ℝ)
      [Variance] 0 Variance).2.1,
    (C29_fresh_dynamic_inactive (⟨Real.sqrt, fun x y => x ^ y, 2 ^ 1024, -2 ^ 1024⟩ : Env ℝ)
      [Variance] 0 Variance).2.2.2
      (by simp [PushDependencies, MergeUnique, Dependencies])⟩


/-- C22: for every request list, every list `A` of statistics activated on the
fresh dynamic chain, and every sequence of unweighted scalar samples, each
chain fed as many passes as its `passesRequired()` says: both feeds return,
for every statistic `S` that a layer named in `A` is or transitively requires
`get<S>` on the dynamic chain returns the value `get<S>` returns on the static
chain, and the members of the layers whose flag is clear still hold their
constructor values, those layers having only passed the calls on. -/
theorem C22_dynamic_matches_static (e : Env K) (sel A : List Tag) (xs : List K)
    (diffa diffb : K) :
    ∃ a b,
      runDynamic e (PushDependencies sel) (activateAll (PushDependencies sel) dynamicInit A)
        (init e diffa)
        (passCalls (dynamicPassesRequired (PushDependencies sel)
          (activateAll (PushDependencies sel) dynamicInit A)) xs) = Outcome.ok a ∧
      runStatic (PushDependencies sel) (init e diffb)
        (passCalls (passesRequired (PushDependencies sel)) xs) = Outcome.ok b ∧
      (∀ S, (∃ t ∈ A, t ∈ PushDependencies sel ∧ Requires t S) →
        ∃ v, dynamicGet e (PushDependencies sel)
            (activateAll (PushDependencies sel) dynamicInit A) a S = some v ∧
          get e (PushDependencies sel) b S = some v) ∧
      (∀ S, dynamicGet e (PushDependencies sel)
            (activateAll (PushDependencies sel) dynamicInit A) a S ≠ none ↔
          ∃ t ∈ A, t ∈ PushDependencies sel ∧ Requires t S) ∧
      Untouched (activeChain (PushDependencies sel)
        (activateAll (PushDependencies sel) dynamicInit A)) (init e diffa) a := by
  obtain ⟨-, hb, -⟩ := PushDependencies_spec sel
  have hF : ActiveClosed (PushDependencies sel)
      (activateAll (PushDependencies sel) dynamicInit A) :=
    activeClosed_activateAll _ hb A _ (activeClosed_false (PushDependencies sel))
  have hiff := fun S => activateAll_iff (PushDependencies sel) hb A dynamicInit S
  obtain ⟨a, b, ha, hb1, hsame, hun⟩ :=
    dynamic_passes_same e (PushDependencies sel) hb _ hF xs diffa diffb
  refine ⟨a, b, ha, hb1, ?_, ?_, hun⟩
  · intro S hS
    have hact : activateAll (PushDependencies sel) dynamicInit A S = true :=
      (hiff S).mpr (Or.inr hS)
    have hmem : S ∈ PushDependencies sel := (hF S hact).1
    have hA : ∀ t ∈ activeChain (PushDependencies sel)
        (activateAll (PushDependencies sel) dynamicInit A), ∀ d ∈ Dependencies t,
        d ∈ activeChain (PushDependencies sel)
          (activateAll (PushDependencies sel) dynamicInit A) := by
      intro t ht d hd
      obtain ⟨h1, h2⟩ := (mem_activeChain _ _ _).mp ht
      exact (mem_activeChain _ _ _).mpr
        ⟨hb.closed t h1 d hd, (hF t h2).2 d (Requires.of_dep hd)⟩
    refine ⟨result e S b, ?_, ?_⟩
    · rw [dynamicGet_eq e _ hb _ hF, if_pos hact,
        result_congr e _ hA S ((mem_activeChain _ _ _).mpr ⟨hmem, hact⟩) a b hsame]
    · simp only [get, hmem, if_true]
  · intro S
    rw [dynamicGet_eq e _ hb _ hF]
    have hS := hiff S
    simp only [dynamicInit, Bool.false_eq_true, false_or] at hS
    split_ifs with h
    · simp only [ne_eq, reduceCtorEq, not_false_eq_true, true_iff]
      exact hS.mp h
    · simp only [ne_eq, not_true_eq_false, false_iff]
      exact fun hc => h (hS.mpr hc)


/-- C21: for a chain over vector or array samples in which some layer needs a
reshape: after construction `needs_reshape_` is set and every member whose
type is in `NeedReshape` has no element; a sequence of calls, weighted or not,
leaves the flag clear and the members that the calls leave on the chain when
it is reshaped once, from the shape of the first sample and before that sample
is passed on; and a call on a chain whose flag is clear goes to the chain
without a reshape. `reshape` is `Base::reshape`, of a static or dynamic chain. -/
theorem C21_reshape_once {B T : Type} (e : Env K) (kind : SampleKind)
    (hkind : kind ≠ SampleKind.multiArray 0) (chain : List Tag)
    (hneed : NeedsReshapeFor kind chain = true) (diff0 : K)
    (reshape : List Nat → B → B) (shape : T → List Nat)
    (baseUpdate : B → T → B) (baseUpdateWeighted : B → T → K → B) (b0 : B)
    (c : SampleCall T K) (cs : List (SampleCall T K)) :
    (ReshapeAccumulator.construct b0).needs_reshape_ = true ∧
    (NeedReshape kind ResultType.MinmaxType = true →
      (ainit e kind diff0).min_.elements = [] ∧ (ainit e kind diff0).max_.elements = []) ∧
    (NeedReshape kind ResultType.SumType = true →
      (ainit e kind diff0).sum_.elements = [] ∧
      (∀ N, ((ainit e kind diff0).moment_ N).elements = []) ∧
      (ainit e kind diff0).sumOfSquaredDifferences_.elements = [] ∧
      (ainit e kind diff0).diff_.elements = []) ∧
    (NeedReshape kind ResultType.CovarianceType = true →
      (ainit e kind diff0).scatter_matrix_.elements = []) ∧
    (c :: cs).foldl (accumulatorStep kind chain reshape shape baseUpdate baseUpdateWeighted)
        (ReshapeAccumulator.construct b0)
      = ⟨false, cs.foldl (baseStep baseUpdate baseUpdateWeighted)
          (baseStep baseUpdate baseUpdateWeighted (reshape (shape c.sample) b0) c)⟩ ∧
    (∀ (a : ReshapeAccumulator B) (c1 : SampleCall T K), a.needs_reshape_ = false →
      accumulatorStep kind chain reshape shape baseUpdate baseUpdateWeighted a c1
        = ⟨false, baseStep baseUpdate baseUpdateWeighted a.base c1⟩) := by
  have hstep : accumulatorStep kind chain reshape shape baseUpdate baseUpdateWeighted
      = ReshapeAccumulator.step reshape shape baseUpdate baseUpdateWeighted := by
    funext a c1
    simp only [accumulatorStep, hneed, if_true]
  refine ⟨rfl, fun h => ?_, fun h => ?_, fun h => ?_, ?_, ?_⟩
  · simp [ainit, Storage.filled, initialShape_prod kind hkind (Or.inl h)]
  · simp [ainit, Storage.filled, initialShape_prod kind hkind (Or.inr h)]
  · simp [ainit, Storage.filled, initialMatrixShape_prod kind h]
  · rw [hstep, List.foldl_cons]
    cases c with
    | plain t => exact foldl_step_reshaped reshape shape baseUpdate baseUpdateWeighted cs _
    | weighted t w => exact foldl_step_reshaped reshape shape baseUpdate baseUpdateWeighted cs _
  · intro a c1 ha
    rw [hstep]
    cases c1 with
    | plain t => simp [ReshapeAccumulator.step, ReshapeAccumulator.update, ha, baseStep]
    | weighted t w =>
      simp [ReshapeAccumulator.step, ReshapeAccumulator.updateWeighted, ha, baseStep]

/-- C21 at a concrete input: the static chain `[Minimum]` over one-dimensional
arrays, fed an array of two elements and then one of three: the chain is
reshaped to shape `[2]` and not again. -/
theorem C21_reshape_once_witness :
    [(SampleCall.plain ⟨[2], [1, 5]⟩ : SampleCall (Storage ℝ) ℝ),
        SampleCall.weighted ⟨[3], [0, 0, 0]⟩ 2].foldl
      (accumulatorStep (SampleKind.multiArray 1) [Minimum]
        (areshape (⟨Real.sqrt, fun x y => x ^ y, 2 ^ 1024, -2 ^ 1024⟩ : Env ℝ)
          (SampleKind.multiArray 1) [Minimum])
        (SampleKind.multiArray 1).shapeOf (fun b _ => b) (fun b _ (_ : ℝ) => b))
      (ReshapeAccumulator.construct
        (ainit (⟨Real.sqrt, fun x y => x ^ y, 2 ^ 1024, -2 ^ 1024⟩ : Env ℝ)
          (SampleKind.multiArray 1) 0))
    = ⟨false, [(SampleCall.weighted ⟨[3], [0, 0, 0]⟩ 2 : SampleCall (Storage ℝ) ℝ)].foldl
        (baseStep (fun b _ => b) (fun b _ (_ : ℝ) => b))
        (baseStep (fun b _ => b) (fun b _ (_ : ℝ) => b)
          (areshape (⟨Real.sqrt, fun x y => x ^ y, 2 ^ 1024, -2 ^ 1024⟩ : Env ℝ)
            (SampleKind.multiArray 1) [Minimum]
            ((SampleKind.multiArray 1).shapeOf
              (SampleCall.plain ⟨[2], [1, 5]⟩ : SampleCall (Storage ℝ) ℝ).sample)
            (ainit (⟨Real.sqrt, fun x y => x ^ y, 2 ^ 1024, -2 ^ 1024⟩ : Env ℝ)
              (SampleKind.multiArray 1) 0))
          (SampleCall.plain ⟨[2], [1, 5]⟩ : SampleCall (Storage ℝ) ℝ))⟩ :=
  (C21_reshape_once (⟨Real.sqrt, fun x y => x ^ y, 2 ^ 1024, -2 ^ 1024⟩ : Env ℝ)
    (SampleKind.multiArray 1) (by decide) [Minimum] (by decide) 0
    (areshape (⟨Real.sqrt, fun x y => x ^ y, 2 ^ 1024, -2 ^ 1024⟩ : Env ℝ)
      (SampleKind.multiArray 1) [Minimum])
    (SampleKind.multiArray 1).shapeOf (fun b _ => b) (fun b _ (_ : ℝ) => b)
    (ainit (⟨Real.sqrt, fun x y => x ^ y, 2 ^ 1024, -2 ^ 1024⟩ : Env ℝ)
      (SampleKind.multiArray 1) 0)
    (SampleCall.plain ⟨[2], [1, 5]⟩ : SampleCall (Storage ℝ) ℝ)
    [SampleCall.weighted ⟨[3], [0, 0, 0]⟩ 2]).2.2.2.2.1


/-- C30 (counterexample): on the static chain `[Minimum, Maximum]` over
one-dimensional arrays, the reshape for a sample of shape `[2]` leaves `min_`
with two elements equal to `NumericTraits::max()` and `max_` with two elements
equal to `NumericTraits::min()`, here `2^1024` and `-2^1024`; none is zero. -/
theorem C30_reshape_min_not_zero :
    (areshape (⟨Real.sqrt, fun x y => x ^ y, 2 ^ 1024, -2 ^ 1024⟩ : Env ℝ)
        (SampleKind.multiArray 1) [Minimum, Maximum] [2]
        (ainit (⟨Real.sqrt, fun x y => x ^ y, 2 ^ 1024, -2 ^ 1024⟩ : Env ℝ)
          (SampleKind.multiArray 1) 0)).min_ = ⟨[2], [2 ^ 1024, 2 ^ 1024]⟩ ∧
    (areshape (⟨Real.sqrt, fun x y => x ^ y, 2 ^ 1024, -2 ^ 1024⟩ : Env ℝ)
        (SampleKind.multiArray 1) [Minimum, Maximum] [2]
        (ainit (⟨Real.sqrt, fun x y => x ^ y, 2 ^ 1024, -2 ^ 1024⟩ : Env ℝ)
          (SampleKind.multiArray 1) 0)).max_ = ⟨[2], [-2 ^ 1024, -2 ^ 1024]⟩ ∧
    (2 : ℝ) ^ 1024 ≠ 0 ∧ -(2 : ℝ) ^ 1024 ≠ 0 := by
  refine ⟨rfl, rfl, ?_, ?_⟩
  · positivity
  · exact neg_ne_zero.mpr (by positivity)

/-- C30 (amended): the reshape for a sample of shape `s` gives the member of
every layer of a static chain whose type is in `NeedReshape` storage of shape
`s` (for `scatter_matrix_` a square matrix of side the element count of `s`)
in which every element is the layer's initial value: `NumericTraits::max()`
for `Minimum`, `NumericTraits::min()` for `Maximum`, zero for `Sum`,
`CentralMoment<N>`, `SumSquaredDifferences` and both members of
`ScatterMatrix`. For array samples these are all the members named, for vector
samples `scatter_matrix_` alone, the others being left as they are. On a
dynamic chain the layers whose flag is set are reshaped in this way. -/
theorem C30_reshape_storage (e : Env K) (N : Nat) (chain : List Tag) (s : List Nat)
    (st : AState K) (is_active_ : Tag → Bool) :
    ((Minimum ∈ chain →
        (areshape e (SampleKind.multiArray N) chain s st).min_
          = Storage.filled s e.traitsMax) ∧
      (Maximum ∈ chain →
        (areshape e (SampleKind.multiArray N) chain s st).max_
          = Storage.filled s e.traitsMin) ∧
      (Tag.Sum ∈ chain →
        (areshape e (SampleKind.multiArray N) chain s st).sum_ = Storage.filled s 0) ∧
      (∀ M, CentralMoment M ∈ chain →
        (areshape e (SampleKind.multiArray N) chain s st).moment_ M = Storage.filled s 0) ∧
      (SumSquaredDifferences ∈ chain →
        (areshape e (SampleKind.multiArray N) chain s st).sumOfSquaredDifferences_
          = Storage.filled s 0) ∧
      (ScatterMatrix ∈ chain →
        (areshape e (SampleKind.multiArray N) chain s st).scatter_matrix_
          = Storage.filled [s.prod, s.prod] 0 ∧
        (areshape e (SampleKind.multiArray N) chain s st).diff_ = Storage.filled s 0)) ∧
    ((ScatterMatrix ∈ chain →
        (areshape e (SampleKind.tinyVector N) chain s st).scatter_matrix_
          = Storage.filled [s.prod, s.prod] 0) ∧
      (areshape e (SampleKind.tinyVector N) chain s st).min_ = st.min_ ∧
      (areshape e (SampleKind.tinyVector N) chain s st).max_ = st.max_ ∧
      (areshape e (SampleKind.tinyVector N) chain s st).sum_ = st.sum_ ∧
      (∀ M, (areshape e (SampleKind.tinyVector N) chain s st).moment_ M = st.moment_ M) ∧
      (areshape e (SampleKind.tinyVector N) chain s st).sumOfSquaredDifferences_
        = st.sumOfSquaredDifferences_ ∧
      (areshape e (SampleKind.tinyVector N) chain s st).diff_ = st.diff_) ∧
    (∀ (x : K), (Storage.filled s x).shape = s ∧
      (Storage.filled s x).elements.length = s.prod ∧
      ∀ y ∈ (Storage.filled s x).elements, y = x) ∧
    (∀ kind, dynamicAreshape e kind chain is_active_ s st
      = areshape e kind (activeChain chain is_active_) s st) := by
  obtain ⟨-, a2, a3, a4, a5, a6, a7, a8⟩ :=
    areshape_fields e (SampleKind.multiArray N) chain s st
  obtain ⟨-, v2, v3, v4, v5, v6, v7, v8⟩ :=
    areshape_fields e (SampleKind.tinyVector N) chain s st
  refine ⟨⟨fun h => ?_, fun h => ?_, fun h => ?_, fun M h => ?_, fun h => ?_, fun h => ⟨?_, ?_⟩⟩,
    ⟨fun h => ?_, ?_, ?_, ?_, fun M => ?_, ?_, ?_⟩, fun x => Storage.filled_spec s x,
    fun kind => dynamicAreshape_eq e kind chain is_active_ s st⟩
  · rw [a2, if_pos ⟨h, rfl⟩]
  · rw [a3, if_pos ⟨h, rfl⟩]
  · rw [a4, if_pos ⟨h, rfl⟩]
  · rw [a5, if_pos ⟨h, rfl⟩]
  · rw [a6, if_pos ⟨h, rfl⟩]
  · rw [a7, if_pos ⟨h, rfl⟩]
  · rw [a8, if_pos ⟨h, rfl⟩]
  · rw [v7, if_pos ⟨h, rfl⟩]
  · rw [v2, if_neg]; simp [NeedReshape]
  · rw [v3, if_neg]; simp [NeedReshape]
  · rw [v4, if_neg]; simp [NeedReshape]
  · rw [v5, if_neg]; simp [NeedReshape]
  · rw [v6, if_neg]; simp [NeedReshape]
  · rw [v8, if_neg]; simp [NeedReshape]

/-- C30 (amended) at a concrete input: for samples `TinyVector<double, 2>` the
matrix of `ScatterMatrix` becomes a `2 × 2` matrix of four zeros. -/
theorem C30_reshape_storage_witness :
    (areshape (⟨Real.sqrt, fun x y => x ^ y, 2 ^ 1024, -2 ^ 1024⟩ : Env ℝ)
        (SampleKind.tinyVector 2) [ScatterMatrix, Mean, Tag.Sum, Count] [2]
        (ainit (⟨Real.sqrt, fun x y => x ^ y, 2 ^ 1024, -2 ^ 1024⟩ : Env ℝ)
          (SampleKind.tinyVector 2) 0)).scatter_matrix_
      = Storage.filled [[2].prod, [2].prod] 0 ∧
    (Storage.filled [[2].prod, [2].prod] (0 : ℝ)) = ⟨[2, 2], [0, 0, 0, 0]⟩ :=
  ⟨(C30_reshape_storage (⟨Real.sqrt, fun x y => x ^ y, 2 ^ 1024, -2 ^ 1024⟩ : Env ℝ) 2
      [ScatterMatrix, Mean, Tag.Sum, Count] [2]
      (ainit (⟨Real.sqrt, fun x y => x ^ y, 2 ^ 1024, -2 ^ 1024⟩ : Env ℝ)
        (SampleKind.tinyVector 2) 0) (fun _ => false)).2.1.1 (by decide),
    rfl⟩


/-- C26, as stated, fails for a negative `maxDistance`. Graph with the nodes 0,
1, 2 and the arcs 0 → 1 and 1 → 2 of weight 1, searched from node 0 with
`maxDistance` -1: the first loop of `runImpl` stops before it visits the source,
`discoveryOrder_` stays empty - it does not start with the source - and `run`
evaluates `back()` on the empty array. -/
theorem C26_negative_maxDistance :
    (∃ st1 st2,
      mainLoop (⟨[0, 1, 2], fun u => if u = 0 then [(0, 1)] else if u = 1 then [(1, 2)] else []⟩ : Graph)
        topFirst (fun _ => (1 : ℝ)) none (-1) 4
        { initializeMaps
            (⟨[0, 1, 2], fun u => if u = 0 then [(0, 1)] else if u = 1 then [(1, 2)] else []⟩ : Graph)
            ⟨[], fun _ => none, fun _ => 0, [], none, none⟩ 0 with target_ := none } = some st1 ∧
      drain topFirst 4 st1 = some st2 ∧ st2.discoveryOrder_ = []) ∧
    run (⟨[0, 1, 2], fun u => if u = 0 then [(0, 1)] else if u = 1 then [(1, 2)] else []⟩ : Graph)
      topFirst 4 (fun _ => (1 : ℝ)) ⟨[], fun _ => none, fun _ => 0, [], none, none⟩ 0 none (-1)
      = Search.undefinedBack :=
  run_negative_back _ topFirst topFirst_spec _ none (-1) (by norm_num) 0 4 (by decide) _ rfl

/-- C26 (amended): `run` on an object with an empty queue, with a source node of
the graph, edge weights that are not negative and a `maxDistance` that is not
negative. With an iteration bound above the number of nodes it returns; and
whenever it returns, `discoveryOrder_` lists no node twice, lists exactly the
nodes of the graph that have a predecessor (the visited ones), starts with the
source, has distances that do not decrease along it, and lists no node of
distance greater than `maxDistance`. -/
theorem C26_discovery_order (g : Graph) (hg : g.WellFormed) (top : List (Nat × K) → Nat)
    (htop : TopSpec top) (weights : Nat → K)
    (hw : ∀ u ∈ g.nodes, ∀ a ∈ g.outArcs u, 0 ≤ weights a.1) (source : Nat)
    (hs : source ∈ g.nodes) (target : Option Nat) (maxDistance : K) (hM : 0 ≤ maxDistance)
    (fuel : Nat) (st0 : ShortestPathDijkstra K) (h0 : st0.pq_ = []) :
    (g.nodes.length + 1 ≤ fuel →
      ∃ st, run g top fuel weights st0 source target maxDistance = Search.returned st) ∧
    ∀ st, run g top fuel weights st0 source target maxDistance = Search.returned st →
      st.discoveryOrder_.Nodup ∧
      (∀ v ∈ g.nodes, v ∈ st.discoveryOrder_ ↔ st.predMap_ v ≠ none) ∧
      st.discoveryOrder_.head? = some source ∧
      st.discoveryOrder_.Pairwise (fun x y => st.distMap_ x ≤ st.distMap_ y) ∧
      ∀ x ∈ st.discoveryOrder_, st.distMap_ x ≤ maxDistance := by
  constructor
  · intro hfuel
    obtain ⟨st, e1, -⟩ := run_spec hg top htop weights hw target maxDistance hM source hs
      fuel hfuel st0 h0
    exact ⟨st, e1⟩
  · intro st hrun
    obtain ⟨-, e2, e3, -, e5, -⟩ :=
      run_returned hg top htop weights hw target maxDistance source hs fuel st0 st h0 hrun
    refine ⟨e2.nodupS, fun v hv => ⟨fun hvS => e2.predSome v (Or.inl hvS), fun hp => ?_⟩,
      e2.head_source e5, e2.sorted, e2.boundS⟩
    by_contra hvS
    refine hp (e2.predNone v hv hvS ?_)
    rw [e3]
    simp [pqIds]

/-- C26 (amended) on the graph with the nodes 0, 1, 2 and the arcs 0 → 1 and
1 → 2 of weight 1, searched from node 0 up to distance 10. -/
theorem C26_discovery_order_witness :
    (∃ st, run (⟨[0, 1, 2], fun u => if u = 0 then [(0, 1)] else if u = 1 then [(1, 2)] else []⟩ : Graph)
        topFirst 4 (fun _ => (1 : ℝ)) ⟨[], fun _ => none, fun _ => 0, [], none, none⟩ 0 none 10
        = Search.returned st) ∧
    ∀ st, run (⟨[0, 1, 2], fun u => if u = 0 then [(0, 1)] else if u = 1 then [(1, 2)] else []⟩ : Graph)
        topFirst 4 (fun _ => (1 : ℝ)) ⟨[], fun _ => none, fun _ => 0, [], none, none⟩ 0 none 10
        = Search.returned st →
      st.discoveryOrder_.Nodup ∧
      (∀ v ∈ [0, 1, 2], v ∈ st.discoveryOrder_ ↔ st.predMap_ v ≠ none) ∧
      st.discoveryOrder_.head? = some 0 ∧
      st.discoveryOrder_.Pairwise (fun x y => st.distMap_ x ≤ st.distMap_ y) ∧
      ∀ x ∈ st.discoveryOrder_, st.distMap_ x ≤ 10 :=
  ⟨(C26_discovery_order
    (⟨[0, 1, 2], fun u => if u = 0 then [(0, 1)] else if u = 1 then [(1, 2)] else []⟩ : Graph)
    (by decide) topFirst topFirst_spec (fun _ => (1 : ℝ)) (fun _ _ _ _ => zero_le_one) 0
    (by decide) none 10 (by norm_num) 4 ⟨[], fun _ => none, fun _ => 0, [], none, none⟩ rfl).1
      (by decide),
   (C26_discovery_order
    (⟨[0, 1, 2], fun u => if u = 0 then [(0, 1)] else if u = 1 then [(1, 2)] else []⟩ : Graph)
    (by decide) topFirst topFirst_spec (fun _ => (1 : ℝ)) (fun _ _ _ _ => zero_le_one) 0
    (by decide) none 10 (by norm_num) 4 ⟨[], fun _ => none, fun _ => 0, [], none, none⟩ rfl).2⟩

/-- C23: `run(weights, source)` without target on an object with an empty
queue, with a source node of the graph, edge weights that are not negative and
an iteration bound above the number of nodes. The default `maxDistance` is the
largest value of the weight type; the ordered field that stands for the weight
type has none, so "no distance limit" is a `maxDistance` that some path to each
reachable node stays within. Then `run` returns, and for every node `v` that a
path leads to from the source, following `predMap_` from `v` leads back to the
source along arcs of total weight `distMap_ v` and no path from the source to
`v` weighs less; every node of the graph that no path leads to has no
predecessor. -/
theorem C23_shortest_paths (g : Graph) (hg : g.WellFormed) (top : List (Nat × K) → Nat)
    (htop : TopSpec top) (weights : Nat → K)
    (hw : ∀ u ∈ g.nodes, ∀ a ∈ g.outArcs u, 0 ≤ weights a.1) (source : Nat)
    (hs : source ∈ g.nodes) (maxDistance : K)
    (hM : ∀ v l, Walk g weights source v l →
      ∃ l1, l1 ≤ maxDistance ∧ Walk g weights source v l1)
    (fuel : Nat) (hfuel : g.nodes.length + 1 ≤ fuel)
    (st0 : ShortestPathDijkstra K) (h0 : st0.pq_ = []) :
    ∃ st, run g top fuel weights st0 source none maxDistance = Search.returned st ∧
      (∀ v l, Walk g weights source v l →
        PredWalk g weights st.discoveryOrder_ st.predMap_ source v (st.distMap_ v) ∧
        Walk g weights source v (st.distMap_ v) ∧
        ∀ l1, Walk g weights source v l1 → st.distMap_ v ≤ l1) ∧
      ∀ v ∈ g.nodes, (¬ ∃ l, Walk g weights source v l) → st.predMap_ v = none := by
  have hM0 : 0 ≤ maxDistance := by
    obtain ⟨l1, h1, h2⟩ := hM source 0 Walk.nil
    exact le_trans (h2.nonneg hg hw hs) h1
  obtain ⟨st, hrun, -⟩ := run_spec hg top htop weights hw none maxDistance hM0 source hs
    fuel hfuel st0 h0
  obtain ⟨a1, a2⟩ := run_shortest hg top htop weights hw maxDistance source hs fuel st0 st h0 hrun
  refine ⟨st, hrun, fun v l hwalk => ?_, fun v hv hno => a2 v hv fun ⟨l, _, hl⟩ => hno ⟨l, hl⟩⟩
  obtain ⟨l1, h1, h2⟩ := hM v l hwalk
  obtain ⟨b1, b2⟩ := a1 v l1 h2 h1
  exact ⟨b1, b1.walk, b2⟩

/-- C23 on the graph with the nodes 0, 1, 2 and the one arc 0 → 1 of weight 1,
searched from node 0 with `maxDistance` 10: paths lead to the nodes 0 and 1, at
weights 0 and 1. -/
theorem C23_shortest_paths_witness :
    ∃ st, run (⟨[0, 1, 2], fun u => if u = 0 then [(0, 1)] else []⟩ : Graph)
        topFirst 4 (fun _ => (1 : ℝ)) ⟨[], fun _ => none, fun _ => 0, [], none, none⟩ 0 none 10
        = Search.returned st ∧
      (∀ v l, Walk (⟨[0, 1, 2], fun u => if u = 0 then [(0, 1)] else []⟩ : Graph)
          (fun _ => (1 : ℝ)) 0 v l →
        PredWalk (⟨[0, 1, 2], fun u => if u = 0 then [(0, 1)] else []⟩ : Graph)
          (fun _ => (1 : ℝ)) st.discoveryOrder_ st.predMap_ 0 v (st.distMap_ v) ∧
        Walk (⟨[0, 1, 2], fun u => if u = 0 then [(0, 1)] else []⟩ : Graph)
          (fun _ => (1 : ℝ)) 0 v (st.distMap_ v) ∧
        ∀ l1, Walk (⟨[0, 1, 2], fun u => if u = 0 then [(0, 1)] else []⟩ : Graph)
          (fun _ => (1 : ℝ)) 0 v l1 → st.distMap_ v ≤ l1) ∧
      ∀ v ∈ [0, 1, 2], (¬ ∃ l, Walk (⟨[0, 1, 2], fun u => if u = 0 then [(0, 1)] else []⟩ : Graph)
          (fun _ => (1 : ℝ)) 0 v l) → st.predMap_ v = none :=
  C23_shortest_paths (⟨[0, 1, 2], fun u => if u = 0 then [(0, 1)] else []⟩ : Graph)
    (by decide) topFirst topFirst_spec (fun _ => (1 : ℝ)) (fun _ _ _ _ => zero_le_one) 0
    (by decide) 10
    (by
      intro v l h
      cases h with
      | nil => exact ⟨0, by norm_num, Walk.nil⟩
      | snoc a h1 ha hy =>
        rename_i x l0
        have hx : x = 0 := by
          by_contra hx
          simp [hx] at ha
        subst hx
        exact ⟨0 + 1, by norm_num, Walk.snoc a Walk.nil ha hy⟩)
    4 (by decide) ⟨[], fun _ => none, fun _ => 0, [], none, none⟩ rfl

/-- C24: `run` on an object with an empty queue, with a source node of the
graph, edge weights that are not negative, a `maxDistance` that is not
negative and an iteration bound above the number of nodes, returns; with a
target `t`, `target_` is `t` if a path from the source to `t` has weight within
`maxDistance` and invalid if none has; without target, `target_` is the last
entry of `discoveryOrder_`, which is not empty. -/
theorem C24_target (g : Graph) (hg : g.WellFormed) (top : List (Nat × K) → Nat)
    (htop : TopSpec top) (weights : Nat → K)
    (hw : ∀ u ∈ g.nodes, ∀ a ∈ g.outArcs u, 0 ≤ weights a.1) (source : Nat)
    (hs : source ∈ g.nodes) (target : Option Nat) (maxDistance : K) (hM : 0 ≤ maxDistance)
    (fuel : Nat) (hfuel : g.nodes.length + 1 ≤ fuel)
    (st0 : ShortestPathDijkstra K) (h0 : st0.pq_ = []) :
    ∃ st, run g top fuel weights st0 source target maxDistance = Search.returned st ∧
      (∀ t, target = some t →
        ((∃ l, l ≤ maxDistance ∧ Walk g weights source t l) → st.target_ = some t) ∧
        ((¬ ∃ l, l ≤ maxDistance ∧ Walk g weights source t l) → st.target_ = none)) ∧
      (target = none → st.discoveryOrder_ ≠ [] ∧
        st.target_ = st.discoveryOrder_.getLast?) := by
  obtain ⟨st, hrun, -, -, -, e5, -, e7⟩ := run_spec hg top htop weights hw target maxDistance
    hM source hs fuel hfuel st0 h0
  refine ⟨st, hrun, fun t ht => ?_, fun ht => ⟨e5, ?_⟩⟩
  · subst ht
    exact run_target hg top htop weights hw t maxDistance source hs fuel st0 st h0 hrun
  · rw [e7, if_pos (Or.inl ht)]

/-- C24 on the graph with the nodes 0, 1, 2 and the arcs 0 → 1 and 1 → 2 of
weight 1, searched from node 0 for node 2 up to distance 1. -/
theorem C24_target_witness :
    ∃ st, run (⟨[0, 1, 2], fun u => if u = 0 then [(0, 1)] else if u = 1 then [(1, 2)] else []⟩ : Graph)
        topFirst 4 (fun _ => (1 : ℝ)) ⟨[], fun _ => none, fun _ => 0, [], none, none⟩ 0 (some 2) 1
        = Search.returned st ∧
      (∀ t, some 2 = some t →
        ((∃ l, l ≤ (1 : ℝ) ∧ Walk (⟨[0, 1, 2], fun u => if u = 0 then [(0, 1)] else if u = 1 then [(1, 2)] else []⟩ : Graph)
          (fun _ => (1 : ℝ)) 0 t l) → st.target_ = some t) ∧
        ((¬ ∃ l, l ≤ (1 : ℝ) ∧ Walk (⟨[0, 1, 2], fun u => if u = 0 then [(0, 1)] else if u = 1 then [(1, 2)] else []⟩ : Graph)
          (fun _ => (1 : ℝ)) 0 t l) → st.target_ = none)) ∧
      ((some 2 : Option Nat) = none → st.discoveryOrder_ ≠ [] ∧
        st.target_ = st.discoveryOrder_.getLast?) :=
  C24_target
    (⟨[0, 1, 2], fun u => if u = 0 then [(0, 1)] else if u = 1 then [(1, 2)] else []⟩ : Graph)
    (by decide) topFirst topFirst_spec (fun _ => (1 : ℝ)) (fun _ _ _ _ => zero_le_one) 0
    (by decide) (some 2) 1 zero_le_one 4 (by decide)
    ⟨[], fun _ => none, fun _ => 0, [], none, none⟩ rfl

/-- C25, as stated, fails after the region-of-interest overload of `run`. Grid
of shape `(2, 1)` with the nodes 0 at `(0, 0)` and 1 at `(1, 0)`, one edge of
weight 1 between them, `maxDistance` 10. The search `run(start, stop, weights,
source)` from node 0 in the region `[(0, 0), (1, 1))` returns and leaves node 1,
the border of the region, with the predecessor `DONT_TOUCH` (id 2). On that
object `reRun(weights, source)` from node 0 visits node 0 only and leaves
`target_` = 0, while `run(weights, source)` visits the nodes 0 and 1, gives
node 1 the predecessor 0 and leaves `target_` = 1. -/
theorem C25_reRun_after_roi_run :
    ∃ st1 st2 st3 : ShortestPathDijkstra ℝ,
      runROI (⟨[0, 1], fun u => if u = 0 then [(0, 1)] else [(0, 0)]⟩ : Graph)
        (fun id => [(id : Int), 0]) [2, 1] 2 topFirst 3 (fun _ => (1 : ℝ))
        ⟨[], fun _ => none, fun _ => 0, [], none, none⟩ [0, 0] [1, 1] 0 none 10
        = some (Search.returned st1) ∧
      st1.discoveryOrder_ = [0] ∧ st1.predMap_ 1 = some 2 ∧
      reRun (⟨[0, 1], fun u => if u = 0 then [(0, 1)] else [(0, 0)]⟩ : Graph)
        topFirst 3 (fun _ => (1 : ℝ)) st1 0 none 10 = Search.returned st2 ∧
      run (⟨[0, 1], fun u => if u = 0 then [(0, 1)] else [(0, 0)]⟩ : Graph)
        topFirst 3 (fun _ => (1 : ℝ)) st1 0 none 10 = Search.returned st3 ∧
      st2.discoveryOrder_ = [0] ∧ st3.discoveryOrder_ = [0, 1] ∧
      st2.predMap_ 1 = some 2 ∧ st3.predMap_ 1 = some 0 ∧
      st2.target_ = some 0 ∧ st3.target_ = some 1 := by
  have a1 : ¬ ((10 : ℝ) < 0) := by norm_num
  have a2 : ¬ ((10 : ℝ) < 1) := by norm_num
  refine ⟨⟨[], Function.update (Function.update (fun _ => none) 1 (some 2)) 0 (some 0),
      fun _ => 0, [0], some 0, some 0⟩,
    ⟨[], Function.update (Function.update (fun _ => none) 1 (some 2)) 0 (some 0),
      fun _ => 0, [0], some 0, some 0⟩,
    ⟨[], Function.update (Function.update (fun _ => none) 0 (some 0)) 1 (some 0),
      Function.update (fun _ => 0) 1 1, [0, 1], some 0, some 1⟩,
    ?_, rfl, by simp, ?_, ?_, rfl, rfl, by simp, by simp, rfl, rfl⟩
  · simp [runROI, initializeMapsROI, inBorder, inSubarray, allLessEqual, allLess, runImpl,
      mainLoop, drain, relaxArc, pqPush, pqPop, pqContains, pqIds, topFirst, Function.update,
      a1, a2]
  · simp [reRun, reInitializeMaps, runImpl, mainLoop, drain, relaxArc, pqPush, pqPop,
      pqContains, pqIds, topFirst, Function.update, a1, a2]
  · simp [run, initializeMaps, runImpl, mainLoop, drain, relaxArc, pqPush, pqPop,
      pqContains, pqIds, topFirst, Function.update, a1, a2]
    funext v
    simp only [Function.update_apply]
    split_ifs <;> rfl

/-- C25 (amended): on an object on which a `run(weights, source, target,
maxDistance)` or a `runMultiSource` has returned and, after it, nothing but
`reRun` calls,
`reRun(weights, source, target, maxDistance)` does what
`run(weights, source, target, maxDistance)` does: the two leave the same
`predMap_`, `distMap_`, `discoveryOrder_`, `source_` and `target_`, or neither
returns; and with edge weights that are not negative, a source node of the
graph, a `maxDistance` that is not negative and an iteration bound above the
number of nodes both return. -/
theorem C25_reRun_as_run (g : Graph) (hg : g.WellFormed) (top : List (Nat × K) → Nat)
    (htop : TopSpec top) (st0 : ShortestPathDijkstra K) (hc : Completed g top st0)
    (fuel : Nat) (weights : Nat → K) (source : Nat) (target : Option Nat) (maxDistance : K) :
    reRun g top fuel weights st0 source target maxDistance
      = run g top fuel weights st0 source target maxDistance ∧
    ((∀ u ∈ g.nodes, ∀ a ∈ g.outArcs u, 0 ≤ weights a.1) → source ∈ g.nodes →
      0 ≤ maxDistance → g.nodes.length + 1 ≤ fuel →
      ∃ st, reRun g top fuel weights st0 source target maxDistance = Search.returned st) := by
  have heq : reRun g top fuel weights st0 source target maxDistance
      = run g top fuel weights st0 source target maxDistance := by
    show runImpl g top fuel weights target maxDistance (reInitializeMaps st0 source) = _
    rw [reInitializeMaps_eq hg htop hc source]
    rfl
  refine ⟨heq, fun hw hs hM hfuel => ?_⟩
  obtain ⟨st, hrun, -⟩ := run_spec hg top htop weights hw target maxDistance hM source hs
    fuel hfuel st0 (hc.clean hg htop).1
  exact ⟨st, heq.trans hrun⟩

/-- C25 (amended) on the graph with the nodes 0, 1, 2 and the arcs 0 → 1 and 1 → 2 of
weight 1: on the object that a search from node 0 up to distance 1 leaves, a
`reRun` from node 1 for node 2 does what `run` does. -/
theorem C25_reRun_as_run_witness :
    ∃ st0, run (⟨[0, 1, 2], fun u => if u = 0 then [(0, 1)] else if u = 1 then [(1, 2)] else []⟩ : Graph)
        topFirst 4 (fun _ => (1 : ℝ)) ⟨[], fun _ => none, fun _ => 0, [], none, none⟩ 0 none 1
        = Search.returned st0 ∧
      reRun (⟨[0, 1, 2], fun u => if u = 0 then [(0, 1)] else if u = 1 then [(1, 2)] else []⟩ : Graph)
        topFirst 4 (fun _ => (1 : ℝ)) st0 1 (some 2) 5
      = run (⟨[0, 1, 2], fun u => if u = 0 then [(0, 1)] else if u = 1 then [(1, 2)] else []⟩ : Graph)
        topFirst 4 (fun _ => (1 : ℝ)) st0 1 (some 2) 5 ∧
      ∃ st, reRun (⟨[0, 1, 2], fun u => if u = 0 then [(0, 1)] else if u = 1 then [(1, 2)] else []⟩ : Graph)
        topFirst 4 (fun _ => (1 : ℝ)) st0 1 (some 2) 5 = Search.returned st := by
  obtain ⟨st0, hrun, -⟩ := run_spec
    (by decide : (⟨[0, 1, 2], fun u => if u = 0 then [(0, 1)] else if u = 1 then [(1, 2)] else []⟩ : Graph).WellFormed)
    topFirst topFirst_spec (fun _ => (1 : ℝ)) (fun _ _ _ _ => zero_le_one) none 1 zero_le_one 0
    (by decide) 4 (by decide) ⟨[], fun _ => none, fun _ => 0, [], none, none⟩ rfl
  have h := C25_reRun_as_run
    (⟨[0, 1, 2], fun u => if u = 0 then [(0, 1)] else if u = 1 then [(1, 2)] else []⟩ : Graph)
    (by decide) topFirst topFirst_spec st0
    (Completed.first ⟨[], fun _ => none, fun _ => 0, [], none, none⟩ st0 rfl 4 (fun _ => (1 : ℝ))
      0 (by decide) none 1 hrun)
    4 (fun _ => (1 : ℝ)) 1 (some 2) 5
  exact ⟨st0, hrun, h.1, h.2 (fun _ _ _ _ => zero_le_one) (by decide) (by norm_num) (by decide)⟩


/-- C31, as stated, fails at the request `[Count, Mean]`: the resolved sequence
is `[Mean, Sum, Count]`, while the branches `[Count]` and `[Mean, Sum, Count]`
concatenated with the first occurrence kept give `[Count, Mean, Sum]`. -/
theorem C31_first_occurrence_fails :
    PushDependencies [Count, Mean] = [Mean, Tag.Sum, Count] ∧
    keepFirstOccurrence (resolvedBranches [Count, Mean]) = [Count, Mean, Tag.Sum] ∧
    PushDependencies [Count, Mean] ≠ keepFirstOccurrence (resolvedBranches [Count, Mean]) := by
  have h1 : PushDependencies [Count, Mean] = [Mean, Tag.Sum, Count] := by
    simp [PushDependencies, MergeUnique, Dependencies]
  have h2 : keepFirstOccurrence (resolvedBranches [Count, Mean]) = [Count, Mean, Tag.Sum] := by
    simp [resolvedBranches, keepFirstOccurrence, PushDependencies, MergeUnique, Dependencies]
  refine ⟨h1, h2, ?_⟩
  rw [h1, h2]
  decide

/-- C31, amended: for every request list the resolved sequence is the
concatenation, in request order, of the resolved branch of each requested
descriptor, with every repeated statistic removed except its last occurrence,
the relative order of the kept elements preserved; for the request
`[Count, Mean]` it is `[Mean, Sum, Count]`. -/
theorem C31_last_occurrence_wins (sel : List Tag) :
    PushDependencies sel = keepLastOccurrence (resolvedBranches sel) ∧
    PushDependencies [Count, Mean] = [Mean, Tag.Sum, Count] := by
  constructor
  · induction sel with
    | nil =>
      rw [PushDependencies]
      rfl
    | cons t rest ih =>
      rw [PushDependencies_cons, MergeUnique_eq _ _ (PushDependencies_spec rest).1, ih,
        keepLastOccurrence_append_right]
      simp only [resolvedBranches]
      rw [PushDependencies_single, keepLastOccurrence_append_left]
  · simp [PushDependencies, MergeUnique, Dependencies]

/-- C32: in every state the interface of a dynamic chain can produce from
construction (by `activate`, `reset`, weighted and unweighted `update` and
`updatePass2`, and merges, returned or thrown), a statistic whose flag is set
is a layer of the chain, the flag of every statistic it transitively depends on
is set, and so is the flag of every statistic whose layer its member functions
read; `get` of it and of everything it depends on returns the value of the
layer and does not fail. -/
theorem C32_active_closed (e : Env K) (sel : List Tag) (is_active_ : Tag → Bool) (s : State K)
    (hreach : DynamicReachable e (PushDependencies sel) is_active_ s) (tag : Tag)
    (hact : is_active_ tag = true) :
    tag ∈ PushDependencies sel ∧
    (∀ x, Requires tag x → is_active_ x = true) ∧
    (∀ r ∈ Reads tag, is_active_ r = true) ∧
    (∀ x, Requires tag x →
      dynamicGet e (PushDependencies sel) is_active_ s x = some (result e x s)) := by
  obtain ⟨-, hb, -⟩ := PushDependencies_spec sel
  have hc := hreach.activeClosed hb
  refine ⟨(hc tag hact).1, (hc tag hact).2, fun r hr => ?_, fun x hx => ?_⟩
  · obtain ⟨d, hd1, hd2⟩ := reads_required tag r hr
    exact (hc tag hact).2 r (Requires.step hd1 hd2)
  · rw [dynamicGet_eq e _ hb is_active_ hc s x, if_pos ((hc tag hact).2 x hx)]

/-- C32 at a concrete input: on the dynamic chain of the request `[Variance]`,
after `activate<Variance>` and the sample 3, `Variance` is flagged with all it
requires. -/
theorem C32_active_closed_witness :
    Variance ∈ PushDependencies [Variance] ∧
    (∀ x, Requires Variance x →
      activate (PushDependencies [Variance]) Variance (fun _ => false) x = true) ∧
    (∀ r ∈ Reads Variance,
      activate (PushDependencies [Variance]) Variance (fun _ => false) r = true) ∧
    (∀ x, Requires Variance x →
      dynamicGet (⟨Real.sqrt, fun x y => x ^ y, 2 ^ 1024, -2 ^ 1024⟩ : Env ℝ)
        (PushDependencies [Variance])
        (activate (PushDependencies [Variance]) Variance fun _ => false)
        (dynamicUpdate (⟨Real.sqrt, fun x y => x ^ y, 2 ^ 1024, -2 ^ 1024⟩ : Env ℝ)
          (PushDependencies [Variance])
          (activate (PushDependencies [Variance]) Variance fun _ => false)
          (init (⟨Real.sqrt, fun x y => x ^ y, 2 ^ 1024, -2 ^ 1024⟩ : Env ℝ) 0) 3).state x
      = some (result (⟨Real.sqrt, fun x y => x ^ y, 2 ^ 1024, -2 ^ 1024⟩ : Env ℝ) x
          (dynamicUpdate (⟨Real.sqrt, fun x y => x ^ y, 2 ^ 1024, -2 ^ 1024⟩ : Env ℝ)
            (PushDependencies [Variance])
            (activate (PushDependencies [Variance]) Variance fun _ => false)
            (init (⟨Real.sqrt, fun x y => x ^ y, 2 ^ 1024, -2 ^ 1024⟩ : Env ℝ) 0) 3).state)) :=
  C32_active_closed (⟨Real.sqrt, fun x y => x ^ y, 2 ^ 1024, -2 ^ 1024⟩ : Env ℝ) [Variance]
    (activate (PushDependencies [Variance]) Variance fun _ => false) _
    (DynamicReachable.update 3 (DynamicReachable.activate Variance (DynamicReachable.fresh 0)))
    Variance (by simp [PushDependencies, MergeUnique, Dependencies, activate])

/-- C33: in every state the interface of a dynamic chain over scalar samples
can produce from construction, the member of every layer whose flag is clear
holds the value the constructor gave it; no call of `update`, `updatePass2` or
a merge, weighted or not, returned or thrown, changes the member of a layer
whose flag is clear; and after `reset()` the members of all layers hold their
constructor values. -/
theorem C33_inactive_layers_initial (e : Env K) (sel : List Tag) (is_active_ : Tag → Bool)
    (s : State K) (hreach : DynamicReachable e (PushDependencies sel) is_active_ s)
    (diff0 : K) :
    ((is_active_ Count = false → s.count_ = (init e diff0).count_) ∧
      (is_active_ Minimum = false → s.min_ = (init e diff0).min_) ∧
      (is_active_ Maximum = false → s.max_ = (init e diff0).max_) ∧
      (is_active_ Tag.Sum = false → s.sum_ = (init e diff0).sum_) ∧
      (∀ N, is_active_ (CentralMoment N) = false → s.moment_ N = (init e diff0).moment_ N) ∧
      (is_active_ SumSquaredDifferences = false →
        s.sumOfSquaredDifferences_ = (init e diff0).sumOfSquaredDifferences_) ∧
      (is_active_ ScatterMatrix = false →
        s.scatter_matrix_ = (init e diff0).scatter_matrix_)) ∧
    (∀ t, Untouched (activeChain (PushDependencies sel) is_active_) s
      (dynamicUpdate e (PushDependencies sel) is_active_ s t).state) ∧
    (∀ t w, Untouched (activeChain (PushDependencies sel) is_active_) s
      (dynamicUpdateWeighted e (PushDependencies sel) is_active_ s t w).state) ∧
    (∀ t, Untouched (activeChain (PushDependencies sel) is_active_) s
      (dynamicUpdatePass2 e (PushDependencies sel) is_active_ s t).state) ∧
    (∀ t w, Untouched (activeChain (PushDependencies sel) is_active_) s
      (dynamicUpdatePass2Weighted e (PushDependencies sel) is_active_ s t w).state) ∧
    (∀ g r, Untouched (activeChain (PushDependencies sel) is_active_) s
      (dynamicMerge e (PushDependencies sel) is_active_ s g r).state) ∧
    (∀ layers, SameMembers layers
      (dynamicReset e (PushDependencies sel) is_active_ s) (init e diff0)) := by
  obtain ⟨-, hb, -⟩ := PushDependencies_spec sel
  have hc := hreach.activeClosed hb
  obtain ⟨i1, i2, i3, i4, i5, i6, i7⟩ := hreach.untouched hb
  have hn : ∀ t, is_active_ t = false → t ∉ activeChain (PushDependencies sel) is_active_ := by
    intro t ht hm
    rw [((mem_activeChain _ _ _).mp hm).2] at ht
    cases ht
  refine ⟨⟨fun h => i1 (hn _ h), fun h => i2 (hn _ h), fun h => i3 (hn _ h),
    fun h => i4 (hn _ h), fun N h => i5 N (hn _ h), fun h => i6 (hn _ h),
    fun h => i7 (hn _ h)⟩, fun t => ?_, fun t w => ?_, fun t => ?_, fun t w => ?_,
    fun g r => dynamicMerge_untouched _ _ _ _ _ _,
    fun layers => dynamicReset_same_init hb hreach layers diff0⟩
  · rw [dynamicUpdate_eq e _ hb _ hc.reads]
    exact update_untouched _ _ _
  · rw [dynamicUpdateWeighted_eq e _ hb _ hc.reads]
    exact updateWeighted_untouched _ _ _ _
  · rw [dynamicUpdatePass2_eq e _ hb _ hc.reads]
    exact updatePass2_untouched _ _ _
  · rw [dynamicUpdatePass2Weighted_eq e _ hb _ hc.reads]
    exact updatePass2Weighted_untouched _ _ _ _

/-- C33 at a concrete input: on the dynamic chain of the request
`[Minimum, Mean]`, after `activate<Mean>` and the sample 3, the member of the
`Minimum` layer still holds `NumericTraits::max()`. -/
theorem C33_inactive_layers_initial_witness :
    activate (PushDependencies [Minimum, Mean]) Mean (fun _ => false) Minimum = false ∧
    (dynamicUpdate (⟨Real.sqrt, fun x y => x ^ y, 2 ^ 1024, -2 ^ 1024⟩ : Env ℝ)
      (PushDependencies [Minimum, Mean])
      (activate (PushDependencies [Minimum, Mean]) Mean fun _ => false)
      (init (⟨Real.sqrt, fun x y => x ^ y, 2 ^ 1024, -2 ^ 1024⟩ : Env ℝ) 0) 3).state.min_
      = (init (⟨Real.sqrt, fun x y => x ^ y, 2 ^ 1024, -2 ^ 1024⟩ : Env ℝ) 0).min_ :=
  ⟨by simp [PushDependencies, MergeUnique, Dependencies, activate],
    (C33_inactive_layers_initial (⟨Real.sqrt, fun x y => x ^ y, 2 ^ 1024, -2 ^ 1024⟩ : Env ℝ)
      [Minimum, Mean] (activate (PushDependencies [Minimum, Mean]) Mean fun _ => false) _
      (DynamicReachable.update 3 (DynamicReachable.activate Mean (DynamicReachable.fresh 0)))
      0).1.2.1 (by simp [PushDependencies, MergeUnique, Dependencies, activate])⟩

/-- C34, as stated, fails on the chain of `Select<Variance, Minimum>`: after the
sample 1, the weighted update `(3, 2)` is rejected by the `Minimum` layer, which
lies below the `SumSquaredDifferences` layer, and the call leaves
`sumOfSquaredDifferences_` at `8 / 3` where it was `0`. -/
theorem C34_rejected_update_changes_ssd :
    PushDependencies [Variance, Minimum]
      = [Variance, SumSquaredDifferences, Mean, Tag.Sum, Count, Minimum] ∧
    (update (PushDependencies [Variance, Minimum])
      (init (⟨Real.sqrt, fun x y => x ^ y, 2 ^ 1024, -2 ^ 1024⟩ : Env ℝ) 0)
      1).sumOfSquaredDifferences_ = 0 ∧
    ∃ s1, updateWeighted (PushDependencies [Variance, Minimum])
        (update (PushDependencies [Variance, Minimum])
          (init (⟨Real.sqrt, fun x y => x ^ y, 2 ^ 1024, -2 ^ 1024⟩ : Env ℝ) 0) 1) 3 2
        = Outcome.fault s1 ∧
      s1.sumOfSquaredDifferences_ = 8 / 3 ∧
      s1.sumOfSquaredDifferences_ ≠
        (update (PushDependencies [Variance, Minimum])
          (init (⟨Real.sqrt, fun x y => x ^ y, 2 ^ 1024, -2 ^ 1024⟩ : Env ℝ) 0)
          1).sumOfSquaredDifferences_ := by
  have hP : PushDependencies [Variance, Minimum]
      = [Variance, SumSquaredDifferences, Mean, Tag.Sum, Count, Minimum] := by
    simp [PushDependencies, MergeUnique, Dependencies]
  rw [hP]
  generalize (⟨Real.sqrt, fun x y => x ^ y, 2 ^ 1024, -2 ^ 1024⟩ : Env ℝ) = E
  refine ⟨rfl, by simp [update, init], _, updateWeighted_rejected
    [Variance, SumSquaredDifferences, Mean, Tag.Sum, Count] [] Minimum (Or.inl rfl)
    (by decide) (by decide) (by decide) _ 3 2, ?_, ?_⟩
  · norm_num [rejectedState, update, init, sq]
  · norm_num [rejectedState, update, init, sq]

/-- C34, amended: a weighted update that a `Minimum` or `Maximum` layer rejects
(on a dynamic chain: a layer whose flag is set) leaves `count_`, `min_`, `max_`,
`sum_` and every `moment_` as they were, for every composition order and every
prior state. `sumOfSquaredDifferences_` and `scatter_matrix_` (with `diff_`) are
as they were when `Count` is zero or when no `SumSquaredDifferences` or
`ScatterMatrix` layer lies above the rejecting layer, as in
`Select<Minimum, Variance>`; a `SumSquaredDifferences` or `ScatterMatrix` layer
above it, as in `Select<Variance, Minimum>`, has added its term before the call
reaches the rejecting layer. -/
theorem C34_rejected_update_state (e : Env K) (sel : List Tag) (pre post : List Tag) (m : Tag)
    (hm : m = Minimum ∨ m = Maximum) (hmin : Minimum ∉ pre) (hmax : Maximum ∉ pre) (t w : K) :
    (PushDependencies sel = pre ++ m :: post → ∀ s : State K,
      updateWeighted (PushDependencies sel) s t w = Outcome.fault (rejectedState pre s t w)) ∧
    (∀ is_active_ s, DynamicReachable e (PushDependencies sel) is_active_ s →
      activeChain (PushDependencies sel) is_active_ = pre ++ m :: post →
      dynamicUpdateWeighted e (PushDependencies sel) is_active_ s t w
        = Outcome.fault (rejectedState pre s t w)) ∧
    (∀ s : State K, (rejectedState pre s t w).count_ = s.count_ ∧
      (rejectedState pre s t w).min_ = s.min_ ∧ (rejectedState pre s t w).max_ = s.max_ ∧
      (rejectedState pre s t w).sum_ = s.sum_ ∧
      (rejectedState pre s t w).moment_ = s.moment_) ∧
    (∀ s : State K, s.count_ = 0 → rejectedState pre s t w = s) ∧
    (∀ s : State K, SumSquaredDifferences ∉ pre → ScatterMatrix ∉ pre →
      rejectedState pre s t w = s) := by
  obtain ⟨hn, hb, -⟩ := PushDependencies_spec sel
  refine ⟨fun h s => ?_, fun f s hreach h => ?_, fun s => ⟨rfl, rfl, rfl, rfl, rfl⟩,
    fun s h0 => ?_, fun s h1 h2 => ?_⟩
  · have hpre : pre.Nodup := by
      rw [h] at hn
      exact (List.nodup_append.mp hn).1
    rw [h]
    exact updateWeighted_rejected pre post m hm hpre hmin hmax s t w
  · have hpre : pre.Nodup := by
      have hnf : (activeChain (PushDependencies sel) f).Nodup := hn.filter _
      rw [h] at hnf
      exact (List.nodup_append.mp hnf).1
    rw [dynamicUpdateWeighted_eq e _ hb f (hreach.activeClosed hb).reads, h]
    exact updateWeighted_rejected pre post m hm hpre hmin hmax s t w
  · cases s
    simp only at h0
    simp [rejectedState, h0]
  · cases s
    simp [rejectedState, h1, h2]

/-- C34 on the chains of `Select<Minimum, Variance>` and of
`Select<Variance, Minimum>`: the first leaves every member as it was, the second
the members other than those of `SumSquaredDifferences`. -/
theorem C34_rejected_update_state_witness :
    (∀ s : State ℝ, updateWeighted (PushDependencies [Minimum, Variance]) s 3 2
      = Outcome.fault s) ∧
    (∀ s : State ℝ, updateWeighted (PushDependencies [Variance, Minimum]) s 3 2
      = Outcome.fault
          (rejectedState [Variance, SumSquaredDifferences, Mean, Tag.Sum, Count] s 3 2)) := by
  constructor
  · intro s
    have h := C34_rejected_update_state
      (⟨Real.sqrt, fun x y => x ^ y, 2 ^ 1024, -2 ^ 1024⟩ : Env ℝ) [Minimum, Variance] []
      [Variance, SumSquaredDifferences, Mean, Tag.Sum, Count] Minimum (Or.inl rfl)
      (by decide) (by decide) 3 2
    rw [h.1 (by simp [PushDependencies, MergeUnique, Dependencies]) s,
      h.2.2.2.2 s (by decide) (by decide)]
  · exact (C34_rejected_update_state
      (⟨Real.sqrt, fun x y => x ^ y, 2 ^ 1024, -2 ^ 1024⟩ : Env ℝ) [Variance, Minimum]
      [Variance, SumSquaredDifferences, Mean, Tag.Sum, Count] [] Minimum (Or.inl rfl)
      (by decide) (by decide) 3 2).1 (by simp [PushDependencies, MergeUnique, Dependencies])


/-- C35: on a static chain fed from construction with calls whose weights are
not negative (an unweighted call has weight 1), in the state the calls leave
(at a throw: the state at the throw) `count_` is not negative, and a further
`update(value)` or `update(value, weight)` with a weight that is not negative
meets no zero divisor: evaluated with every divisor checked it is the call
evaluated without the checks. For two operands with positive `count_` the same
holds of the merge, in the layers `SumSquaredDifferences`, `CentralMoment<2>`
and `ScatterMatrix` and in every other layer. -/
theorem C35_no_division_by_zero (e : Env K) (diff0 : K) (chain : List Tag)
    (calls : List (Call K)) (hnn : ∀ c ∈ calls, 0 ≤ c.weight) :
    0 ≤ (feed chain (init e diff0) calls).state.count_ ∧
    (∀ t, updateChecked chain (feed chain (init e diff0) calls).state t
      = some (update chain (feed chain (init e diff0) calls).state t)) ∧
    (∀ t weight, 0 ≤ weight →
      updateWeightedChecked chain (feed chain (init e diff0) calls).state t weight
        = some (updateWeighted chain (feed chain (init e diff0) calls).state t weight)) ∧
    (∀ l r : State K, 0 < l.count_ → 0 < r.count_ →
      mergeChecked chain l r = some (merge chain l r)) := by
  have h := feed_count_nonneg chain calls hnn (init e diff0) (le_refl _)
  exact ⟨h, fun t => updateChecked_eq chain _ t h,
    fun t w hw => updateWeightedChecked_eq chain _ t w h hw,
    fun l r hl hr => mergeChecked_eq chain l r hl hr⟩

/-- C35 at a concrete input: the chain of the request `[Variance]` after the
calls `update(1)` and `update(3, 2)`, and a further `update(5, 0)`. -/
theorem C35_no_division_by_zero_witness :
    0 ≤ (feed (PushDependencies [Variance])
      (init (⟨Real.sqrt, fun x y => x ^ y, 2 ^ 1024, -2 ^ 1024⟩ : Env ℝ) 0)
      [Call.plain 1, Call.weighted 3 2]).state.count_ ∧
    updateWeightedChecked (PushDependencies [Variance])
      (feed (PushDependencies [Variance])
        (init (⟨Real.sqrt, fun x y => x ^ y, 2 ^ 1024, -2 ^ 1024⟩ : Env ℝ) 0)
        [Call.plain 1, Call.weighted 3 2]).state 5 0
      = some (updateWeighted (PushDependencies [Variance])
        (feed (PushDependencies [Variance])
          (init (⟨Real.sqrt, fun x y => x ^ y, 2 ^ 1024, -2 ^ 1024⟩ : Env ℝ) 0)
          [Call.plain 1, Call.weighted 3 2]).state 5 0) :=
  ⟨(C35_no_division_by_zero (⟨Real.sqrt, fun x y => x ^ y, 2 ^ 1024, -2 ^ 1024⟩ : Env ℝ) 0
      (PushDependencies [Variance]) [Call.plain 1, Call.weighted 3 2]
      (by
        intro c hc
        simp only [List.mem_cons, List.mem_singleton, List.mem_nil_iff, or_false] at hc
        rcases hc with rfl | rfl <;> norm_num [Call.weight])).1,
    (C35_no_division_by_zero (⟨Real.sqrt, fun x y => x ^ y, 2 ^ 1024, -2 ^ 1024⟩ : Env ℝ) 0
      (PushDependencies [Variance]) [Call.plain 1, Call.weighted 3 2]
      (by
        intro c hc
        simp only [List.mem_cons, List.mem_singleton, List.mem_nil_iff, or_false] at hc
        rcases hc with rfl | rfl <;> norm_num [Call.weight])).2.2.1 5 0 (le_refl _)⟩

set_option maxRecDepth 100000 in
/-- C36, as stated, fails in `double` arithmetic. Chain of the request
`[Skewness, Kurtosis]`, both passes over the samples `0, 0, 0, 2, 3`: the mean
is 1, the sums of the second and fourth powers of the deviations are 8 and 20,
`get<Count>` is 5. `get<Kurtosis>` is `5 * 20 / sq(8) = 1.5625` without any
rounding, `get<CentralMoment<4> >` is `20 / 5 = 4`, and
`get<CentralMoment<2> >` is the `double` nearest to `8 / 5`, which is not
`8 / 5`: the quotient of `get<CentralMoment<4> >` by the square of
`get<CentralMoment<2> >` is not `1.5625`, neither as a number nor when
evaluated in `double`. Whatever `sqrt` and `pow` are; the two limits of
`NumericTraits<double>` are the largest `double` and its negative. -/
theorem C36_kurtosis_rounds :
    PushDependencies [Skewness, Kurtosis]
      = [Skewness, Kurtosis, CentralMoment 4, CentralMoment 3, CentralMoment 2, Mean, Tag.Sum,
          Count] ∧
    (∀ (sqrt : Double → Double) (pow : Double → Double → Double),
      ieee.get ⟨sqrt, pow, ⟨9007199254740991, 971⟩, ⟨-9007199254740991, 971⟩⟩
          [Skewness, Kurtosis, CentralMoment 4, CentralMoment 3, CentralMoment 2, Mean, Tag.Sum,
            Count]
          (ieee.twoPass ⟨sqrt, pow, ⟨9007199254740991, 971⟩, ⟨-9007199254740991, 971⟩⟩ 0
            [Skewness, Kurtosis, CentralMoment 4, CentralMoment 3, CentralMoment 2, Mean,
              Tag.Sum, Count] [0, 0, 0, 2, 3]) Count = some 5 ∧
      ieee.get ⟨sqrt, pow, ⟨9007199254740991, 971⟩, ⟨-9007199254740991, 971⟩⟩
          [Skewness, Kurtosis, CentralMoment 4, CentralMoment 3, CentralMoment 2, Mean, Tag.Sum,
            Count]
          (ieee.twoPass ⟨sqrt, pow, ⟨9007199254740991, 971⟩, ⟨-9007199254740991, 971⟩⟩ 0
            [Skewness, Kurtosis, CentralMoment 4, CentralMoment 3, CentralMoment 2, Mean,
              Tag.Sum, Count] [0, 0, 0, 2, 3]) (CentralMoment 2)
        = some ⟨7205759403792794, -52⟩ ∧
      ieee.get ⟨sqrt, pow, ⟨9007199254740991, 971⟩, ⟨-9007199254740991, 971⟩⟩
          [Skewness, Kurtosis, CentralMoment 4, CentralMoment 3, CentralMoment 2, Mean, Tag.Sum,
            Count]
          (ieee.twoPass ⟨sqrt, pow, ⟨9007199254740991, 971⟩, ⟨-9007199254740991, 971⟩⟩ 0
            [Skewness, Kurtosis, CentralMoment 4, CentralMoment 3, CentralMoment 2, Mean,
              Tag.Sum, Count] [0, 0, 0, 2, 3]) (CentralMoment 4) = some 4 ∧
      ieee.get ⟨sqrt, pow, ⟨9007199254740991, 971⟩, ⟨-9007199254740991, 971⟩⟩
          [Skewness, Kurtosis, CentralMoment 4, CentralMoment 3, CentralMoment 2, Mean, Tag.Sum,
            Count]
          (ieee.twoPass ⟨sqrt, pow, ⟨9007199254740991, 971⟩, ⟨-9007199254740991, 971⟩⟩ 0
            [Skewness, Kurtosis, CentralMoment 4, CentralMoment 3, CentralMoment 2, Mean,
              Tag.Sum, Count] [0, 0, 0, 2, 3]) Kurtosis
        = some ⟨7036874417766400, -52⟩) ∧
    (⟨7036874417766400, -52⟩ : Double).toRat = 25 / 16 ∧
    (⟨7205759403792794, -52⟩ : Double).toRat ≠ 8 / 5 ∧
    (4 : Double).toRat / (⟨7205759403792794, -52⟩ : Double).toRat ^ 2 ≠ 25 / 16 ∧
    (4 : Double) / ((⟨7205759403792794, -52⟩ : Double) ^ 2) = ⟨7036874417766399, -52⟩ ∧
    (4 : Double) / ((⟨7205759403792794, -52⟩ : Double) ^ 2) ≠ ⟨7036874417766400, -52⟩ := by
  refine ⟨by simp [PushDependencies, MergeUnique, Dependencies], fun sqrt pow => ?_, ?_, ?_, ?_,
    by decide, by decide⟩
  · have c1 : (ieee.feedAllPass2
      [Skewness, Kurtosis, CentralMoment 4, CentralMoment 3, CentralMoment 2, Mean, Tag.Sum,
        Count]
      (ieee.feedAll
        [Skewness, Kurtosis, CentralMoment 4, CentralMoment 3, CentralMoment 2, Mean, Tag.Sum,
        Count]
        ⟨0, ⟨9007199254740991, 971⟩, ⟨-9007199254740991, 971⟩, 0, fun _ => 0, 0, 0, 0⟩
        [0, 0, 0, 2, 3]) [0, 0, 0, 2, 3]).count_ = 5 := by decide
    have c2 : (ieee.feedAllPass2
      [Skewness, Kurtosis, CentralMoment 4, CentralMoment 3, CentralMoment 2, Mean, Tag.Sum,
        Count]
      (ieee.feedAll
        [Skewness, Kurtosis, CentralMoment 4, CentralMoment 3, CentralMoment 2, Mean, Tag.Sum,
        Count]
        ⟨0, ⟨9007199254740991, 971⟩, ⟨-9007199254740991, 971⟩, 0, fun _ => 0, 0, 0, 0⟩
        [0, 0, 0, 2, 3]) [0, 0, 0, 2, 3]).moment_ 2 / (ieee.feedAllPass2
      [Skewness, Kurtosis, CentralMoment 4, CentralMoment 3, CentralMoment 2, Mean, Tag.Sum,
        Count]
      (ieee.feedAll
        [Skewness, Kurtosis, CentralMoment 4, CentralMoment 3, CentralMoment 2, Mean, Tag.Sum,
        Count]
        ⟨0, ⟨9007199254740991, 971⟩, ⟨-9007199254740991, 971⟩, 0, fun _ => 0, 0, 0, 0⟩
        [0, 0, 0, 2, 3]) [0, 0, 0, 2, 3]).count_ = ⟨7205759403792794, -52⟩ := by decide
    have c3 : (ieee.feedAllPass2
      [Skewness, Kurtosis, CentralMoment 4, CentralMoment 3, CentralMoment 2, Mean, Tag.Sum,
        Count]
      (ieee.feedAll
        [Skewness, Kurtosis, CentralMoment 4, CentralMoment 3, CentralMoment 2, Mean, Tag.Sum,
        Count]
        ⟨0, ⟨9007199254740991, 971⟩, ⟨-9007199254740991, 971⟩, 0, fun _ => 0, 0, 0, 0⟩
        [0, 0, 0, 2, 3]) [0, 0, 0, 2, 3]).moment_ 4 / (ieee.feedAllPass2
      [Skewness, Kurtosis, CentralMoment 4, CentralMoment 3, CentralMoment 2, Mean, Tag.Sum,
        Count]
      (ieee.feedAll
        [Skewness, Kurtosis, CentralMoment 4, CentralMoment 3, CentralMoment 2, Mean, Tag.Sum,
        Count]
        ⟨0, ⟨9007199254740991, 971⟩, ⟨-9007199254740991, 971⟩, 0, fun _ => 0, 0, 0, 0⟩
        [0, 0, 0, 2, 3]) [0, 0, 0, 2, 3]).count_ = 4 := by decide
    have c4 : (ieee.feedAllPass2
      [Skewness, Kurtosis, CentralMoment 4, CentralMoment 3, CentralMoment 2, Mean, Tag.Sum,
        Count]
      (ieee.feedAll
        [Skewness, Kurtosis, CentralMoment 4, CentralMoment 3, CentralMoment 2, Mean, Tag.Sum,
        Count]
        ⟨0, ⟨9007199254740991, 971⟩, ⟨-9007199254740991, 971⟩, 0, fun _ => 0, 0, 0, 0⟩
        [0, 0, 0, 2, 3]) [0, 0, 0, 2, 3]).count_ * (ieee.feedAllPass2
      [Skewness, Kurtosis, CentralMoment 4, CentralMoment 3, CentralMoment 2, Mean, Tag.Sum,
        Count]
      (ieee.feedAll
        [Skewness, Kurtosis, CentralMoment 4, CentralMoment 3, CentralMoment 2, Mean, Tag.Sum,
        Count]
        ⟨0, ⟨9007199254740991, 971⟩, ⟨-9007199254740991, 971⟩, 0, fun _ => 0, 0, 0, 0⟩
        [0, 0, 0, 2, 3]) [0, 0, 0, 2, 3]).moment_ 4 / ieee.sq ((ieee.feedAllPass2
      [Skewness, Kurtosis, CentralMoment 4, CentralMoment 3, CentralMoment 2, Mean, Tag.Sum,
        Count]
      (ieee.feedAll
        [Skewness, Kurtosis, CentralMoment 4, CentralMoment 3, CentralMoment 2, Mean, Tag.Sum,
        Count]
        ⟨0, ⟨9007199254740991, 971⟩, ⟨-9007199254740991, 971⟩, 0, fun _ => 0, 0, 0, 0⟩
        [0, 0, 0, 2, 3]) [0, 0, 0, 2, 3]).moment_ 2)
        = ⟨7036874417766400, -52⟩ := by decide
    exact ⟨congrArg some c1, congrArg some c2, congrArg some c3, congrArg some c4⟩
  · norm_num [Double.toRat]
  · norm_num [Double.toRat]
  · have h : (4 : Double) = ⟨4503599627370496, -50⟩ := by decide
    rw [h]
    norm_num [Double.toRat]

/-- C36 (amended): in exact arithmetic, `double` taken as an ordered field, on a
static chain over scalar samples with a `Skewness` and a
`Kurtosis` layer, after both passes over a sample sequence for which
`get<Count>` and `get<CentralMoment<2>>` are positive, `get<Kurtosis>` is
`get<CentralMoment<4>> / (get<CentralMoment<2>>)^2` and `get<Skewness>` is
`get<CentralMoment<3>> / (get<CentralMoment<2>>)^(3/2)`, the central moments
being the means of the powers of the deviations from the mean. The functions
`sqrt` and `pow` of `<cmath>` are taken with two facts about real powers:
`(a / b)^(3/2) = a^(3/2) / b^(3/2)` and `a^(3/2) = a * sqrt(a)` for positive
`a`, `b`. -/
theorem C36_skewness_kurtosis (e : Env K)
    (hdiv : ∀ a b : K, 0 < a → 0 < b → e.pow (a / b) (3 / 2) = e.pow a (3 / 2) / e.pow b (3 / 2))
    (hsqrt : ∀ a : K, 0 < a → e.pow a (3 / 2) = a * e.sqrt a)
    (diff0 : K) (chain : List Tag) (hw : WellFormed chain) (hS : Skewness ∈ chain)
    (hK : Kurtosis ∈ chain) (xs : List K) (count m2 : K)
    (hcount : get e chain (twoPass e diff0 chain xs) Count = some count)
    (hm2 : get e chain (twoPass e diff0 chain xs) (CentralMoment 2) = some m2)
    (hc : 0 < count) (hm : 0 < m2) :
    ∃ m3 m4 : K,
      get e chain (twoPass e diff0 chain xs) (CentralMoment 3) = some m3 ∧
      get e chain (twoPass e diff0 chain xs) (CentralMoment 4) = some m4 ∧
      get e chain (twoPass e diff0 chain xs) Kurtosis = some (m4 / m2 ^ 2) ∧
      get e chain (twoPass e diff0 chain xs) Skewness = some (m3 / e.pow m2 (3 / 2)) ∧
      count = (xs.length : K) ∧
      m2 = specCentralSum 2 xs / (xs.length : K) ∧
      m3 = specCentralSum 3 xs / (xs.length : K) ∧
      m4 = specCentralSum 4 xs / (xs.length : K) := by
  have h3 : CentralMoment 3 ∈ chain := mem_of_dep hw hS (by simp [Dependencies])
  have h4 : CentralMoment 4 ∈ chain := mem_of_dep hw hK (by simp [Dependencies])
  have h2 : CentralMoment 2 ∈ chain := mem_of_dep hw h3 (by simp [Dependencies])
  have hmean : Mean ∈ chain := mem_of_dep hw h2 (by simp [Dependencies])
  have hcm : Count ∈ chain := mem_of_dep hw h2 (by simp [Dependencies])
  have hsum : Tag.Sum ∈ chain := mem_of_dep hw hmean (by simp [Dependencies])
  obtain ⟨f1, f2, f3⟩ := twoPass_fields e diff0 chain hw.1 hcm hsum xs
  generalize twoPass e diff0 chain xs = s at *
  simp only [get, hcm, h2, if_true, result, Option.some.injEq] at hcount hm2
  have hM2 : 0 < s.moment_ 2 := by
    have : s.moment_ 2 = m2 * count := by
      rw [← hm2, ← hcount]
      field_simp [hcount ▸ hc.ne']
    rw [this]
    exact mul_pos hm hc
  have hc0 : s.count_ ≠ 0 := hcount ▸ hc.ne'
  have hc1 : 0 < s.count_ := hcount ▸ hc
  refine ⟨s.moment_ 3 / s.count_, s.moment_ 4 / s.count_, ?_, ?_, ?_, ?_, ?_, ?_, ?_, ?_⟩
  · simp only [get, h3, if_true, result]
  · simp only [get, h4, if_true, result]
  · simp only [get, hK, if_true, result, ← hm2, sq]
    congr 1
    field_simp
    ring
  · simp only [get, hS, if_true, result, ← hm2]
    congr 1
    rw [hdiv _ _ hM2 hc1, hsqrt _ hc1, div_div_eq_mul_div]
    congr 1
    field_simp
    ring
  · rw [← hcount, f1]
  · rw [← hm2, f1, f3 2, if_pos h2]
  · rw [f1, f3 3, if_pos h3]
  · rw [f1, f3 4, if_pos h4]

/-- C36 (amended) at a concrete input: on the chain of the request `[Skewness, Kurtosis]`
the samples `[1, 2, 3]` give `Count` 3 and `CentralMoment<2>` 2/3, and then
`Kurtosis` 3/2, which is `(2/3) / (2/3)^2`, and `Skewness` 0. -/
theorem C36_skewness_kurtosis_witness :
    get (⟨Real.sqrt, fun x y => x ^ y, 2 ^ 1024, -2 ^ 1024⟩ : Env ℝ)
      (PushDependencies [Skewness, Kurtosis])
      (twoPass (⟨Real.sqrt, fun x y => x ^ y, 2 ^ 1024, -2 ^ 1024⟩ : Env ℝ) 0
        (PushDependencies [Skewness, Kurtosis]) [1, 2, 3]) Kurtosis = some (3 / 2) ∧
    get (⟨Real.sqrt, fun x y => x ^ y, 2 ^ 1024, -2 ^ 1024⟩ : Env ℝ)
      (PushDependencies [Skewness, Kurtosis])
      (twoPass (⟨Real.sqrt, fun x y => x ^ y, 2 ^ 1024, -2 ^ 1024⟩ : Env ℝ) 0
        (PushDependencies [Skewness, Kurtosis]) [1, 2, 3]) Skewness = some 0 := by
  have hw := PushDependencies_wellFormed [Skewness, Kurtosis]
  have hmem : ∀ x, x ∈ PushDependencies [Skewness, Kurtosis] ↔
      ∃ r ∈ [Skewness, Kurtosis], Requires r x := (PushDependencies_spec _).2.2
  have hS : Skewness ∈ PushDependencies [Skewness, Kurtosis] :=
    (hmem _).mpr ⟨Skewness, by simp, Requires.refl _⟩
  have hK : Kurtosis ∈ PushDependencies [Skewness, Kurtosis] :=
    (hmem _).mpr ⟨Kurtosis, by simp, Requires.refl _⟩
  have h3 : CentralMoment 3 ∈ PushDependencies [Skewness, Kurtosis] :=
    mem_of_dep hw hS (by simp [Dependencies])
  have h2 : CentralMoment 2 ∈ PushDependencies [Skewness, Kurtosis] :=
    mem_of_dep hw h3 (by simp [Dependencies])
  have hmean : Mean ∈ PushDependencies [Skewness, Kurtosis] :=
    mem_of_dep hw h2 (by simp [Dependencies])
  have hcm : Count ∈ PushDependencies [Skewness, Kurtosis] :=
    mem_of_dep hw h2 (by simp [Dependencies])
  have hsum : Tag.Sum ∈ PushDependencies [Skewness, Kurtosis] :=
    mem_of_dep hw hmean (by simp [Dependencies])
  obtain ⟨f1, -, f3⟩ := twoPass_fields
    (⟨Real.sqrt, fun x y => x ^ y, 2 ^ 1024, -2 ^ 1024⟩ : Env ℝ) 0 _ hw.1 hcm hsum [1, 2, 3]
  obtain ⟨m3, m4, -, -, gk, gs, -, -, e3, e4⟩ := C36_skewness_kurtosis
    (⟨Real.sqrt, fun x y => x ^ y, 2 ^ 1024, -2 ^ 1024⟩ : Env ℝ)
    (fun a b ha hb => Real.div_rpow ha.le hb.le _)
    (fun a ha => by
      show a ^ ((3 : ℝ) / 2) = a * Real.sqrt a
      rw [Real.sqrt_eq_rpow, show ((3 : ℝ) / 2) = 1 + 1 / 2 by norm_num, Real.rpow_add ha,
        Real.rpow_one])
    0 (PushDependencies [Skewness, Kurtosis]) hw hS hK [1, 2, 3] 3 (2 / 3)
    (by
      simp only [get, hcm, if_true, result, f1]
      norm_num)
    (by
      simp only [get, h2, if_true, result, f1, f3 2]
      norm_num [specCentralSum, specMean])
    (by norm_num) (by norm_num)
  rw [gk, gs, e3, e4]
  constructor
  · norm_num [specCentralSum, specMean]
  · norm_num [specCentralSum, specMean]

set_option maxRecDepth 100000 in
/-- C37, as stated, fails in `double` arithmetic. Chain of the request
`[ScatterMatrix]` over vectors of two components, samples `(0, 0)`, `(0, 0)`,
`(-3, -7)`: at the third sample `diff_` is `(3, 7)` and the weight is the
`double` nearest to `2 / 3`; `addWeightedOuterProduct` adds `w*3*7`, which is
14, to the entry `(0, 1)` and `w*7*3`, which is the `double` next below 14, to
the entry `(1, 0)`. Whatever `sqrt` and `pow` are; the two limits of
`NumericTraits<double>` are the largest `double` and its negative. -/
theorem C37_scatter_rounds :
    PushDependencies [ScatterMatrix] = [ScatterMatrix, Mean, Tag.Sum, Count] ∧
    (∀ (sqrt : Double → Double) (pow : Double → Double → Double),
      (ieee.vfeedAll [ScatterMatrix, Mean, Tag.Sum, Count]
          (ieee.vinit ⟨sqrt, pow, ⟨9007199254740991, 971⟩, ⟨-9007199254740991, 971⟩⟩
            (fun _ : Fin 2 => 0))
          [fun _ => 0, fun _ => 0, fun i => if i = 0 then -3 else -7]).scatter_matrix_ 0 1
        = 14 ∧
      (ieee.vfeedAll [ScatterMatrix, Mean, Tag.Sum, Count]
          (ieee.vinit ⟨sqrt, pow, ⟨9007199254740991, 971⟩, ⟨-9007199254740991, 971⟩⟩
            (fun _ : Fin 2 => 0))
          [fun _ => 0, fun _ => 0, fun i => if i = 0 then -3 else -7]).scatter_matrix_ 1 0
        = ⟨7881299347898367, -49⟩) ∧
    (14 : Double) ≠ ⟨7881299347898367, -49⟩ ∧
    (14 : Double).toRat = 14 ∧
    (⟨7881299347898367, -49⟩ : Double).toRat = 14 - 1 / 2 ^ 49 := by
  refine ⟨by simp [PushDependencies, MergeUnique, Dependencies], fun sqrt pow => ?_, by decide,
    ?_, ?_⟩
  · have c1 : (ieee.vfeedAll [ScatterMatrix, Mean, Tag.Sum, Count]
      (⟨0, fun _ => ⟨9007199254740991, 971⟩, fun _ => ⟨-9007199254740991, 971⟩, fun _ => 0,
        fun _ _ => 0, fun _ => 0, fun _ _ => 0, fun _ => 0, true⟩ : VState 2 Double)
      [fun _ => 0, fun _ => 0, fun i => if i = 0 then -3 else -7]).scatter_matrix_ 0 1 = 14 := by decide
    have c2 : (ieee.vfeedAll [ScatterMatrix, Mean, Tag.Sum, Count]
      (⟨0, fun _ => ⟨9007199254740991, 971⟩, fun _ => ⟨-9007199254740991, 971⟩, fun _ => 0,
        fun _ _ => 0, fun _ => 0, fun _ _ => 0, fun _ => 0, true⟩ : VState 2 Double)
      [fun _ => 0, fun _ => 0, fun i => if i = 0 then -3 else -7]).scatter_matrix_ 1 0 = ⟨7881299347898367, -49⟩ := by decide
    have hi : ieee.vinit ⟨sqrt, pow, ⟨9007199254740991, 971⟩, ⟨-9007199254740991, 971⟩⟩
        (fun _ : Fin 2 => 0)
        = (⟨0, fun _ => ⟨9007199254740991, 971⟩, fun _ => ⟨-9007199254740991, 971⟩, fun _ => 0,
            fun _ _ => 0, fun _ => 0, fun _ _ => 0, fun _ => 0, true⟩ : VState 2 Double) := rfl
    rw [hi]
    exact ⟨c1, c2⟩
  · have h : (14 : Double) = ⟨7881299347898368, -49⟩ := by decide
    rw [h]
    norm_num [Double.toRat]
  · norm_num [Double.toRat]

/-- C37 (amended): in exact arithmetic, `double` taken as an ordered field, in
every state of a static chain over vector samples that is reached
from the chain as constructed, or as reshaped for its first sample, by
unweighted and weighted updates, merges and resets, the matrix
`scatter_matrix_` is symmetric. -/
theorem C37_scatter_symmetric {d : Nat} (e : Env K) (chain : List Tag) (s : VState d K)
    (hreach : VReachable e chain s) (i j : Fin d) :
    s.scatter_matrix_ i j = s.scatter_matrix_ j i := by
  revert i j
  induction hreach with
  | fresh diff0 => exact fun _ _ => rfl
  | reshaped diff0 => exact vreshape_symmetric chain _ fun _ _ => rfl
  | @update s t _ ih =>
    unfold vupdateTop
    split_ifs
    · exact vupdate_symmetric chain _ t (vreshape_symmetric chain s ih)
    · exact vupdate_symmetric chain _ t ih
    · exact vupdate_symmetric chain _ t ih
  | @updateWeighted s t w _ ih =>
    unfold vupdateWeightedTop
    split_ifs
    · exact vupdateWeighted_symmetric chain _ t w (vreshape_symmetric chain s ih)
    · exact vupdateWeighted_symmetric chain _ t w ih
    · exact vupdateWeighted_symmetric chain _ t w ih
  | merge _ _ hm ihl ihr => exact vmerge_symmetric chain _ _ _ hm ihl ihr
  | reset _ ih => exact vreset_symmetric e chain _ ih

/-- C37 (amended) at a concrete input: the chain of the request `[Covariance]` over
vectors of two components, after the samples `(1, 2)` and `(3, 5)` and a
weighted sample `(0, 1)` of weight 2. -/
theorem C37_scatter_symmetric_witness :
    (vupdateWeightedTop (PushDependencies [Covariance])
      (vupdateTop (PushDependencies [Covariance])
        (vupdateTop (PushDependencies [Covariance])
          (vinit (⟨Real.sqrt, fun x y => x ^ y, 2 ^ 1024, -2 ^ 1024⟩ : Env ℝ)
            (fun _ : Fin 2 => 0))
          (fun i => if i = 0 then 1 else 2))
        (fun i => if i = 0 then 3 else 5))
      (fun i => if i = 0 then 0 else 1) 2).state.scatter_matrix_ 0 1
    = (vupdateWeightedTop (PushDependencies [Covariance])
      (vupdateTop (PushDependencies [Covariance])
        (vupdateTop (PushDependencies [Covariance])
          (vinit (⟨Real.sqrt, fun x y => x ^ y, 2 ^ 1024, -2 ^ 1024⟩ : Env ℝ)
            (fun _ : Fin 2 => 0))
          (fun i => if i = 0 then 1 else 2))
        (fun i => if i = 0 then 3 else 5))
      (fun i => if i = 0 then 0 else 1) 2).state.scatter_matrix_ 1 0 :=
  C37_scatter_symmetric (⟨Real.sqrt, fun x y => x ^ y, 2 ^ 1024, -2 ^ 1024⟩ : Env ℝ)
    (PushDependencies [Covariance]) _
    (VReachable.updateWeighted _ 2 (VReachable.update _ (VReachable.update _
      (VReachable.fresh _)))) 0 1


/-- C38: for every graph whose arcs lead to nodes, all input features, edge
indicators and parameters, every iteration count `k` and all contents of the
two output maps, `recursiveGraphSmoothing` leaves in `nodeFeaturesOut`, at every
node, the result of applying `graphSmoothing` `max(1, k)` times in succession
starting from `nodeFeaturesIn`, whatever `scratch` the maps written by those
applications held before. The three maps are distinct: they are separate
values. -/
theorem C38_recursive_smoothing (exp : K → K) (g : Graph)
    (harcs : ∀ u ∈ g.nodes, ∀ a ∈ g.outArcs u, a.2 ∈ g.nodes)
    (nodeFeaturesIn edgeIndicator : Nat → K) (lambda edgeThreshold scale : K) (k : Nat)
    (nodeFeaturesBuffer nodeFeaturesOut scratch : Nat → K) (v : Nat) (hv : v ∈ g.nodes) :
    (recursiveGraphSmoothing exp g nodeFeaturesIn edgeIndicator lambda edgeThreshold scale k
      nodeFeaturesBuffer nodeFeaturesOut).2 v
    = smoothedTimes exp g edgeIndicator lambda edgeThreshold scale scratch (max 1 k)
        nodeFeaturesIn v := by
  have h1 : ∀ u ∈ g.nodes,
      (if true then graphSmoothing exp g nodeFeaturesIn edgeIndicator lambda edgeThreshold scale
          nodeFeaturesOut else nodeFeaturesBuffer) u
      = smoothedTimes exp g edgeIndicator lambda edgeThreshold scale scratch 1
          nodeFeaturesIn u := by
    intro u hu
    simp only [if_true, smoothedTimes]
    exact graphSmoothing_congr exp g harcs _ _ edgeIndicator lambda edgeThreshold scale _ _
      (fun _ _ => rfl) u hu
  have h2 := smoothingLoop_spec exp g harcs nodeFeaturesIn edgeIndicator lambda edgeThreshold
    scale scratch (max 1 k - 1) true nodeFeaturesBuffer _ 1 h1 v hv
  have hk : 1 + (max 1 k - 1) = max 1 k := by omega
  rw [hk] at h2
  unfold recursiveGraphSmoothing
  simp only
  generalize smoothingLoop exp g edgeIndicator lambda edgeThreshold scale (max 1 k - 1) true
    nodeFeaturesBuffer (graphSmoothing exp g nodeFeaturesIn edgeIndicator lambda edgeThreshold
      scale nodeFeaturesOut) = r at h2 ⊢
  obtain ⟨b, buf, out⟩ := r
  cases b with
  | true => simpa using h2
  | false =>
    simp only [Bool.false_eq_true, if_false] at h2
    simp only [Bool.not_false, if_true, copyNodeMap_apply, if_pos hv]
    exact h2

/-- C38 on the graph with the nodes 0 and 1 joined by one edge, with the
features 2 and 4 and three iterations: the value left at node 0. -/
theorem C38_recursive_smoothing_witness :
    (recursiveGraphSmoothing Real.exp
      (⟨[0, 1], fun u => if u = 0 then [(0, 1)] else if u = 1 then [(0, 0)] else []⟩ : Graph)
      (fun v => if v = 0 then 2 else 4) (fun _ => 0) 1 10 (1 / 2) 3
      (fun _ => 7) (fun _ => 9)).2 0
    = smoothedTimes Real.exp
      (⟨[0, 1], fun u => if u = 0 then [(0, 1)] else if u = 1 then [(0, 0)] else []⟩ : Graph)
      (fun _ => 0) 1 10 (1 / 2) (fun _ => 5) (max 1 3)
      (fun v => if v = 0 then 2 else 4) 0 :=
  C38_recursive_smoothing Real.exp
    (⟨[0, 1], fun u => if u = 0 then [(0, 1)] else if u = 1 then [(0, 0)] else []⟩ : Graph)
    (by decide) (fun v => if v = 0 then 2 else 4) (fun _ => 0) 1 10 (1 / 2) 3
    (fun _ => 7) (fun _ => 9) (fun _ => 5) 0 (by decide)

/-- C39 fails on the code: `findAnchorPoint` tests the pixel `input_image(y, x)`
but the neighbours of `(x, y)`, and returns `(x, y)`. On the 4 × 4 image whose
only pixel that is not zero is `(1, 2)` it returns `true` with the anchor point
`(2, 1)`, a pixel that is zero, while `(1, 2)` is the interior pixel that is not
zero and has a zero 4-neighbour; and on the all-zero 5 × 3 image it reads
`input_image(1, 3)`, outside the image. -/
theorem C39_anchor_point_transposed :
    findAnchorPoint ⟨4, 4, fun i j => if i = 1 ∧ j = 2 then 1 else 0⟩ = AnchorResult.found 2 1 ∧
    ¬ IsBorderPixel ⟨4, 4, fun i j => if i = 1 ∧ j = 2 then 1 else 0⟩ 2 1 ∧
    IsBorderPixel ⟨4, 4, fun i j => if i = 1 ∧ j = 2 then 1 else 0⟩ 1 2 ∧
    findAnchorPoint ⟨5, 3, fun _ _ => 0⟩ = AnchorResult.outside 1 3 := by
  decide

/-- C40: for every label image and every anchor point inside it such that the
position one step in direction `(-1, 0)` from it is not a foreground pixel
(outside the image, or of another label), as it is for the first pixel of an
object in scan order: whenever the body of the loop of `extractContour2` starts
or ends, the current position is not a foreground pixel and the pixel on its
wall side is a foreground pixel inside the image; each iteration appends one
point, and every point appended is the midpoint between a foreground pixel and
a 4-adjacent position that is not a foreground pixel; so are the points of a
call that returns. For an object of one pixel, none of the eight positions
around it being foreground, the loop ends after four iterations and appends
exactly the four wall sections of the pixel. -/
theorem C40_contour_invariant (img : Image) (anchor_point : Int × Int)
    (contour_points : List (K × K)) (hin : img.isInside anchor_point = true)
    (hleft : ¬ img.isForeground (img.label anchor_point) (anchor_point + contourStep 0)) :
    (∀ n,
      ¬ img.isForeground (img.label anchor_point)
        (contourAfter img anchor_point contour_points n).position ∧
      img.isForeground (img.label anchor_point)
        (wallSide (contourAfter img anchor_point contour_points n).position
          (contourAfter img anchor_point contour_points n).direction)) ∧
    (∀ n, ∃ added : List (K × K),
      (contourAfter img anchor_point contour_points n).contour_points = contour_points ++ added ∧
      added.length = n ∧ ∀ p ∈ added, IsWallSection img (img.label anchor_point) p) ∧
    (∀ fuel pts, extractContour2 img anchor_point contour_points fuel = Contour.returned pts →
      ∃ added : List (K × K), pts = contour_points ++ added ∧ added ≠ [] ∧
        ∀ p ∈ added, IsWallSection img (img.label anchor_point) p) ∧
    ((∀ q ∈ aroundOffsets, ¬ img.isForeground (img.label anchor_point) (anchor_point + q)) →
      ∀ fuel, 4 ≤ fuel →
        extractContour2 img anchor_point contour_points fuel
          = Contour.returned (contour_points ++
              [((anchor_point.1 : K) - 1 / 2, (anchor_point.2 : K)),
                ((anchor_point.1 : K), (anchor_point.2 : K) + 1 / 2),
                ((anchor_point.1 : K) + 1 / 2, (anchor_point.2 : K)),
                ((anchor_point.1 : K), (anchor_point.2 : K) - 1 / 2)])) := by
  refine ⟨fun n => ?_, fun n => (contourAfter_inv img anchor_point contour_points hin hleft n).2,
    fun fuel pts h => ?_, fun haround fuel hfuel => ?_⟩
  · obtain ⟨⟨-, h1, h2⟩, -⟩ := contourAfter_inv img anchor_point contour_points hin hleft n
    exact ⟨h1, h2⟩
  · unfold extractContour2 at h
    rw [if_pos hin] at h
    simp only at h
    cases hl : contourLoop img (img.label anchor_point) (anchor_point + contourStep 0) 3 fuel
        ({ position := anchor_point + contourStep 0, direction := 3,
           contour_points := contour_points } : ContourState K) with
    | none =>
      rw [hl] at h
      cases h
    | some st =>
      rw [hl] at h
      simp only [Contour.returned.injEq] at h
      obtain ⟨n, hn, e⟩ := contourLoop_after img anchor_point contour_points _ _ fuel 0 st hl
      obtain ⟨-, added, a1, a2, a3⟩ :=
        contourAfter_inv img anchor_point contour_points hin hleft n
      refine ⟨added, ?_, ?_, a3⟩
      · rw [← h, e, a1]
      · intro hc
        rw [hc] at a2
        simp only [List.length_nil] at a2
        omega
  · obtain ⟨x, y⟩ := anchor_point
    exact contour_single_pixel img x y contour_points hin haround fuel hfuel

/-- C40 on the 3 × 3 image whose only foreground pixel is `(1, 1)`: the call
returns the four wall sections of that pixel. -/
theorem C40_contour_invariant_witness :
    extractContour2 ⟨3, 3, fun i j => if i = 1 ∧ j = 1 then 1 else 0⟩ (1, 1)
      ([] : List (ℝ × ℝ)) 4
    = Contour.returned [(1 / 2, 1), (1, 3 / 2), (3 / 2, 1), (1, 1 / 2)] := by
  have h := (C40_contour_invariant ⟨3, 3, fun i j => if i = 1 ∧ j = 1 then 1 else 0⟩ (1, 1)
    ([] : List (ℝ × ℝ)) (by decide) (by decide)).2.2.2 (by decide) 4 (le_refl 4)
  rw [h]
  norm_num

end claims

end acc1
